import Mathlib

/-!
# CARL MarkerEngine: a shallow embedding of `engine.js`

The detection, promotion, annotation and scoring pipeline of `src/engine.js`
is translated function by function.  JavaScript strings are modelled by
`String` (one `Char` per UTF-16 code unit), array indices and character offsets
by `Nat`, and JavaScript numbers by `JsNum` (rationals extended with the
non-finite values; rounding and negative zero are not modelled).
-/

namespace Carl

/-! ## Data model -/

/-- A segment `{who, text}`. -/
structure Segment where
  who : String
  text : String
  deriving DecidableEq, Repr

/-- A span `{start, end}` of character offsets into the global text. -/
structure Span where
  start : Nat
  stop : Nat
  deriving DecidableEq, Repr

/-- A detected event, as pushed by `detect_all`. -/
structure Event where
  id : String
  type : String
  span : Span
  segment_idx : Nat
  who : String
  evidence : String
  deriving DecidableEq, Repr

/-- An output marker, as pushed by `arrangeMarkersForOutput`. -/
structure Marker where
  id : String
  type : String
  span : Span
  segment_idx : Nat
  who : String
  promotion_of : List String
  evidence : String
  deriving DecidableEq, Repr

/-! ## Gate -/

/-- The array literal `["ATO", "SEM", "CLU", "MEMA"]` of `gateOutput`. -/
def relevantTypes : List String := ["ATO", "SEM", "CLU", "MEMA"]

/-- Source `gateOutput(markersAll, segments)`; `segments` may be `undefined`
(`segments?.length || 0`). -/
def gateOutput (markersAll : List Marker) (segments : Option (List Segment)) : Bool :=
  let enoughMarkers :=
    decide ((markersAll.filter (fun m => relevantTypes.contains m.type)).length ≥ 5)
  let enoughSegs :=
    decide ((match segments with
      | some segs => segs.length
      | none => 0) ≥ 2)
  !(enoughMarkers && enoughSegs)

/-! ## Catalog -/

/-- An entry of `canon.markers`; `regex`, `flags` and `tags` may be absent. -/
structure MarkerDef where
  id : String
  type : String
  regex : Option String
  flags : Option String
  tags : Option (List String)
  deriving DecidableEq, Repr

/-- A record with one field per scored marker type, `{ATO, SEM, CLU, MEMA}`. -/
structure Quad (α : Type) where
  ATO : α
  SEM : α
  CLU : α
  MEMA : α
  deriving DecidableEq, Repr

/-- The object `canon.globals`. -/
structure Globals where
  regex_flags : Option String
  text_caps : Option (Quad (Option ℚ))
  deriving DecidableEq

/-- The object `rule.when.segment_co_occurs`. -/
structure CoOccurs where
  ids : Option (List String)
  min : Option Int
  deriving DecidableEq, Repr

/-- The object `rule.when`. -/
structure When where
  segment_co_occurs : Option CoOccurs
  deriving DecidableEq, Repr

/-- The object `rule.produce`. -/
structure Produce where
  id : String
  type : String
  link_from : List String
  deriving DecidableEq, Repr

/-- A promotion rule `{target, when, produce}`; `target` is never read. -/
structure PromotionRule where
  when : Option When
  produce : Produce
  deriving DecidableEq, Repr

/-- A pair `{type, id}` of an annotation rule's `annotate` list. -/
structure AnnotateItem where
  type : String
  id : String
  deriving DecidableEq, Repr

/-- An entry of `canon.annotation_rules`. -/
structure AnnotationRule where
  target_type : String
  when_tags_any_of : Option (List String)
  annotate : Option (List AnnotateItem)
  deriving DecidableEq, Repr

/-- The catalog (`canon`). -/
structure Canon where
  markers : List MarkerDef
  promotion_rules : Option (List PromotionRule)
  annotation_rules : Option (List AnnotationRule)
  globals : Option Globals

/-- Failures of the embedded code: an exception thrown by the JavaScript code,
or a `while` loop that is still running when the step budget is used up. -/
inductive Failure where
  | syntaxError (pattern : String)
  | typeError
  | outOfFuel
  deriving DecidableEq, Repr

deriving instance DecidableEq for Except

/-- The JavaScript expression `a || b` for an optional string `a`: absent and
empty strings are falsy. -/
def strOr (a : Option String) (b : String) : String :=
  match a with
  | some s => if s = "" then b else s
  | none => b

/-! ## Detection -/

/-- The built-in `RegExp` object, a parameter of the model.  `compile pattern flags`
is `new RegExp(pattern, flags)` (`none` when it throws a `SyntaxError`);
`exec re str lastIndex` is one call `re.exec(str)` of a global regular expression
whose `lastIndex` property has the given value: `none` for `null`, otherwise
`(m.index, m[0])`.  After a successful call `lastIndex` is `m.index + m[0].length`. -/
structure RegexEngine where
  Regex : Type
  compile : String → String → Option Regex
  exec : Regex → String → Nat → Option (Nat × String)

/-- The method `Array.prototype.join` on strings. -/
def joinWith (sep : String) : List String → String
  | [] => ""
  | [s] => s
  | s :: t :: rest => s ++ sep ++ joinWith sep (t :: rest)

/-- The result `{text, indexOffsets, sep}` of `buildGlobalText`. -/
structure GlobalText where
  text : String
  indexOffsets : List Nat
  sep : String

/-- The `for (const s of segments)` loop of `buildGlobalText`, with its variables
`off` and `indexOffsets`. -/
def buildOffsets (sep : String) : List Segment → Nat → List Nat → List Nat
  | [], _, indexOffsets => indexOffsets
  | s :: rest, off, indexOffsets =>
    buildOffsets sep rest (off + (s.text.length + sep.length)) (indexOffsets ++ [off])

/-- Source `buildGlobalText(segments)`. -/
def buildGlobalText (segments : List Segment) : GlobalText :=
  let sep := "\n"
  let text := joinWith sep (segments.map (fun s => s.text))
  { text := text, indexOffsets := buildOffsets sep segments 0 [], sep := sep }

/-- The `while ((m = reAll.exec(str)) !== null)` loop of `detect_all`: `global` is
`reAll.global`, `lastIndex` the regular expression's `lastIndex`, `out` the
events pushed so far; `fuel` bounds the number of iterations. -/
def execLoop (E : RegexEngine) (reAll : E.Regex) (global : Bool) (mk : MarkerDef)
    (seg : Segment) (segIdx base : Nat) : Nat → Nat → List Event → Except Failure (List Event)
  | 0, _, _ => .error .outOfFuel
  | fuel + 1, lastIndex, out =>
    match E.exec reAll seg.text lastIndex with
    | none => .ok out
    | some (index, m0) =>
      let start := base + index
      let stop := start + m0.length
      let out := out ++ [{ id := mk.id, type := mk.type, span := ⟨start, stop⟩,
                           segment_idx := segIdx, who := seg.who, evidence := m0 }]
      if !global then .ok out
      else execLoop E reAll global mk seg segIdx base fuel (index + m0.length) out

/-- The flags passed to `new RegExp`: `mk.flags || canon.globals?.regex_flags || "iu"`
with `g` appended when missing. -/
def regexFlags (canon : Canon) (mk : MarkerDef) : String :=
  let baseFlags := strOr mk.flags (strOr (canon.globals.bind (fun g => g.regex_flags)) "iu")
  if baseFlags.data.contains 'g' then baseFlags else baseFlags ++ "g"

/-- The `for (const mk of canon.markers)` loop of `detect_all` for one segment. -/
def scanMarkers (E : RegexEngine) (canon : Canon) (seg : Segment) (segIdx base fuel : Nat) :
    List MarkerDef → List Event → Except Failure (List Event)
  | [], out => .ok out
  | mk :: rest, out =>
    if mk.type = "DETECT" ∨ mk.type = "ATO" ∨ mk.type = "SEM" then
      if strOr mk.regex "" ≠ "" then
        let flags := regexFlags canon mk
        match E.compile (strOr mk.regex "") flags with
        | none => .error (.syntaxError (strOr mk.regex ""))
        | some reAll =>
          match execLoop E reAll (flags.data.contains 'g') mk seg segIdx base fuel 0 out with
          | .error e => .error e
          | .ok out => scanMarkers E canon seg segIdx base fuel rest out
      else scanMarkers E canon seg segIdx base fuel rest out
    else scanMarkers E canon seg segIdx base fuel rest out

/-- The `for (const seg of segments)` loop of `detect_all`, with its counter `segIdx`. -/
def scanSegments (E : RegexEngine) (canon : Canon) (indexOffsets : List Nat) (fuel : Nat) :
    List Segment → Nat → List Event → Except Failure (List Event)
  | [], _, out => .ok out
  | seg :: rest, segIdx, out =>
    let base := indexOffsets.getD segIdx 0
    match scanMarkers E canon seg segIdx base fuel canon.markers out with
    | .error e => .error e
    | .ok out => scanSegments E canon indexOffsets fuel rest (segIdx + 1) out

/-- The comparator `a.span.start - b.span.start || a.span.end - b.span.end`. -/
def spanCompare (a b : Event) : Int :=
  if (a.span.start : Int) - (b.span.start : Int) ≠ 0 then
    (a.span.start : Int) - (b.span.start : Int)
  else (a.span.stop : Int) - (b.span.stop : Int)

/-- The method `Array.prototype.sort(cmp)`: the sort is stable, so for a consistent
comparator its result is the one of a stable insertion sort. -/
def arraySort {α : Type} (cmp : α → α → Int) (xs : List α) : List α :=
  xs.insertionSort (fun a b => cmp a b ≤ 0)

/-- The events pushed to `out` by `detect_all` before the final sort. -/
def detectScan (E : RegexEngine) (fuel : Nat) (segments : List Segment) (canon : Canon) :
    Except Failure (List Event) :=
  scanSegments E canon (buildGlobalText segments).indexOffsets fuel segments 0 []

/-- Source `detect_all(segments, canon)`; every `while` loop may take `fuel` steps. -/
def detect_all (E : RegexEngine) (fuel : Nat) (segments : List Segment) (canon : Canon) :
    Except Failure (List Event) :=
  match detectScan E fuel segments canon with
  | .error e => .error e
  | .ok out => .ok (arraySort spanCompare out)

/-! ## Promotion -/

/-- A promotion record `{sem_id, from_atos, segment_idx, who}`. -/
structure Promotion where
  sem_id : String
  from_atos : List String
  segment_idx : Nat
  who : String
  deriving DecidableEq, Repr

/-- The object `r.when.segment_co_occurs` of a promotion-mapping entry. -/
structure MapCoOccurs where
  min_ATO : Option Int
  deriving DecidableEq, Repr

/-- The object `r.when` of a promotion-mapping entry. -/
structure MapWhen where
  segment_co_occurs : Option MapCoOccurs
  deriving DecidableEq, Repr

/-- An entry `{promote, from_ATO_ids, when}` of `promoMap.map`; `from_ATO_ids` is
`none` when it is not an array. -/
structure MapEntry where
  promote : Option String
  from_ATO_ids : Option (List String)
  when : Option MapWhen
  deriving DecidableEq, Repr

/-- The promotion mapping `promoMap`. -/
structure PromoMap where
  map : Option (List MapEntry)
  deriving DecidableEq, Repr

/-- The JavaScript expression `a || b` for an optional number `a`: absent and 0
are falsy. -/
def intOr (a : Option Int) (b : Int) : Int :=
  match a with
  | some n => if n = 0 then b else n
  | none => b

/-- A JavaScript `Map` with keys in insertion order. -/
abbrev JsMap (κ β : Type) := List (κ × β)

/-- The method `Map.prototype.has`. -/
def JsMap.has {κ β : Type} [DecidableEq κ] (m : JsMap κ β) (k : κ) : Bool :=
  m.any (fun kv => kv.1 = k)

/-- The method `Map.prototype.set`: a present key keeps its position. -/
def JsMap.set {κ β : Type} [DecidableEq κ] : JsMap κ β → κ → β → JsMap κ β
  | [], k, v => [(k, v)]
  | (k', v') :: rest, k, v =>
    if k' = k then (k', v) :: rest else (k', v') :: JsMap.set rest k v

/-- An in-place update of the value stored under `k` (`m.get(k).push(x)`,
`m.get(k).add(x)`). -/
def JsMap.update {κ β : Type} [DecidableEq κ] (m : JsMap κ β) (k : κ) (f : β → β) : JsMap κ β :=
  m.map (fun kv => if kv.1 = k then (kv.1, f kv.2) else kv)

/-- The body of `detected.forEach` in `applyPromotion`. -/
def groupStep (bySeg : JsMap Nat (List Event)) (ev : Event) : JsMap Nat (List Event) :=
  let bySeg := if !bySeg.has ev.segment_idx then bySeg.set ev.segment_idx [] else bySeg
  bySeg.update ev.segment_idx (fun evs => evs ++ [ev])

/-- The map `bySeg` of `applyPromotion`. -/
def groupBySegment (detected : List Event) : JsMap Nat (List Event) :=
  detected.foldl groupStep []

/-- The rule pushed for one promotion-mapping entry, if any. -/
def mapEntryRule (r : MapEntry) : Option PromotionRule :=
  if strOr r.promote "" ≠ "" then
    match r.from_ATO_ids with
    | some from_ATO_ids =>
      let min := intOr ((r.when.bind (fun w => w.segment_co_occurs)).bind
        (fun c => c.min_ATO)) 2
      let co : CoOccurs := { ids := some from_ATO_ids, min := some min }
      let w : When := { segment_co_occurs := some co }
      some { when := some w,
             produce := { id := strOr r.promote "", type := "SEM", link_from := from_ATO_ids } }
    | none => none
  else none

/-- The array `rules` of `applyPromotion`: the catalog's `promotion_rules` followed
by the rules pushed for the promotion-mapping entries. -/
def effectiveRules (canon : Canon) (promoMap : Option PromoMap) : List PromotionRule :=
  let rules := canon.promotion_rules.getD []
  match promoMap.bind (fun pm => pm.map) with
  | some map => if map.length ≠ 0 then rules ++ map.filterMap mapEntryRule else rules
  | none => rules

/-- The expression `rule.when?.segment_co_occurs?.ids || []`. -/
def ruleIds (rule : PromotionRule) : List String :=
  ((rule.when.bind (fun w => w.segment_co_occurs)).bind (fun c => c.ids)).getD []

/-- The expression `rule.when?.segment_co_occurs?.min || 2`. -/
def ruleMin (rule : PromotionRule) : Int :=
  intOr ((rule.when.bind (fun w => w.segment_co_occurs)).bind (fun c => c.min)) 2

/-- The `for (const rule of rules)` loop of `applyPromotion` for one entry of
`bySeg`; `have[0]` is `undefined` for an empty `have`, and `baseEv.who` then throws. -/
def applyRules (segIdx : Nat) (events : List Event) :
    List PromotionRule → List Promotion → Except Failure (List Promotion)
  | [], promotions => .ok promotions
  | rule :: rest, promotions =>
    let ids := ruleIds rule
    let min := ruleMin rule
    let have_ := events.filter (fun e => ids.contains e.id)
    if (have_.length : Int) ≥ min then
      match have_.head? with
      | none => .error .typeError
      | some baseEv =>
        applyRules segIdx events rest
          (promotions ++ [{ sem_id := rule.produce.id, from_atos := have_.map (fun h => h.id),
                            segment_idx := segIdx, who := baseEv.who }])
    else applyRules segIdx events rest promotions

/-- The `for (const [segIdx, events] of bySeg.entries())` loop of `applyPromotion`. -/
def applyEntries (rules : List PromotionRule) :
    JsMap Nat (List Event) → List Promotion → Except Failure (List Promotion)
  | [], promotions => .ok promotions
  | (segIdx, events) :: rest, promotions =>
    match applyRules segIdx events rules promotions with
    | .error e => .error e
    | .ok promotions => applyEntries rules rest promotions

/-- Source `applyPromotion(segments, detected, canon, promoMap)`. -/
def applyPromotion (_segments : List Segment) (detected : List Event) (canon : Canon)
    (promoMap : Option PromoMap) : Except Failure (List Promotion) :=
  applyEntries (effectiveRules canon promoMap) (groupBySegment detected) []

/-! ## Annotation and output markers -/

/-- An annotation record `{type, id, segment_idx, who}`. -/
structure AnnotationRecord where
  type : String
  id : String
  segment_idx : Nat
  who : String
  deriving DecidableEq, Repr

/-- The method `Set.prototype.add` on a set kept in insertion order. -/
def setAdd (s : List String) (x : String) : List String :=
  if s.contains x then s else s ++ [x]

/-- The body of `promotions.forEach` in `annotateClustersAndMemory`. -/
def semStep (semInSeg : JsMap Nat (List String)) (p : Promotion) : JsMap Nat (List String) :=
  let k := p.segment_idx
  let semInSeg := if !semInSeg.has k then semInSeg.set k [] else semInSeg
  semInSeg.update k (fun set => setAdd set p.sem_id)

/-- The body of `for (const semId of semSet)` in `annotateClustersAndMemory`. -/
def annotateSem (canon : Canon) (segIdx : Nat) (r : AnnotationRule)
    (ann : List AnnotationRecord) (semId : String) : List AnnotationRecord :=
  let semDef := canon.markers.find? (fun m => m.id = semId)
  let tags := (semDef.bind (fun d => d.tags)).getD []
  let any := (r.when_tags_any_of.getD []).any (fun t => tags.contains t)
  if any then
    (r.annotate.getD []).foldl
      (fun ann add => ann ++ [{ type := add.type, id := add.id, segment_idx := segIdx,
                                who := "other" }]) ann
  else ann

/-- Source `annotateClustersAndMemory(detected, promotions, canon)`. -/
def annotateClustersAndMemory (_detected : List Event) (promotions : List Promotion)
    (canon : Canon) : List AnnotationRecord :=
  let semInSeg := promotions.foldl semStep []
  let rules := canon.annotation_rules.getD []
  semInSeg.foldl (fun ann entry =>
    rules.foldl (fun ann r =>
      if r.target_type = "SEM" then entry.2.foldl (annotateSem canon entry.1 r) ann
      else ann) ann) []

/-- Source `arrangeMarkersForOutput(detected, promotions, annotations)`. -/
def arrangeMarkersForOutput (detected : List Event) (promotions : List Promotion)
    (annotations : List AnnotationRecord) : List Marker :=
  let outputMarkers : List Marker := []
  let outputMarkers := detected.foldl (fun acc d =>
    acc ++ [{ id := d.id, type := d.type, span := d.span, segment_idx := d.segment_idx,
              who := d.who, promotion_of := [], evidence := d.evidence }]) outputMarkers
  let outputMarkers := promotions.foldl (fun acc p =>
    acc ++ [{ id := p.sem_id, type := "SEM", span := ⟨0, 0⟩, segment_idx := p.segment_idx,
              who := p.who, promotion_of := p.from_atos, evidence := "" }]) outputMarkers
  annotations.foldl (fun acc a =>
    acc ++ [{ id := a.id, type := a.type, span := ⟨0, 0⟩, segment_idx := a.segment_idx,
              who := a.who, promotion_of := [], evidence := "" }]) outputMarkers

/-! ## JavaScript numbers -/

/-- A JavaScript number: a finite value, `Infinity`, `-Infinity` or `NaN`.
Finite values are exact rationals. -/
inductive JsNum where
  | fin (q : ℚ)
  | posInf
  | negInf
  | nan
  deriving DecidableEq

namespace JsNum

/-- Unary minus. -/
def neg : JsNum → JsNum
  | fin a => fin (-a)
  | posInf => negInf
  | negInf => posInf
  | nan => nan

/-- The operator `+` on numbers. -/
def add : JsNum → JsNum → JsNum
  | fin a, fin b => fin (a + b)
  | nan, _ => nan
  | _, nan => nan
  | posInf, negInf => nan
  | negInf, posInf => nan
  | posInf, _ => posInf
  | _, posInf => posInf
  | negInf, _ => negInf
  | _, negInf => negInf

/-- The operator `-` on numbers. -/
def sub (a b : JsNum) : JsNum := add a (neg b)

/-- The product of an infinity (`positive` tells which) and a finite value. -/
def infTimes (positive : Bool) (a : ℚ) : JsNum :=
  if a = 0 then nan else if (0 < a) = positive then posInf else negInf

/-- The operator `*` on numbers. -/
def mul : JsNum → JsNum → JsNum
  | fin a, fin b => fin (a * b)
  | nan, _ => nan
  | _, nan => nan
  | fin a, posInf => infTimes true a
  | fin a, negInf => infTimes false a
  | posInf, fin b => infTimes true b
  | negInf, fin b => infTimes false b
  | posInf, posInf => posInf
  | negInf, negInf => posInf
  | posInf, negInf => negInf
  | negInf, posInf => negInf

/-- The operator `/` on numbers. -/
def div : JsNum → JsNum → JsNum
  | fin a, fin b =>
    if b = 0 then (if 0 < a then posInf else if a < 0 then negInf else nan) else fin (a / b)
  | nan, _ => nan
  | _, nan => nan
  | fin _, posInf => fin 0
  | fin _, negInf => fin 0
  | posInf, fin b => if 0 ≤ b then posInf else negInf
  | negInf, fin b => if 0 ≤ b then negInf else posInf
  | posInf, posInf => nan
  | posInf, negInf => nan
  | negInf, posInf => nan
  | negInf, negInf => nan

/-- The function `Math.max` of two numbers. -/
def max : JsNum → JsNum → JsNum
  | nan, _ => nan
  | _, nan => nan
  | posInf, _ => posInf
  | _, posInf => posInf
  | negInf, b => b
  | a, negInf => a
  | fin a, fin b => fin (Max.max a b)

/-- The function `Math.min` of two numbers. -/
def min : JsNum → JsNum → JsNum
  | nan, _ => nan
  | _, nan => nan
  | negInf, _ => negInf
  | _, negInf => negInf
  | posInf, b => b
  | a, posInf => a
  | fin a, fin b => fin (Min.min a b)

/-- The function `Math.abs`. -/
def abs : JsNum → JsNum
  | fin a => fin |a|
  | posInf => posInf
  | negInf => posInf
  | nan => nan

/-- The function `Math.sign`. -/
def sign : JsNum → JsNum
  | fin a => fin (SignType.sign a : ℤ)
  | posInf => fin 1
  | negInf => fin (-1)
  | nan => nan

instance : Add JsNum := ⟨add⟩
instance : Sub JsNum := ⟨sub⟩
instance : Mul JsNum := ⟨mul⟩
instance : Div JsNum := ⟨div⟩
instance : Neg JsNum := ⟨neg⟩

end JsNum

/-- The built-in `Math.exp`, a parameter of the model. -/
structure JsMath where
  exp : JsNum → JsNum

/-- The constant `Math.SQRT2` (the double nearest to the square root of 2). -/
def SQRT2 : ℚ := 6369051672525773 / 4503599627370496

/-- The JavaScript expression `a || b` for an optional number `a`: absent and 0
are falsy. -/
def numOr (a : Option ℚ) (b : ℚ) : ℚ :=
  match a with
  | some q => if q = 0 then b else q
  | none => b

/-! ## Counts, density, features -/

/-- A plain object used as a bag of counters, keys in insertion order. -/
abbrev Bag := List (String × Nat)

/-- The statement `bag[t] = (bag[t] || 0) + 1`. -/
def bagIncr : Bag → String → Bag
  | [], t => [(t, 1)]
  | (k, n) :: rest, t => if k = t then (k, n + 1) :: rest else (k, n) :: bagIncr rest t

/-- The object `by_speaker` of `computeCounts`. -/
structure BySpeaker where
  A : Bag
  B : Bag
  deriving DecidableEq, Repr

/-- The result `{total, by_speaker, by_segment}` of `computeCounts`. -/
structure Counts where
  total : Quad Nat
  by_speaker : BySpeaker
  by_segment : List Bag
  deriving DecidableEq, Repr

/-- The statement `if (total[m.type] != null) total[m.type]++` (a type named like
a property of `Object.prototype` is not modelled). -/
def totalIncr (total : Quad Nat) (t : String) : Quad Nat :=
  if t = "ATO" then { total with ATO := total.ATO + 1 }
  else if t = "SEM" then { total with SEM := total.SEM + 1 }
  else if t = "CLU" then { total with CLU := total.CLU + 1 }
  else if t = "MEMA" then { total with MEMA := total.MEMA + 1 }
  else total

/-- The body of `for (const m of markersAll)` in `computeCounts`; `bySegment[i]` is
`undefined` for an index outside the array, and `bag[m.type]` then throws. -/
def countStep (c : Counts) (m : Marker) : Except Failure Counts :=
  let total := totalIncr c.total m.type
  let bySpeaker : BySpeaker :=
    if m.who = "A" then { c.by_speaker with A := bagIncr c.by_speaker.A m.type }
    else if m.who = "B" then { c.by_speaker with B := bagIncr c.by_speaker.B m.type }
    else c.by_speaker
  match c.by_segment.get? m.segment_idx with
  | none => .error .typeError
  | some bag =>
    .ok { total := total, by_speaker := bySpeaker,
          by_segment := c.by_segment.set m.segment_idx (bagIncr bag m.type) }

/-- The `for (const m of markersAll)` loop of `computeCounts`. -/
def countLoop : List Marker → Counts → Except Failure Counts
  | [], c => .ok c
  | m :: rest, c =>
    match countStep c m with
    | .error e => .error e
    | .ok c => countLoop rest c

/-- Source `computeCounts(segments, markersAll)`. -/
def computeCounts (segments : List Segment) (markersAll : List Marker) : Except Failure Counts :=
  countLoop markersAll
    { total := ⟨0, 0, 0, 0⟩, by_speaker := ⟨[], []⟩,
      by_segment := List.replicate segments.length [] }

/-- The result `{text_len, per_1k_chars}` of `computeDensity`. -/
structure Density where
  text_len : Nat
  per_1k_chars : Quad JsNum
  deriving DecidableEq

/-- Source `computeDensity(globalText, counts)`. -/
def computeDensity (globalText : String) (counts : Counts) : Density :=
  let textLen := globalText.length
  let per1k : Nat → JsNum := fun n =>
    if textLen > 0 then (JsNum.fin n * JsNum.fin 1000) / JsNum.fin textLen else JsNum.fin 0
  { text_len := textLen,
    per_1k_chars :=
      { ATO := per1k counts.total.ATO,
        SEM := per1k counts.total.SEM,
        CLU := per1k counts.total.CLU,
        MEMA := per1k counts.total.MEMA } }

/-- Source `clamp01(x)`. -/
def clamp01 (x : JsNum) : JsNum :=
  JsNum.max (JsNum.fin 0) (JsNum.min (JsNum.fin 1) x)

/-- A cap read from `caps`: a missing property is `undefined`, which `/` turns
into `NaN`. -/
def capNum : Option ℚ → JsNum
  | some c => JsNum.fin c
  | none => JsNum.nan

/-- The inner function `scale(n, cap)` of `computeFeatures`. -/
def scale (n : JsNum) (cap : Option ℚ) : JsNum :=
  clamp01 (n / capNum cap)

/-- Source `computeFeatures(canon, counts, density)`. -/
def computeFeatures (canon : Canon) (_counts : Counts) (density : Option Density) : Quad JsNum :=
  let caps : Quad (Option ℚ) :=
    match canon.globals.bind (fun g => g.text_caps) with
    | some caps => caps
    | none => { ATO := some 100, SEM := some 100, CLU := some 100, MEMA := some 100 }
  let d : Quad JsNum :=
    match density with
    | some dn => dn.per_1k_chars
    | none => { ATO := JsNum.fin 0, SEM := JsNum.fin 0, CLU := JsNum.fin 0, MEMA := JsNum.fin 0 }
  { ATO := scale d.ATO caps.ATO,
    SEM := scale d.SEM caps.SEM,
    CLU := scale d.CLU caps.CLU,
    MEMA := scale d.MEMA caps.MEMA }

/-! ## Indices -/

/-- The four index names. -/
inductive IndexKey where
  | trust
  | deesc
  | conflict
  | sync
  deriving DecidableEq, Repr

/-- An entry `{w, bias}` of `weights.indices`. -/
structure IndexDef where
  w : Quad ℚ
  bias : ℚ

/-- The object `weights.calib`; a `sigma` may be absent. -/
structure Calib where
  mu : IndexKey → ℚ
  sigma : IndexKey → Option ℚ

/-- The weights object `{indices, calib}`. -/
structure Weights where
  indices : IndexKey → IndexDef
  calib : Calib

/-- An entry of the result of `computeIndices`: `{raw, z}` or `{raw, z, p}`. -/
structure IndexValue where
  raw : JsNum
  z : JsNum
  p : Option JsNum
  deriving DecidableEq

/-- Source `dot(w, f)`. -/
def dot (w : Quad ℚ) (f : Quad JsNum) : JsNum :=
  JsNum.fin w.ATO * f.ATO + JsNum.fin w.SEM * f.SEM + JsNum.fin w.CLU * f.CLU
    + JsNum.fin w.MEMA * f.MEMA

/-- Source `erf(x)` (Abramowitz-Stegun 7.1.26). -/
def erf (M : JsMath) (x : JsNum) : JsNum :=
  let sign := JsNum.sign x
  let a1 : JsNum := JsNum.fin 0.254829592
  let a2 : JsNum := JsNum.fin (-0.284496736)
  let a3 : JsNum := JsNum.fin 1.421413741
  let a4 : JsNum := JsNum.fin (-1.453152027)
  let a5 : JsNum := JsNum.fin 1.061405429
  let p : JsNum := JsNum.fin 0.3275911
  let t := JsNum.fin 1 / (JsNum.fin 1 + p * JsNum.abs x)
  let y := JsNum.fin 1 - ((((a5 * t + a4) * t + a3) * t + a2) * t + a1) * t * M.exp (-x * x)
  sign * y

/-- Source `normalCdf(x)`. -/
def normalCdf (M : JsMath) (x : JsNum) : JsNum :=
  JsNum.fin 0.5 * (JsNum.fin 1 + erf M (x / JsNum.fin SQRT2))

/-- Source `computeIndices(weights, features, options)`, with `omitP` for
`options.omitP`; the result object is indexed by the four keys of the loop. -/
def computeIndices (M : JsMath) (weights : Weights) (features : Quad JsNum) (omitP : Bool) :
    IndexKey → IndexValue := fun key =>
  let def_ := weights.indices key
  let raw := dot def_.w features + JsNum.fin def_.bias
  let mu := weights.calib.mu key
  let sigma := numOr (weights.calib.sigma key) (1 / 1000000000)
  let z := (raw - JsNum.fin mu) / JsNum.fin sigma
  let p := clamp01 (normalCdf M z)
  if omitP then { raw := raw, z := z, p := none } else { raw := raw, z := z, p := some p }

/-! ## The pipeline of `run` -/

/-- The fields of the output of `run` that the pipeline computes (`meta.gated`,
`segments`, `markers`, `promotion`, `counts`, `density`, `features`, `indices`). -/
structure RunOutput where
  gated : Bool
  segments : List Segment
  markers : List Marker
  promotion : List Promotion
  counts : Counts
  density : Density
  features : Quad JsNum
  indices : IndexKey → IndexValue

/-- Source `run`, from detection to the output object, for the segments returned
by `toSegments` and the weights returned by `modeAdjustments`.  File access,
hashing, timing and the two schema validations are outside the model. -/
def run (E : RegexEngine) (M : JsMath) (fuel : Nat) (canon : Canon) (weights : Weights)
    (promoMap : Option PromoMap) (segments : List Segment) : Except Failure RunOutput :=
  match detect_all E fuel segments canon with
  | .error e => .error e
  | .ok detected =>
    match applyPromotion segments detected canon promoMap with
    | .error e => .error e
    | .ok promotions =>
      let annotations := annotateClustersAndMemory detected promotions canon
      let markers := arrangeMarkersForOutput detected promotions annotations
      let globalText := joinWith "\n" (segments.map (fun s => s.text))
      match computeCounts segments markers with
      | .error e => .error e
      | .ok counts =>
        let density := computeDensity globalText counts
        let features := computeFeatures canon counts (some density)
        let gated := gateOutput markers (some segments)
        let indices := computeIndices M weights features gated
        .ok { gated := gated, segments := segments, markers := markers,
              promotion := promotions, counts := counts, density := density,
              features := features, indices := indices }

/-! ## Promotion, as the specification words it -/

/-- Append `k` to `ks` unless it is already there. -/
def pushNew (ks : List Nat) (k : Nat) : List Nat :=
  if ks.contains k then ks else ks ++ [k]

/-- The distinct segment indices of the detected events, in order of first
occurrence. -/
def segmentKeys (detected : List Event) : List Nat :=
  detected.foldl (fun ks e => pushNew ks e.segment_idx) []

/-- The detected events of segment `k`, in detection order. -/
def eventsOf (detected : List Event) (k : Nat) : List Event :=
  detected.filter (fun e => e.segment_idx = k)

/-- The number of events among `events` whose id is in the rule's id list. -/
def matchCount (events : List Event) (rule : PromotionRule) : Nat :=
  (events.filter (fun e => (ruleIds rule).contains e.id)).length

/-- The promotion step for one segment and one rule, as the specification words
it: count the events whose id is in the rule's id list; if the count reaches the
minimum, emit one record carrying the first matching event's speaker. -/
def promotionFor (segIdx : Nat) (events : List Event) (rule : PromotionRule) : List Promotion :=
  match events.filter (fun e => (ruleIds rule).contains e.id) with
  | [] => []
  | baseEv :: more =>
    if ruleMin rule ≤ ((more.length + 1 : Nat) : Int) then
      [{ sem_id := rule.produce.id, from_atos := (baseEv :: more).map (fun h => h.id),
         segment_idx := segIdx, who := baseEv.who }]
    else []

/-- The minimum a rule declares: its `min`, and 2 when it declares none. -/
def declaredMin (rule : PromotionRule) : Int :=
  ((rule.when.bind (fun w => w.segment_co_occurs)).bind (fun c => c.min)).getD 2

/-- A catalog that holds nothing but the given promotion rules. -/
def canonWithRules (rules : List PromotionRule) : Canon :=
  { markers := [], promotion_rules := some rules, annotation_rules := none, globals := none }

/-- A co-occurrence rule `{ids, min}` producing the semantic marker `semId`. -/
def coOccurRule (ids : List String) (min : Int) (semId : String) : PromotionRule :=
  { when := some { segment_co_occurs := some { ids := some ids, min := some min } },
    produce := { id := semId, type := "SEM", link_from := ids } }

/-- A detected event with the given id, segment and speaker; span and evidence
play no part in promotion. -/
def mkEvent (id : String) (segIdx : Nat) (who : String) : Event :=
  { id := id, type := "ATO", span := ⟨0, 0⟩, segment_idx := segIdx, who := who, evidence := "" }

/-! ## Detection: the global text and the engine's matches -/

/-- The global text: the segment texts joined by a single newline. -/
def globalText (segments : List Segment) : String :=
  joinWith "\n" (segments.map (fun s => s.text))

/-- The offset of segment `i` in the global text: the sum over `j < i` of
`length(text_j) + 1`. -/
def segmentOffset (segments : List Segment) (i : Nat) : Nat :=
  ((segments.take i).map (fun s => s.text.length + 1)).sum

/-- The offsets pushed by the loop of `buildGlobalText`, starting at `off`. -/
def offsetsFrom (sep : String) : Nat → List Segment → List Nat
  | _, [] => []
  | off, s :: rest => off :: offsetsFrom sep (off + (s.text.length + sep.length)) rest

/-- Every match the engine reports lies inside the scanned text. -/
def MatchesInside (E : RegexEngine) : Prop :=
  ∀ (re : E.Regex) (str : String) (lastIndex index : Nat) (m0 : String),
    E.exec re str lastIndex = some (index, m0) → index + m0.length ≤ str.length

/-- An event lies in a segment: it carries the segment's index and speaker, and
its span lies between the segment's offset and the end of the segment's text. -/
def EventInSegment (segments : List Segment) (e : Event) : Prop :=
  ∃ i seg, segments[i]? = some seg ∧ e.segment_idx = i ∧ e.who = seg.who
    ∧ segmentOffset segments i ≤ e.span.start ∧ e.span.start ≤ e.span.stop
    ∧ e.span.stop ≤ segmentOffset segments i + seg.text.length

/-- The catalog entries that `detect_all` scans with: type DETECT, ATO or SEM and
a non-empty `regex`. -/
def Scanned (mk : MarkerDef) : Prop :=
  (mk.type = "DETECT" ∨ mk.type = "ATO" ∨ mk.type = "SEM") ∧ strOr mk.regex "" ≠ ""

/-- Every scanned pattern of the catalog compiles. -/
def CatalogCompiles (E : RegexEngine) (canon : Canon) : Prop :=
  ∀ mk ∈ canon.markers, Scanned mk →
    (E.compile (strOr mk.regex "") (regexFlags canon mk)).isSome = true

/-- Every match of a compiled catalog pattern is non-empty, starts at or after
`lastIndex` and lies inside the scanned text, so it moves `lastIndex` forward. -/
def CatalogAdvances (E : RegexEngine) (canon : Canon) : Prop :=
  ∀ mk ∈ canon.markers, ∀ re : E.Regex,
    E.compile (strOr mk.regex "") (regexFlags canon mk) = some re →
    ∀ (str : String) (lastIndex index : Nat) (m0 : String),
      E.exec re str lastIndex = some (index, m0) →
        lastIndex < index + m0.length ∧ index + m0.length ≤ str.length

/-- The order of the sort key `(span.start, span.end)`. -/
def spanLe (a b : Event) : Prop :=
  a.span.start < b.span.start ∨ (a.span.start = b.span.start ∧ a.span.stop ≤ b.span.stop)

/-- Search for the first position at or after `pos` where `pat` starts in the
remaining characters. -/
def searchFrom (pat : List Char) : List Char → Nat → Option Nat
  | [], pos => if pat = [] then some pos else none
  | c :: cs, pos => if pat.isPrefixOf (c :: cs) then some pos else searchFrom pat cs (pos + 1)

/-- A small regular-expression engine for literal patterns: a pattern matches its
own text; a pattern containing `(` is rejected as malformed. -/
def literalEngine : RegexEngine where
  Regex := List Char
  compile := fun pattern _ => if pattern.data.contains '(' then none else some pattern.data
  exec := fun re str lastIndex =>
    if str.length < lastIndex then none
    else (searchFrom re (str.data.drop lastIndex) lastIndex).map (fun i => (i, String.mk re))

/-- A marker of the given type in segment 0, used to build small marker lists. -/
def mkMarker (type : String) : Marker :=
  { id := "M", type := type, span := ⟨0, 0⟩, segment_idx := 0, who := "A",
    promotion_of := [], evidence := "" }

/-! ## Detection, as the specification words it -/

/-- All successive matches of a pattern in a text: the matches `exec` reports when
it is called again and again, each call starting where the last match ended.
`none` when the step budget runs out. -/
def matchesFrom (E : RegexEngine) (re : E.Regex) (str : String) :
    Nat → Nat → Option (List (Nat × String))
  | 0, _ => none
  | fuel + 1, lastIndex =>
    match E.exec re str lastIndex with
    | none => some []
    | some (index, m0) =>
      (matchesFrom E re str fuel (index + m0.length)).map (fun ms => (index, m0) :: ms)

/-- The matches of one catalog entry in one segment; an entry that is not scanned
has none. -/
def entryMatches (E : RegexEngine) (canon : Canon) (fuel : Nat) (seg : Segment)
    (mk : MarkerDef) : List (Nat × String) :=
  if (mk.type = "DETECT" ∨ mk.type = "ATO" ∨ mk.type = "SEM") ∧ strOr mk.regex "" ≠ "" then
    match E.compile (strOr mk.regex "") (regexFlags canon mk) with
    | some re => (matchesFrom E re seg.text fuel 0).getD []
    | none => []
  else []

/-- The event for one match: `span = {segment_offset + match_start,
segment_offset + match_end}`, `evidence` the matched substring. -/
def matchEvent (mk : MarkerDef) (seg : Segment) (segIdx base : Nat) (m : Nat × String) : Event :=
  { id := mk.id, type := mk.type, span := ⟨base + m.1, base + m.1 + m.2.length⟩,
    segment_idx := segIdx, who := seg.who, evidence := m.2 }

/-- The events of a scan, as the specification words it: for every segment and
every catalog entry, one event per match. -/
def scanSpec (E : RegexEngine) (fuel : Nat) (segments : List Segment) (canon : Canon) :
    List Event :=
  segments.enum.flatMap (fun p =>
    canon.markers.flatMap (fun mk =>
      (entryMatches E canon fuel p.2 mk).map
        (matchEvent mk p.2 p.1 (segmentOffset segments p.1))))

/-- A small catalog for the literal engine: the atomic markers `a` and `b`. -/
def sampleCanon : Canon :=
  { markers := [⟨"ATO_A", "ATO", some "a", none, none⟩, ⟨"ATO_B", "ATO", some "b", none, none⟩],
    promotion_rules := none,
    annotation_rules := none,
    globals := none }

/-- Two segments for the sample catalog. -/
def sampleSegments : List Segment := [⟨"A", "ab"⟩, ⟨"B", "b"⟩]

/-- A catalog whose two entries carry the same pattern. -/
def twinCanon : Canon :=
  { markers := [⟨"ATO_X", "ATO", some "a", none, none⟩, ⟨"SEM_Y", "SEM", some "a", none, none⟩],
    promotion_rules := none,
    annotation_rules := none,
    globals := none }

/-! ## Scoring, as the specification words it -/

/-- The four scored marker types. -/
inductive MType where
  | ATO
  | SEM
  | CLU
  | MEMA
  deriving DecidableEq, Repr

/-- The field of a `Quad` for a marker type. -/
def Quad.get {α : Type} (q : Quad α) : MType → α
  | .ATO => q.ATO
  | .SEM => q.SEM
  | .CLU => q.CLU
  | .MEMA => q.MEMA

/-- The z-score as the specification words it: `(raw - mu) / max(sigma, 1e-9)`. -/
def claimedZ (raw mu sigma : ℚ) : ℚ :=
  (raw - mu) / max sigma (1 / 1000000000)

/-- A stand-in for `Math.exp` where its value plays no part. -/
def sampleMath : JsMath := ⟨fun _ => JsNum.fin 1⟩

/-- Weights with all index weights 0, bias 1, `mu` 0 and the given `sigma`, so
that `raw = 1` for every feature vector. -/
def unitWeights (sigma : Option ℚ) : Weights :=
  { indices := fun _ => { w := ⟨0, 0, 0, 0⟩, bias := 1 },
    calib := { mu := fun _ => 0, sigma := fun _ => sigma } }

/-- The feature vector with every feature 0. -/
def zeroFeatures : Quad JsNum := ⟨JsNum.fin 0, JsNum.fin 0, JsNum.fin 0, JsNum.fin 0⟩

/-- A catalog whose `text_caps` lists a cap for ATO only. -/
def partialCapsCanon : Canon :=
  { markers := [],
    promotion_rules := none,
    annotation_rules := none,
    globals := some { regex_flags := none, text_caps := some ⟨some 50, none, none, none⟩ } }

/-- A density of 10 markers per 1k characters for every type. -/
def tenDensity : Density :=
  { text_len := 100, per_1k_chars := ⟨JsNum.fin 10, JsNum.fin 10, JsNum.fin 10, JsNum.fin 10⟩ }

/-- Counts with no markers and no segments. -/
def emptyCounts : Counts := { total := ⟨0, 0, 0, 0⟩, by_speaker := ⟨[], []⟩, by_segment := [] }

/-! ## Intuition tracker (`engine_intuition.js`) -/

/-- The comparison `a < b` of two numbers (false when either is `NaN`). -/
def JsNum.lt : JsNum → JsNum → Bool
  | JsNum.fin a, JsNum.fin b => decide (a < b)
  | JsNum.nan, _ => false
  | _, JsNum.nan => false
  | JsNum.negInf, JsNum.negInf => false
  | JsNum.negInf, _ => true
  | _, JsNum.negInf => false
  | JsNum.posInf, _ => false
  | _, JsNum.posInf => true

/-- The comparison `a <= b` of two numbers (false when either is `NaN`). -/
def JsNum.le : JsNum → JsNum → Bool
  | JsNum.fin a, JsNum.fin b => decide (a ≤ b)
  | JsNum.nan, _ => false
  | _, JsNum.nan => false
  | JsNum.negInf, _ => true
  | _, JsNum.posInf => true
  | JsNum.posInf, _ => false
  | _, JsNum.negInf => false

/-- The function `Number.isFinite` on a value that is a number or not (`none`). -/
def isFiniteNumber : Option JsNum → Bool
  | some (JsNum.fin _) => true
  | _ => false

/-- The method `Map.prototype.get`, also the property read `obj[k]`. -/
def JsMap.get {κ β : Type} [DecidableEq κ] : JsMap κ β → κ → Option β
  | [], _ => none
  | (k', v) :: rest, k => if k' = k then some v else JsMap.get rest k

/-- An event as `processIntuitionClu` reads it: an engine marker whose `span`
and `meta` may be absent; `meta` holds string properties. -/
structure CluEvent where
  id : String
  type : String
  span : Option Span
  segment_idx : Nat
  who : String
  meta : Option (JsMap String String)
  deriving DecidableEq, Repr

/-- The options `opts` of `processIntuitionClu`; every option may be absent. -/
structure IntuitionOpts where
  confirm_window : Option JsNum
  decay_window : Option JsNum
  family_map : Option (String → Option String)
  multiplier : Option JsNum

/-- The states `'provisional' | 'confirmed' | 'decayed'` of a family. -/
inductive IntuitionState where
  | provisional
  | confirmed
  | decayed
  deriving DecidableEq, Repr

/-- The string of a state. -/
def IntuitionState.name : IntuitionState → String
  | .provisional => "provisional"
  | .confirmed => "confirmed"
  | .decayed => "decayed"

/-- A value `{lastSeg, streak, state}` of the map `famState`. -/
structure FamState where
  lastSeg : Nat
  streak : Nat
  state : IntuitionState
  deriving DecidableEq, Repr

/-- The constant `confirmWindow = Math.max(1, opts?.confirm_window ?? 2)`. -/
def confirmWindowOf (opts : Option IntuitionOpts) : JsNum :=
  JsNum.max (JsNum.fin 1) ((opts.bind (fun o => o.confirm_window)).getD (JsNum.fin 2))

/-- The constant `decayWindow = Math.max(1, opts?.decay_window ?? 4)`. -/
def decayWindowOf (opts : Option IntuitionOpts) : JsNum :=
  JsNum.max (JsNum.fin 1) ((opts.bind (fun o => o.decay_window)).getD (JsNum.fin 4))

/-- The constant `multiplier` of `processIntuitionClu`, which the function never
uses: `Number.isFinite(opts?.multiplier) ? opts.multiplier : 1.1`. -/
def intuitionMultiplierOf (opts : Option IntuitionOpts) : JsNum :=
  if isFiniteNumber (opts.bind (fun o => o.multiplier)) then
    (opts.bind (fun o => o.multiplier)).getD (JsNum.fin (11 / 10))
  else JsNum.fin (11 / 10)

/-- The expression `familyMap[ev.id] || null` with `familyMap = opts?.family_map || {}`:
the family of a marker id, `none` when there is none or it is the empty string. -/
def familyOf (opts : Option IntuitionOpts) (id : String) : Option String :=
  match opts.bind (fun o => o.family_map) with
  | some familyMap =>
    match familyMap id with
    | some fam => if fam = "" then none else some fam
    | none => none
  | none => none

/-- The comparator of the sort in `processIntuitionClu`:
`(a.segment_idx - b.segment_idx) || (a.span?.start||0)-(b.span?.start||0)`. -/
def cluCompare (a b : CluEvent) : Int :=
  if (a.segment_idx : Int) - (b.segment_idx : Int) ≠ 0 then
    (a.segment_idx : Int) - (b.segment_idx : Int)
  else
    (((a.span.map (fun sp => sp.start)).getD 0 : Nat) : Int)
      - (((b.span.map (fun sp => sp.start)).getD 0 : Nat) : Int)

/-- The decay check (lines 35-39): the state of the family and the counter
`retracted` after it. -/
def decayCheck (decayWindow : JsNum) (st : FamState) (segIdx : Nat) (retracted : Nat) :
    FamState × Nat :=
  if JsNum.lt decayWindow (JsNum.fin (((segIdx : Int) - (st.lastSeg : Int) : Int) : ℚ)) then
    ({ lastSeg := st.lastSeg, streak := 0, state := .decayed },
      if st.state = .confirmed then retracted + 1 else retracted)
  else (st, retracted)

/-- The streak update (lines 41-42). -/
def updateStreak (st : FamState) (segIdx : Nat) : FamState :=
  { lastSeg := segIdx,
    streak := if st.state = .decayed then 1 else st.streak + 1,
    state := st.state }

/-- The confirmation check (lines 43-48): the state of the family and the counter
`confirmed` after it. -/
def confirmCheck (confirmWindow : JsNum) (st : FamState) (confirmed : Nat) : FamState × Nat :=
  if st.state ≠ .confirmed ∧ JsNum.le confirmWindow (JsNum.fin (st.streak : ℚ)) = true then
    ({ lastSeg := st.lastSeg, streak := st.streak, state := .confirmed }, confirmed + 1)
  else if st.state = .decayed then
    ({ lastSeg := st.lastSeg, streak := st.streak, state := .provisional }, confirmed)
  else (st, confirmed)

/-- The variables `famState`, `confirmed`, `retracted` and `augmented` of the loop
of `processIntuitionClu`. -/
structure IntuitionLoop where
  famState : JsMap String FamState
  confirmed : Nat
  retracted : Nat
  augmented : List CluEvent

/-- The event pushed for a family-mapped event: `{...ev, meta: {...(ev.meta||{}),
intuition_state, intuition_family}}`. -/
def annotateEvent (ev : CluEvent) (state : IntuitionState) (fam : String) : CluEvent :=
  { id := ev.id, type := ev.type, span := ev.span, segment_idx := ev.segment_idx, who := ev.who,
    meta := some (((ev.meta.getD []).set "intuition_state" state.name).set
              "intuition_family" fam) }

/-- The body of `for (const ev of evs)` in `processIntuitionClu` (lines 30-51). -/
def intuitionStep (opts : Option IntuitionOpts) (L : IntuitionLoop) (ev : CluEvent) :
    IntuitionLoop :=
  match familyOf opts ev.id with
  | none => { L with augmented := L.augmented ++ [ev] }
  | some fam =>
    let st : FamState := (L.famState.get fam).getD
      { lastSeg := ev.segment_idx, streak := 0, state := .provisional }
    let afterDecay := decayCheck (decayWindowOf opts) st ev.segment_idx L.retracted
    let st := updateStreak afterDecay.1 ev.segment_idx
    let afterConfirm := confirmCheck (confirmWindowOf opts) st L.confirmed
    { famState := L.famState.set fam afterConfirm.1,
      confirmed := afterConfirm.2,
      retracted := afterDecay.2,
      augmented := L.augmented ++ [annotateEvent ev afterConfirm.1.state fam] }

/-- The loop of `processIntuitionClu` over the sorted events, from the initial
variables. -/
def intuitionLoop (opts : Option IntuitionOpts) (events : List CluEvent) : IntuitionLoop :=
  (arraySort cluCompare events).foldl (intuitionStep opts)
    { famState := [], confirmed := 0, retracted := 0, augmented := [] }

/-- The object `telemetry` of the result of `processIntuitionClu`. -/
structure Telemetry where
  confirmed : Nat
  retracted : Nat
  ewma_precision : JsNum
  deriving DecidableEq

/-- The result `{events, telemetry}` of `processIntuitionClu`. -/
structure IntuitionResult where
  events : List CluEvent
  telemetry : Telemetry
  deriving DecidableEq

/-- Source `processIntuitionClu(events, opts)`. -/
def processIntuitionClu (events : List CluEvent) (opts : Option IntuitionOpts) :
    IntuitionResult :=
  let L := intuitionLoop opts events
  let ewma_precision :=
    JsNum.fin (L.confirmed : ℚ) / JsNum.fin (((L.confirmed + L.retracted + 1 : Nat)) : ℚ)
  { events := L.augmented,
    telemetry := { confirmed := L.confirmed, retracted := L.retracted,
                   ewma_precision := ewma_precision } }

/-- The property `meta.intuition_state` of an event, if present. -/
def intuitionStateOf (ev : CluEvent) : Option String :=
  ev.meta.bind (fun m => m.get "intuition_state")

/-- An entry of the `indices` record passed to `applyFamilyMultiplier`:
`{raw, z?, p?}` and any other numeric properties. -/
structure ScoredIndex where
  raw : JsNum
  z : Option JsNum
  p : Option JsNum
  others : JsMap String JsNum
  deriving DecidableEq

/-- The body of `for (const k of Object.keys(indices))` in `applyFamilyMultiplier`. -/
def multiplyStep (indices : JsMap String ScoredIndex) (m : JsNum)
    (out : JsMap String ScoredIndex) (k : String) : JsMap String ScoredIndex :=
  match indices.get k with
  | some v => out.set k { raw := v.raw * m, z := v.z, p := v.p, others := v.others }
  | none => out

/-- Source `applyFamilyMultiplier(indices, state, multiplier)`; `multiplier` is
`none` when it is omitted or not a number. -/
def applyFamilyMultiplier (indices : JsMap String ScoredIndex) (state : String)
    (multiplier : Option JsNum) : JsMap String ScoredIndex :=
  if state ≠ "confirmed" then indices
  else
    let m := if isFiniteNumber multiplier then multiplier.getD (JsNum.fin 1) else JsNum.fin 1
    (indices.map (fun kv => kv.1)).foldl (multiplyStep indices m) []

/-- An event of the marker `id` in segment `segIdx` starting at `start`. -/
def mkCluEvent (id : String) (segIdx start : Nat) : CluEvent :=
  { id := id, type := "CLU", span := some ⟨start, start⟩, segment_idx := segIdx, who := "A",
    meta := none }

/-- Options that map the marker `CLU_F` to the family `F`, with the given windows. -/
def familyOpts (confirmWindow decayWindow : ℚ) : IntuitionOpts :=
  { confirm_window := some (JsNum.fin confirmWindow),
    decay_window := some (JsNum.fin decayWindow),
    family_map := some (fun id => if id = "CLU_F" then some "F" else none),
    multiplier := none }

/-- The initial variables of the loop of `processIntuitionClu`. -/
def intuitionInit : IntuitionLoop :=
  { famState := [], confirmed := 0, retracted := 0, augmented := [] }

/-- One occurrence of a family in segment `segIdx`, from the stored state of the
family (`none` for a family not seen before): the new state, the number of
confirmations (0 or 1) and the number of retractions (0 or 1). -/
def occurrence (opts : Option IntuitionOpts) (stored : Option FamState) (segIdx : Nat) :
    FamState × Nat × Nat :=
  let st : FamState := stored.getD { lastSeg := segIdx, streak := 0, state := .provisional }
  let afterDecay := decayCheck (decayWindowOf opts) st segIdx 0
  let afterConfirm := confirmCheck (confirmWindowOf opts) (updateStreak afterDecay.1 segIdx) 0
  (afterConfirm.1, afterConfirm.2, afterDecay.2)

/-- The decay check triggers: `segIdx - st.lastSeg > decayWindow`. -/
def decayTriggers (opts : Option IntuitionOpts) (st : FamState) (segIdx : Nat) : Bool :=
  JsNum.lt (decayWindowOf opts) (JsNum.fin (((segIdx : Int) - (st.lastSeg : Int) : Int) : ℚ))

/-- The multiplier `m` that `applyFamilyMultiplier` uses:
`Number.isFinite(multiplier) ? multiplier : 1.0`. -/
def effectiveMultiplier (multiplier : Option JsNum) : JsNum :=
  if isFiniteNumber multiplier then multiplier.getD (JsNum.fin 1) else JsNum.fin 1

/-- An entry with its `raw` multiplied by `m` and every other property kept. -/
def scaleRaw (m : JsNum) (v : ScoredIndex) : ScoredIndex :=
  { raw := v.raw * m, z := v.z, p := v.p, others := v.others }

/-- An `indices` record with the single index `trust`. -/
def trustOnly (raw : ℚ) : JsMap String ScoredIndex :=
  [("trust", { raw := JsNum.fin raw, z := some (JsNum.fin 0), p := some (JsNum.fin (1 / 2)),
               others := [] })]

/-- The occurrences of a family, one after the other, from the stored state of
the family: for each segment index the new state, the confirmations and the
retractions of that occurrence. -/
def famTrace (opts : Option IntuitionOpts) : Option FamState → List Nat → List (FamState × Nat × Nat)
  | _, [] => []
  | stored, segIdx :: rest =>
    occurrence opts stored segIdx :: famTrace opts (some (occurrence opts stored segIdx).1) rest

/-- The event's marker id belongs to the family `F`. -/
def isFamily (opts : Option IntuitionOpts) (F : String) (ev : CluEvent) : Bool :=
  decide (familyOf opts ev.id = some F)

/-- The segment indices of the events of the family `F`, in list order. -/
def famSegments (opts : Option IntuitionOpts) (F : String) (evs : List CluEvent) : List Nat :=
  (evs.filter (isFamily opts F)).map (fun e => e.segment_idx)

/-- The order of the sort key `(segment_idx, span.start)` of `processIntuitionClu`. -/
def cluLe (a b : CluEvent) : Prop :=
  a.segment_idx < b.segment_idx
    ∨ (a.segment_idx = b.segment_idx
        ∧ (a.span.map (fun sp => sp.start)).getD 0 ≤ (b.span.map (fun sp => sp.start)).getD 0)

/-- Two maps `famState` hold the same state for every family but `F`. -/
def AgreeOff (F : String) (m m' : JsMap String FamState) : Prop :=
  ∀ k, k ≠ F → m.get k = m'.get k

/-- The state of a family that has occurred `streak` times in a row without decay,
under the confirm window `c`. -/
def stateAt (c streak : Nat) : IntuitionState :=
  if c ≤ streak then .confirmed else .provisional

/-! ## Mode adjustment

`modeAdjustments` clones the weights and then writes into the clone.  The objects
it writes into are the `w` record of each index and the records `calib.mu` and
`calib.sigma`; they are cells of a heap, addressed by position, so that a write
reaches every reference to the same object.  The rest of a weights tree is
never written and is carried in the reference.  The weights are the validated
ones: four indices with `w` and `bias`, and the two `calib` records. -/

/-- A mutable object of a weights tree. -/
inductive WCell where
  | w (q : Quad ℚ)
  | mu (m : IndexKey → ℚ)
  | sigma (s : IndexKey → Option ℚ)

/-- The heap: the objects allocated so far, by address. -/
abbrev WHeap := List WCell

/-- A reference to a weights object: the addresses of its mutable objects and
the (never written) biases. -/
structure WeightsRef where
  w : IndexKey → Nat
  bias : IndexKey → ℚ
  mu : Nat
  sigma : Nat

/-- The `w` record at an address. -/
def readW (H : WHeap) (a : Nat) : Option (Quad ℚ) :=
  match H.get? a with
  | some (.w q) => some q
  | _ => none

/-- The `calib.mu` record at an address. -/
def readMu (H : WHeap) (a : Nat) : Option (IndexKey → ℚ) :=
  match H.get? a with
  | some (.mu m) => some m
  | _ => none

/-- The `calib.sigma` record at an address. -/
def readSigma (H : WHeap) (a : Nat) : Option (IndexKey → Option ℚ) :=
  match H.get? a with
  | some (.sigma s) => some s
  | _ => none

/-- The position of an index in the order `trust, deesc, conflict, sync`. -/
def IndexKey.pos : IndexKey → Nat
  | .trust => 0
  | .deesc => 1
  | .conflict => 2
  | .sync => 3

/-- The value of the weights object a reference points to, in a heap. -/
def readWeights (H : WHeap) (r : WeightsRef) : Option Weights :=
  (readW H (r.w .trust)).bind fun a =>
  (readW H (r.w .deesc)).bind fun b =>
  (readW H (r.w .conflict)).bind fun c =>
  (readW H (r.w .sync)).bind fun d =>
  (readMu H r.mu).bind fun m =>
  (readSigma H r.sigma).bind fun s =>
  some { indices := fun k =>
           { w := match k with
                  | .trust => a
                  | .deesc => b
                  | .conflict => c
                  | .sync => d,
             bias := r.bias k },
         calib := { mu := m, sigma := s } }

/-- The objects `JSON.parse` allocates for a weights value, in order: the four `w`
records, `calib.mu` and `calib.sigma`. -/
def cloneCells (a b c d : Quad ℚ) (m : IndexKey → ℚ) (s : IndexKey → Option ℚ) : List WCell :=
  [.w a, .w b, .w c, .w d, .mu m, .sigma s]

/-- The reference to a weights object whose mutable objects were allocated from
address `n` on. -/
def freshRef (n : Nat) (bias : IndexKey → ℚ) : WeightsRef :=
  { w := fun k => n + k.pos, bias := bias, mu := n + 4, sigma := n + 5 }

/-- The expression `JSON.parse(JSON.stringify(weights))`: the value of `weights` is
read and rebuilt from newly allocated objects. -/
def jsonClone (H : WHeap) (weights : WeightsRef) : Except Failure (WHeap × WeightsRef) :=
  match readWeights H weights with
  | some W =>
    .ok (H ++ cloneCells (W.indices .trust).w (W.indices .deesc).w (W.indices .conflict).w
            (W.indices .sync).w W.calib.mu W.calib.sigma,
         freshRef H.length (fun k => (W.indices k).bias))
  | none => .error .typeError

/-- The four assignments `w.ATO *= mult.ATO; ...` on the value of a `w` record. -/
def scaleW (mult : Quad ℚ) (q : Quad ℚ) : Quad ℚ :=
  ⟨q.ATO * mult.ATO, q.SEM * mult.SEM, q.CLU * mult.CLU, q.MEMA * mult.MEMA⟩

/-- The list `["trust", "deesc", "conflict", "sync"]`. -/
def indexKeys : List IndexKey := [.trust, .deesc, .conflict, .sync]

/-- The body of the loop of `scaleAll`: `const w = clone.indices[k].w` and the four
assignments, which write into that object. -/
def scaleStep (clone : WeightsRef) (mult : Quad ℚ) (H : WHeap) (k : IndexKey) :
    Except Failure WHeap :=
  match readW H (clone.w k) with
  | some q => .ok (H.set (clone.w k) (.w (scaleW mult q)))
  | none => .error .typeError

/-- The inner function `scaleAll(mult)` of `modeAdjustments`. -/
def scaleAll (clone : WeightsRef) (mult : Quad ℚ) (H : WHeap) : Except Failure WHeap :=
  indexKeys.foldlM (scaleStep clone mult) H

/-- The assignment `clone.calib.mu[k] = v`. -/
def setMu (clone : WeightsRef) (k : IndexKey) (v : ℚ) (H : WHeap) : Except Failure WHeap :=
  match readMu H clone.mu with
  | some m => .ok (H.set clone.mu (.mu (fun j => if j = k then v else m j)))
  | none => .error .typeError

/-- The assignment `clone.calib.sigma[k] = v`. -/
def setSigma (clone : WeightsRef) (k : IndexKey) (v : ℚ) (H : WHeap) : Except Failure WHeap :=
  match readSigma H clone.sigma with
  | some s => .ok (H.set clone.sigma (.sigma (fun j => if j = k then some v else s j)))
  | none => .error .typeError

/-- The object `conf.calib_adjust`; a field is `none` unless its `typeof` is
`"number"`. -/
structure CalibAdjust where
  mu : Option ℚ
  sigma : Option ℚ
  deriving DecidableEq

/-- An entry of `modes` in `modes.json`: `{weights_scaling, calib_adjust}`, each
possibly absent; a `weights_scaling` carries four numbers. -/
structure ModeConf where
  weights_scaling : Option (Quad ℚ)
  calib_adjust : Option CalibAdjust
  deriving DecidableEq

/-- The body of the loop over the indices in the configured branch:
`if (typeof mu === "number") clone.calib.mu[k] = mu;` and the same for `sigma`. -/
def calibStep (clone : WeightsRef) (mu sigma : Option ℚ) (H : WHeap) (k : IndexKey) :
    Except Failure WHeap :=
  (match mu with
   | some v => setMu clone k v H
   | none => .ok H) >>= fun H1 =>
  match sigma with
  | some v => setSigma clone k v H1
  | none => .ok H1

/-- The method `String.prototype.toLowerCase` on ASCII letters; other characters
are left as they are. -/
def toLowerCase (s : String) : String := ⟨s.data.map Char.toLower⟩

/-- Source `modeAdjustments(mode, weights)`.  `modes` is the object `cfg?.modes ||
null` read from `modes.json` (`none` when the file cannot be read or has no
`modes`), `mode` is `none` when it is absent; the result is the heap after the
call and the returned reference `clone`. -/
def modeAdjustments (modes : Option (JsMap String ModeConf)) (mode : Option String)
    (H : WHeap) (weights : WeightsRef) : Except Failure (WHeap × WeightsRef) :=
  jsonClone H weights >>= fun cloned =>
  let clone := cloned.2
  let key := toLowerCase (strOr mode "dialog")
  match modes.bind (fun m => m.get key) with
  | some conf =>
    scaleAll clone (conf.weights_scaling.getD ⟨1, 1, 1, 1⟩) cloned.1 >>= fun H1 =>
    (match conf.calib_adjust with
     | some adj =>
       if adj.mu.isSome ∨ adj.sigma.isSome then
         indexKeys.foldlM (calibStep clone adj.mu adj.sigma) H1
       else .ok H1
     | none => .ok H1) >>= fun H2 =>
    .ok (H2, clone)
  | none =>
    if key = "dialog" then .ok (cloned.1, clone)
    else if key = "single" ∨ key = "coach" then
      scaleAll clone ⟨1, 6 / 5, 1, 6 / 5⟩ cloned.1 >>= fun H1 => .ok (H1, clone)
    else if key = "learn" then
      scaleAll clone ⟨1, 1, 1, 1⟩ cloned.1 >>= fun H1 =>
      indexKeys.foldlM (calibStep clone (some (1 / 2)) (some (1 / 4))) H1 >>= fun H2 =>
      .ok (H2, clone)
    else if key = "free" then
      scaleAll clone ⟨4 / 5, 4 / 5, 4 / 5, 4 / 5⟩ cloned.1 >>= fun H1 => .ok (H1, clone)
    else .ok (cloned.1, clone)

/-- Weights with every index weight 1, bias 0, `mu` 0 and `sigma` 1. -/
def oneWeights : Weights :=
  { indices := fun _ => { w := ⟨1, 1, 1, 1⟩, bias := 0 },
    calib := { mu := fun _ => 0, sigma := fun _ => some 1 } }

/-- A heap that holds exactly the objects of `oneWeights`. -/
def oneHeap : WHeap :=
  cloneCells ⟨1, 1, 1, 1⟩ ⟨1, 1, 1, 1⟩ ⟨1, 1, 1, 1⟩ ⟨1, 1, 1, 1⟩ (fun _ => 0) (fun _ => some 1)

/-- The reference to the weights object in `oneHeap`. -/
def oneRef : WeightsRef := freshRef 0 (fun _ => 0)

/-- A mode configuration that defines `dialog` with the ATO weights doubled. -/
def dialogModes : JsMap String ModeConf :=
  [("dialog", { weights_scaling := some ⟨2, 1, 1, 1⟩, calib_adjust := none })]

/-- The record `calib.mu` after `if (typeof mu === "number") clone.calib.mu[k] = mu`. -/
def writeMu (mu : Option ℚ) (m : IndexKey → ℚ) (k : IndexKey) : IndexKey → ℚ :=
  match mu with
  | some v => fun j => if j = k then v else m j
  | none => m

/-- The record `calib.sigma` after
`if (typeof sigma === "number") clone.calib.sigma[k] = sigma`. -/
def writeSigma (sigma : Option ℚ) (s : IndexKey → Option ℚ) (k : IndexKey) :
    IndexKey → Option ℚ :=
  match sigma with
  | some v => fun j => if j = k then some v else s j
  | none => s

/-- The record `calib.mu` with every entry overridden, if there is an override. -/
def overrideMu (mu : Option ℚ) (m : IndexKey → ℚ) : IndexKey → ℚ :=
  match mu with
  | some v => fun _ => v
  | none => m

/-- The record `calib.sigma` with every entry overridden, if there is an override. -/
def overrideSigma (sigma : Option ℚ) (s : IndexKey → Option ℚ) : IndexKey → Option ℚ :=
  match sigma with
  | some v => fun _ => some v
  | none => s

/-! ## Dashboard helper (`scripts/generate_dashboard.js`) -/

/-- The method `String.prototype.split` for a separator of one character. -/
def splitAt (sep : Char) : List Char → List (List Char)
  | [] => [[]]
  | c :: cs =>
    if c = sep then [] :: splitAt sep cs
    else
      match splitAt sep cs with
      | p :: ps => (c :: p) :: ps
      | [] => [[c]]

/-- Source `extractFamily(markerId)`. -/
def extractFamily (markerId : String) : String :=
  let parts := (splitAt '_' markerId.data).map String.mk
  if parts.length ≥ 2 then joinWith "_" (parts.drop 1) else markerId

/-- Options with no family map and the default windows. -/
def plainOpts : IntuitionOpts :=
  { confirm_window := none, decay_window := none, family_map := none, multiplier := none }

/-- The name of a scored marker type. -/
def MType.name : MType → String
  | .ATO => "ATO"
  | .SEM => "SEM"
  | .CLU => "CLU"
  | .MEMA => "MEMA"

/-- A counter property of a bag that has counted `n` markers: absent for 0. -/
def counted (n : Nat) : Option Nat := if n = 0 then none else some n
/-- The counters of `computeCounts` after the markers `done`, as the
specification words them: `total[t]` the number of markers of type `t`,
`by_speaker[s][t]` the number of markers of speaker `s` and type `t`,
`by_segment[i][t]` the number of markers of segment `i` and type `t`. -/
def CountsOf (n : Nat) (done : List Marker) (c : Counts) : Prop :=
  (∀ T : MType, c.total.get T = (done.filter (fun m => m.type = T.name)).length)
  ∧ (∀ t, JsMap.get c.by_speaker.A t
      = counted (done.filter (fun m => m.who = "A" ∧ m.type = t)).length)
  ∧ (∀ t, JsMap.get c.by_speaker.B t
      = counted (done.filter (fun m => m.who = "B" ∧ m.type = t)).length)
  ∧ c.by_segment.length = n
  ∧ (∀ i bag, c.by_segment.get? i = some bag → ∀ t, JsMap.get bag t
      = counted (done.filter (fun m => m.segment_idx = i ∧ m.type = t)).length)

/-! ## Annotation, as the specification words it -/

/-- The distinct segment indices of the promotions, in order of first occurrence. -/
def promoKeys (promotions : List Promotion) : List Nat :=
  promotions.foldl (fun ks p => pushNew ks p.segment_idx) []

/-- The distinct promoted SEM ids of segment `k`, in order of first occurrence. -/
def semIdsOf (promotions : List Promotion) (k : Nat) : List String :=
  ((promotions.filter (fun p => p.segment_idx = k)).map (fun p => p.sem_id)).foldl setAdd []

/-- The catalog tag set of a SEM id: the tags of the first catalog entry with
that id, empty when there is none. -/
def semTags (canon : Canon) (semId : String) : List String :=
  ((canon.markers.find? (fun m => m.id = semId)).bind (fun d => d.tags)).getD []

/-- The tag set of the SEM id contains at least one of the rule's
`when_tags_any_of` tags. -/
def tagMatch (canon : Canon) (r : AnnotationRule) (semId : String) : Bool :=
  (r.when_tags_any_of.getD []).any (fun t => (semTags canon semId).contains t)

/-- The annotations for one segment, one rule and one promoted SEM id, as the
specification words them: for a rule with target type SEM and a matching tag,
one annotation per `{type, id}` pair of the rule, with speaker `other`. -/
def annotationsFor (canon : Canon) (k : Nat) (r : AnnotationRule) (semId : String) :
    List AnnotationRecord :=
  if r.target_type = "SEM" ∧ tagMatch canon r semId = true then
    (r.annotate.getD []).map (fun add => ⟨add.type, add.id, k, "other"⟩)
  else []

/-- The annotations of a run, as the specification words them: for each segment
with promotions, each annotation rule and each distinct promoted SEM id of the
segment, the annotations of that triple. -/
def annotationSpec (promotions : List Promotion) (canon : Canon) : List AnnotationRecord :=
  (promoKeys promotions).flatMap (fun k =>
    (canon.annotation_rules.getD []).flatMap (fun r =>
      (semIdsOf promotions k).flatMap (fun semId => annotationsFor canon k r semId)))
/-- A catalog with the SEM entry `SEM_X` tagged `t1` and one annotation rule that
annotates the cluster `CLU_Y` for the tag `t1`. -/
def clusterCanon : Canon :=
  { markers := [⟨"SEM_X", "SEM", none, none, some ["t1"]⟩],
    promotion_rules := none,
    annotation_rules := some [⟨"SEM", some ["t1", "t2"], some [⟨"CLU", "CLU_Y"⟩]⟩,
                              ⟨"ATO", some ["t1"], some [⟨"MEMA", "MEMA_Z"⟩]⟩],
    globals := none }

/-- A catalog whose single entry carries a pattern that the literal engine
rejects as malformed. -/
def badCanon : Canon :=
  { markers := [⟨"ATO_BAD", "ATO", some "(", none, none⟩],
    promotion_rules := none,
    annotation_rules := none,
    globals := none }

/-- A small regular-expression engine for the patterns `c*` (any number of the
character `c`): called with `lastIndex` inside the text, `exec` matches the run
of `c` that starts there, which may be empty; every other pattern is rejected. -/
def starEngine : RegexEngine where
  Regex := Char
  compile := fun pattern _ =>
    match pattern.data with
    | [c, '*'] => some c
    | _ => none
  exec := fun c str lastIndex =>
    if str.length < lastIndex then none
    else some (lastIndex, String.mk ((str.data.drop lastIndex).takeWhile (fun x => x = c)))

/-- A catalog whose single entry carries the pattern `a*`. -/
def starCanon : Canon :=
  { markers := [⟨"ATO_STAR", "ATO", some "a*", none, none⟩],
    promotion_rules := none,
    annotation_rules := none,
    globals := none }

/-! ## Segmentation of a text (`stableSegmentFromText`, `toSegments`) -/

/-- The white space and line terminator code units: what `\s` matches in a
regular expression and what `String.prototype.trim` removes. -/
def isJsSpace (c : Char) : Bool :=
  [9, 10, 11, 12, 13, 32, 160, 5760, 8232, 8233, 8239, 8287, 12288, 65279].contains c.toNat
    || (8192 ≤ c.toNat && c.toNat ≤ 8202)

/-- The line terminators (LF, CR, U+2028, U+2029): what `.` does not match. -/
def isLineTerminator (c : Char) : Bool :=
  [10, 13, 8232, 8233].contains c.toNat

/-- The method `String.prototype.trim`. -/
def jsTrim (s : List Char) : List Char :=
  ((s.dropWhile isJsSpace).reverse.dropWhile isJsSpace).reverse

/-- Put a character in front of the first piece of a split. -/
def consHead (c : Char) : List (List Char) → List (List Char)
  | l :: ls => (c :: l) :: ls
  | [] => [[c]]

/-- The call `text.split(/\r?\n/)`: the text is cut at every LF, and a CR right
before the LF belongs to the separator. -/
def splitLines : List Char → List (List Char)
  | [] => [[]]
  | [c] => if c = Char.ofNat 10 then [[], []] else [[c]]
  | c :: d :: rest =>
    if c = Char.ofNat 10 then [] :: splitLines (d :: rest)
    else if c = Char.ofNat 13 ∧ d = Char.ofNat 10 then [] :: splitLines rest
    else consHead c (splitLines (d :: rest))

/-- The number of characters a greedy character class can take at most: the
length of the longest run of matching characters at the start. -/
def runLength (p : Char → Bool) (s : List Char) : Nat := (s.takeWhile p).length

/-- A greedy quantifier of a backtracking matcher: the rest of the pattern `k` is
tried after `n` repetitions, then after `n - 1`, and so on down to `lo`; the
first success is the match. -/
def tryDown {α : Type} (k : Nat → Option α) (lo : Nat) : Nat → Option α
  | 0 => if lo = 0 then k 0 else none
  | n + 1 =>
    if n + 1 < lo then none
    else
      match k (n + 1) with
      | some r => some r
      | none => tryDown k lo n

/-- The end `(.+)$` of the line pattern on the rest of the line: the capture
`m[2]`, if the pattern matches. -/
def matchTail (s : List Char) : Option (List Char) :=
  tryDown (fun t => if s.drop t = [] then some (s.take t) else none) 1
    (runLength (fun c => !isLineTerminator c) s)

/-- The part `\s*(.+)$` of the line pattern. -/
def matchContent (s : List Char) : Option (List Char) :=
  tryDown (fun v => matchTail (s.drop v)) 0 (runLength isJsSpace s)

/-- The part `\s*:\s*(.+)$` of the line pattern. -/
def matchColon (s : List Char) : Option (List Char) :=
  tryDown (fun w =>
    match s.drop w with
    | c :: rest => if c = ':' then matchContent rest else none
    | [] => none) 0 (runLength isJsSpace s)

/-- The part `([^:]{1,40})\s*:\s*(.+)$` of the line pattern: the captures
`(m[1], m[2])`. -/
def matchLabel (s : List Char) : Option (List Char × List Char) :=
  tryDown (fun j => (matchColon (s.drop j)).map (fun m2 => (s.take j, m2))) 1
    (min 40 (runLength (fun c => c ≠ ':') s))

/-- The call `line.match(/^\s*([^:]{1,40})\s*:\s*(.+)$/)`: the captures
`(m[1], m[2])`, or `none` for `null`. -/
def matchLine (line : List Char) : Option (List Char × List Char) :=
  tryDown (fun k => matchLabel (line.drop k)) 0 (runLength isJsSpace line)

/-- The speaker for a label: `whoRaw = m[1].trim().toLowerCase()`, then
`whoRaw.startsWith("a") ? "A" : whoRaw.startsWith("b") ? "B" : "other"`. -/
def whoOf (m1 : List Char) : String :=
  let whoRaw := toLowerCase (String.mk (jsTrim m1))
  if ("a".data).isPrefixOf whoRaw.data then "A"
  else if ("b".data).isPrefixOf whoRaw.data then "B"
  else "other"

/-- The body of `for (const line of lines)` in `stableSegmentFromText`. -/
def segmentStep (res : List Segment) (line : List Char) : List Segment :=
  match matchLine line with
  | some m => res ++ [{ who := whoOf m.1, text := String.mk m.2 }]
  | none =>
    if (jsTrim line).length ≠ 0 then res ++ [{ who := "other", text := String.mk (jsTrim line) }]
    else res

/-- Source `stableSegmentFromText(text)`; `toNFC` is the function of that name
(Unicode normalisation), a parameter of the model. -/
def stableSegmentFromText (toNFC : String → String) (text : String) : List Segment :=
  (splitLines (toNFC text).data).foldl segmentStep []

/-- The input of `run` as `toSegments` reads it: `text` if it is a string,
`segments` if it is an array. -/
structure RunInput where
  text : Option String
  segments : Option (List Segment)

/-- Source `toSegments(input)`. -/
def toSegments (toNFC : String → String) (input : RunInput) : List Segment :=
  if (input.segments.getD []).length ≠ 0 then
    (input.segments.getD []).map (fun s => { who := s.who, text := toNFC s.text })
  else
    match input.text with
    | some text =>
      if (jsTrim text.data).length ≠ 0 then stableSegmentFromText toNFC text else []
    | none => []
/-! ## Segmentation, as the specification words it -/

/-- The content of a labelled line, from the part of the line after the first
colon: that part without its leading white space, if it is not empty and holds
no line terminator; for a part of white space only, its last character, if
that is no line terminator. -/
def contentOf (afterColon : List Char) : Option (List Char) :=
  match afterColon.dropWhile isJsSpace with
  | c :: rest =>
    if (c :: rest).all (fun x => !isLineTerminator x) then some (c :: rest) else none
  | [] =>
    match afterColon.getLast? with
    | some c => if isLineTerminator c then none else some [c]
    | none => none

/-- The label of a labelled line, from the part of the line before the first
colon: that part without its leading white space, cut after 40 characters, if
nothing but white space follows the cut; for a part of white space only, its
last character. -/
def labelOf (beforeColon : List Char) : Option (List Char) :=
  match beforeColon.dropWhile isJsSpace with
  | c :: rest =>
    if ((c :: rest).drop 40).all isJsSpace then some ((c :: rest).take 40) else none
  | [] =>
    match beforeColon.getLast? with
    | some c => some [c]
    | none => none

/-- The label and the content of a line of the form `<label>: <content>`: the line
is cut at its first colon. -/
def parseLine (line : List Char) : Option (List Char × List Char) :=
  match line.dropWhile (fun c => c ≠ ':') with
  | _ :: afterColon =>
    match labelOf (line.takeWhile (fun c => c ≠ ':')), contentOf afterColon with
    | some label, some content => some (label, content)
    | _, _ => none
  | [] => none

/-- The speaker of a label: A if the trimmed label starts with `a` or `A`, B if it
starts with `b` or `B`, otherwise other. -/
def speakerOf (label : List Char) : String :=
  match (jsTrim label).head? with
  | some c =>
    if c = 'a' ∨ c = 'A' then "A" else if c = 'b' ∨ c = 'B' then "B" else "other"
  | none => "other"

/-- The segment of one line, as the specification words it: a labelled line
gives the speaker of its label and its content, every other non-blank line
gives speaker other and the trimmed line, a blank line gives no segment. -/
def lineSegment (line : List Char) : Option Segment :=
  match parseLine line with
  | some m => some { who := speakerOf m.1, text := String.mk m.2 }
  | none =>
    if jsTrim line ≠ [] then some { who := "other", text := String.mk (jsTrim line) } else none
/-- The list is empty or starts with a colon. -/
def ColonFirst (q : List Char) : Prop := ∀ c rest, q = c :: rest → c = ':'

/-- The label search of the line pattern for a fixed start: the characters the
group `([^:]{1,40})` takes when it starts after `k` characters of the part
before the colon and only white space may follow it. -/
def labelAt (beforeColon : List Char) (k : Nat) : Option (List Char) :=
  tryDown (fun j =>
    if (beforeColon.drop (k + j)).all isJsSpace = true then some ((beforeColon.drop k).take j)
    else none) 1 (min 40 (beforeColon.length - k))

/-- The label search of the line pattern over the starts that `^\s*` allows. -/
def labelSearch (beforeColon : List Char) : Option (List Char) :=
  tryDown (labelAt beforeColon) 0 (runLength isJsSpace beforeColon)
/-- The segment of one line, read literally: a line `<label>: <content>`
whose label, the part before the first colon, has between 1 and 40 characters
and whose content, the part after the colon and the white space behind it, is
not empty gives the speaker of the label and the content; every other non-blank
line gives speaker other and the trimmed line; a blank line gives no segment. -/
def claimedLineSegment (line : List Char) : Option Segment :=
  let label := line.takeWhile (fun c => c ≠ ':')
  let content := ((line.dropWhile (fun c => c ≠ ':')).drop 1).dropWhile isJsSpace
  if line.dropWhile (fun c => c ≠ ':') ≠ [] ∧ 1 ≤ label.length ∧ label.length ≤ 40
      ∧ content ≠ [] then
    some { who := speakerOf label, text := String.mk content }
  else if jsTrim line ≠ [] then some { who := "other", text := String.mk (jsTrim line) }
  else none
/-! ## The whole of `run` -/

/-- The output of `run`: `meta.elapsed_ms` and the fields the pipeline computes
(the three hashes of `meta` are outside the model). -/
structure TimedOutput where
  elapsed_ms : Int
  output : RunOutput

/-- Source `run(input, options)`.  The parameters are what a run reads from its
surroundings: the built-in objects (`E`, `M`, `toNFC`), the step budget of the
loops, the files `modes.json`, `markers_canonical.json` and
`promotion_mapping.json`, the heap with the base weights (`normalized.weights ||
defaultWeights`), `options.mode`, the input, and the two values of `Date.now()`.
The two schema validations and the hashes are outside the model. -/
def runTimed (E : RegexEngine) (M : JsMath) (toNFC : String → String) (fuel : Nat)
    (modes : Option (JsMap String ModeConf)) (canon : Canon) (promoMap : Option PromoMap)
    (H : WHeap) (baseWeights : WeightsRef) (optionsMode : Option String) (input : RunInput)
    (t0 t1 : Int) : Except Failure TimedOutput :=
  let normalized : RunInput :=
    { text := input.text.map toNFC,
      segments := input.segments.map (fun segs =>
        segs.map (fun s => { who := s.who, text := toNFC s.text })) }
  let mode := strOr optionsMode "dialog"
  match modeAdjustments modes (some mode) H baseWeights with
  | .error e => .error e
  | .ok adjusted =>
    match readWeights adjusted.1 adjusted.2 with
    | none => .error .typeError
    | some weights =>
      let segments := toSegments toNFC normalized
      match run E M fuel canon weights promoMap segments with
      | .error e => .error e
      | .ok out => .ok { elapsed_ms := t1 - t0, output := out }

/-- The outcome of a run without `meta.elapsed_ms`. -/
def TimedOutput.untimed (r : Except Failure TimedOutput) : Except Failure RunOutput :=
  match r with
  | .error e => .error e
  | .ok out => .ok out.output

/-- A second heap that holds the objects of `oneWeights` behind six other objects. -/
def laterHeap : WHeap := oneHeap ++ oneHeap

/-- The reference to the weights object at the end of `laterHeap`. -/
def laterRef : WeightsRef := freshRef 6 (fun _ => 0)

/-! ## Intuition tracker: counters and final states -/

/-- The value 1 for a stored state that is confirmed, 0 for any other state and
for a family that has no stored state. -/
def confirmedFlag : Option FamState → Nat
  | some st => if st.state = .confirmed then 1 else 0
  | none => 0

/-- The families of the map `famState` at the end of the loop of
`processIntuitionClu`, in insertion order. -/
def familiesSeen (opts : Option IntuitionOpts) (events : List CluEvent) : List String :=
  (intuitionLoop opts events).famState.map (fun kv => kv.1)

/-- The final state of the family `F`: the state stored in `famState` at the end
of the loop of `processIntuitionClu`. -/
def finalState (opts : Option IntuitionOpts) (events : List CluEvent) (F : String) :
    Option IntuitionState :=
  ((intuitionLoop opts events).famState.get F).map (fun st => st.state)

/-- The variables of the loop of `processIntuitionClu` after the events `done`. -/
def loopAfter (opts : Option IntuitionOpts) (done : List CluEvent) : IntuitionLoop :=
  done.foldl (intuitionStep opts) intuitionInit

/-- The iteration for `ev`, entered with the variables `L`, is an occurrence of
the family `F` that executes `retracted++`. -/
@[reducible] def RetractsAt (opts : Option IntuitionOpts) (F : String) (L : IntuitionLoop)
    (ev : CluEvent) : Prop :=
  familyOf opts ev.id = some F ∧ (intuitionStep opts L ev).retracted = L.retracted + 1

/-- The iteration for `ev`, entered with the variables `L`, is an occurrence of
the family `F` that executes `confirmed++`. -/
@[reducible] def ConfirmsAt (opts : Option IntuitionOpts) (F : String) (L : IntuitionLoop)
    (ev : CluEvent) : Prop :=
  familyOf opts ev.id = some F ∧ (intuitionStep opts L ev).confirmed = L.confirmed + 1

/-- An event of the marker `id` in segment `segIdx` that already carries the
property `meta.intuition_state = state`. -/
def taggedCluEvent (id : String) (segIdx : Nat) (state : String) : CluEvent :=
  { id := id, type := "CLU", span := some ⟨0, 0⟩, segment_idx := segIdx, who := "A",
    meta := some [("intuition_state", state)] }

/-- The number of entries of a map `famState` whose state is confirmed. -/
def confirmedCount (m : JsMap String FamState) : Nat :=
  (m.filter (fun kv => decide (kv.2.state = .confirmed))).length

/-! ## Counts over the segments -/

/-- The counter `bag[t]` read as a number: 0 when the property is absent. -/
def bagCount (bag : Bag) (t : String) : Nat := (JsMap.get bag t).getD 0

/-- The sum over the segments of `by_segment[i][t]`. -/
def segmentSum (c : Counts) (t : String) : Nat :=
  (c.by_segment.map (fun bag => bagCount bag t)).sum

/-- A catalog for the literal engine with the atomic markers `a` and `b`, the
semantic marker `SEM_AB` (tag `t1`) promoted from both, and an annotation rule
that annotates the cluster `CLU_Y` for the tag `t1`. -/
def pipelineCanon : Canon :=
  { markers := [⟨"ATO_A", "ATO", some "a", none, none⟩, ⟨"ATO_B", "ATO", some "b", none, none⟩,
                ⟨"SEM_AB", "SEM", none, none, some ["t1"]⟩],
    promotion_rules := some [coOccurRule ["ATO_A", "ATO_B"] 2 "SEM_AB"],
    annotation_rules := some [⟨"SEM", some ["t1"], some [⟨"CLU", "CLU_Y"⟩]⟩],
    globals := none }

/-! ## Detection: evidence and segment order -/

/-- The method `String.prototype.slice(a, b)` for indices that are not negative:
the characters from position `a` up to, not including, position `b`. -/
def jsSlice (s : String) (a b : Nat) : String := ⟨(s.data.drop a).take (b - a)⟩

/-- Every match the engine reports lies inside the scanned text and `m[0]` is
the text's substring that starts at `m.index`. -/
def MatchesSubstring (E : RegexEngine) : Prop :=
  ∀ (re : E.Regex) (str : String) (lastIndex index : Nat) (m0 : String),
    E.exec re str lastIndex = some (index, m0) →
      index + m0.length ≤ str.length ∧ m0 = jsSlice str index (index + m0.length)

/-- Two segments that both hold the atomic markers `a` and `b`. -/
def pairSegments : List Segment := [⟨"A", "ab"⟩, ⟨"B", "ba"⟩]

/-! ## Theorems -/

/-- C1: `gateOutput` returns true exactly when it is not the case that both the
number of markers of type ATO, SEM, CLU or MEMA is at least 5 and the number of
segments is at least 2; DETECT markers do not count (4 relevant markers plus a
DETECT marker with 2 segments is gated, 5 relevant markers with 2 segments is not). -/
theorem gateOutput_iff :
    (∀ (markersAll : List Marker) (segments : List Segment),
      gateOutput markersAll (some segments) = true ↔
        ¬ (5 ≤ (markersAll.filter (fun m =>
              m.type = "ATO" ∨ m.type = "SEM" ∨ m.type = "CLU" ∨ m.type = "MEMA")).length
            ∧ 2 ≤ segments.length))
    ∧ (∀ (markersAll : List Marker) (segments : List Segment),
        gateOutput (markersAll.filter (fun m => m.type ≠ "DETECT")) (some segments)
          = gateOutput markersAll (some segments))
    ∧ gateOutput [mkMarker "ATO", mkMarker "SEM", mkMarker "CLU", mkMarker "MEMA",
        mkMarker "DETECT"] (some [⟨"A", "x"⟩, ⟨"B", "y"⟩]) = true
    ∧ gateOutput [mkMarker "ATO", mkMarker "SEM", mkMarker "CLU", mkMarker "MEMA",
        mkMarker "ATO"] (some [⟨"A", "x"⟩, ⟨"B", "y"⟩]) = false := by
  refine ⟨?_, ?_, by decide, by decide⟩
  · intro markersAll segments
    have hf : (fun m : Marker => relevantTypes.contains m.type)
        = (fun m : Marker => decide
            (m.type = "ATO" ∨ m.type = "SEM" ∨ m.type = "CLU" ∨ m.type = "MEMA")) := by
      funext m
      simp [relevantTypes]
    simp only [gateOutput, hf]
    simp
    omega
  · intro markersAll segments
    have hf : ∀ m : Marker, relevantTypes.contains m.type = true → m.type ≠ "DETECT" := by
      intro m hm hd
      rw [hd] at hm
      exact absurd hm (by decide)
    have hfil : (markersAll.filter (fun m => m.type ≠ "DETECT")).filter
          (fun m => relevantTypes.contains m.type)
        = markersAll.filter (fun m => relevantTypes.contains m.type) := by
      rw [List.filter_filter]
      apply List.filter_congr
      intro m _
      by_cases h : relevantTypes.contains m.type = true
      · simp [h, hf m h]
      · rw [Bool.not_eq_true] at h
        rw [h, Bool.false_and]
    simp only [gateOutput, hfil]

/-! ### Promotion -/

theorem pushNew_of_mem {ks : List Nat} {k : Nat} (h : k ∈ ks) : pushNew ks k = ks := by
  simp [pushNew, h]

theorem pushNew_of_not_mem {ks : List Nat} {k : Nat} (h : k ∉ ks) :
    pushNew ks k = ks ++ [k] := by
  simp [pushNew, h]

theorem mem_foldl_pushNew (l : List Event) (ks : List Nat) (k : Nat) :
    k ∈ l.foldl (fun ks e => pushNew ks e.segment_idx) ks ↔
      k ∈ ks ∨ ∃ e ∈ l, e.segment_idx = k := by
  induction l generalizing ks with
  | nil => simp
  | cons e l ih =>
    rw [List.foldl_cons, ih]
    by_cases hmem : e.segment_idx ∈ ks
    · rw [pushNew_of_mem hmem]
      simp only [List.mem_cons, exists_eq_or_imp]
      constructor
      · rintro (h1 | h1)
        · exact Or.inl h1
        · exact Or.inr (Or.inr h1)
      · rintro (h1 | h1 | h1)
        · exact Or.inl h1
        · exact Or.inl (h1 ▸ hmem)
        · exact Or.inr h1
    · rw [pushNew_of_not_mem hmem, List.mem_append, List.mem_singleton]
      constructor
      · rintro ((h1 | h1) | ⟨e', he', hk⟩)
        · exact Or.inl h1
        · exact Or.inr ⟨e, List.mem_cons_self _ _, h1.symm⟩
        · exact Or.inr ⟨e', List.mem_cons_of_mem _ he', hk⟩
      · rintro (h1 | ⟨e', he', hk⟩)
        · exact Or.inl (Or.inl h1)
        · rcases List.mem_cons.1 he' with h2 | h2
          · exact Or.inl (Or.inr (h2 ▸ hk.symm))
          · exact Or.inr ⟨e', h2, hk⟩

theorem mem_segmentKeys (detected : List Event) (k : Nat) :
    k ∈ segmentKeys detected ↔ ∃ e ∈ detected, e.segment_idx = k := by
  unfold segmentKeys
  rw [mem_foldl_pushNew]
  simp

theorem nodup_foldl_pushNew (l : List Event) (ks : List Nat) (h : ks.Nodup) :
    (l.foldl (fun ks e => pushNew ks e.segment_idx) ks).Nodup := by
  induction l generalizing ks with
  | nil => simpa using h
  | cons e l ih =>
    rw [List.foldl_cons]
    apply ih
    by_cases hmem : e.segment_idx ∈ ks
    · rw [pushNew_of_mem hmem]
      exact h
    · rw [pushNew_of_not_mem hmem, List.nodup_append]
      refine ⟨h, List.nodup_singleton _, ?_⟩
      intro a ha hb
      rw [List.mem_singleton] at hb
      exact hmem (hb ▸ ha)

theorem nodup_segmentKeys (detected : List Event) : (segmentKeys detected).Nodup :=
  nodup_foldl_pushNew detected [] List.nodup_nil

theorem segmentKeys_snoc (pre : List Event) (ev : Event) :
    segmentKeys (pre ++ [ev]) = pushNew (segmentKeys pre) ev.segment_idx := by
  simp [segmentKeys, List.foldl_append]

theorem eventsOf_snoc (pre : List Event) (ev : Event) (k : Nat) :
    eventsOf (pre ++ [ev]) k = eventsOf pre k ++ (if ev.segment_idx = k then [ev] else []) := by
  unfold eventsOf
  rw [List.filter_append]
  by_cases h : ev.segment_idx = k <;> simp [h]

theorem eventsOf_eq_nil (detected : List Event) (k : Nat) (h : k ∉ segmentKeys detected) :
    eventsOf detected k = [] := by
  unfold eventsOf
  rw [List.filter_eq_nil_iff]
  intro e he hk
  exact h ((mem_segmentKeys detected k).2 ⟨e, he, by simpa using hk⟩)

theorem JsMap.has_keyed (ks : List Nat) (f : Nat → List Event) (k : Nat) :
    JsMap.has (ks.map (fun k' => (k', f k'))) k = ks.contains k := by
  induction ks with
  | nil => rfl
  | cons a ks ih =>
    simp only [JsMap.has] at ih
    simp only [JsMap.has, List.map_cons, List.any_cons, ih, List.contains_cons]
    by_cases h : a = k
    · subst h
      simp
    · have h2 : ¬ k = a := fun e => h e.symm
      simp [h, h2]

theorem JsMap.set_keyed (ks : List Nat) (f : Nat → List Event) (k : Nat) (v : List Event)
    (h : k ∉ ks) :
    JsMap.set (ks.map (fun k' => (k', f k'))) k v = ks.map (fun k' => (k', f k')) ++ [(k, v)] := by
  induction ks with
  | nil => rfl
  | cons a ks ih =>
    have ha : ¬ a = k := fun e => h (e ▸ List.mem_cons_self _ _)
    have hk : k ∉ ks := fun hm => h (List.mem_cons_of_mem _ hm)
    simp only [List.map_cons, JsMap.set, ha, if_false, ih hk, List.cons_append]

theorem groupStep_keyed (pre : List Event) (ev : Event) :
    groupStep ((segmentKeys pre).map (fun k => (k, eventsOf pre k))) ev
      = (segmentKeys (pre ++ [ev])).map (fun k => (k, eventsOf (pre ++ [ev]) k)) := by
  unfold groupStep
  rw [JsMap.has_keyed, segmentKeys_snoc]
  by_cases hmem : ev.segment_idx ∈ segmentKeys pre
  · have h : (segmentKeys pre).contains ev.segment_idx = true := by simpa using hmem
    rw [pushNew_of_mem hmem]
    simp only [h, Bool.not_true, Bool.false_eq_true, if_false, JsMap.update, List.map_map]
    apply List.map_congr_left
    intro k _
    simp only [Function.comp, eventsOf_snoc]
    by_cases hk : k = ev.segment_idx
    · simp [hk]
    · have hk2 : ¬ ev.segment_idx = k := fun e => hk e.symm
      simp [hk, hk2]
  · have h : (segmentKeys pre).contains ev.segment_idx = false := by simpa using hmem
    rw [pushNew_of_not_mem hmem]
    simp only [h, Bool.not_false, if_true]
    rw [JsMap.set_keyed _ _ _ _ hmem]
    simp only [JsMap.update, List.map_append, List.map_map, List.map_cons, List.map_nil,
      if_true, List.nil_append, eventsOf_snoc, eventsOf_eq_nil pre _ hmem]
    congr 1
    apply List.map_congr_left
    intro k hk
    have hk1 : ¬ k = ev.segment_idx := fun e => hmem (e ▸ hk)
    have hk2 : ¬ ev.segment_idx = k := fun e => hk1 e.symm
    simp [Function.comp, hk1, hk2]

theorem foldl_groupStep_keyed (l pre : List Event) :
    l.foldl groupStep ((segmentKeys pre).map (fun k => (k, eventsOf pre k)))
      = (segmentKeys (pre ++ l)).map (fun k => (k, eventsOf (pre ++ l) k)) := by
  induction l generalizing pre with
  | nil => simp
  | cons ev l ih =>
    rw [List.foldl_cons, groupStep_keyed, ih]
    simp

/-- The map `bySeg` holds, for each distinct segment index in order of first
occurrence, the events of that segment in detection order. -/
theorem groupBySegment_eq (detected : List Event) :
    groupBySegment detected = (segmentKeys detected).map (fun k => (k, eventsOf detected k)) := by
  have h := foldl_groupStep_keyed detected []
  simpa [groupBySegment, segmentKeys] using h

theorem promotionFor_eq_nil (segIdx : Nat) (events : List Event) (rule : PromotionRule)
    (h : ¬ ruleMin rule ≤ (matchCount events rule : Int)) :
    promotionFor segIdx events rule = [] := by
  unfold promotionFor
  unfold matchCount at h
  cases hf : events.filter (fun e => (ruleIds rule).contains e.id) with
  | nil => rfl
  | cons baseEv more =>
    rw [hf] at h
    simp only [List.length_cons] at h
    simp only [h, if_false]

theorem promotionFor_length (segIdx : Nat) (events : List Event) (rule : PromotionRule)
    (hpos : 0 < ruleMin rule) :
    (promotionFor segIdx events rule).length
      = if ruleMin rule ≤ (matchCount events rule : Int) then 1 else 0 := by
  by_cases h : ruleMin rule ≤ (matchCount events rule : Int)
  · rw [if_pos h]
    unfold promotionFor
    unfold matchCount at h
    cases hf : events.filter (fun e => (ruleIds rule).contains e.id) with
    | nil =>
      rw [hf] at h
      simp only [List.length_nil, Nat.cast_zero] at h
      omega
    | cons baseEv more =>
      rw [hf] at h
      simp only [List.length_cons] at h
      simp only [h, if_true, List.length_singleton]
  · rw [if_neg h, promotionFor_eq_nil segIdx events rule h]
    rfl

theorem promotionFor_segment (segIdx : Nat) (events : List Event) (rule : PromotionRule) :
    ∀ p ∈ promotionFor segIdx events rule, p.segment_idx = segIdx := by
  intro p hp
  unfold promotionFor at hp
  split at hp
  · simp at hp
  · split at hp
    · rw [List.mem_singleton] at hp
      rw [hp]
    · simp at hp

theorem applyRules_cons (segIdx : Nat) (events : List Event) (rule : PromotionRule)
    (rest : List PromotionRule) (hpos : 0 < ruleMin rule) (promotions : List Promotion) :
    applyRules segIdx events (rule :: rest) promotions
      = applyRules segIdx events rest (promotions ++ promotionFor segIdx events rule) := by
  rw [applyRules]
  unfold promotionFor
  generalize events.filter (fun e => (ruleIds rule).contains e.id) = found
  cases found with
  | nil =>
    have hlt : ¬ ((([] : List Event).length : Nat) : Int) ≥ ruleMin rule := by
      simp only [List.length_nil, Nat.cast_zero]
      omega
    simp only [hlt, if_false, List.append_nil]
  | cons baseEv more =>
    by_cases hge : ruleMin rule ≤ (((more.length + 1 : Nat)) : Int)
    · have hge2 : (((baseEv :: more).length : Nat) : Int) ≥ ruleMin rule := by
        simpa using hge
      simp only [hge2, hge, if_true, List.head?_cons]
    · have hge2 : ¬ (((baseEv :: more).length : Nat) : Int) ≥ ruleMin rule := by
        simpa using hge
      simp only [hge2, hge, if_false, List.append_nil]

theorem applyRules_eq (segIdx : Nat) (events : List Event) (rules : List PromotionRule)
    (hpos : ∀ r ∈ rules, 0 < ruleMin r) (promotions : List Promotion) :
    applyRules segIdx events rules promotions
      = .ok (promotions ++ rules.flatMap (promotionFor segIdx events)) := by
  induction rules generalizing promotions with
  | nil => simp [applyRules]
  | cons rule rest ih =>
    have hrule : 0 < ruleMin rule := hpos rule (List.mem_cons_self _ _)
    have hrest : ∀ r ∈ rest, 0 < ruleMin r := fun r hr => hpos r (List.mem_cons_of_mem _ hr)
    rw [applyRules_cons _ _ _ _ hrule, ih hrest, List.flatMap_cons, List.append_assoc]

theorem applyEntries_eq (rules : List PromotionRule) (hpos : ∀ r ∈ rules, 0 < ruleMin r)
    (entries : JsMap Nat (List Event)) (promotions : List Promotion) :
    applyEntries rules entries promotions
      = .ok (promotions
          ++ entries.flatMap (fun kv => rules.flatMap (promotionFor kv.1 kv.2))) := by
  induction entries generalizing promotions with
  | nil => simp [applyEntries]
  | cons kv rest ih =>
    obtain ⟨segIdx, events⟩ := kv
    simp only [applyEntries, applyRules_eq segIdx events rules hpos, ih, List.flatMap_cons,
      List.append_assoc]

/-- The promotions of `applyPromotion`, as the specification words them: for each
distinct segment with detected events, in order of first occurrence, and for each
rule in order, the promotion step of that segment and rule. -/
theorem applyPromotion_eq (segments : List Segment) (detected : List Event) (canon : Canon)
    (promoMap : Option PromoMap)
    (hpos : ∀ r ∈ effectiveRules canon promoMap, 0 < ruleMin r) :
    applyPromotion segments detected canon promoMap
      = .ok ((segmentKeys detected).flatMap (fun k =>
          (effectiveRules canon promoMap).flatMap (promotionFor k (eventsOf detected k)))) := by
  unfold applyPromotion
  rw [applyEntries_eq _ hpos, groupBySegment_eq, List.nil_append, List.flatMap_map]

theorem flatMap_ite_eq (l : List Nat) (hl : l.Nodup) (k : Nat) (block : List Promotion) :
    l.flatMap (fun k' => if k' = k then block else []) = if k ∈ l then block else [] := by
  induction l with
  | nil => simp
  | cons a l ih =>
    rw [List.nodup_cons] at hl
    rw [List.flatMap_cons, ih hl.2]
    by_cases ha : a = k
    · subst ha
      simp [hl.1]
    · have ha2 : ¬ k = a := fun e => ha e.symm
      simp [ha, ha2]

theorem length_flatMap_indicator {α β : Type} (l : List α) (f : α → List β) (p : α → Prop)
    [DecidablePred p] (h : ∀ a ∈ l, (f a).length = if p a then 1 else 0) :
    (l.flatMap f).length = (l.filter (fun a => decide (p a))).length := by
  induction l with
  | nil => simp
  | cons a l ih =>
    have ha := h a (List.mem_cons_self _ _)
    have hl := ih (fun b hb => h b (List.mem_cons_of_mem _ hb))
    rw [List.flatMap_cons, List.length_append, hl, ha]
    by_cases hp : p a
    · simp [hp, List.filter_cons, Nat.add_comm]
    · simp [hp, List.filter_cons]

/-- Among the promotions of `applyPromotion`, those of segment `k` are the
promotion steps of segment `k` for the rules in order. -/
theorem applyPromotion_segment (segments : List Segment) (detected : List Event) (canon : Canon)
    (promoMap : Option PromoMap)
    (hpos : ∀ r ∈ effectiveRules canon promoMap, 0 < ruleMin r) :
    ∃ out, applyPromotion segments detected canon promoMap = .ok out ∧
      ∀ k, out.filter (fun p => p.segment_idx = k)
        = (effectiveRules canon promoMap).flatMap (promotionFor k (eventsOf detected k)) := by
  refine ⟨_, applyPromotion_eq segments detected canon promoMap hpos, ?_⟩
  intro k
  have hblock : ∀ k', ((effectiveRules canon promoMap).flatMap
        (promotionFor k' (eventsOf detected k'))).filter (fun p => p.segment_idx = k)
      = if k' = k then
          (effectiveRules canon promoMap).flatMap (promotionFor k (eventsOf detected k))
        else [] := by
    intro k'
    by_cases hk : k' = k
    · subst hk
      rw [if_pos rfl, List.filter_eq_self]
      intro p hp
      obtain ⟨r, _, hpr⟩ := List.mem_flatMap.1 hp
      simpa using promotionFor_segment _ _ _ p hpr
    · rw [if_neg hk, List.filter_eq_nil_iff]
      intro p hp
      obtain ⟨r, _, hpr⟩ := List.mem_flatMap.1 hp
      have := promotionFor_segment _ _ _ p hpr
      simpa [this] using hk
  rw [List.filter_flatMap]
  simp only [hblock]
  rw [flatMap_ite_eq _ (nodup_segmentKeys detected)]
  by_cases hk : k ∈ segmentKeys detected
  · rw [if_pos hk]
  · rw [if_neg hk, eventsOf_eq_nil detected k hk]
    symm
    rw [List.flatMap_eq_nil_iff]
    intro r _
    rfl

theorem effectiveRules_eq (canon : Canon) (promoMap : Option PromoMap) :
    effectiveRules canon promoMap
      = canon.promotion_rules.getD []
          ++ ((promoMap.bind (fun pm => pm.map)).getD []).filterMap mapEntryRule := by
  unfold effectiveRules
  cases h : promoMap.bind (fun pm => pm.map) with
  | none => simp
  | some map =>
    cases map with
    | nil => simp
    | cons e rest => simp

theorem intOr_ne_zero (a : Option Int) (b : Int) (hb : b ≠ 0) : intOr a b ≠ 0 := by
  unfold intOr
  cases a with
  | none => exact hb
  | some n =>
    by_cases hn : n = 0
    · simpa [hn] using hb
    · simp [hn]

theorem mapEntryRule_spec (r : MapEntry) (rule : PromotionRule) (h : mapEntryRule r = some rule) :
    (∃ promote, r.promote = some promote ∧ promote ≠ "" ∧ rule.produce.id = promote)
    ∧ r.from_ATO_ids = some (ruleIds rule)
    ∧ ruleMin rule
        = intOr ((r.when.bind (fun w => w.segment_co_occurs)).bind (fun c => c.min_ATO)) 2 := by
  unfold mapEntryRule at h
  split at h
  · rename_i hne
    split at h
    · rename_i ids hids
      injection h with h
      subst h
      refine ⟨?_, ?_, ?_⟩
      · cases hp : r.promote with
        | none => simp [strOr, hp] at hne
        | some promote =>
          refine ⟨promote, rfl, ?_, ?_⟩
          · intro he
            simp [strOr, hp, he] at hne
          · have hne2 : promote ≠ "" := by
              intro he
              simp [strOr, hp, he] at hne
            simp [strOr, hne2]
      · simp [ruleIds, hids]
      · have hnz := intOr_ne_zero
          ((r.when.bind (fun w => w.segment_co_occurs)).bind (fun c => c.min_ATO)) 2 (by decide)
        simp only [ruleMin, Option.bind_some]
        generalize intOr ((r.when.bind (fun w => w.segment_co_occurs)).bind
          (fun c => c.min_ATO)) 2 = v at hnz
        simp [intOr, hnz]
    · exact absurd h (by simp)
  · exact absurd h (by simp)

/-- C2, as amended: the rules are the catalog's `promotion_rules` followed by one
rule per promotion-mapping entry that has a non-empty `promote` and an id list;
the minimum of a rule is its `min` (`min_ATO` for a mapping entry) when that is
present and not 0, and 2 otherwise.  When no minimum is negative, `applyPromotion`
returns, for each distinct segment with detected events and each rule in order,
exactly one record when the segment's events with an id in the rule's list are at
least the minimum, and none otherwise; no segment is visited twice. -/
theorem applyPromotion_one_record_per_pair (segments : List Segment) (detected : List Event)
    (canon : Canon) (promoMap : Option PromoMap)
    (hpos : ∀ r ∈ effectiveRules canon promoMap, 0 < ruleMin r) :
    ∃ out, applyPromotion segments detected canon promoMap = .ok out
      ∧ out = (segmentKeys detected).flatMap (fun k =>
          (effectiveRules canon promoMap).flatMap (promotionFor k (eventsOf detected k)))
      ∧ (segmentKeys detected).Nodup
      ∧ (∀ k, k ∈ segmentKeys detected ↔ ∃ e ∈ detected, e.segment_idx = k)
      ∧ (∀ k, ∀ r ∈ effectiveRules canon promoMap,
          (promotionFor k (eventsOf detected k) r).length
            = if ruleMin r ≤ (matchCount (eventsOf detected k) r : Int) then 1 else 0)
      ∧ (∀ k, (out.filter (fun p => p.segment_idx = k)).length
          = ((effectiveRules canon promoMap).filter (fun r =>
              decide (ruleMin r ≤ (matchCount (eventsOf detected k) r : Int)))).length)
      ∧ effectiveRules canon promoMap
          = canon.promotion_rules.getD []
              ++ ((promoMap.bind (fun pm => pm.map)).getD []).filterMap mapEntryRule
      ∧ (∀ (r : PromotionRule) (m : Int),
          (r.when.bind (fun w => w.segment_co_occurs)).bind (fun c => c.min) = some m →
            ruleMin r = if m = 0 then 2 else m)
      ∧ (∀ r : PromotionRule,
          (r.when.bind (fun w => w.segment_co_occurs)).bind (fun c => c.min) = none →
            ruleMin r = 2)
      ∧ (∀ (e : MapEntry) (r : PromotionRule), mapEntryRule e = some r →
          e.from_ATO_ids = some (ruleIds r) ∧ ruleMin r
            = intOr ((e.when.bind (fun w => w.segment_co_occurs)).bind (fun c => c.min_ATO)) 2) := by
  obtain ⟨out, hout, hseg⟩ := applyPromotion_segment segments detected canon promoMap hpos
  have heq := applyPromotion_eq segments detected canon promoMap hpos
  have hout2 : out = (segmentKeys detected).flatMap (fun k =>
      (effectiveRules canon promoMap).flatMap (promotionFor k (eventsOf detected k))) := by
    rw [hout] at heq
    injection heq
  refine ⟨out, hout, hout2, nodup_segmentKeys detected, mem_segmentKeys detected, ?_, ?_,
    effectiveRules_eq canon promoMap, ?_, ?_, ?_⟩
  · intro k r hr
    exact promotionFor_length k _ r (hpos r hr)
  · intro k
    rw [hseg k]
    exact length_flatMap_indicator (effectiveRules canon promoMap)
      (promotionFor k (eventsOf detected k))
      (fun r => ruleMin r ≤ (matchCount (eventsOf detected k) r : Int))
      (fun r hr => promotionFor_length k _ r (hpos r hr))
  · intro r m hm
    simp only [ruleMin, hm, intOr]
  · intro r hm
    simp only [ruleMin, hm, intOr]
  · intro e r her
    exact ⟨(mapEntryRule_spec e r her).2.1, (mapEntryRule_spec e r her).2.2⟩

/-- C2, witness: two segments and the rule `{ids: [ATO_A, ATO_B], min: 2}`; segment 0
reaches the minimum and gets one record, segment 1 does not. -/
theorem applyPromotion_one_record_per_pair_witness :
    (∀ r ∈ effectiveRules (canonWithRules [coOccurRule ["ATO_A", "ATO_B"] 2 "SEM_AB"]) none,
        0 < ruleMin r)
    ∧ ∃ out, applyPromotion []
          [mkEvent "ATO_A" 0 "A", mkEvent "ATO_B" 0 "B", mkEvent "ATO_A" 1 "B"]
          (canonWithRules [coOccurRule ["ATO_A", "ATO_B"] 2 "SEM_AB"]) none = .ok out
        ∧ (out.filter (fun p => p.segment_idx = 0)).length = 1
        ∧ (out.filter (fun p => p.segment_idx = 1)).length = 0 := by
  refine ⟨by decide, ?_⟩
  obtain ⟨out, h1, _, _, _, _, h6, _⟩ := applyPromotion_one_record_per_pair []
    [mkEvent "ATO_A" 0 "A", mkEvent "ATO_B" 0 "B", mkEvent "ATO_A" 1 "B"]
    (canonWithRules [coOccurRule ["ATO_A", "ATO_B"] 2 "SEM_AB"]) none (by decide)
  refine ⟨out, h1, ?_, ?_⟩
  · rw [h6 0]
    decide
  · rw [h6 1]
    decide

/-- C2, counterexample: a rule that declares the minimum 0.  One event of segment 0
has an id of the rule's list, so the count (1) reaches the declared minimum (0),
yet `applyPromotion` emits no record: `0 || 2` makes the minimum 2. -/
theorem applyPromotion_declared_zero_min :
    declaredMin (coOccurRule ["ATO_A"] 0 "SEM_X")
        ≤ (matchCount (eventsOf [mkEvent "ATO_A" 0 "A"] 0) (coOccurRule ["ATO_A"] 0 "SEM_X") : Int)
    ∧ applyPromotion [] [mkEvent "ATO_A" 0 "A"]
        (canonWithRules [coOccurRule ["ATO_A"] 0 "SEM_X"]) none = .ok [] := by
  decide

theorem promotionFor_sem_ids (segIdx : Nat) (events : List Event) (rule : PromotionRule)
    (hpos : 0 < ruleMin rule) :
    (promotionFor segIdx events rule).map (fun p => p.sem_id)
      = if ruleMin rule ≤ (matchCount events rule : Int) then [rule.produce.id] else [] := by
  unfold promotionFor matchCount
  generalize events.filter (fun e => (ruleIds rule).contains e.id) = found
  cases found with
  | nil =>
    have hlt : ¬ ruleMin rule ≤ ((([] : List Event).length : Nat) : Int) := by
      simp only [List.length_nil, Nat.cast_zero]
      omega
    simp only [hlt, if_false, List.map_nil]
  | cons baseEv more =>
    simp only [List.length_cons]
    by_cases hge : ruleMin rule ≤ (((more.length + 1 : Nat)) : Int)
    · simp only [hge, if_true, List.map_cons, List.map_nil]
    · simp only [hge, if_false, List.map_nil]

/-- C3, as amended: for the rule `{ids: [ATO_A, ATO_B], min: 2}`, `applyPromotion`
emits the promotion for a segment exactly when at least two detected events of
the segment carry a listed id.  So it promotes a segment that contains both ids
once each, it emits nothing for a segment with at most one such event, and it
promotes a segment whose events carry only one of the two ids as soon as two of
its events carry that id. -/
theorem pair_rule_promotes_iff (segments : List Segment) (detected : List Event)
    (semId : String) :
    (∃ out, applyPromotion segments detected
          (canonWithRules [coOccurRule ["ATO_A", "ATO_B"] 2 semId]) none = .ok out
        ∧ ∀ k, (out.filter (fun p => p.segment_idx = k)).map (fun p => p.sem_id)
            = if 2 ≤ ((eventsOf detected k).filter
                  (fun e => e.id = "ATO_A" ∨ e.id = "ATO_B")).length
              then [semId] else [])
    ∧ applyPromotion [] [mkEvent "ATO_A" 0 "A", mkEvent "ATO_B" 0 "B"]
          (canonWithRules [coOccurRule ["ATO_A", "ATO_B"] 2 "SEM_AB"]) none
        = .ok [{ sem_id := "SEM_AB", from_atos := ["ATO_A", "ATO_B"], segment_idx := 0,
                 who := "A" }]
    ∧ applyPromotion [] [mkEvent "ATO_A" 0 "A", mkEvent "ATO_B" 1 "B"]
          (canonWithRules [coOccurRule ["ATO_A", "ATO_B"] 2 "SEM_AB"]) none = .ok [] := by
  refine ⟨?_, by decide, by decide⟩
  have hrules : effectiveRules (canonWithRules [coOccurRule ["ATO_A", "ATO_B"] 2 semId]) none
      = [coOccurRule ["ATO_A", "ATO_B"] 2 semId] := rfl
  have hmin : ruleMin (coOccurRule ["ATO_A", "ATO_B"] 2 semId) = 2 := rfl
  have hpos : ∀ r ∈ effectiveRules (canonWithRules [coOccurRule ["ATO_A", "ATO_B"] 2 semId])
      none, 0 < ruleMin r := by
    intro r hr
    rw [hrules, List.mem_singleton] at hr
    rw [hr, hmin]
    decide
  obtain ⟨out, hout, hseg⟩ := applyPromotion_segment segments detected _ none hpos
  refine ⟨out, hout, ?_⟩
  intro k
  rw [hseg k, hrules, List.flatMap_cons, List.flatMap_nil, List.append_nil,
    promotionFor_sem_ids _ _ _ (by rw [hmin]; decide), hmin]
  have hcount : matchCount (eventsOf detected k) (coOccurRule ["ATO_A", "ATO_B"] 2 semId)
      = ((eventsOf detected k).filter (fun e => e.id = "ATO_A" ∨ e.id = "ATO_B")).length := by
    unfold matchCount
    congr 1
    apply List.filter_congr
    intro e _
    simp [ruleIds, coOccurRule]
  rw [hcount]
  have hid : (coOccurRule ["ATO_A", "ATO_B"] 2 semId).produce.id = semId := rfl
  rw [hid]
  by_cases h : 2 ≤ ((eventsOf detected k).filter
      (fun e => e.id = "ATO_A" ∨ e.id = "ATO_B")).length
  · have h2 : (2 : Int) ≤ (((eventsOf detected k).filter
        (fun e => e.id = "ATO_A" ∨ e.id = "ATO_B")).length : Int) := by exact_mod_cast h
    rw [if_pos h, if_pos h2]
  · have h2 : ¬ (2 : Int) ≤ (((eventsOf detected k).filter
        (fun e => e.id = "ATO_A" ∨ e.id = "ATO_B")).length : Int) := by
      intro hc
      exact h (by exact_mod_cast hc)
    rw [if_neg h, if_neg h2]

/-- C3, counterexample: the two detected events of segment 0 both carry `ATO_A`, so
the segment carries only one of the two listed ids, yet the rule
`{ids: [ATO_A, ATO_B], min: 2}` promotes it. -/
theorem pair_rule_repeated_id_promotes :
    (∀ e ∈ [mkEvent "ATO_A" 0 "A", mkEvent "ATO_A" 0 "A"], e.id = "ATO_A")
    ∧ applyPromotion [] [mkEvent "ATO_A" 0 "A", mkEvent "ATO_A" 0 "A"]
          (canonWithRules [coOccurRule ["ATO_A", "ATO_B"] 2 "SEM_AB"]) none
        = .ok [{ sem_id := "SEM_AB", from_atos := ["ATO_A", "ATO_A"], segment_idx := 0,
                 who := "A" }] := by
  decide

/-! ### Detection -/

theorem buildOffsets_eq (sep : String) (segments : List Segment) (off : Nat)
    (indexOffsets : List Nat) :
    buildOffsets sep segments off indexOffsets = indexOffsets ++ offsetsFrom sep off segments := by
  induction segments generalizing off indexOffsets with
  | nil => simp [buildOffsets, offsetsFrom]
  | cons s rest ih => simp [buildOffsets, offsetsFrom, ih]

theorem newline_length : ("\n" : String).length = 1 := by decide

theorem offsetsFrom_getD (segments : List Segment) (off i : Nat) (hi : i < segments.length) :
    (offsetsFrom "\n" off segments).getD i 0 = off + segmentOffset segments i := by
  induction segments generalizing off i with
  | nil => simp at hi
  | cons s rest ih =>
    cases i with
    | zero => simp [offsetsFrom, segmentOffset]
    | succ i =>
      have hi2 : i < rest.length := by simpa using hi
      simp only [offsetsFrom, List.getD_cons_succ, ih _ i hi2, newline_length, segmentOffset,
        List.take_succ_cons, List.map_cons, List.sum_cons]
      omega

/-- The offset table of `buildGlobalText` holds, for each segment, the sum of
`length + 1` over the segments before it. -/
theorem indexOffsets_getD (segments : List Segment) (i : Nat) (hi : i < segments.length) :
    (buildGlobalText segments).indexOffsets.getD i 0 = segmentOffset segments i := by
  simp only [buildGlobalText, buildOffsets_eq, List.nil_append]
  rw [offsetsFrom_getD segments 0 i hi]
  omega

theorem buildGlobalText_text (segments : List Segment) :
    (buildGlobalText segments).text = globalText segments := rfl

/-- A segment's text ends inside the global text. -/
theorem segment_end_le_globalText (segments : List Segment) (i : Nat) (seg : Segment)
    (h : segments[i]? = some seg) :
    segmentOffset segments i + seg.text.length ≤ (globalText segments).length := by
  induction segments generalizing i with
  | nil => simp at h
  | cons s rest ih =>
    cases rest with
    | nil =>
      cases i with
      | zero =>
        simp only [List.getElem?_cons_zero, Option.some.injEq] at h
        subst h
        simp [segmentOffset, globalText, joinWith]
      | succ i => simp at h
    | cons t rest =>
      have hlen : (globalText (s :: t :: rest)).length
          = s.text.length + 1 + (globalText (t :: rest)).length := by
        simp only [globalText, List.map_cons, joinWith, String.length_append, newline_length]
      cases i with
      | zero =>
        simp only [List.getElem?_cons_zero, Option.some.injEq] at h
        subst h
        rw [hlen]
        simp [segmentOffset]
        omega
      | succ i =>
        have h2 : (t :: rest)[i]? = some seg := by simpa using h
        have := ih i h2
        rw [hlen]
        simp only [segmentOffset, List.take_succ_cons, List.map_cons, List.sum_cons] at this ⊢
        omega

/-- The `while` loop only appends events, each one inside the scanned segment. -/
theorem execLoop_appends (E : RegexEngine) (hE : MatchesInside E) (reAll : E.Regex)
    (global : Bool) (mk : MarkerDef) (seg : Segment) (segIdx base : Nat) (fuel lastIndex : Nat)
    (out out' : List Event)
    (h : execLoop E reAll global mk seg segIdx base fuel lastIndex out = .ok out') :
    ∃ new, out' = out ++ new ∧ ∀ e ∈ new, e.segment_idx = segIdx ∧ e.who = seg.who
      ∧ base ≤ e.span.start ∧ e.span.start ≤ e.span.stop
      ∧ e.span.stop ≤ base + seg.text.length := by
  induction fuel generalizing lastIndex out with
  | zero => simp [execLoop] at h
  | succ fuel ih =>
    rw [execLoop] at h
    cases hx : E.exec reAll seg.text lastIndex with
    | none =>
      rw [hx] at h
      injection h with h
      exact ⟨[], by simp [h], by simp⟩
    | some r =>
      obtain ⟨index, m0⟩ := r
      rw [hx] at h
      have hin := hE reAll seg.text lastIndex index m0 hx
      cases global with
      | true =>
        simp only [Bool.not_true, Bool.false_eq_true, if_false] at h
        obtain ⟨new, hout, hall⟩ := ih _ _ h
        refine ⟨[_] ++ new, by rw [hout, List.append_assoc], ?_⟩
        intro e he
        rcases List.mem_append.1 he with he | he
        · rw [List.mem_singleton] at he
          subst he
          refine ⟨rfl, rfl, ?_, ?_, ?_⟩
          · show base ≤ base + index
            omega
          · show base + index ≤ base + index + m0.length
            omega
          · show base + index + m0.length ≤ base + seg.text.length
            omega
        · exact hall e he
      | false =>
        simp only [Bool.not_false, if_true] at h
        injection h with h
        refine ⟨_, h.symm, ?_⟩
        intro e he
        rw [List.mem_singleton] at he
        subst he
        refine ⟨rfl, rfl, ?_, ?_, ?_⟩
        · show base ≤ base + index
          omega
        · show base + index ≤ base + index + m0.length
          omega
        · show base + index + m0.length ≤ base + seg.text.length
          omega

/-- The loop over the catalog only appends events, each one inside the scanned
segment. -/
theorem scanMarkers_appends (E : RegexEngine) (hE : MatchesInside E) (canon : Canon)
    (seg : Segment) (segIdx base fuel : Nat) (markers : List MarkerDef) (out out' : List Event)
    (h : scanMarkers E canon seg segIdx base fuel markers out = .ok out') :
    ∃ new, out' = out ++ new ∧ ∀ e ∈ new, e.segment_idx = segIdx ∧ e.who = seg.who
      ∧ base ≤ e.span.start ∧ e.span.start ≤ e.span.stop
      ∧ e.span.stop ≤ base + seg.text.length := by
  induction markers generalizing out with
  | nil =>
    simp only [scanMarkers] at h
    injection h with h
    exact ⟨[], by simp [h], by simp⟩
  | cons mk rest ih =>
    rw [scanMarkers] at h
    by_cases ht : mk.type = "DETECT" ∨ mk.type = "ATO" ∨ mk.type = "SEM"
    · rw [if_pos ht] at h
      by_cases hr : strOr mk.regex "" ≠ ""
      · rw [if_pos hr] at h
        cases hc : E.compile (strOr mk.regex "") (regexFlags canon mk) with
        | none =>
          simp only [hc] at h
          exact absurd h (by simp)
        | some reAll =>
          simp only [hc] at h
          cases hl : execLoop E reAll ((regexFlags canon mk).data.contains 'g') mk seg segIdx
              base fuel 0 out with
          | error e =>
            rw [hl] at h
            exact absurd h (by simp)
          | ok mid =>
            rw [hl] at h
            obtain ⟨new1, h1, hall1⟩ := execLoop_appends E hE _ _ _ _ _ _ _ _ _ _ hl
            obtain ⟨new2, h2, hall2⟩ := ih _ h
            refine ⟨new1 ++ new2, by rw [h2, h1, List.append_assoc], ?_⟩
            intro e he
            rcases List.mem_append.1 he with he | he
            · exact hall1 e he
            · exact hall2 e he
      · rw [if_neg hr] at h
        exact ih _ h
    · rw [if_neg ht] at h
      exact ih _ h

/-- The loop over the segments only appends events, each one inside its segment. -/
theorem scanSegments_appends (E : RegexEngine) (hE : MatchesInside E) (canon : Canon)
    (segments : List Segment) (fuel : Nat) (pre rest : List Segment)
    (hsplit : segments = pre ++ rest) (out out' : List Event)
    (h : scanSegments E canon (buildGlobalText segments).indexOffsets fuel rest pre.length out
      = .ok out') :
    ∃ new, out' = out ++ new ∧ ∀ e ∈ new, EventInSegment segments e := by
  induction rest generalizing pre out with
  | nil =>
    simp only [scanSegments] at h
    injection h with h
    exact ⟨[], by simp [h], by simp⟩
  | cons seg rest ih =>
    rw [scanSegments] at h
    split at h
    · exact absurd h (by simp)
    · rename_i mid hmid
      have hget : segments[pre.length]? = some seg := by
        rw [hsplit, List.getElem?_append_right (le_refl _)]
        simp
      have hlt : pre.length < segments.length := by
        rw [hsplit]
        simp
      obtain ⟨new1, h1, hall1⟩ := scanMarkers_appends E hE _ _ _ _ _ _ _ _ hmid
      have hsplit2 : segments = (pre ++ [seg]) ++ rest := by
        rw [hsplit]
        simp
      have h' : scanSegments E canon (buildGlobalText segments).indexOffsets fuel rest
          (pre ++ [seg]).length mid = .ok out' := by
        simpa using h
      obtain ⟨new2, h2, hall2⟩ := ih (pre ++ [seg]) hsplit2 _ h'
      refine ⟨new1 ++ new2, by rw [h2, h1, List.append_assoc], ?_⟩
      intro e he
      rcases List.mem_append.1 he with he | he
      · obtain ⟨ha, hb, hc, hd, hf⟩ := hall1 e he
        rw [indexOffsets_getD segments _ hlt] at hc hf
        exact ⟨pre.length, seg, hget, ha, hb, hc, hd, hf⟩
      · exact hall2 e he

/-- Every event pushed while scanning lies inside its segment. -/
theorem detectScan_inSegment (E : RegexEngine) (hE : MatchesInside E) (fuel : Nat)
    (segments : List Segment) (canon : Canon) (emitted : List Event)
    (h : detectScan E fuel segments canon = .ok emitted) :
    ∀ e ∈ emitted, EventInSegment segments e := by
  unfold detectScan at h
  obtain ⟨new, h1, hall⟩ := scanSegments_appends E hE canon segments fuel [] segments rfl _ _ h
  rw [h1, List.nil_append]
  exact hall

theorem regexFlags_global (canon : Canon) (mk : MarkerDef) :
    (regexFlags canon mk).data.contains 'g' = true := by
  unfold regexFlags
  generalize strOr mk.flags (strOr (canon.globals.bind (fun g => g.regex_flags)) "iu") = bf
  by_cases h : bf.data.contains 'g' = true
  · simp only [h, if_true]
  · simp only [h]
    simp [String.data_append]

/-- The `while` loop of a global regular expression pushes one event per
successive match. -/
theorem execLoop_eq_matches (E : RegexEngine) (reAll : E.Regex) (mk : MarkerDef)
    (seg : Segment) (segIdx base : Nat) (fuel lastIndex : Nat) (out out' : List Event)
    (h : execLoop E reAll true mk seg segIdx base fuel lastIndex out = .ok out') :
    ∃ ms, matchesFrom E reAll seg.text fuel lastIndex = some ms
      ∧ out' = out ++ ms.map (matchEvent mk seg segIdx base) := by
  induction fuel generalizing lastIndex out with
  | zero => simp [execLoop] at h
  | succ fuel ih =>
    rw [execLoop] at h
    rw [matchesFrom]
    cases hx : E.exec reAll seg.text lastIndex with
    | none =>
      rw [hx] at h
      injection h with h
      exact ⟨[], rfl, by simp [h]⟩
    | some r =>
      obtain ⟨index, m0⟩ := r
      rw [hx] at h
      simp only [Bool.not_true, Bool.false_eq_true, if_false] at h
      obtain ⟨ms, hms, hout⟩ := ih _ _ h
      refine ⟨(index, m0) :: ms, by simp only [hms, Option.map_some'], ?_⟩
      rw [hout, List.append_assoc]
      rfl

theorem scanMarkers_eq (E : RegexEngine) (canon : Canon) (seg : Segment)
    (segIdx base fuel : Nat) (markers : List MarkerDef) (out out' : List Event)
    (h : scanMarkers E canon seg segIdx base fuel markers out = .ok out') :
    out' = out ++ markers.flatMap (fun mk =>
      (entryMatches E canon fuel seg mk).map (matchEvent mk seg segIdx base)) := by
  induction markers generalizing out with
  | nil =>
    simp only [scanMarkers] at h
    injection h with h
    simp [h]
  | cons mk rest ih =>
    rw [scanMarkers] at h
    rw [List.flatMap_cons]
    unfold entryMatches
    by_cases ht : mk.type = "DETECT" ∨ mk.type = "ATO" ∨ mk.type = "SEM"
    · rw [if_pos ht] at h
      by_cases hr : strOr mk.regex "" ≠ ""
      · rw [if_pos hr] at h
        rw [if_pos ⟨ht, hr⟩]
        cases hc : E.compile (strOr mk.regex "") (regexFlags canon mk) with
        | none =>
          simp only [hc] at h
          exact absurd h (by simp)
        | some reAll =>
          simp only [hc, regexFlags_global] at h
          cases hl : execLoop E reAll true mk seg segIdx base fuel 0 out with
          | error e =>
            rw [hl] at h
            exact absurd h (by simp)
          | ok mid =>
            rw [hl] at h
            obtain ⟨ms, hms, hmid⟩ := execLoop_eq_matches E _ _ _ _ _ _ _ _ _ hl
            have := ih _ h
            simp only [hms, Option.getD_some]
            rw [this, hmid, List.append_assoc]
            rfl
      · rw [if_neg hr] at h
        rw [if_neg (fun hh => hr hh.2)]
        simpa using ih _ h
    · rw [if_neg ht] at h
      rw [if_neg (fun hh => ht hh.1)]
      simpa using ih _ h

theorem scanSegments_eq (E : RegexEngine) (canon : Canon) (indexOffsets : List Nat)
    (fuel : Nat) (rest : List Segment) (segIdx : Nat) (out out' : List Event)
    (h : scanSegments E canon indexOffsets fuel rest segIdx out = .ok out') :
    out' = out ++ (rest.enumFrom segIdx).flatMap (fun p =>
      canon.markers.flatMap (fun mk =>
        (entryMatches E canon fuel p.2 mk).map
          (matchEvent mk p.2 p.1 (indexOffsets.getD p.1 0)))) := by
  induction rest generalizing segIdx out with
  | nil =>
    simp only [scanSegments] at h
    injection h with h
    simp [h]
  | cons seg rest ih =>
    rw [scanSegments] at h
    cases hm : scanMarkers E canon seg segIdx (indexOffsets.getD segIdx 0) fuel canon.markers
        out with
    | error e =>
      simp only [hm] at h
      exact absurd h (by simp)
    | ok mid =>
      simp only [hm] at h
      rw [ih _ _ h, scanMarkers_eq E canon seg _ _ _ _ _ _ hm, List.enumFrom_cons,
        List.flatMap_cons, List.append_assoc]

/-- The events pushed while scanning are, for every segment in order and every
catalog entry in order, one event per successive match. -/
theorem detectScan_eq_scanSpec (E : RegexEngine) (fuel : Nat) (segments : List Segment)
    (canon : Canon) (emitted : List Event)
    (h : detectScan E fuel segments canon = .ok emitted) :
    emitted = scanSpec E fuel segments canon := by
  unfold detectScan at h
  rw [scanSegments_eq E canon _ fuel segments 0 [] emitted h, List.nil_append]
  unfold scanSpec List.enum
  apply List.flatMap_congr
  intro p hp
  obtain ⟨_, hlt, _⟩ := List.mem_enumFrom hp
  rw [indexOffsets_getD segments p.1 (by omega)]

theorem detect_all_ok (E : RegexEngine) (fuel : Nat) (segments : List Segment) (canon : Canon)
    (out : List Event) (h : detect_all E fuel segments canon = .ok out) :
    ∃ emitted, detectScan E fuel segments canon = .ok emitted
      ∧ out = arraySort spanCompare emitted := by
  unfold detect_all at h
  split at h
  · exact absurd h (by simp)
  · rename_i emitted hem
    injection h with h
    exact ⟨emitted, hem, h.symm⟩

theorem arraySort_perm {α : Type} (cmp : α → α → Int) (xs : List α) :
    (arraySort cmp xs).Perm xs :=
  List.perm_insertionSort _ xs

theorem foldl_push {α β : Type} (f : α → β) (l : List α) (init : List β) :
    l.foldl (fun acc x => acc ++ [f x]) init = init ++ l.map f := by
  induction l generalizing init with
  | nil => simp
  | cons a l ih => simp [ih]

/-- The output markers are the detected events, then the promotions, then the
annotations, each turned into a marker. -/
theorem arrangeMarkersForOutput_eq (detected : List Event) (promotions : List Promotion)
    (annotations : List AnnotationRecord) :
    arrangeMarkersForOutput detected promotions annotations
      = detected.map (fun d => (⟨d.id, d.type, d.span, d.segment_idx, d.who, [], d.evidence⟩ : Marker))
        ++ promotions.map
            (fun p => (⟨p.sem_id, "SEM", ⟨0, 0⟩, p.segment_idx, p.who, p.from_atos, ""⟩ : Marker))
        ++ annotations.map
            (fun a => (⟨a.id, a.type, ⟨0, 0⟩, a.segment_idx, a.who, [], ""⟩ : Marker)) := by
  simp only [arrangeMarkersForOutput, foldl_push, List.nil_append]

theorem searchFrom_bounds (pat : List Char) (text : List Char) (pos i : Nat)
    (h : searchFrom pat text pos = some i) : pos ≤ i ∧ i + pat.length ≤ pos + text.length := by
  induction text generalizing pos with
  | nil =>
    simp only [searchFrom] at h
    split at h
    · rename_i hp
      injection h with h
      subst h
      simp [hp]
    · exact absurd h (by simp)
  | cons c cs ih =>
    rw [searchFrom] at h
    split at h
    · rename_i hp
      injection h with h
      subst h
      have hle := (List.isPrefixOf_iff_prefix.1 hp).length_le
      exact ⟨le_refl _, by omega⟩
    · have := ih _ h
      simp only [List.length_cons]
      omega

theorem literalEngine_exec (re : List Char) (str : String) (lastIndex index : Nat) (m0 : String)
    (h : literalEngine.exec re str lastIndex = some (index, m0)) :
    lastIndex ≤ index ∧ index + re.length ≤ str.length ∧ m0 = String.mk re := by
  simp only [literalEngine] at h
  split at h
  · exact absurd h (by simp)
  · rename_i hlt
    rw [Option.map_eq_some'] at h
    obtain ⟨i, hi, hpair⟩ := h
    injection hpair with h1 h2
    subst h1
    have hb := searchFrom_bounds _ _ _ _ hi
    have hlen : (str.data.drop lastIndex).length = str.length - lastIndex :=
      List.length_drop _ _
    rw [hlen] at hb
    refine ⟨hb.1, by omega, h2.symm⟩

/-- The literal engine reports matches inside the scanned text. -/
theorem literalEngine_inside : MatchesInside literalEngine := by
  intro re str lastIndex index m0 h
  obtain ⟨_, h2, h3⟩ := literalEngine_exec re str lastIndex index m0 h
  rw [h3]
  exact h2

/-- C4: with a matcher whose matches lie inside the scanned segment text, every
event returned by `detect_all`, and every marker that `arrangeMarkersForOutput`
builds from them and from any promotions and annotations, has
`0 <= span.start <= span.end <= length(global_text)`, where the global text is
the segment texts joined by a single newline. -/
theorem spans_within_globalText (E : RegexEngine) (hE : MatchesInside E) (fuel : Nat)
    (segments : List Segment) (canon : Canon) (detected : List Event)
    (h : detect_all E fuel segments canon = .ok detected) :
    (∀ e ∈ detected, 0 ≤ e.span.start ∧ e.span.start ≤ e.span.stop
        ∧ e.span.stop ≤ (globalText segments).length)
    ∧ (∀ (promotions : List Promotion) (annotations : List AnnotationRecord),
        ∀ m ∈ arrangeMarkersForOutput detected promotions annotations,
          0 ≤ m.span.start ∧ m.span.start ≤ m.span.stop
            ∧ m.span.stop ≤ (globalText segments).length)
    ∧ globalText segments = joinWith "\n" (segments.map (fun s => s.text))
    ∧ (buildGlobalText segments).text = globalText segments := by
  obtain ⟨emitted, hem, hsort⟩ := detect_all_ok E fuel segments canon detected h
  have hin := detectScan_inSegment E hE fuel segments canon emitted hem
  have hdet : ∀ e ∈ detected, 0 ≤ e.span.start ∧ e.span.start ≤ e.span.stop
      ∧ e.span.stop ≤ (globalText segments).length := by
    intro e he
    rw [hsort] at he
    have he2 : e ∈ emitted := (arraySort_perm spanCompare emitted).mem_iff.1 he
    obtain ⟨i, seg, hget, _, _, _, h2, h3⟩ := hin e he2
    have := segment_end_le_globalText segments i seg hget
    exact ⟨Nat.zero_le _, h2, by omega⟩
  refine ⟨hdet, ?_, rfl, rfl⟩
  intro promotions annotations m hm
  rw [arrangeMarkersForOutput_eq] at hm
  rcases List.mem_append.1 hm with hm | hm
  · rcases List.mem_append.1 hm with hm | hm
    · obtain ⟨d, hd, rfl⟩ := List.mem_map.1 hm
      exact hdet d hd
    · obtain ⟨p, _, rfl⟩ := List.mem_map.1 hm
      exact ⟨Nat.zero_le _, Nat.le_refl _, Nat.zero_le _⟩
  · obtain ⟨a, _, rfl⟩ := List.mem_map.1 hm
    exact ⟨Nat.zero_le _, Nat.le_refl _, Nat.zero_le _⟩

/-- C4, witness: the literal engine on the sample catalog and segments returns
three events, all inside the global text `"ab\nb"` of length 4. -/
theorem spans_within_globalText_witness :
    MatchesInside literalEngine
    ∧ ∃ detected, detect_all literalEngine 5 sampleSegments sampleCanon = .ok detected
        ∧ detected.length = 3
        ∧ (globalText sampleSegments).length = 4
        ∧ ∀ e ∈ detected, 0 ≤ e.span.start ∧ e.span.start ≤ e.span.stop
            ∧ e.span.stop ≤ (globalText sampleSegments).length :=
  ⟨literalEngine_inside, _, rfl, by decide, by decide,
    (spans_within_globalText literalEngine literalEngine_inside 5 sampleSegments sampleCanon _
      rfl).1⟩

theorem spanCompare_le_iff (a b : Event) : spanCompare a b ≤ 0 ↔ spanLe a b := by
  unfold spanCompare spanLe
  by_cases h : (a.span.start : Int) - (b.span.start : Int) ≠ 0
  · rw [if_pos h]
    constructor
    · intro hle
      left
      omega
    · rintro (h1 | ⟨h1, _⟩)
      · omega
      · exact absurd (by rw [h1]; omega) h
  · rw [if_neg h]
    have heq : a.span.start = b.span.start := by omega
    constructor
    · intro hle
      right
      exact ⟨heq, by omega⟩
    · rintro (h1 | ⟨_, h1⟩)
      · omega
      · omega

/-- The result of the final sort is ordered by `(span.start, span.end)`. -/
theorem arraySort_spanCompare_sorted (xs : List Event) :
    (arraySort spanCompare xs).Sorted spanLe := by
  haveI : IsTotal Event (fun a b => spanCompare a b ≤ 0) := by
    constructor
    intro a b
    rw [spanCompare_le_iff, spanCompare_le_iff]
    unfold spanLe
    omega
  haveI : IsTrans Event (fun a b => spanCompare a b ≤ 0) := by
    constructor
    intro a b c
    rw [spanCompare_le_iff, spanCompare_le_iff, spanCompare_le_iff]
    unfold spanLe
    omega
  have hs := List.sorted_insertionSort (fun a b : Event => spanCompare a b ≤ 0) xs
  exact List.Pairwise.imp (fun {a b} hab => (spanCompare_le_iff a b).1 hab) hs

/-- The `while` loop returns when every match moves `lastIndex` forward. -/
theorem execLoop_returns (E : RegexEngine) (reAll : E.Regex)
    (hadv : ∀ (str : String) (lastIndex index : Nat) (m0 : String),
      E.exec reAll str lastIndex = some (index, m0) →
        lastIndex < index + m0.length ∧ index + m0.length ≤ str.length)
    (global : Bool) (mk : MarkerDef) (seg : Segment) (segIdx base : Nat) (fuel lastIndex : Nat)
    (out : List Event) (hle : lastIndex ≤ seg.text.length)
    (hfuel : seg.text.length + 1 ≤ fuel + lastIndex) :
    ∃ out', execLoop E reAll global mk seg segIdx base fuel lastIndex out = .ok out' := by
  induction fuel generalizing lastIndex out with
  | zero => omega
  | succ fuel ih =>
    rw [execLoop]
    cases hx : E.exec reAll seg.text lastIndex with
    | none => exact ⟨out, rfl⟩
    | some r =>
      obtain ⟨index, m0⟩ := r
      obtain ⟨h1, h2⟩ := hadv seg.text lastIndex index m0 hx
      cases global with
      | true =>
        simp only [Bool.not_true, Bool.false_eq_true, if_false]
        exact ih _ _ h2 (by omega)
      | false =>
        simp only [Bool.not_false, if_true]
        exact ⟨_, rfl⟩

/-- The loop over the catalog returns when the scanned patterns compile and
their matches move `lastIndex` forward. -/
theorem scanMarkers_returns (E : RegexEngine) (canon : Canon) (seg : Segment)
    (segIdx base fuel : Nat) (hfuel : seg.text.length < fuel) (markers : List MarkerDef)
    (hc : ∀ mk ∈ markers, Scanned mk →
      (E.compile (strOr mk.regex "") (regexFlags canon mk)).isSome = true)
    (ha : ∀ mk ∈ markers, ∀ re : E.Regex,
      E.compile (strOr mk.regex "") (regexFlags canon mk) = some re →
      ∀ (str : String) (lastIndex index : Nat) (m0 : String),
        E.exec re str lastIndex = some (index, m0) →
          lastIndex < index + m0.length ∧ index + m0.length ≤ str.length)
    (out : List Event) :
    ∃ out', scanMarkers E canon seg segIdx base fuel markers out = .ok out' := by
  induction markers generalizing out with
  | nil => exact ⟨out, rfl⟩
  | cons mk rest ih =>
    have hc' : ∀ mk ∈ rest, Scanned mk →
        (E.compile (strOr mk.regex "") (regexFlags canon mk)).isSome = true :=
      fun m hm => hc m (List.mem_cons_of_mem _ hm)
    have ha' : ∀ mk ∈ rest, ∀ re : E.Regex,
        E.compile (strOr mk.regex "") (regexFlags canon mk) = some re →
        ∀ (str : String) (lastIndex index : Nat) (m0 : String),
          E.exec re str lastIndex = some (index, m0) →
            lastIndex < index + m0.length ∧ index + m0.length ≤ str.length :=
      fun m hm => ha m (List.mem_cons_of_mem _ hm)
    rw [scanMarkers]
    by_cases ht : mk.type = "DETECT" ∨ mk.type = "ATO" ∨ mk.type = "SEM"
    · rw [if_pos ht]
      by_cases hr : strOr mk.regex "" ≠ ""
      · rw [if_pos hr]
        have hsome := hc mk (List.mem_cons_self _ _) ⟨ht, hr⟩
        cases hcomp : E.compile (strOr mk.regex "") (regexFlags canon mk) with
        | none =>
          rw [hcomp] at hsome
          exact absurd hsome (by simp)
        | some reAll =>
          obtain ⟨mid, hmid⟩ := execLoop_returns E reAll
            (ha mk (List.mem_cons_self _ _) reAll hcomp)
            ((regexFlags canon mk).data.contains 'g') mk seg segIdx base fuel 0 out
            (Nat.zero_le _) (by omega)
          simp only [hcomp, hmid]
          exact ih hc' ha' mid
      · rw [if_neg hr]
        exact ih hc' ha' out
    · rw [if_neg ht]
      exact ih hc' ha' out

/-- The loop over the segments returns when the scanned patterns compile, their
matches move `lastIndex` forward, and the step budget exceeds every segment's
length. -/
theorem scanSegments_returns (E : RegexEngine) (canon : Canon) (hc : CatalogCompiles E canon)
    (ha : CatalogAdvances E canon) (indexOffsets : List Nat) (fuel : Nat)
    (segments : List Segment) (hfuel : ∀ seg ∈ segments, seg.text.length < fuel)
    (segIdx : Nat) (out : List Event) :
    ∃ out', scanSegments E canon indexOffsets fuel segments segIdx out = .ok out' := by
  induction segments generalizing segIdx out with
  | nil => exact ⟨out, rfl⟩
  | cons seg rest ih =>
    rw [scanSegments]
    obtain ⟨mid, hmid⟩ := scanMarkers_returns E canon seg segIdx (indexOffsets.getD segIdx 0)
      fuel (hfuel seg (List.mem_cons_self _ _)) canon.markers hc ha out
    simp only [hmid]
    exact ih (fun s hs => hfuel s (List.mem_cons_of_mem _ hs)) _ _

/-- The function `detect_all` returns when the scanned patterns compile, their matches are
non-empty and inside the text, and the step budget exceeds every segment's length. -/
theorem detect_all_returns (E : RegexEngine) (fuel : Nat) (segments : List Segment)
    (canon : Canon) (hc : CatalogCompiles E canon) (ha : CatalogAdvances E canon)
    (hfuel : ∀ seg ∈ segments, seg.text.length < fuel) :
    ∃ emitted, detectScan E fuel segments canon = .ok emitted
      ∧ detect_all E fuel segments canon = .ok (arraySort spanCompare emitted) := by
  obtain ⟨emitted, hem⟩ := scanSegments_returns E canon hc ha
    (buildGlobalText segments).indexOffsets fuel segments hfuel 0 []
  refine ⟨emitted, hem, ?_⟩
  unfold detect_all detectScan
  rw [hem]

theorem sampleCanon_compiles : CatalogCompiles literalEngine sampleCanon := by
  intro mk hmk _
  simp only [sampleCanon, List.mem_cons, List.mem_singleton, List.not_mem_nil, or_false] at hmk
  rcases hmk with rfl | rfl <;> decide

theorem sampleCanon_advances : CatalogAdvances literalEngine sampleCanon := by
  intro mk hmk re hre str lastIndex index m0 hx
  obtain ⟨h1, h2, h3⟩ := literalEngine_exec re str lastIndex index m0 hx
  have hlen : m0.length = re.length := by rw [h3]; rfl
  have hpos : 0 < re.length := by
    simp only [sampleCanon, List.mem_cons, List.mem_singleton, List.not_mem_nil, or_false] at hmk
    rcases hmk with rfl | rfl
    · have : re = ['a'] := by
        have h : literalEngine.compile "a" "iug" = some ['a'] := rfl
        have h' : literalEngine.compile "a" "iug" = some re := hre
        rw [h] at h'
        injection h' with h'
        exact h'.symm
      rw [this]
      decide
    · have : re = ['b'] := by
        have h : literalEngine.compile "b" "iug" = some ['b'] := rfl
        have h' : literalEngine.compile "b" "iug" = some re := hre
        rw [h] at h'
        injection h' with h'
        exact h'.symm
      rw [this]
      decide
  rw [hlen]
  exact ⟨by omega, h2⟩

/-- C5: the result of `detect_all` is a rearrangement of exactly the events pushed
while scanning, which are one event per match of each scanned entry in each
segment (none removed, none added), ordered non-decreasingly by the pair
`(span.start, span.end)`; matches of different entries at the same location are
both kept.  A result exists when the scanned patterns compile, their matches are
non-empty and inside the text, and the step budget exceeds every segment's length. -/
theorem detect_all_sorted_rearrangement (E : RegexEngine) (fuel : Nat)
    (segments : List Segment) (canon : Canon) :
    (∀ out, detect_all E fuel segments canon = .ok out →
      ∃ emitted, detectScan E fuel segments canon = .ok emitted
        ∧ emitted = scanSpec E fuel segments canon
        ∧ out.Perm emitted
        ∧ (∀ e, out.count e = emitted.count e)
        ∧ out.length = emitted.length
        ∧ out.Sorted spanLe)
    ∧ (CatalogCompiles E canon → CatalogAdvances E canon →
        (∀ seg ∈ segments, seg.text.length < fuel) →
        ∃ out, detect_all E fuel segments canon = .ok out)
    ∧ (detect_all literalEngine 3 [⟨"A", "a"⟩] twinCanon).toOption.map
          (fun out => out.map (fun e => (e.id, e.span.start, e.span.stop)))
        = some [("ATO_X", 0, 1), ("SEM_Y", 0, 1)] := by
  refine ⟨?_, ?_, by decide⟩
  · intro out h
    obtain ⟨emitted, hem, hsort⟩ := detect_all_ok E fuel segments canon out h
    have hperm : out.Perm emitted := by
      rw [hsort]
      exact arraySort_perm spanCompare emitted
    refine ⟨emitted, hem, detectScan_eq_scanSpec E fuel segments canon emitted hem, hperm,
      fun e => hperm.count_eq e, hperm.length_eq, ?_⟩
    rw [hsort]
    exact arraySort_spanCompare_sorted emitted
  · intro hc ha hfuel
    obtain ⟨emitted, _, hout⟩ := detect_all_returns E fuel segments canon hc ha hfuel
    exact ⟨_, hout⟩

/-- C5, witness: the literal engine on the sample catalog and segments meets the
conditions and returns a result. -/
theorem detect_all_sorted_rearrangement_witness :
    CatalogCompiles literalEngine sampleCanon
    ∧ CatalogAdvances literalEngine sampleCanon
    ∧ (∀ seg ∈ sampleSegments, seg.text.length < 5)
    ∧ ∃ out, detect_all literalEngine 5 sampleSegments sampleCanon = .ok out
        ∧ out.length = 3 ∧ out.Sorted spanLe := by
  refine ⟨sampleCanon_compiles, sampleCanon_advances, by decide, ?_⟩
  obtain ⟨out, hout⟩ :=
    (detect_all_sorted_rearrangement literalEngine 5 sampleSegments sampleCanon).2.1
      sampleCanon_compiles sampleCanon_advances (by decide)
  obtain ⟨emitted, hem, _, _, _, hlen, hsorted⟩ :=
    (detect_all_sorted_rearrangement literalEngine 5 sampleSegments sampleCanon).1 out hout
  have hscan : ∃ e3, detectScan literalEngine 5 sampleSegments sampleCanon = .ok e3
      ∧ e3.length = 3 := ⟨_, rfl, by decide⟩
  obtain ⟨e3, he3, hl3⟩ := hscan
  rw [hem] at he3
  injection he3 with he3
  exact ⟨out, hout, by rw [hlen, he3, hl3], hsorted⟩

/-! ### Numbers -/

theorem JsNum.fin_add_fin (a b : ℚ) : JsNum.fin a + JsNum.fin b = JsNum.fin (a + b) := rfl

theorem JsNum.fin_mul_fin (a b : ℚ) : JsNum.fin a * JsNum.fin b = JsNum.fin (a * b) := rfl

theorem JsNum.fin_sub_fin (a b : ℚ) : JsNum.fin a - JsNum.fin b = JsNum.fin (a - b) := by
  show JsNum.add (JsNum.fin a) (JsNum.neg (JsNum.fin b)) = JsNum.fin (a - b)
  simp only [JsNum.neg, JsNum.add, sub_eq_add_neg]

theorem JsNum.fin_div_fin (a b : ℚ) (hb : b ≠ 0) :
    JsNum.fin a / JsNum.fin b = JsNum.fin (a / b) := by
  show JsNum.div (JsNum.fin a) (JsNum.fin b) = JsNum.fin (a / b)
  simp only [JsNum.div, hb, if_false]

theorem clamp01_fin (x : ℚ) : clamp01 (JsNum.fin x) = JsNum.fin (max 0 (min 1 x)) := rfl

theorem numOr_ne_zero (a : Option ℚ) (b : ℚ) (hb : b ≠ 0) : numOr a b ≠ 0 := by
  unfold numOr
  cases a with
  | none => exact hb
  | some q =>
    by_cases hq : q = 0
    · simpa [hq] using hb
    · simp [hq]

theorem computeIndices_raw_z (M : JsMath) (weights : Weights) (features : Quad JsNum)
    (omitP : Bool) (key : IndexKey) :
    (computeIndices M weights features omitP key).raw
        = dot (weights.indices key).w features + JsNum.fin (weights.indices key).bias
    ∧ (computeIndices M weights features omitP key).z
        = ((dot (weights.indices key).w features + JsNum.fin (weights.indices key).bias)
            - JsNum.fin (weights.calib.mu key))
          / JsNum.fin (numOr (weights.calib.sigma key) (1 / 1000000000)) := by
  cases omitP <;> exact ⟨rfl, rfl⟩

theorem dot_fin (w : Quad ℚ) (a b c d : ℚ) :
    dot w ⟨JsNum.fin a, JsNum.fin b, JsNum.fin c, JsNum.fin d⟩
      = JsNum.fin (w.ATO * a + w.SEM * b + w.CLU * c + w.MEMA * d) := by
  simp only [dot, JsNum.fin_mul_fin, JsNum.fin_add_fin]

/-- C6, as amended: for each of the four indices, `computeIndices` returns
`raw = w.ATO*f.ATO + w.SEM*f.SEM + w.CLU*f.CLU + w.MEMA*f.MEMA + bias` and
`z = (raw - mu) / s`, where `s` is `sigma` when `sigma` is present and not 0
(also when it is negative or lies strictly between 0 and 1e-9) and `s` is 1e-9
when `sigma` is 0 or absent; this is `(raw - mu) / max(sigma, 1e-9)` when `sigma`
is 0 or at least 1e-9. -/
theorem computeIndices_raw_z_formula (M : JsMath) (weights : Weights) (a b c d : ℚ)
    (omitP : Bool) (key : IndexKey) :
    (computeIndices M weights ⟨JsNum.fin a, JsNum.fin b, JsNum.fin c, JsNum.fin d⟩ omitP key).raw
        = JsNum.fin ((weights.indices key).w.ATO * a + (weights.indices key).w.SEM * b
            + (weights.indices key).w.CLU * c + (weights.indices key).w.MEMA * d
            + (weights.indices key).bias)
    ∧ (computeIndices M weights ⟨JsNum.fin a, JsNum.fin b, JsNum.fin c, JsNum.fin d⟩ omitP key).z
        = JsNum.fin ((((weights.indices key).w.ATO * a + (weights.indices key).w.SEM * b
            + (weights.indices key).w.CLU * c + (weights.indices key).w.MEMA * d
            + (weights.indices key).bias) - weights.calib.mu key)
          / numOr (weights.calib.sigma key) (1 / 1000000000))
    ∧ (∀ sigma : ℚ, sigma ≠ 0 → numOr (some sigma) (1 / 1000000000) = sigma)
    ∧ numOr (some 0) (1 / 1000000000) = 1 / 1000000000
    ∧ numOr none (1 / 1000000000) = 1 / 1000000000
    ∧ (∀ sigma raw mu : ℚ, sigma = 0 ∨ 1 / 1000000000 ≤ sigma →
        (raw - mu) / numOr (some sigma) (1 / 1000000000) = claimedZ raw mu sigma)
    ∧ (∀ f : Quad JsNum,
        (computeIndices M weights f omitP key).raw
            = JsNum.fin (weights.indices key).w.ATO * f.ATO
              + JsNum.fin (weights.indices key).w.SEM * f.SEM
              + JsNum.fin (weights.indices key).w.CLU * f.CLU
              + JsNum.fin (weights.indices key).w.MEMA * f.MEMA
              + JsNum.fin (weights.indices key).bias
        ∧ (computeIndices M weights f omitP key).z
            = ((computeIndices M weights f omitP key).raw - JsNum.fin (weights.calib.mu key))
              / JsNum.fin (numOr (weights.calib.sigma key) (1 / 1000000000))) := by
  obtain ⟨hraw, hz⟩ := computeIndices_raw_z M weights
    ⟨JsNum.fin a, JsNum.fin b, JsNum.fin c, JsNum.fin d⟩ omitP key
  have hs := numOr_ne_zero (weights.calib.sigma key) (1 / 1000000000) (by norm_num)
  refine ⟨?_, ?_, ?_, ?_, rfl, ?_, ?_⟩
  rotate_right
  · intro f
    obtain ⟨h1, h2⟩ := computeIndices_raw_z M weights f omitP key
    exact ⟨h1, by rw [h2, h1]⟩
  · rw [hraw, dot_fin, JsNum.fin_add_fin]
  · rw [hz, dot_fin, JsNum.fin_add_fin, JsNum.fin_sub_fin, JsNum.fin_div_fin _ _ hs]
  · intro sigma hne
    simp [numOr, hne]
  · simp [numOr]
  · intro sigma raw mu hsig
    unfold claimedZ
    rcases hsig with h0 | hge
    · subst h0
      have hmax : max (0 : ℚ) (1 / 1000000000) = 1 / 1000000000 :=
        max_eq_right (by norm_num)
      simp only [numOr, if_true, hmax]
    · have hne : sigma ≠ 0 := by
        intro h0
        rw [h0] at hge
        norm_num at hge
      simp only [numOr, hne, if_false, max_eq_left hge]

/-- C6, counterexample: with `raw = 1` and `mu = 0`, a negative `sigma = -1` gives
`z = -1` and `sigma = 1e-10` gives `z = 1e10`, while `(raw - mu) / max(sigma, 1e-9)`
is `1e9` in both cases. -/
theorem computeIndices_small_sigma :
    (computeIndices sampleMath (unitWeights (some (-1))) zeroFeatures false IndexKey.trust).z
        = JsNum.fin (-1)
    ∧ claimedZ 1 0 (-1) = 1000000000
    ∧ (computeIndices sampleMath (unitWeights (some (1 / 10000000000))) zeroFeatures false
          IndexKey.trust).z = JsNum.fin 10000000000
    ∧ claimedZ 1 0 (1 / 10000000000) = 1000000000
    ∧ (computeIndices sampleMath (unitWeights (some (-1))) zeroFeatures false IndexKey.trust).z
        ≠ JsNum.fin (claimedZ 1 0 (-1))
    ∧ (computeIndices sampleMath (unitWeights (some (1 / 10000000000))) zeroFeatures false
          IndexKey.trust).z ≠ JsNum.fin (claimedZ 1 0 (1 / 10000000000)) := by
  have h1 := (computeIndices_raw_z sampleMath (unitWeights (some (-1))) zeroFeatures false
    IndexKey.trust).2
  have h2 := (computeIndices_raw_z sampleMath (unitWeights (some (1 / 10000000000)))
    zeroFeatures false IndexKey.trust).2
  have hm1 : max (-1 : ℚ) (1 / 1000000000) = 1 / 1000000000 := max_eq_right (by norm_num)
  have hm2 : max (1 / 10000000000 : ℚ) (1 / 1000000000) = 1 / 1000000000 :=
    max_eq_right (by norm_num)
  have e1 : (computeIndices sampleMath (unitWeights (some (-1))) zeroFeatures false
      IndexKey.trust).z = JsNum.fin (-1) := by
    rw [h1]
    simp only [zeroFeatures, dot_fin, unitWeights, JsNum.fin_add_fin, JsNum.fin_sub_fin]
    rw [JsNum.fin_div_fin _ _ (by norm_num [numOr])]
    norm_num [numOr]
  have e2 : claimedZ 1 0 (-1) = 1000000000 := by
    rw [claimedZ, hm1]
    norm_num
  have e3 : (computeIndices sampleMath (unitWeights (some (1 / 10000000000))) zeroFeatures
      false IndexKey.trust).z = JsNum.fin 10000000000 := by
    rw [h2]
    simp only [zeroFeatures, dot_fin, unitWeights, JsNum.fin_add_fin, JsNum.fin_sub_fin]
    rw [JsNum.fin_div_fin _ _ (by norm_num [numOr])]
    norm_num [numOr]
  have e4 : claimedZ 1 0 (1 / 10000000000) = 1000000000 := by
    rw [claimedZ, hm2]
    norm_num
  refine ⟨e1, e2, e3, e4, ?_, ?_⟩
  · rw [e1, e2]
    intro h
    injection h with h
    norm_num at h
  · rw [e3, e4]
    intro h
    injection h with h
    norm_num at h

/-- The pipeline of `run` passes the value of `gateOutput` as `omitP`. -/
theorem run_gated (E : RegexEngine) (M : JsMath) (fuel : Nat) (canon : Canon)
    (weights : Weights) (promoMap : Option PromoMap) (segments : List Segment)
    (out : RunOutput) (h : run E M fuel canon weights promoMap segments = .ok out) :
    out.gated = gateOutput out.markers (some out.segments)
      ∧ out.indices = computeIndices M weights out.features out.gated := by
  unfold run at h
  split at h
  · exact absurd h (by simp)
  · split at h
    · exact absurd h (by simp)
    · simp only [] at h
      split at h
      · exact absurd h (by simp)
      · injection h with h
        subst h
        exact ⟨rfl, rfl⟩

/-- C7: with `omitP = true`, `computeIndices` returns for each index a record with
`raw` and `z` and no `p`; these `raw` and `z` are the ones it returns with
`omitP = false`, where `p` is present; in `run`, `omitP` is the value of
`gateOutput`, so `p` is absent exactly when the output is gated. -/
theorem computeIndices_omitP (M : JsMath) (weights : Weights) (features : Quad JsNum)
    (key : IndexKey) :
    (computeIndices M weights features true key).p = none
    ∧ (computeIndices M weights features true key).raw
        = (computeIndices M weights features false key).raw
    ∧ (computeIndices M weights features true key).z
        = (computeIndices M weights features false key).z
    ∧ (computeIndices M weights features false key).p
        = some (clamp01 (normalCdf M (computeIndices M weights features false key).z))
    ∧ (∀ (E : RegexEngine) (fuel : Nat) (canon : Canon) (promoMap : Option PromoMap)
        (segments : List Segment) (out : RunOutput),
        run E M fuel canon weights promoMap segments = .ok out →
          out.gated = gateOutput out.markers (some out.segments)
          ∧ out.indices = computeIndices M weights out.features out.gated
          ∧ ((out.indices key).p = none ↔ out.gated = true)) := by
  refine ⟨rfl, rfl, rfl, rfl, ?_⟩
  intro E fuel canon promoMap segments out h
  obtain ⟨hg, hi⟩ := run_gated E M fuel canon weights promoMap segments out h
  refine ⟨hg, hi, ?_⟩
  rw [hi]
  cases out.gated with
  | true => exact ⟨fun _ => rfl, fun _ => rfl⟩
  | false =>
    constructor
    · intro hp
      exact absurd hp (by simp [computeIndices])
    · intro hf
      exact absurd hf (by simp)

/-- C7, witness: the sample run (three markers, two segments) is gated and reports
no `p` for `trust`. -/
theorem computeIndices_omitP_witness :
    ∃ out, run literalEngine sampleMath 5 sampleCanon (unitWeights (some 1)) none
          sampleSegments = .ok out
      ∧ out.gated = true ∧ (out.indices IndexKey.trust).p = none := by
  have hrun : ∃ out, run literalEngine sampleMath 5 sampleCanon (unitWeights (some 1)) none
      sampleSegments = .ok out ∧ out.gated = true := ⟨_, rfl, by decide⟩
  obtain ⟨out, h, hg⟩ := hrun
  have hw := (computeIndices_omitP sampleMath (unitWeights (some 1)) zeroFeatures
    IndexKey.trust).2.2.2.2 literalEngine 5 sampleCanon none sampleSegments out h
  exact ⟨out, h, hg, hw.2.2.2 hg⟩

/-! ### Features and density -/

theorem scale_fin (d c : ℚ) (hc : c ≠ 0) :
    scale (JsNum.fin d) (some c) = JsNum.fin (max 0 (min 1 (d / c))) := by
  unfold scale capNum
  rw [JsNum.fin_div_fin _ _ hc, clamp01_fin]

theorem computeFeatures_get (canon : Canon) (counts : Counts) (dn : Density) (t : MType) :
    (computeFeatures canon counts (some dn)).get t
      = scale (dn.per_1k_chars.get t)
          ((match canon.globals.bind (fun g => g.text_caps) with
            | some caps => caps
            | none => ⟨some 100, some 100, some 100, some 100⟩).get t) := by
  cases t <;> rfl

theorem scale_range (x : JsNum) (c : ℚ) (hpos : 0 < c) (hx : x ≠ JsNum.nan) :
    ∃ f : ℚ, scale x (some c) = JsNum.fin f ∧ 0 ≤ f ∧ f ≤ 1 := by
  have hc : c ≠ 0 := ne_of_gt hpos
  cases x with
  | fin d =>
    exact ⟨_, scale_fin d c hc, le_max_left _ _, max_le (by norm_num) (min_le_left _ _)⟩
  | posInf =>
    refine ⟨1, ?_, by norm_num, le_refl _⟩
    show clamp01 (JsNum.div JsNum.posInf (JsNum.fin c)) = JsNum.fin 1
    simp only [JsNum.div, le_of_lt hpos, if_true, clamp01, JsNum.min, JsNum.max]
    norm_num
  | negInf =>
    refine ⟨0, ?_, le_refl _, by norm_num⟩
    show clamp01 (JsNum.div JsNum.negInf (JsNum.fin c)) = JsNum.fin 0
    simp only [JsNum.div, le_of_lt hpos, if_true, clamp01, JsNum.min, JsNum.max]
  | nan => exact absurd rfl hx

/-- C8: for every type with a positive cap `c` (the type's entry of `text_caps`,
or 100 when `text_caps` is absent), `computeFeatures` returns
`clamp01(density / c)`.  For every density that is a number (as all densities of
`computeDensity` are) the feature lies in `[0, 1]`; it is 0 when the density is
0, or when no density is passed, and 1 when the density is at least the cap. -/
theorem computeFeatures_clamped (canon : Canon) (counts : Counts) (dn : Density) (t : MType)
    (c : ℚ) (hpos : 0 < c)
    (hcap : (∃ caps, canon.globals.bind (fun g => g.text_caps) = some caps
              ∧ caps.get t = some c)
          ∨ (canon.globals.bind (fun g => g.text_caps) = none ∧ c = 100)) :
    (computeFeatures canon counts (some dn)).get t
        = clamp01 (dn.per_1k_chars.get t / JsNum.fin c)
    ∧ (dn.per_1k_chars.get t ≠ JsNum.nan →
        ∃ f : ℚ, (computeFeatures canon counts (some dn)).get t = JsNum.fin f ∧ 0 ≤ f ∧ f ≤ 1)
    ∧ (∀ (globalText : String) (counts' : Counts),
        ∃ f : ℚ, (computeFeatures canon counts
            (some (computeDensity globalText counts'))).get t = JsNum.fin f ∧ 0 ≤ f ∧ f ≤ 1)
    ∧ (∀ d : ℚ, dn.per_1k_chars.get t = JsNum.fin d →
        (computeFeatures canon counts (some dn)).get t = JsNum.fin (max 0 (min 1 (d / c))))
    ∧ (dn.per_1k_chars.get t = JsNum.fin 0 →
        (computeFeatures canon counts (some dn)).get t = JsNum.fin 0)
    ∧ (computeFeatures canon counts none).get t = JsNum.fin 0
    ∧ (∀ d : ℚ, dn.per_1k_chars.get t = JsNum.fin d → c ≤ d →
        (computeFeatures canon counts (some dn)).get t = JsNum.fin 1) := by
  have hc : c ≠ 0 := ne_of_gt hpos
  have hcapget : (match canon.globals.bind (fun g => g.text_caps) with
      | some caps => caps
      | none => (⟨some 100, some 100, some 100, some 100⟩ : Quad (Option ℚ))).get t
        = some c := by
    rcases hcap with ⟨caps, h1, h2⟩ | ⟨h1, h2⟩
    · rw [h1]
      exact h2
    · rw [h1, h2]
      cases t <;> rfl
  have hget : ∀ dn' : Density, (computeFeatures canon counts (some dn')).get t
      = scale (dn'.per_1k_chars.get t) (some c) := by
    intro dn'
    rw [computeFeatures_get, hcapget]
  have hfin : ∀ d : ℚ, dn.per_1k_chars.get t = JsNum.fin d →
      (computeFeatures canon counts (some dn)).get t = JsNum.fin (max 0 (min 1 (d / c))) := by
    intro d hd
    rw [hget, hd, scale_fin d c hc]
  have hnone : (computeFeatures canon counts none).get t = scale (JsNum.fin 0) (some c) := by
    rw [← hcapget]
    cases t <;> rfl
  refine ⟨hget dn, ?_, ?_, hfin, ?_, ?_, ?_⟩
  · intro hx
    rw [hget]
    exact scale_range _ c hpos hx
  · intro globalText counts'
    rw [hget]
    refine scale_range _ c hpos ?_
    unfold computeDensity
    by_cases h0 : globalText.length > 0
    · have hq : ((globalText.length : ℕ) : ℚ) ≠ 0 := by
        have : globalText.length ≠ 0 := Nat.pos_iff_ne_zero.1 h0
        exact_mod_cast this
      cases t <;>
        simp only [Quad.get, h0, if_true, JsNum.fin_mul_fin, JsNum.fin_div_fin _ _ hq] <;>
        exact fun h => JsNum.noConfusion h
    · cases t <;> simp only [Quad.get, h0, if_false] <;> exact fun h => JsNum.noConfusion h
  · intro h0
    rw [hfin 0 h0]
    norm_num
  · rw [hnone, scale_fin 0 c hc]
    norm_num
  · intro d hd hle
    rw [hfin d hd]
    have h1 : 1 ≤ d / c := by
      rw [le_div_iff₀ hpos]
      linarith
    rw [min_eq_left h1]
    norm_num

/-- C8, witness: density 150 per 1k characters with the default cap 100 gives the
feature 1. -/
theorem computeFeatures_clamped_witness :
    (0 : ℚ) < 100
    ∧ (computeFeatures sampleCanon emptyCounts
          (some ⟨10, ⟨JsNum.fin 150, JsNum.fin 0, JsNum.fin 0, JsNum.fin 0⟩⟩)).get MType.ATO
        = JsNum.fin 1 :=
  ⟨by norm_num,
    (computeFeatures_clamped sampleCanon emptyCounts
      ⟨10, ⟨JsNum.fin 150, JsNum.fin 0, JsNum.fin 0, JsNum.fin 0⟩⟩ MType.ATO 100
      (by norm_num) (Or.inr ⟨rfl, rfl⟩)).2.2.2.2.2.2 150 rfl (by norm_num)⟩

/-- C9, evaluation at the failing input: with `text_caps = {ATO: 50}` and density 10
for every type, the ATO feature is `10 / 50`, but the SEM, CLU and MEMA features
are `NaN` and not `clamp01(10 / 100) = 0.1`; without `text_caps` they are `0.1`. -/
theorem computeFeatures_partial_caps_nan :
    (computeFeatures partialCapsCanon emptyCounts (some tenDensity)).ATO = JsNum.fin (1 / 5)
    ∧ (computeFeatures partialCapsCanon emptyCounts (some tenDensity)).SEM = JsNum.nan
    ∧ (computeFeatures partialCapsCanon emptyCounts (some tenDensity)).CLU = JsNum.nan
    ∧ (computeFeatures partialCapsCanon emptyCounts (some tenDensity)).MEMA = JsNum.nan
    ∧ clamp01 (JsNum.fin 10 / JsNum.fin 100) = JsNum.fin (1 / 10)
    ∧ (computeFeatures sampleCanon emptyCounts (some tenDensity)).SEM = JsNum.fin (1 / 10) := by
  have h5 : scale (JsNum.fin 10) (some 50) = JsNum.fin (1 / 5) := by
    rw [scale_fin _ _ (by norm_num)]
    norm_num
  have h10 : scale (JsNum.fin 10) (some 100) = JsNum.fin (1 / 10) := by
    rw [scale_fin _ _ (by norm_num)]
    norm_num
  refine ⟨h5, rfl, rfl, rfl, ?_, h10⟩
  rw [JsNum.fin_div_fin _ _ (by norm_num), clamp01_fin]
  norm_num

/-- C10: `computeDensity` returns, for each of the four types,
`counts.total[t] * 1000 / length(global_text)` when the global text is non-empty
and 0 when it is empty; the result is always a finite, non-negative number, so
no division by zero occurs. -/
theorem computeDensity_per_1k (globalText : String) (counts : Counts) (t : MType) :
    (computeDensity globalText counts).text_len = globalText.length
    ∧ (computeDensity globalText counts).per_1k_chars.get t
        = (if globalText.length = 0 then JsNum.fin 0
           else JsNum.fin ((counts.total.get t : ℚ) * 1000 / (globalText.length : ℚ)))
    ∧ (∃ q : ℚ, (computeDensity globalText counts).per_1k_chars.get t = JsNum.fin q ∧ 0 ≤ q)
    ∧ (globalText.length = 0 ↔ globalText = "") := by
  have hper : (computeDensity globalText counts).per_1k_chars.get t
      = (if globalText.length = 0 then JsNum.fin 0
         else JsNum.fin ((counts.total.get t : ℚ) * 1000 / (globalText.length : ℚ))) := by
    by_cases h0 : globalText.length = 0
    · rw [if_pos h0]
      cases t <;> simp [computeDensity, Quad.get, h0]
    · rw [if_neg h0]
      have hpos : globalText.length > 0 := Nat.pos_of_ne_zero h0
      have hq : ((globalText.length : ℕ) : ℚ) ≠ 0 := by exact_mod_cast h0
      cases t <;>
        simp only [computeDensity, Quad.get, hpos, if_true, JsNum.fin_mul_fin,
          JsNum.fin_div_fin _ _ hq]
  refine ⟨rfl, hper, ?_, ?_⟩
  · rw [hper]
    by_cases h0 : globalText.length = 0
    · exact ⟨0, by rw [if_pos h0], le_refl _⟩
    · refine ⟨_, by rw [if_neg h0], ?_⟩
      positivity
  · constructor
    · intro h
      cases globalText with
      | mk data =>
        have hd : data = [] := List.length_eq_zero.1 h
        rw [hd]
    · intro h
      rw [h]
      rfl

/-! ### Intuition tracker -/

theorem JsMap.get_set {κ β : Type} [DecidableEq κ] (m : JsMap κ β) (k k' : κ) (v : β) :
    (m.set k v).get k' = if k' = k then some v else m.get k' := by
  induction m with
  | nil =>
    by_cases h : k' = k
    · simp [JsMap.set, JsMap.get, h]
    · have h2 : ¬ k = k' := fun e => h e.symm
      simp [JsMap.set, JsMap.get, h, h2]
  | cons kv rest ih =>
    obtain ⟨a, b⟩ := kv
    by_cases ha : a = k
    · subst ha
      by_cases h : k' = a
      · subst h
        simp [JsMap.set, JsMap.get]
      · have h2 : ¬ a = k' := fun e => h e.symm
        simp [JsMap.set, JsMap.get, h, h2]
    · by_cases h : k' = k
      · subst h
        simp [JsMap.set, JsMap.get, ha, ih]
      · by_cases h3 : a = k'
        · simp [JsMap.set, JsMap.get, ha, h, h3]
        · simp [JsMap.set, JsMap.get, ha, h, h3, ih]

theorem decayCheck_counter (dw : JsNum) (st : FamState) (segIdx retracted : Nat) :
    decayCheck dw st segIdx retracted
      = ((decayCheck dw st segIdx 0).1, retracted + (decayCheck dw st segIdx 0).2) := by
  unfold decayCheck
  split
  · split <;> simp
  · simp

theorem confirmCheck_counter (cw : JsNum) (st : FamState) (confirmed : Nat) :
    confirmCheck cw st confirmed
      = ((confirmCheck cw st 0).1, confirmed + (confirmCheck cw st 0).2) := by
  unfold confirmCheck
  split
  · simp
  · split <;> simp

/-- The loop body, for an event of a family, is one occurrence of that family on
the stored state. -/
theorem intuitionStep_mapped (opts : Option IntuitionOpts) (L : IntuitionLoop) (ev : CluEvent)
    (fam : String) (hfam : familyOf opts ev.id = some fam) :
    intuitionStep opts L ev
      = { famState := L.famState.set fam
            (occurrence opts (L.famState.get fam) ev.segment_idx).1,
          confirmed := L.confirmed + (occurrence opts (L.famState.get fam) ev.segment_idx).2.1,
          retracted := L.retracted + (occurrence opts (L.famState.get fam) ev.segment_idx).2.2,
          augmented := L.augmented ++ [annotateEvent ev
            (occurrence opts (L.famState.get fam) ev.segment_idx).1.state fam] } := by
  unfold intuitionStep occurrence
  simp only [hfam]
  rw [decayCheck_counter, confirmCheck_counter]

theorem intuitionStep_unmapped (opts : Option IntuitionOpts) (L : IntuitionLoop) (ev : CluEvent)
    (hfam : familyOf opts ev.id = none) :
    intuitionStep opts L ev = { L with augmented := L.augmented ++ [ev] } := by
  unfold intuitionStep
  simp only [hfam]

theorem intuitionStep_famState (opts : Option IntuitionOpts) (L : IntuitionLoop) (ev : CluEvent)
    (fam : String) (hfam : familyOf opts ev.id = some fam) :
    (intuitionStep opts L ev).famState.get fam
      = some (occurrence opts (L.famState.get fam) ev.segment_idx).1 := by
  rw [intuitionStep_mapped opts L ev fam hfam]
  simp only [JsMap.get_set, if_true]

theorem decayCheck_of_triggers (dw : JsNum) (st : FamState) (segIdx retracted : Nat)
    (h : JsNum.lt dw (JsNum.fin (((segIdx : Int) - (st.lastSeg : Int) : Int) : ℚ)) = true) :
    decayCheck dw st segIdx retracted
      = ({ lastSeg := st.lastSeg, streak := 0, state := .decayed },
          if st.state = .confirmed then retracted + 1 else retracted) := by
  unfold decayCheck
  rw [if_pos h]

theorem decayCheck_of_not_triggers (dw : JsNum) (st : FamState) (segIdx retracted : Nat)
    (h : JsNum.lt dw (JsNum.fin (((segIdx : Int) - (st.lastSeg : Int) : Int) : ℚ)) = false) :
    decayCheck dw st segIdx retracted = (st, retracted) := by
  unfold decayCheck
  rw [if_neg (by rw [h]; exact Bool.false_ne_true)]

theorem occurrence_of_decay (opts : Option IntuitionOpts) (st : FamState) (segIdx : Nat)
    (hd : decayTriggers opts st segIdx = true) :
    occurrence opts (some st) segIdx
      = ((confirmCheck (confirmWindowOf opts)
            { lastSeg := segIdx, streak := 1, state := .decayed } 0).1,
         (confirmCheck (confirmWindowOf opts)
            { lastSeg := segIdx, streak := 1, state := .decayed } 0).2,
         if st.state = .confirmed then 1 else 0) := by
  unfold occurrence
  simp only [Option.getD_some]
  rw [decayCheck_of_triggers _ _ _ _ hd]
  rfl

theorem occurrence_of_no_decay (opts : Option IntuitionOpts) (st : FamState) (segIdx : Nat)
    (hd : decayTriggers opts st segIdx = false) :
    occurrence opts (some st) segIdx
      = ((confirmCheck (confirmWindowOf opts) (updateStreak st segIdx) 0).1,
         (confirmCheck (confirmWindowOf opts) (updateStreak st segIdx) 0).2, 0) := by
  unfold occurrence
  simp only [Option.getD_some]
  rw [decayCheck_of_not_triggers _ _ _ _ hd]

theorem confirmCheck_not_reached (cw : JsNum) (st : FamState) (confirmed : Nat)
    (h : JsNum.le cw (JsNum.fin (st.streak : ℚ)) = false) :
    confirmCheck cw st confirmed
      = (if st.state = .decayed then
          { lastSeg := st.lastSeg, streak := st.streak, state := .provisional } else st,
         confirmed) := by
  unfold confirmCheck
  rw [if_neg (by rw [h]; simp)]
  split <;> rfl

theorem confirmCheck_reached (cw : JsNum) (st : FamState) (confirmed : Nat)
    (hs : st.state ≠ .confirmed) (h : JsNum.le cw (JsNum.fin (st.streak : ℚ)) = true) :
    confirmCheck cw st confirmed
      = ({ lastSeg := st.lastSeg, streak := st.streak, state := .confirmed }, confirmed + 1) := by
  unfold confirmCheck
  rw [if_pos ⟨hs, h⟩]

theorem confirmCheck_confirmed (cw : JsNum) (st : FamState) (confirmed : Nat)
    (hs : st.state = .confirmed) :
    confirmCheck cw st confirmed = (st, confirmed) := by
  unfold confirmCheck
  rw [if_neg (fun hh => hh.1 hs), if_neg (by rw [hs]; simp)]

/-- An occurrence that triggers decay, when one occurrence does not reach the
confirm window: the family ends provisional with streak 1 and no confirmation. -/
theorem occurrence_decay (opts : Option IntuitionOpts) (st : FamState) (segIdx : Nat)
    (hcw : JsNum.le (confirmWindowOf opts) (JsNum.fin 1) = false)
    (hd : decayTriggers opts st segIdx = true) :
    (occurrence opts (some st) segIdx).1
        = { lastSeg := segIdx, streak := 1, state := .provisional }
      ∧ (occurrence opts (some st) segIdx).2.1 = 0 := by
  have hcw' : JsNum.le (confirmWindowOf opts)
      (JsNum.fin ((({ lastSeg := segIdx, streak := 1, state := .decayed } : FamState).streak
        : ℕ) : ℚ)) = false := by
    simpa using hcw
  rw [occurrence_of_decay opts st segIdx hd, confirmCheck_not_reached _ _ _ hcw']
  exact ⟨rfl, rfl⟩

/-- An occurrence after which the family is confirmed while it was not before,
when one occurrence does not reach the confirm window: the family was
provisional and the occurrence triggered no decay. -/
theorem occurrence_enters_confirmed (opts : Option IntuitionOpts) (st : FamState)
    (segIdx : Nat) (hcw : JsNum.le (confirmWindowOf opts) (JsNum.fin 1) = false)
    (hnew : (occurrence opts (some st) segIdx).1.state = .confirmed)
    (hold : st.state ≠ .confirmed) :
    st.state = .provisional ∧ decayTriggers opts st segIdx = false := by
  cases hd : decayTriggers opts st segIdx with
  | true =>
    rw [(occurrence_decay opts st segIdx hcw hd).1] at hnew
    exact absurd hnew (by simp)
  | false =>
    refine ⟨?_, rfl⟩
    cases hs : st.state with
    | provisional => rfl
    | confirmed => exact absurd hs hold
    | decayed =>
      exfalso
      have hcw' : JsNum.le (confirmWindowOf opts)
          (JsNum.fin (((updateStreak st segIdx).streak : ℕ) : ℚ)) = false := by
        simp only [updateStreak, hs, if_true]
        simpa using hcw
      rw [occurrence_of_no_decay opts st segIdx hd, confirmCheck_not_reached _ _ _ hcw'] at hnew
      simp [updateStreak, hs] at hnew

theorem JsNum.max_fin (a b : ℚ) :
    JsNum.max (JsNum.fin a) (JsNum.fin b) = JsNum.fin (Max.max a b) :=
  rfl

theorem JsNum.le_fin (a b : ℚ) : JsNum.le (JsNum.fin a) (JsNum.fin b) = decide (a ≤ b) := rfl

theorem JsNum.lt_fin (a b : ℚ) : JsNum.lt (JsNum.fin a) (JsNum.fin b) = decide (a < b) := rfl

theorem confirmWindowOf_fin (c : ℚ) (o : IntuitionOpts)
    (ho : o.confirm_window = some (JsNum.fin c)) :
    confirmWindowOf (some o) = JsNum.fin (max 1 c) := by
  show JsNum.max (JsNum.fin 1) ((o.confirm_window).getD (JsNum.fin 2)) = JsNum.fin (max 1 c)
  rw [ho]
  rfl

theorem decayWindowOf_fin (d : ℚ) (o : IntuitionOpts)
    (ho : o.decay_window = some (JsNum.fin d)) :
    decayWindowOf (some o) = JsNum.fin (max 1 d) := by
  show JsNum.max (JsNum.fin 1) ((o.decay_window).getD (JsNum.fin 4)) = JsNum.fin (max 1 d)
  rw [ho]
  rfl

theorem confirmWindowOf_le_one (c : ℚ) (hc : 1 < c) (o : IntuitionOpts)
    (ho : o.confirm_window = some (JsNum.fin c)) :
    JsNum.le (confirmWindowOf (some o)) (JsNum.fin 1) = false := by
  rw [confirmWindowOf_fin c o ho, max_eq_right (le_of_lt hc), JsNum.le_fin]
  simpa using hc

/-- C11, as amended: when one occurrence does not reach the confirm window
(`confirm_window > 1`; an absent `confirm_window` counts as 2), an occurrence of a
family that triggers decay leaves the family provisional with streak 1 and
confirms nothing, and every occurrence after which a family is confirmed while
it was not before starts from provisional and triggers no decay: confirmed is
never entered from decayed.  `L` holds the variables of the loop before the
occurrence. -/
theorem decay_occurrence_leaves_provisional (opts : Option IntuitionOpts) (L : IntuitionLoop)
    (ev : CluEvent) (fam : String) (st : FamState)
    (hfam : familyOf opts ev.id = some fam)
    (hcw : JsNum.le (confirmWindowOf opts) (JsNum.fin 1) = false)
    (hst : L.famState.get fam = some st) :
    (decayTriggers opts st ev.segment_idx = true →
        (intuitionStep opts L ev).famState.get fam
            = some { lastSeg := ev.segment_idx, streak := 1, state := .provisional }
          ∧ (intuitionStep opts L ev).confirmed = L.confirmed
          ∧ (intuitionStep opts L ev).augmented
              = L.augmented ++ [annotateEvent ev .provisional fam])
    ∧ (∀ st', (intuitionStep opts L ev).famState.get fam = some st' →
        st'.state = .confirmed → st.state ≠ .confirmed →
          st.state = .provisional ∧ decayTriggers opts st ev.segment_idx = false)
    ∧ (∀ events, intuitionLoop opts events
        = (arraySort cluCompare events).foldl (intuitionStep opts) intuitionInit)
    ∧ (∀ (c : ℚ) (o : IntuitionOpts), 1 < c → o.confirm_window = some (JsNum.fin c) →
        JsNum.le (confirmWindowOf (some o)) (JsNum.fin 1) = false)
    ∧ JsNum.le (confirmWindowOf none) (JsNum.fin 1) = false := by
  refine ⟨?_, ?_, fun _ => rfl, fun c o hc ho => confirmWindowOf_le_one c hc o ho, by decide⟩
  · intro hd
    obtain ⟨h1, h2⟩ := occurrence_decay opts st ev.segment_idx hcw hd
    rw [intuitionStep_mapped opts L ev fam hfam, hst]
    simp only [JsMap.get_set, if_true, h1, h2, Nat.add_zero, true_and]
  · intro st' hst' hnew hold
    rw [intuitionStep_famState opts L ev fam hfam, hst] at hst'
    injection hst' with hst'
    rw [← hst'] at hnew
    exact occurrence_enters_confirmed opts st ev.segment_idx hcw hnew hold

/-- C11, witness: family F confirmed in segments 0 and 1 (`confirm_window = 2`,
`decay_window = 4`); its occurrence in segment 10 triggers decay and leaves it
provisional. -/
theorem decay_occurrence_leaves_provisional_witness :
    familyOf (some (familyOpts 2 4)) (mkCluEvent "CLU_F" 10 0).id = some "F"
    ∧ JsNum.le (confirmWindowOf (some (familyOpts 2 4))) (JsNum.fin 1) = false
    ∧ ([mkCluEvent "CLU_F" 0 0, mkCluEvent "CLU_F" 1 0].foldl
          (intuitionStep (some (familyOpts 2 4))) intuitionInit).famState.get "F"
        = some { lastSeg := 1, streak := 2, state := .confirmed }
    ∧ (intuitionStep (some (familyOpts 2 4))
          ([mkCluEvent "CLU_F" 0 0, mkCluEvent "CLU_F" 1 0].foldl
            (intuitionStep (some (familyOpts 2 4))) intuitionInit)
          (mkCluEvent "CLU_F" 10 0)).famState.get "F"
        = some { lastSeg := 10, streak := 1, state := .provisional } :=
  ⟨by decide, by decide, by decide,
    ((decay_occurrence_leaves_provisional (some (familyOpts 2 4))
      ([mkCluEvent "CLU_F" 0 0, mkCluEvent "CLU_F" 1 0].foldl
        (intuitionStep (some (familyOpts 2 4))) intuitionInit)
      (mkCluEvent "CLU_F" 10 0) "F" { lastSeg := 1, streak := 2, state := .confirmed }
      (by decide) (by decide) (by decide)).1 (by decide)).1⟩

/-- C11, counterexample: with `confirm_window = 1` and `decay_window = 4`, family F
occurs in segments 0 and 10.  The second occurrence triggers decay (one
retraction) and leaves the family confirmed: decayed goes straight to confirmed. -/
theorem decay_occurrence_reconfirms :
    decayTriggers (some (familyOpts 1 4)) { lastSeg := 0, streak := 1, state := .confirmed } 10
        = true
    ∧ ([mkCluEvent "CLU_F" 0 0].foldl (intuitionStep (some (familyOpts 1 4)))
          intuitionInit).famState.get "F"
        = some { lastSeg := 0, streak := 1, state := .confirmed }
    ∧ ([mkCluEvent "CLU_F" 0 0, mkCluEvent "CLU_F" 10 0].foldl
          (intuitionStep (some (familyOpts 1 4))) intuitionInit).famState.get "F"
        = some { lastSeg := 10, streak := 1, state := .confirmed }
    ∧ (processIntuitionClu [mkCluEvent "CLU_F" 0 0, mkCluEvent "CLU_F" 10 0]
          (some (familyOpts 1 4))).events.map intuitionStateOf
        = [some "confirmed", some "confirmed"]
    ∧ (processIntuitionClu [mkCluEvent "CLU_F" 0 0, mkCluEvent "CLU_F" 10 0]
          (some (familyOpts 1 4))).telemetry.retracted = 1
    ∧ (processIntuitionClu [mkCluEvent "CLU_F" 0 0, mkCluEvent "CLU_F" 10 0]
          (some (familyOpts 1 4))).telemetry.confirmed = 2 := by
  decide

theorem confirmCheck_keeps (cw : JsNum) (st : FamState) (confirmed : Nat) :
    (confirmCheck cw st confirmed).1.streak = st.streak
      ∧ (confirmCheck cw st confirmed).1.lastSeg = st.lastSeg := by
  unfold confirmCheck
  split
  · exact ⟨rfl, rfl⟩
  · split <;> exact ⟨rfl, rfl⟩

theorem occurrence_new_family_retracts (opts : Option IntuitionOpts) (segIdx : Nat) :
    (occurrence opts none segIdx).2.2 = 0 := by
  unfold occurrence decayCheck
  simp only [Option.getD_none]
  split <;> rfl

/-- C13: an occurrence of a confirmed family that lies more than `decay_window`
segments after the family's last occurrence increments `retracted` by exactly
one; the decay check resets the family to decayed with streak 0, and the streak
is 1 after the occurrence.  An occurrence whose gap is at most `decay_window`, or
of a family that is not confirmed or not seen before, and an event without a
family, leave `retracted` as it is.  `L` holds the variables of the loop before
the occurrence. -/
theorem retraction_on_decay (opts : Option IntuitionOpts) (L : IntuitionLoop) (ev : CluEvent)
    (fam : String) (hfam : familyOf opts ev.id = some fam) :
    (∀ st, L.famState.get fam = some st → st.state = .confirmed →
        decayTriggers opts st ev.segment_idx = true →
          (intuitionStep opts L ev).retracted = L.retracted + 1
          ∧ decayCheck (decayWindowOf opts) st ev.segment_idx L.retracted
              = ({ lastSeg := st.lastSeg, streak := 0, state := .decayed }, L.retracted + 1)
          ∧ ∃ st', (intuitionStep opts L ev).famState.get fam = some st'
              ∧ st'.streak = 1 ∧ st'.lastSeg = ev.segment_idx)
    ∧ (∀ st, L.famState.get fam = some st →
        (decayTriggers opts st ev.segment_idx = false ∨ st.state ≠ .confirmed) →
          (intuitionStep opts L ev).retracted = L.retracted)
    ∧ (L.famState.get fam = none → (intuitionStep opts L ev).retracted = L.retracted)
    ∧ (∀ ev' : CluEvent, familyOf opts ev'.id = none →
        (intuitionStep opts L ev').retracted = L.retracted)
    ∧ (∀ (st : FamState) (segIdx : Nat), decayTriggers opts st segIdx = true ↔
        JsNum.lt (decayWindowOf opts)
          (JsNum.fin (((segIdx : Int) - (st.lastSeg : Int) : Int) : ℚ)) = true) := by
  refine ⟨?_, ?_, ?_, ?_, fun _ _ => Iff.rfl⟩
  · intro st hst hconf hd
    refine ⟨?_, ?_, ?_⟩
    · rw [intuitionStep_mapped opts L ev fam hfam, hst, occurrence_of_decay opts st _ hd]
      simp only [hconf, if_true]
    · rw [decayCheck_of_triggers _ _ _ _ hd]
      simp only [hconf, if_true]
    · refine ⟨_, intuitionStep_famState opts L ev fam hfam, ?_, ?_⟩
      · rw [hst, occurrence_of_decay opts st _ hd]
        exact (confirmCheck_keeps _ _ _).1
      · rw [hst, occurrence_of_decay opts st _ hd]
        exact (confirmCheck_keeps _ _ _).2
  · intro st hst hor
    rw [intuitionStep_mapped opts L ev fam hfam, hst]
    cases hd : decayTriggers opts st ev.segment_idx with
    | true =>
      rcases hor with h | h
      · rw [hd] at h
        exact absurd h (by simp)
      · rw [occurrence_of_decay opts st _ hd]
        simp only [h, if_false, Nat.add_zero]
    | false =>
      rw [occurrence_of_no_decay opts st _ hd]
      rfl
  · intro hnone
    rw [intuitionStep_mapped opts L ev fam hfam, hnone, occurrence_new_family_retracts]
    rfl
  · intro ev' hnone
    rw [intuitionStep_unmapped opts L ev' hnone]

/-- C13, witness: family F is confirmed in segments 0 and 1; its occurrence in
segment 10 (`decay_window = 4`) increments `retracted` from 0 to 1. -/
theorem retraction_on_decay_witness :
    familyOf (some (familyOpts 2 4)) (mkCluEvent "CLU_F" 10 0).id = some "F"
    ∧ ([mkCluEvent "CLU_F" 0 0, mkCluEvent "CLU_F" 1 0].foldl
          (intuitionStep (some (familyOpts 2 4))) intuitionInit).retracted = 0
    ∧ (intuitionStep (some (familyOpts 2 4))
          ([mkCluEvent "CLU_F" 0 0, mkCluEvent "CLU_F" 1 0].foldl
            (intuitionStep (some (familyOpts 2 4))) intuitionInit)
          (mkCluEvent "CLU_F" 10 0)).retracted
        = ([mkCluEvent "CLU_F" 0 0, mkCluEvent "CLU_F" 1 0].foldl
            (intuitionStep (some (familyOpts 2 4))) intuitionInit).retracted + 1 :=
  ⟨by decide, by decide,
    ((retraction_on_decay (some (familyOpts 2 4))
      ([mkCluEvent "CLU_F" 0 0, mkCluEvent "CLU_F" 1 0].foldl
        (intuitionStep (some (familyOpts 2 4))) intuitionInit)
      (mkCluEvent "CLU_F" 10 0) "F" (by decide)).1
        { lastSeg := 1, streak := 2, state := .confirmed } (by decide) rfl (by decide)).1⟩

/-- C14, evaluation at the failing inputs (`confirm_window = 2`, `decay_window = 4`):
two events of family F in segment 0 confirm the family at the second event, and
occurrences in segments 0 and 3 confirm it in segment 3 although segment 2 has no
occurrence: the streak counts events, not consecutive segments. -/
theorem confirmation_counts_events :
    (processIntuitionClu [mkCluEvent "CLU_F" 0 0, mkCluEvent "CLU_F" 0 5]
          (some (familyOpts 2 4))).events.map (fun e => (e.segment_idx, intuitionStateOf e))
        = [(0, some "provisional"), (0, some "confirmed")]
    ∧ (processIntuitionClu [mkCluEvent "CLU_F" 0 0, mkCluEvent "CLU_F" 0 5]
          (some (familyOpts 2 4))).telemetry.confirmed = 1
    ∧ (processIntuitionClu [mkCluEvent "CLU_F" 0 0, mkCluEvent "CLU_F" 3 0]
          (some (familyOpts 2 4))).events.map (fun e => (e.segment_idx, intuitionStateOf e))
        = [(0, some "provisional"), (3, some "confirmed")]
    ∧ (∀ e ∈ [mkCluEvent "CLU_F" 0 0, mkCluEvent "CLU_F" 3 0], e.segment_idx ≠ 2) := by
  decide

/-! ### Family multiplier -/

theorem JsMap.get_append_of_not_mem {β : Type} (done rest : JsMap String β) (k : String)
    (h : k ∉ done.map (fun kv => kv.1)) :
    JsMap.get (done ++ rest) k = JsMap.get rest k := by
  induction done with
  | nil => rfl
  | cons kv done ih =>
    obtain ⟨a, b⟩ := kv
    have ha : ¬ a = k := fun e => h (by simp [e])
    have hd : k ∉ done.map (fun kv => kv.1) := fun hm => h (by simp [hm])
    show JsMap.get ((a, b) :: (done ++ rest)) k = JsMap.get rest k
    simp only [JsMap.get, ha, if_false, ih hd]

theorem JsMap.set_of_not_mem {β : Type} (m : JsMap String β) (k : String) (v : β)
    (h : k ∉ m.map (fun kv => kv.1)) :
    JsMap.set m k v = m ++ [(k, v)] := by
  induction m with
  | nil => rfl
  | cons kv m ih =>
    obtain ⟨a, b⟩ := kv
    have ha : ¬ a = k := fun e => h (by simp [e])
    have hd : k ∉ m.map (fun kv => kv.1) := fun hm => h (by simp [hm])
    simp only [JsMap.set, ha, if_false, ih hd, List.cons_append]

theorem foldl_multiplyStep (m : JsNum) (indices done todo : JsMap String ScoredIndex)
    (hsplit : indices = done ++ todo) (hnodup : (indices.map (fun kv => kv.1)).Nodup) :
    (todo.map (fun kv => kv.1)).foldl (multiplyStep indices m)
        (done.map (fun kv => (kv.1, scaleRaw m kv.2)))
      = indices.map (fun kv => (kv.1, scaleRaw m kv.2)) := by
  induction todo generalizing done with
  | nil => simp [hsplit]
  | cons kv todo ih =>
    obtain ⟨k, v⟩ := kv
    have hnd : (done.map (fun kv => kv.1) ++ k :: todo.map (fun kv => kv.1)).Nodup := by
      rw [hsplit] at hnodup
      simpa using hnodup
    have hk : k ∉ done.map (fun kv => kv.1) := by
      intro hm
      exact (List.nodup_append.1 hnd).2.2 hm (List.mem_cons_self _ _)
    have hget : indices.get k = some v := by
      rw [hsplit, JsMap.get_append_of_not_mem done _ k hk]
      simp [JsMap.get]
    have hk2 : k ∉ (done.map (fun kv => (kv.1, scaleRaw m kv.2))).map (fun kv => kv.1) := by
      simpa [List.map_map] using hk
    have hstep : multiplyStep indices m (done.map (fun kv => (kv.1, scaleRaw m kv.2))) k
        = (done ++ [(k, v)]).map (fun kv => (kv.1, scaleRaw m kv.2)) := by
      unfold multiplyStep
      rw [hget]
      simp only []
      rw [JsMap.set_of_not_mem _ _ _ hk2, List.map_append]
      rfl
    rw [List.map_cons, List.foldl_cons, hstep]
    exact ih (done ++ [(k, v)]) (by rw [hsplit]; simp)

/-- In the confirmed state `applyFamilyMultiplier` multiplies every `raw` by the
effective multiplier and keeps everything else. -/
theorem applyFamilyMultiplier_confirmed (indices : JsMap String ScoredIndex)
    (multiplier : Option JsNum) (hnodup : (indices.map (fun kv => kv.1)).Nodup) :
    applyFamilyMultiplier indices "confirmed" multiplier
      = indices.map (fun kv => (kv.1, scaleRaw (effectiveMultiplier multiplier) kv.2)) := by
  unfold applyFamilyMultiplier
  rw [if_neg (by simp)]
  exact foldl_multiplyStep (effectiveMultiplier multiplier) indices [] indices rfl hnodup

theorem JsNum.mul_fin_one (x : JsNum) : x * JsNum.fin 1 = x := by
  cases x with
  | fin a =>
    show JsNum.fin (a * 1) = JsNum.fin a
    rw [mul_one]
  | posInf =>
    show JsNum.infTimes true 1 = JsNum.posInf
    simp [JsNum.infTimes]
  | negInf =>
    show JsNum.infTimes false 1 = JsNum.negInf
    simp [JsNum.infTimes]
  | nan => rfl

/-- C15, as amended: when the state is not `confirmed`, `applyFamilyMultiplier`
returns the indices unchanged; when it is `confirmed`, the result has the same
index names in the same order, every `z`, `p` and other property is the
original one, and each `raw` is the original `raw` times the multiplier when the
multiplier is a finite number; a multiplier that is `NaN` or infinite is not
used but replaced by the factor of an omitted multiplier. -/
theorem applyFamilyMultiplier_frame (indices : JsMap String ScoredIndex)
    (multiplier : Option JsNum) (hnodup : (indices.map (fun kv => kv.1)).Nodup) :
    (∀ state : String, state ≠ "confirmed" →
        applyFamilyMultiplier indices state multiplier = indices)
    ∧ (applyFamilyMultiplier indices "confirmed" multiplier).map (fun kv => kv.1)
        = indices.map (fun kv => kv.1)
    ∧ (∀ (k : String) (v : ScoredIndex), (k, v) ∈ indices →
        (applyFamilyMultiplier indices "confirmed" multiplier).get k
          = some { raw := v.raw * effectiveMultiplier multiplier, z := v.z, p := v.p,
                   others := v.others })
    ∧ (∀ q : ℚ, multiplier = some (JsNum.fin q) → effectiveMultiplier multiplier = JsNum.fin q)
    ∧ ((∀ q : ℚ, multiplier ≠ some (JsNum.fin q)) →
        effectiveMultiplier multiplier = effectiveMultiplier none
        ∧ applyFamilyMultiplier indices "confirmed" multiplier
            = applyFamilyMultiplier indices "confirmed" none) := by
  have hconf := applyFamilyMultiplier_confirmed indices multiplier hnodup
  refine ⟨?_, ?_, ?_, ?_, ?_⟩
  · intro state hs
    unfold applyFamilyMultiplier
    rw [if_pos hs]
  · rw [hconf, List.map_map]
    rfl
  · intro k v hmem
    rw [hconf]
    clear hconf
    induction indices with
    | nil => simp at hmem
    | cons kv rest ih =>
      obtain ⟨a, b⟩ := kv
      have hnd : a ∉ rest.map (fun kv => kv.1) ∧ (rest.map (fun kv => kv.1)).Nodup := by
        rw [List.map_cons] at hnodup
        exact List.nodup_cons.1 hnodup
      rcases List.mem_cons.1 hmem with h | h
      · injection h with h1 h2
        subst h1
        subst h2
        simp [JsMap.get, scaleRaw]
      · have hne : ¬ a = k := by
          intro e
          apply hnd.1
          rw [e]
          exact List.mem_map.2 ⟨(k, v), h, rfl⟩
        simp only [List.map_cons, JsMap.get, hne, if_false]
        exact ih hnd.2 h
  · intro q hq
    rw [hq]
    rfl
  · intro hnot
    have hm : effectiveMultiplier multiplier = JsNum.fin 1 := by
      unfold effectiveMultiplier
      cases multiplier with
      | none => rfl
      | some x =>
        cases x with
        | fin q => exact absurd rfl (hnot q)
        | posInf => rfl
        | negInf => rfl
        | nan => rfl
    refine ⟨hm, ?_⟩
    rw [hconf, applyFamilyMultiplier_confirmed indices none hnodup, hm]
    rfl

/-- C15, witness: the record with the single index `trust` (raw 2) and the
multiplier 3 gives raw `2 * 3`, with `z` and `p` kept. -/
theorem applyFamilyMultiplier_frame_witness :
    ((trustOnly 2).map (fun kv => kv.1)).Nodup
    ∧ (applyFamilyMultiplier (trustOnly 2) "confirmed" (some (JsNum.fin 3))).get "trust"
        = some { raw := JsNum.fin 2 * effectiveMultiplier (some (JsNum.fin 3)),
                 z := some (JsNum.fin 0), p := some (JsNum.fin (1 / 2)), others := [] } :=
  ⟨by decide,
    (applyFamilyMultiplier_frame (trustOnly 2) (some (JsNum.fin 3)) (by decide)).2.2.1 "trust"
      { raw := JsNum.fin 2, z := some (JsNum.fin 0), p := some (JsNum.fin (1 / 2)), others := [] }
      (List.mem_singleton_self _)⟩

/-- C15, counterexample: with the multiplier `Infinity` the confirmed state leaves
`raw = 1` as it is, while `raw` times the multiplier is `Infinity`. -/
theorem applyFamilyMultiplier_infinite_multiplier :
    applyFamilyMultiplier (trustOnly 1) "confirmed" (some JsNum.posInf) = trustOnly 1
    ∧ JsNum.fin 1 * JsNum.posInf = JsNum.posInf
    ∧ (applyFamilyMultiplier (trustOnly 1) "confirmed" (some JsNum.posInf)).get "trust"
        ≠ some { raw := JsNum.fin 1 * JsNum.posInf, z := some (JsNum.fin 0),
                 p := some (JsNum.fin (1 / 2)), others := [] } := by
  have h1 : applyFamilyMultiplier (trustOnly 1) "confirmed" (some JsNum.posInf)
      = trustOnly 1 := by
    rw [applyFamilyMultiplier_confirmed _ _ (by decide)]
    show [("trust", scaleRaw (JsNum.fin 1) _)] = trustOnly 1
    simp [scaleRaw, trustOnly, JsNum.mul_fin_one]
  have h2 : JsNum.fin 1 * JsNum.posInf = JsNum.posInf := by
    show JsNum.infTimes true 1 = JsNum.posInf
    simp [JsNum.infTimes]
  refine ⟨h1, h2, ?_⟩
  rw [h1, h2]
  simp [trustOnly, JsMap.get]

/-- C16, evaluation at the failing input: with the multiplier omitted the confirmed
state leaves `raw = 2` as it is (the default of `applyFamilyMultiplier` is 1.0),
not `2 * 1.1`; the default 1.1 is the one `processIntuitionClu` computes and
never uses. -/
theorem applyFamilyMultiplier_default_is_one :
    applyFamilyMultiplier (trustOnly 2) "confirmed" none = trustOnly 2
    ∧ effectiveMultiplier none = JsNum.fin 1
    ∧ intuitionMultiplierOf none = JsNum.fin (11 / 10)
    ∧ JsNum.fin 2 * JsNum.fin (11 / 10) = JsNum.fin (11 / 5)
    ∧ (applyFamilyMultiplier (trustOnly 2) "confirmed" none).get "trust"
        ≠ some { raw := JsNum.fin 2 * JsNum.fin (11 / 10), z := some (JsNum.fin 0),
                 p := some (JsNum.fin (1 / 2)), others := [] } := by
  have h1 : applyFamilyMultiplier (trustOnly 2) "confirmed" none = trustOnly 2 := by
    rw [applyFamilyMultiplier_confirmed _ _ (by decide)]
    show [("trust", scaleRaw (JsNum.fin 1) _)] = trustOnly 2
    simp [scaleRaw, trustOnly, JsNum.mul_fin_one]
  have h2 : JsNum.fin 2 * JsNum.fin (11 / 10) = JsNum.fin (11 / 5) := by
    rw [JsNum.fin_mul_fin]
    norm_num
  refine ⟨h1, rfl, rfl, h2, ?_⟩
  rw [h1, h2]
  simp only [trustOnly, JsMap.get, if_true, ne_eq, Option.some.injEq, ScoredIndex.mk.injEq,
    JsNum.fin.injEq, and_true, true_and]
  norm_num

/-! ### Traversal order of the intuition tracker -/

theorem orderedInsert_filter {α : Type} (r : α → α → Prop) [DecidableRel r] [IsTrans α r]
    (p : α → Bool) (a : α) (l : List α) (hl : l.Sorted r) :
    (l.orderedInsert r a).filter p
      = if p a = true then (l.filter p).orderedInsert r a else l.filter p := by
  induction l with
  | nil =>
    by_cases hp : p a = true <;> simp [hp]
  | cons b l ih =>
    have hl' : l.Sorted r := hl.of_cons
    have hb : ∀ x ∈ l, r b x := List.rel_of_sorted_cons hl
    by_cases hab : r a b
    · rw [List.orderedInsert, if_pos hab]
      by_cases hp : p a = true
      · rw [if_pos hp, List.filter_cons, if_pos hp]
        have hall : ∀ x ∈ (b :: l).filter p, r a x := by
          intro x hx
          have hx' : x ∈ b :: l := (List.mem_filter.1 hx).1
          rcases List.mem_cons.1 hx' with h | h
          · rw [h]
            exact hab
          · exact IsTrans.trans a b x hab (hb x h)
        cases hf : (b :: l).filter p with
        | nil => rfl
        | cons c cs =>
          have hac : r a c := hall c (by rw [hf]; exact List.mem_cons_self _ _)
          rw [List.orderedInsert, if_pos hac]
      · rw [if_neg hp, List.filter_cons, if_neg hp]
    · rw [List.orderedInsert, if_neg hab]
      by_cases hpb : p b = true
      · rw [List.filter_cons, if_pos hpb, ih hl', List.filter_cons, if_pos hpb]
        by_cases hp : p a = true
        · rw [if_pos hp, if_pos hp, List.orderedInsert, if_neg hab]
        · rw [if_neg hp, if_neg hp]
      · rw [List.filter_cons, if_neg hpb, ih hl', List.filter_cons, if_neg hpb]

/-- A stable sort commutes with a filter. -/
theorem insertionSort_filter {α : Type} (r : α → α → Prop) [DecidableRel r] [IsTrans α r]
    [IsTotal α r] (p : α → Bool) (l : List α) :
    (l.insertionSort r).filter p = (l.filter p).insertionSort r := by
  induction l with
  | nil => rfl
  | cons a l ih =>
    rw [List.insertionSort, orderedInsert_filter r p a _ (List.sorted_insertionSort r l), ih]
    by_cases hp : p a = true
    · rw [if_pos hp, List.filter_cons, if_pos hp, List.insertionSort]
    · rw [if_neg hp, List.filter_cons, if_neg hp]

theorem cluCompare_le_iff (a b : CluEvent) : cluCompare a b ≤ 0 ↔ cluLe a b := by
  unfold cluCompare cluLe
  by_cases h : (a.segment_idx : Int) - (b.segment_idx : Int) ≠ 0
  · rw [if_pos h]
    constructor
    · intro hle
      left
      omega
    · rintro (h1 | ⟨h1, _⟩)
      · omega
      · exact absurd (by rw [h1]; omega) h
  · rw [if_neg h]
    have heq : a.segment_idx = b.segment_idx := by omega
    constructor
    · intro hle
      right
      exact ⟨heq, by omega⟩
    · rintro (h1 | ⟨_, h1⟩)
      · omega
      · omega

theorem cluCompare_total : IsTotal CluEvent (fun a b => cluCompare a b ≤ 0) := by
  constructor
  intro a b
  rw [cluCompare_le_iff, cluCompare_le_iff]
  unfold cluLe
  omega

theorem cluCompare_trans : IsTrans CluEvent (fun a b => cluCompare a b ≤ 0) := by
  constructor
  intro a b c
  rw [cluCompare_le_iff, cluCompare_le_iff, cluCompare_le_iff]
  unfold cluLe
  omega

/-- The traversal order of `processIntuitionClu` is ordered by
`(segment_idx, span.start)`. -/
theorem arraySort_cluCompare_sorted (events : List CluEvent) :
    (arraySort cluCompare events).Sorted cluLe := by
  haveI := cluCompare_total
  haveI := cluCompare_trans
  have hs := List.sorted_insertionSort (fun a b : CluEvent => cluCompare a b ≤ 0) events
  exact List.Pairwise.imp (fun {a b} hab => (cluCompare_le_iff a b).1 hab) hs

/-- Sorting and then dropping some events is sorting what is left. -/
theorem arraySort_cluCompare_filter (p : CluEvent → Bool) (events : List CluEvent) :
    (arraySort cluCompare events).filter p = arraySort cluCompare (events.filter p) := by
  haveI := cluCompare_total
  haveI := cluCompare_trans
  exact insertionSort_filter _ p events

/-- In traversal order the segment indices of a family are ascending; when they
are the numbers `s, ..., s + n - 1` in some order in the input, they are
`s, ..., s + n - 1` in the traversal. -/
theorem famSegments_sorted (opts : Option IntuitionOpts) (F : String) (events : List CluEvent)
    (s n : Nat) (h : (famSegments opts F events).Perm (List.range' s n)) :
    famSegments opts F (arraySort cluCompare events) = List.range' s n := by
  have hperm : (famSegments opts F (arraySort cluCompare events)).Perm (List.range' s n) := by
    refine List.Perm.trans ?_ h
    unfold famSegments
    exact ((arraySort_perm cluCompare events).filter _).map _
  have hsorted : (famSegments opts F (arraySort cluCompare events)).Sorted (· ≤ ·) := by
    unfold famSegments
    have h1 := (arraySort_cluCompare_sorted events).filter (isFamily opts F)
    refine List.Pairwise.map _ ?_ h1
    intro a b hab
    unfold cluLe at hab
    omega
  exact List.eq_of_perm_of_sorted hperm hsorted (List.pairwise_le_range' s n)

/-! ### One family inside the loop of the intuition tracker -/

theorem intuitionStateOf_annotateEvent (ev : CluEvent) (state : IntuitionState) (fam : String) :
    intuitionStateOf (annotateEvent ev state fam) = some state.name := by
  unfold intuitionStateOf annotateEvent
  show JsMap.get (JsMap.set (JsMap.set (ev.meta.getD []) "intuition_state" state.name)
    "intuition_family" fam) "intuition_state" = some state.name
  rw [JsMap.get_set, JsMap.get_set, if_neg (by decide), if_pos rfl]

theorem intuitionStep_other_family (opts : Option IntuitionOpts) (L : IntuitionLoop)
    (ev : CluEvent) (F : String) (h : familyOf opts ev.id ≠ some F) :
    (intuitionStep opts L ev).famState.get F = L.famState.get F := by
  cases hf : familyOf opts ev.id with
  | none => rw [intuitionStep_unmapped opts L ev hf]
  | some G =>
    have hne : ¬ F = G := by
      intro e
      apply h
      rw [hf, e]
    rw [intuitionStep_mapped opts L ev G hf]
    simp only [JsMap.get_set, hne, if_false]

/-- The loop pushes one event per input event, with the same id; the events it
pushes for the family `F` carry the states of the family's occurrences, and the
state stored for `F` at the end is the one after its last occurrence. -/
theorem foldl_intuitionStep_family (opts : Option IntuitionOpts) (F : String)
    (evs : List CluEvent) (L : IntuitionLoop) :
    ∃ outs, (evs.foldl (intuitionStep opts) L).augmented = L.augmented ++ outs
      ∧ outs.map (fun e => e.id) = evs.map (fun e => e.id)
      ∧ (outs.filter (isFamily opts F)).map intuitionStateOf
          = (famTrace opts (L.famState.get F) (famSegments opts F evs)).map
              (fun o => some o.1.state.name) := by
  induction evs generalizing L with
  | nil => exact ⟨[], by simp, rfl, rfl⟩
  | cons ev evs ih =>
    obtain ⟨outs, h1, h2, h3⟩ := ih (intuitionStep opts L ev)
    rw [List.foldl_cons, h1]
    by_cases hF : familyOf opts ev.id = some F
    · have hisF : isFamily opts F ev = true := by simp [isFamily, hF]
      have hisF' : isFamily opts F (annotateEvent ev
          (occurrence opts (L.famState.get F) ev.segment_idx).1.state F) = true := by
        simp [isFamily, annotateEvent, hF]
      rw [intuitionStep_famState opts L ev F hF] at h3
      rw [intuitionStep_mapped opts L ev F hF]
      refine ⟨annotateEvent ev (occurrence opts (L.famState.get F) ev.segment_idx).1.state F
        :: outs, by simp, ?_, ?_⟩
      · rw [List.map_cons, List.map_cons, h2]
        rfl
      · rw [List.filter_cons, if_pos hisF', List.map_cons, h3, intuitionStateOf_annotateEvent]
        unfold famSegments
        rw [List.filter_cons, if_pos hisF, List.map_cons]
        rfl
    · have hisF : isFamily opts F ev = false := by simp [isFamily, hF]
      rw [intuitionStep_other_family opts L ev F hF] at h3
      have hsegs : famSegments opts F (ev :: evs) = famSegments opts F evs := by
        unfold famSegments
        rw [List.filter_cons, hisF]
        simp
      cases hf : familyOf opts ev.id with
      | none =>
        rw [intuitionStep_unmapped opts L ev hf]
        refine ⟨ev :: outs, by simp, by rw [List.map_cons, List.map_cons, h2], ?_⟩
        rw [List.filter_cons, hisF, hsegs]
        simpa using h3
      | some G =>
        have hisG : isFamily opts F (annotateEvent ev
            (occurrence opts (L.famState.get G) ev.segment_idx).1.state G) = false := by
          simpa [isFamily, annotateEvent] using hF
        rw [intuitionStep_mapped opts L ev G hf]
        refine ⟨annotateEvent ev (occurrence opts (L.famState.get G) ev.segment_idx).1.state G
          :: outs, by simp, ?_, ?_⟩
        · rw [List.map_cons, List.map_cons, h2]
          rfl
        · rw [List.filter_cons, hisG, hsegs]
          simpa using h3

theorem AgreeOff.set_left (F : String) (m m' : JsMap String FamState) (st : FamState)
    (h : AgreeOff F m m') : AgreeOff F (m.set F st) m' := by
  intro k hk
  rw [JsMap.get_set, if_neg hk]
  exact h k hk

theorem AgreeOff.set_both (F G : String) (m m' : JsMap String FamState) (st : FamState)
    (h : AgreeOff F m m') : AgreeOff F (m.set G st) (m'.set G st) := by
  intro k hk
  rw [JsMap.get_set, JsMap.get_set]
  by_cases hkG : k = G
  · rw [if_pos hkG, if_pos hkG]
  · rw [if_neg hkG, if_neg hkG]
    exact h k hk

/-- The counters of the loop are the counters of the loop without the events of
the family `F`, plus the confirmations and retractions of the occurrences of `F`. -/
theorem foldl_intuitionStep_without (opts : Option IntuitionOpts) (F : String)
    (evs : List CluEvent) (L L' : IntuitionLoop) (hagree : AgreeOff F L.famState L'.famState) :
    (evs.foldl (intuitionStep opts) L).confirmed + L'.confirmed
        = ((evs.filter (fun e => !isFamily opts F e)).foldl (intuitionStep opts) L').confirmed
          + L.confirmed
          + ((famTrace opts (L.famState.get F) (famSegments opts F evs)).map
              (fun o => o.2.1)).sum
    ∧ (evs.foldl (intuitionStep opts) L).retracted + L'.retracted
        = ((evs.filter (fun e => !isFamily opts F e)).foldl (intuitionStep opts) L').retracted
          + L.retracted
          + ((famTrace opts (L.famState.get F) (famSegments opts F evs)).map
              (fun o => o.2.2)).sum := by
  induction evs generalizing L L' with
  | nil => simp [famSegments, famTrace, Nat.add_comm]
  | cons ev evs ih =>
    by_cases hF : familyOf opts ev.id = some F
    · have hisF : isFamily opts F ev = true := by simp [isFamily, hF]
      have hag : AgreeOff F (intuitionStep opts L ev).famState L'.famState := by
        rw [intuitionStep_mapped opts L ev F hF]
        exact AgreeOff.set_left F _ _ _ hagree
      obtain ⟨h1, h2⟩ := ih (intuitionStep opts L ev) L' hag
      have hsegs : famSegments opts F (ev :: evs) = ev.segment_idx :: famSegments opts F evs := by
        unfold famSegments
        rw [List.filter_cons, if_pos hisF, List.map_cons]
      rw [List.foldl_cons, List.filter_cons, hisF, hsegs, famTrace]
      simp only [Bool.not_true, Bool.false_eq_true, if_false, List.map_cons, List.sum_cons]
      rw [intuitionStep_famState opts L ev F hF] at h1 h2
      rw [h1, h2, intuitionStep_mapped opts L ev F hF]
      constructor <;> simp only <;> omega
    · have hisF : isFamily opts F ev = false := by simp [isFamily, hF]
      have hsegs : famSegments opts F (ev :: evs) = famSegments opts F evs := by
        unfold famSegments
        rw [List.filter_cons, hisF]
        simp
      have hget := intuitionStep_other_family opts L ev F hF
      rw [List.foldl_cons, List.filter_cons, hisF, hsegs]
      simp only [Bool.not_false, if_true, List.foldl_cons]
      cases hf : familyOf opts ev.id with
      | none =>
        have hag : AgreeOff F (intuitionStep opts L ev).famState
            (intuitionStep opts L' ev).famState := by
          rw [intuitionStep_unmapped opts L ev hf, intuitionStep_unmapped opts L' ev hf]
          exact hagree
        obtain ⟨h1, h2⟩ := ih (intuitionStep opts L ev) (intuitionStep opts L' ev) hag
        rw [hget] at h1 h2
        rw [intuitionStep_unmapped opts L ev hf, intuitionStep_unmapped opts L' ev hf] at h1 h2
        rw [intuitionStep_unmapped opts L ev hf, intuitionStep_unmapped opts L' ev hf]
        exact ⟨h1, h2⟩
      | some G =>
        have hGF : G ≠ F := by
          intro e
          apply hF
          rw [hf, e]
        have hsame : L.famState.get G = L'.famState.get G := hagree G hGF
        have hag : AgreeOff F (intuitionStep opts L ev).famState
            (intuitionStep opts L' ev).famState := by
          rw [intuitionStep_mapped opts L ev G hf, intuitionStep_mapped opts L' ev G hf, hsame]
          exact AgreeOff.set_both F G _ _ _ hagree
        obtain ⟨h1, h2⟩ := ih (intuitionStep opts L ev) (intuitionStep opts L' ev) hag
        rw [hget] at h1 h2
        have e1 : (intuitionStep opts L ev).confirmed
            = L.confirmed + (occurrence opts (L'.famState.get G) ev.segment_idx).2.1 := by
          rw [intuitionStep_mapped opts L ev G hf, hsame]
        have e2 : (intuitionStep opts L' ev).confirmed
            = L'.confirmed + (occurrence opts (L'.famState.get G) ev.segment_idx).2.1 := by
          rw [intuitionStep_mapped opts L' ev G hf]
        have e3 : (intuitionStep opts L ev).retracted
            = L.retracted + (occurrence opts (L'.famState.get G) ev.segment_idx).2.2 := by
          rw [intuitionStep_mapped opts L ev G hf, hsame]
        have e4 : (intuitionStep opts L' ev).retracted
            = L'.retracted + (occurrence opts (L'.famState.get G) ev.segment_idx).2.2 := by
          rw [intuitionStep_mapped opts L' ev G hf]
        rw [e1, e2] at h1
        rw [e3, e4] at h2
        constructor <;> omega

/-! ### A family in consecutive segments -/

theorem decayTriggers_small_gap (opts : Option IntuitionOpts) (st : FamState) (segIdx : Nat)
    (h1 : st.lastSeg ≤ segIdx) (h2 : segIdx ≤ st.lastSeg + 1) :
    decayTriggers opts st segIdx = false := by
  unfold decayTriggers decayWindowOf
  have hgap : ((segIdx : Int) - (st.lastSeg : Int)) ≤ (1 : Int) := by omega
  have hq : ((((segIdx : Int) - (st.lastSeg : Int) : Int)) : ℚ) ≤ 1 := by
    exact_mod_cast hgap
  generalize (opts.bind (fun o => o.decay_window)).getD (JsNum.fin 4) = x
  cases x with
  | fin q =>
    rw [JsNum.max_fin, JsNum.lt_fin]
    exact decide_eq_false (not_lt.2 (le_trans hq (le_max_left 1 q)))
  | posInf => rfl
  | negInf =>
    show JsNum.lt (JsNum.fin 1) _ = false
    rw [JsNum.lt_fin]
    exact decide_eq_false (not_lt.2 hq)
  | nan => rfl

theorem occurrence_consecutive (opts : Option IntuitionOpts) (c : Nat)
    (hcw : confirmWindowOf opts = JsNum.fin (c : ℚ)) (t k segIdx : Nat)
    (h1 : t ≤ segIdx) (h2 : segIdx ≤ t + 1) :
    occurrence opts (some { lastSeg := t, streak := k, state := stateAt c k }) segIdx
      = ({ lastSeg := segIdx, streak := k + 1, state := stateAt c (k + 1) },
         if c = k + 1 then 1 else 0, 0) := by
  have hno := decayTriggers_small_gap opts
    { lastSeg := t, streak := k, state := stateAt c k } segIdx h1 h2
  rw [occurrence_of_no_decay opts _ _ hno]
  by_cases hck : c ≤ k
  · have hs : stateAt c k = .confirmed := by simp [stateAt, hck]
    have hs1 : stateAt c (k + 1) = .confirmed := by
      have : c ≤ k + 1 := by omega
      simp [stateAt, this]
    have hne : ¬ c = k + 1 := by omega
    rw [confirmCheck_confirmed _ _ _ (by simp [updateStreak, hs])]
    simp [updateStreak, hs, hs1, hne]
  · have hs : stateAt c k = .provisional := by simp [stateAt, hck]
    by_cases hck1 : c ≤ k + 1
    · have hs1 : stateAt c (k + 1) = .confirmed := by simp [stateAt, hck1]
      have heq : c = k + 1 := by omega
      have hle : JsNum.le (confirmWindowOf opts)
          (JsNum.fin (((updateStreak { lastSeg := t, streak := k, state := stateAt c k }
            segIdx).streak : ℕ) : ℚ)) = true := by
        rw [hcw, JsNum.le_fin]
        simp only [updateStreak, hs]
        simp only [decide_eq_true_eq]
        exact_mod_cast hck1
      rw [confirmCheck_reached _ _ _ (by simp [updateStreak, hs]) hle, if_pos heq, hs1]
      simp [updateStreak, hs]
    · have hs1 : stateAt c (k + 1) = .provisional := by simp [stateAt, hck1]
      have hne : ¬ c = k + 1 := by omega
      have hle : JsNum.le (confirmWindowOf opts)
          (JsNum.fin (((updateStreak { lastSeg := t, streak := k, state := stateAt c k }
            segIdx).streak : ℕ) : ℚ)) = false := by
        rw [hcw, JsNum.le_fin]
        simp only [updateStreak, hs]
        simp only [decide_eq_false_iff_not]
        intro hle
        apply hck1
        exact_mod_cast hle
      rw [confirmCheck_not_reached _ _ _ hle]
      simp [updateStreak, hs, hs1, hne]

theorem famTrace_consecutive (opts : Option IntuitionOpts) (c : Nat)
    (hcw : confirmWindowOf opts = JsNum.fin (c : ℚ)) (m t k u : Nat)
    (h1 : t ≤ u) (h2 : u ≤ t + 1) :
    famTrace opts (some { lastSeg := t, streak := k, state := stateAt c k }) (List.range' u m)
      = (List.range m).map (fun i =>
          (({ lastSeg := u + i, streak := k + 1 + i, state := stateAt c (k + 1 + i) } : FamState),
            (if c = k + 1 + i then 1 else 0), 0)) := by
  induction m generalizing t k u with
  | zero => rfl
  | succ m ih =>
    rw [List.range'_succ, famTrace, occurrence_consecutive opts c hcw t k u h1 h2,
      ih u (k + 1) (u + 1) (by omega) (by omega), List.range_succ_eq_map, List.map_cons,
      List.map_map]
    congr 1
    apply List.map_congr_left
    intro i _
    simp only [Function.comp, Nat.succ_eq_add_one]
    have e1 : u + 1 + i = u + (i + 1) := by omega
    have e2 : k + 1 + 1 + i = k + 1 + (i + 1) := by omega
    rw [e1, e2]

/-- The occurrences of a family not seen before in the segments `s, s + 1, ...`:
the `i`-th occurrence has streak `i + 1`, is confirmed exactly from the `c`-th
on, and only the `c`-th confirms. -/
theorem famTrace_fresh (opts : Option IntuitionOpts) (c : Nat) (hc : 1 ≤ c)
    (hcw : confirmWindowOf opts = JsNum.fin (c : ℚ)) (s n : Nat) :
    famTrace opts none (List.range' s n)
      = (List.range n).map (fun i =>
          (({ lastSeg := s + i, streak := i + 1, state := stateAt c (i + 1) } : FamState),
            (if c = i + 1 then 1 else 0), 0)) := by
  cases n with
  | zero => rfl
  | succ n =>
    have h0 : stateAt c 0 = .provisional := by
      have : ¬ c ≤ 0 := by omega
      simp [stateAt, this]
    have hstart : famTrace opts none (List.range' s (n + 1))
        = famTrace opts (some { lastSeg := s, streak := 0, state := stateAt c 0 })
            (List.range' s (n + 1)) := by
      rw [List.range'_succ, famTrace, famTrace, h0]
      rfl
    rw [hstart, famTrace_consecutive opts c hcw (n + 1) s 0 s (le_refl _) (by omega)]
    apply List.map_congr_left
    intro i _
    simp only [Nat.zero_add]
    have e : 1 + i = i + 1 := by omega
    rw [e]

theorem sum_confirmations (c : Nat) (hc : 1 ≤ c) (n : Nat) :
    ((List.range n).map (fun i => if c = i + 1 then 1 else 0)).sum = if c ≤ n then 1 else 0 := by
  induction n with
  | zero =>
    have : ¬ c ≤ 0 := by omega
    simp [this]
  | succ n ih =>
    rw [List.range_succ, List.map_append, List.sum_append, ih]
    simp only [List.map_cons, List.map_nil, List.sum_cons, List.sum_nil, Nat.add_zero]
    by_cases h1 : c ≤ n
    · have h2 : ¬ c = n + 1 := by omega
      have h3 : c ≤ n + 1 := by omega
      simp [h1, h2, h3]
    · by_cases h2 : c = n + 1
      · simp [h1, h2]
      · have h3 : ¬ c ≤ n + 1 := by omega
        simp [h1, h2, h3]

theorem sum_zeros (n : Nat) : ((List.range n).map (fun _ => 0)).sum = 0 := by
  induction n with
  | zero => rfl
  | succ n ih => rw [List.range_succ, List.map_append, List.sum_append, ih]; rfl

theorem confirmWindowOf_nat (c : Nat) (hc : 1 ≤ c) (o : IntuitionOpts)
    (ho : o.confirm_window = some (JsNum.fin (c : ℚ))) :
    confirmWindowOf (some o) = JsNum.fin (c : ℚ) := by
  rw [confirmWindowOf_fin (c : ℚ) o ho, max_eq_right (by exact_mod_cast hc)]

theorem stateAt_name (c i : Nat) :
    (stateAt c (i + 1)).name = if i + 1 < c then "provisional" else "confirmed" := by
  unfold stateAt
  by_cases h : c ≤ i + 1
  · have h2 : ¬ i + 1 < c := by omega
    simp [h, h2, IntuitionState.name]
  · have h2 : i + 1 < c := by omega
    simp [h, h2, IntuitionState.name]

/-- C12: for a family `F` with no earlier occurrences that occurs once per segment
in the consecutive segments `s, s + 1, ..., s + n - 1` (in any input order), with
`confirm_window = c >= 1` and any decay window (the code raises it to at least 1),
`processIntuitionClu` annotates the first `c - 1` occurrences of the family
provisional and every occurrence from the `c`-th on confirmed; the counter
`confirmed` is the counter of the run without the family plus one if the `c`-th
occurrence exists (plus nothing otherwise), and the family retracts nothing. -/
theorem consecutive_segments_confirm (o : IntuitionOpts) (c : Nat) (hc : 1 ≤ c)
    (hcw : o.confirm_window = some (JsNum.fin (c : ℚ)))
    (F : String) (events : List CluEvent) (s n : Nat)
    (hsegs : (famSegments (some o) F events).Perm (List.range' s n)) :
    (((processIntuitionClu events (some o)).events.filter (isFamily (some o) F)).map
        intuitionStateOf
      = (List.range n).map
          (fun i => some (if i + 1 < c then "provisional" else "confirmed")))
    ∧ (processIntuitionClu events (some o)).telemetry.confirmed
        = (processIntuitionClu (events.filter (fun e => !isFamily (some o) F e))
            (some o)).telemetry.confirmed + (if c ≤ n then 1 else 0)
    ∧ (processIntuitionClu events (some o)).telemetry.retracted
        = (processIntuitionClu (events.filter (fun e => !isFamily (some o) F e))
            (some o)).telemetry.retracted := by
  have hcw' := confirmWindowOf_nat c hc o hcw
  have hsorted := famSegments_sorted (some o) F events s n hsegs
  have htrace := famTrace_fresh (some o) c hc hcw' s n
  refine ⟨?_, ?_, ?_⟩
  · obtain ⟨outs, h1, _, h3⟩ := foldl_intuitionStep_family (some o) F
      (arraySort cluCompare events) intuitionInit
    have hev : (processIntuitionClu events (some o)).events = outs := by
      show (intuitionLoop (some o) events).augmented = outs
      unfold intuitionLoop
      exact h1.trans (List.nil_append outs)
    have hget : intuitionInit.famState.get F = none := rfl
    rw [hev, h3, hsorted, hget, htrace, List.map_map]
    apply List.map_congr_left
    intro i _
    simp only [Function.comp]
    rw [stateAt_name]
  · have h := (foldl_intuitionStep_without (some o) F (arraySort cluCompare events)
      intuitionInit intuitionInit (fun _ _ => rfl)).1
    have hget : intuitionInit.famState.get F = none := rfl
    rw [hsorted, hget, htrace, List.map_map, arraySort_cluCompare_filter] at h
    have hsum : ((List.range n).map ((fun o : FamState × Nat × Nat => o.2.1) ∘ (fun i =>
          (({ lastSeg := s + i, streak := i + 1, state := stateAt c (i + 1) } : FamState),
            (if c = i + 1 then 1 else 0), 0)))).sum = if c ≤ n then 1 else 0 :=
      sum_confirmations c hc n
    rw [hsum] at h
    show (intuitionLoop (some o) events).confirmed
      = (intuitionLoop (some o) (events.filter (fun e => !isFamily (some o) F e))).confirmed + _
    unfold intuitionLoop
    have h0 : intuitionInit.confirmed = 0 := rfl
    rw [h0] at h
    simpa using h
  · have h := (foldl_intuitionStep_without (some o) F (arraySort cluCompare events)
      intuitionInit intuitionInit (fun _ _ => rfl)).2
    have hget : intuitionInit.famState.get F = none := rfl
    rw [hsorted, hget, htrace, List.map_map, arraySort_cluCompare_filter] at h
    have hsum : ((List.range n).map ((fun o : FamState × Nat × Nat => o.2.2) ∘ (fun i =>
          (({ lastSeg := s + i, streak := i + 1, state := stateAt c (i + 1) } : FamState),
            (if c = i + 1 then 1 else 0), 0)))).sum = 0 :=
      sum_zeros n
    rw [hsum] at h
    show (intuitionLoop (some o) events).retracted
      = (intuitionLoop (some o) (events.filter (fun e => !isFamily (some o) F e))).retracted
    unfold intuitionLoop
    have h0 : intuitionInit.retracted = 0 := rfl
    rw [h0] at h
    simpa using h

/-- Witness of C12: the family `F` in segments 0 and 1 (given in reverse order)
with `confirm_window = 2` is provisional at segment 0 and confirmed exactly at the
segment-1 occurrence, and the counter `confirmed` is 1. -/
theorem consecutive_segments_confirm_witness :
    (((processIntuitionClu [mkCluEvent "CLU_F" 1 0, mkCluEvent "CLU_F" 0 0]
          (some (familyOpts 2 4))).events.filter (isFamily (some (familyOpts 2 4)) "F")).map
        intuitionStateOf
      = [some "provisional", some "confirmed"])
    ∧ (processIntuitionClu [mkCluEvent "CLU_F" 1 0, mkCluEvent "CLU_F" 0 0]
          (some (familyOpts 2 4))).telemetry.confirmed = 1
    ∧ (processIntuitionClu [mkCluEvent "CLU_F" 1 0, mkCluEvent "CLU_F" 0 0]
          (some (familyOpts 2 4))).telemetry.retracted = 0 := by
  have h := consecutive_segments_confirm (familyOpts 2 4) 2 (by decide) (by simp [familyOpts])
    "F" [mkCluEvent "CLU_F" 1 0, mkCluEvent "CLU_F" 0 0] 0 2
    (by
      have e : famSegments (some (familyOpts 2 4)) "F"
          [mkCluEvent "CLU_F" 1 0, mkCluEvent "CLU_F" 0 0] = [1, 0] := by decide
      rw [e]
      exact List.Perm.swap 0 1 [])
  have e2 : (processIntuitionClu
      ([mkCluEvent "CLU_F" 1 0, mkCluEvent "CLU_F" 0 0].filter
        (fun e => !isFamily (some (familyOpts 2 4)) "F" e))
      (some (familyOpts 2 4))).telemetry = ⟨0, 0, JsNum.fin 0 / JsNum.fin ((0 + 0 + 1 : Nat) : ℚ)⟩ := by
    have e3 : [mkCluEvent "CLU_F" 1 0, mkCluEvent "CLU_F" 0 0].filter
        (fun e => !isFamily (some (familyOpts 2 4)) "F" e) = [] := by decide
    rw [e3]
    rfl
  rw [e2] at h
  exact h

/-! ### Mode adjustment -/

theorem get?_append_fresh (H S : WHeap) (i : Nat) : (H ++ S).get? (H.length + i) = S.get? i := by
  simp [List.getElem?_append_right]

theorem set_append_fresh (H S : WHeap) (i : Nat) (x : WCell) :
    (H ++ S).set (H.length + i) x = H ++ S.set i x := by
  simp [List.set_append]

theorem get?_append_old (H S : WHeap) (a : Nat) (h : a < H.length) :
    (H ++ S).get? a = H.get? a := by
  simp [List.getElem?_append_left h]

theorem readW_append_fresh (H S : WHeap) (i : Nat) :
    readW (H ++ S) (H.length + i) = readW S i := by
  unfold readW
  rw [get?_append_fresh]

theorem readMu_append_fresh (H S : WHeap) (i : Nat) :
    readMu (H ++ S) (H.length + i) = readMu S i := by
  unfold readMu
  rw [get?_append_fresh]

theorem readSigma_append_fresh (H S : WHeap) (i : Nat) :
    readSigma (H ++ S) (H.length + i) = readSigma S i := by
  unfold readSigma
  rw [get?_append_fresh]

theorem readW_lt (H : WHeap) (a : Nat) (q : Quad ℚ) (h : readW H a = some q) : a < H.length := by
  by_contra hlt
  have : H.get? a = none := List.get?_eq_none.2 (not_lt.1 hlt)
  unfold readW at h
  rw [this] at h
  cases h

theorem readMu_lt (H : WHeap) (a : Nat) (m : IndexKey → ℚ) (h : readMu H a = some m) :
    a < H.length := by
  by_contra hlt
  have : H.get? a = none := List.get?_eq_none.2 (not_lt.1 hlt)
  unfold readMu at h
  rw [this] at h
  cases h

theorem readSigma_lt (H : WHeap) (a : Nat) (s : IndexKey → Option ℚ)
    (h : readSigma H a = some s) : a < H.length := by
  by_contra hlt
  have : H.get? a = none := List.get?_eq_none.2 (not_lt.1 hlt)
  unfold readSigma at h
  rw [this] at h
  cases h

theorem readW_append_old (H S : WHeap) (a : Nat) (h : a < H.length) :
    readW (H ++ S) a = readW H a := by
  unfold readW
  rw [get?_append_old H S a h]

theorem readMu_append_old (H S : WHeap) (a : Nat) (h : a < H.length) :
    readMu (H ++ S) a = readMu H a := by
  unfold readMu
  rw [get?_append_old H S a h]

theorem readSigma_append_old (H S : WHeap) (a : Nat) (h : a < H.length) :
    readSigma (H ++ S) a = readSigma H a := by
  unfold readSigma
  rw [get?_append_old H S a h]

/-- A weights object that reads as `W` has all its mutable objects in the heap. -/
theorem readWeights_bounds (H : WHeap) (r : WeightsRef) (W : Weights)
    (h : readWeights H r = some W) :
    (∀ k, r.w k < H.length) ∧ r.mu < H.length ∧ r.sigma < H.length := by
  unfold readWeights at h
  simp only [Option.bind_eq_some] at h
  obtain ⟨a, ha, b, hb, c, hc, d, hd, m, hm, s, hs, _⟩ := h
  refine ⟨?_, readMu_lt H _ m hm, readSigma_lt H _ s hs⟩
  intro k
  cases k
  · exact readW_lt H _ a ha
  · exact readW_lt H _ b hb
  · exact readW_lt H _ c hc
  · exact readW_lt H _ d hd

/-- Allocation leaves the value of every weights object of the old heap as it is. -/
theorem readWeights_append (H S : WHeap) (r : WeightsRef) (W : Weights)
    (h : readWeights H r = some W) : readWeights (H ++ S) r = some W := by
  obtain ⟨hw, hmu, hsigma⟩ := readWeights_bounds H r W h
  rw [← h]
  unfold readWeights
  rw [readW_append_old H S _ (hw .trust), readW_append_old H S _ (hw .deesc),
    readW_append_old H S _ (hw .conflict), readW_append_old H S _ (hw .sync),
    readMu_append_old H S _ hmu, readSigma_append_old H S _ hsigma]

theorem jsonClone_ok (H : WHeap) (weights : WeightsRef) (W : Weights)
    (h : readWeights H weights = some W) :
    jsonClone H weights
      = .ok (H ++ cloneCells (W.indices .trust).w (W.indices .deesc).w (W.indices .conflict).w
                (W.indices .sync).w W.calib.mu W.calib.sigma,
             freshRef H.length (fun k => (W.indices k).bias)) := by
  unfold jsonClone
  rw [h]

theorem scaleStep_fresh (H S : WHeap) (bias : IndexKey → ℚ) (mult q : Quad ℚ) (k : IndexKey)
    (h : readW S k.pos = some q) :
    scaleStep (freshRef H.length bias) mult (H ++ S) k
      = .ok (H ++ S.set k.pos (.w (scaleW mult q))) := by
  unfold scaleStep
  show (match readW (H ++ S) (H.length + k.pos) with
        | some q => Except.ok ((H ++ S).set (H.length + k.pos) (.w (scaleW mult q)))
        | none => Except.error Failure.typeError) = _
  rw [readW_append_fresh, h]
  show Except.ok ((H ++ S).set (H.length + k.pos) (.w (scaleW mult q))) = _
  rw [set_append_fresh]

theorem scaleAll_fresh (H : WHeap) (bias : IndexKey → ℚ) (mult a b c d : Quad ℚ)
    (m : IndexKey → ℚ) (s : IndexKey → Option ℚ) :
    scaleAll (freshRef H.length bias) mult (H ++ cloneCells a b c d m s)
      = .ok (H ++ cloneCells (scaleW mult a) (scaleW mult b) (scaleW mult c) (scaleW mult d)
              m s) := by
  unfold scaleAll indexKeys
  rw [List.foldlM_cons, scaleStep_fresh H (cloneCells a b c d m s) bias mult a .trust rfl]
  show List.foldlM _ (H ++ cloneCells (scaleW mult a) b c d m s) _ = _
  rw [List.foldlM_cons,
    scaleStep_fresh H (cloneCells (scaleW mult a) b c d m s) bias mult b .deesc rfl]
  show List.foldlM _ (H ++ cloneCells (scaleW mult a) (scaleW mult b) c d m s) _ = _
  rw [List.foldlM_cons,
    scaleStep_fresh H (cloneCells (scaleW mult a) (scaleW mult b) c d m s) bias mult c
      .conflict rfl]
  show List.foldlM _ (H ++ cloneCells (scaleW mult a) (scaleW mult b) (scaleW mult c) d m s) _
    = _
  rw [List.foldlM_cons,
    scaleStep_fresh H (cloneCells (scaleW mult a) (scaleW mult b) (scaleW mult c) d m s) bias
      mult d .sync rfl]
  rfl

theorem readWeights_fresh (H : WHeap) (bias : IndexKey → ℚ) (a b c d : Quad ℚ)
    (m : IndexKey → ℚ) (s : IndexKey → Option ℚ) :
    readWeights (H ++ cloneCells a b c d m s) (freshRef H.length bias)
      = some { indices := fun k =>
                 { w := match k with
                        | .trust => a
                        | .deesc => b
                        | .conflict => c
                        | .sync => d,
                   bias := bias k },
               calib := { mu := m, sigma := s } } := by
  unfold readWeights
  simp only [freshRef, IndexKey.pos, readW_append_fresh, readMu_append_fresh,
    readSigma_append_fresh]
  rfl

theorem setMu_fresh (H : WHeap) (bias : IndexKey → ℚ) (a b c d : Quad ℚ) (m : IndexKey → ℚ)
    (s : IndexKey → Option ℚ) (k : IndexKey) (v : ℚ) :
    setMu (freshRef H.length bias) k v (H ++ cloneCells a b c d m s)
      = .ok (H ++ cloneCells a b c d (fun j => if j = k then v else m j) s) := by
  unfold setMu
  show (match readMu (H ++ cloneCells a b c d m s) (H.length + 4) with
        | some m0 => Except.ok ((H ++ cloneCells a b c d m s).set (H.length + 4)
            (.mu (fun j => if j = k then v else m0 j)))
        | none => Except.error Failure.typeError) = _
  rw [readMu_append_fresh]
  show Except.ok ((H ++ cloneCells a b c d m s).set (H.length + 4) _) = _
  rw [set_append_fresh]
  rfl

theorem setSigma_fresh (H : WHeap) (bias : IndexKey → ℚ) (a b c d : Quad ℚ)
    (m : IndexKey → ℚ) (s : IndexKey → Option ℚ) (k : IndexKey) (v : ℚ) :
    setSigma (freshRef H.length bias) k v (H ++ cloneCells a b c d m s)
      = .ok (H ++ cloneCells a b c d m (fun j => if j = k then some v else s j)) := by
  unfold setSigma
  show (match readSigma (H ++ cloneCells a b c d m s) (H.length + 5) with
        | some s0 => Except.ok ((H ++ cloneCells a b c d m s).set (H.length + 5)
            (.sigma (fun j => if j = k then some v else s0 j)))
        | none => Except.error Failure.typeError) = _
  rw [readSigma_append_fresh]
  show Except.ok ((H ++ cloneCells a b c d m s).set (H.length + 5) _) = _
  rw [set_append_fresh]
  rfl

theorem calibStep_fresh (H : WHeap) (bias : IndexKey → ℚ) (a b c d : Quad ℚ)
    (m : IndexKey → ℚ) (s : IndexKey → Option ℚ) (mu sigma : Option ℚ) (k : IndexKey) :
    calibStep (freshRef H.length bias) mu sigma (H ++ cloneCells a b c d m s) k
      = .ok (H ++ cloneCells a b c d (writeMu mu m k) (writeSigma sigma s k)) := by
  cases mu with
  | none =>
    cases sigma with
    | none => rfl
    | some v =>
      show setSigma _ k v (H ++ cloneCells a b c d m s) = _
      rw [setSigma_fresh]
      rfl
  | some u =>
    show (setMu _ k u (H ++ cloneCells a b c d m s) >>= fun H1 =>
          match sigma with
          | some v => setSigma (freshRef H.length bias) k v H1
          | none => .ok H1) = _
    rw [setMu_fresh]
    cases sigma with
    | none => rfl
    | some v =>
      show setSigma _ k v (H ++ cloneCells a b c d _ s) = _
      rw [setSigma_fresh]
      rfl

theorem writeMu_all (mu : Option ℚ) (m : IndexKey → ℚ) :
    writeMu mu (writeMu mu (writeMu mu (writeMu mu m .trust) .deesc) .conflict) .sync
      = overrideMu mu m := by
  cases mu with
  | none => rfl
  | some v =>
    funext j
    cases j <;> simp [writeMu, overrideMu]

theorem writeSigma_all (sigma : Option ℚ) (s : IndexKey → Option ℚ) :
    writeSigma sigma (writeSigma sigma (writeSigma sigma (writeSigma sigma s .trust) .deesc)
        .conflict) .sync
      = overrideSigma sigma s := by
  cases sigma with
  | none => rfl
  | some v =>
    funext j
    cases j <;> simp [writeSigma, overrideSigma]

theorem calibLoop_fresh (H : WHeap) (bias : IndexKey → ℚ) (a b c d : Quad ℚ)
    (m : IndexKey → ℚ) (s : IndexKey → Option ℚ) (mu sigma : Option ℚ) :
    indexKeys.foldlM (calibStep (freshRef H.length bias) mu sigma)
        (H ++ cloneCells a b c d m s)
      = .ok (H ++ cloneCells a b c d (overrideMu mu m) (overrideSigma sigma s)) := by
  unfold indexKeys
  rw [List.foldlM_cons, calibStep_fresh]
  show List.foldlM _ (H ++ cloneCells a b c d _ _) _ = _
  rw [List.foldlM_cons, calibStep_fresh]
  show List.foldlM _ (H ++ cloneCells a b c d _ _) _ = _
  rw [List.foldlM_cons, calibStep_fresh]
  show List.foldlM _ (H ++ cloneCells a b c d _ _) _ = _
  rw [List.foldlM_cons, calibStep_fresh]
  show Except.ok (H ++ cloneCells a b c d _ _) = _
  rw [writeMu_all, writeSigma_all]

theorem bind_ok {α β : Type} (x : α) (f : α → Except Failure β) :
    (Except.ok x >>= f) = f x := rfl

/-- The result of `modeAdjustments` when the external configuration defines the
mode: the old heap followed by the objects of the clone, scaled and overridden
as the configuration says. -/
theorem modeAdjustments_configured (modes : Option (JsMap String ModeConf))
    (mode : Option String) (H : WHeap) (weights : WeightsRef) (W : Weights) (conf : ModeConf)
    (hW : readWeights H weights = some W)
    (hconf : modes.bind (fun m => m.get (toLowerCase (strOr mode "dialog"))) = some conf) :
    modeAdjustments modes mode H weights
      = .ok (H ++ cloneCells
                (scaleW (conf.weights_scaling.getD ⟨1, 1, 1, 1⟩) (W.indices .trust).w)
                (scaleW (conf.weights_scaling.getD ⟨1, 1, 1, 1⟩) (W.indices .deesc).w)
                (scaleW (conf.weights_scaling.getD ⟨1, 1, 1, 1⟩) (W.indices .conflict).w)
                (scaleW (conf.weights_scaling.getD ⟨1, 1, 1, 1⟩) (W.indices .sync).w)
                (overrideMu (conf.calib_adjust.bind (fun adj => adj.mu)) W.calib.mu)
                (overrideSigma (conf.calib_adjust.bind (fun adj => adj.sigma)) W.calib.sigma),
             freshRef H.length (fun k => (W.indices k).bias)) := by
  unfold modeAdjustments
  rw [jsonClone_ok H weights W hW, bind_ok]
  simp only [hconf]
  rw [scaleAll_fresh, bind_ok]
  cases hadj : conf.calib_adjust with
  | none => rfl
  | some adj =>
    simp only []
    by_cases hg : adj.mu.isSome ∨ adj.sigma.isSome
    · rw [if_pos hg, calibLoop_fresh, bind_ok]
      rfl
    · rw [if_neg hg, bind_ok]
      have hmu : adj.mu = none := by
        cases h : adj.mu with
        | none => rfl
        | some v => exact absurd (Or.inl (by simp [h])) hg
      have hsigma : adj.sigma = none := by
        cases h : adj.sigma with
        | none => rfl
        | some v => exact absurd (Or.inr (by simp [h])) hg
      show _ = Except.ok (H ++ cloneCells _ _ _ _ (overrideMu adj.mu W.calib.mu)
        (overrideSigma adj.sigma W.calib.sigma), _)
      rw [hmu, hsigma]
      rfl

/-- The result of `modeAdjustments` when the external configuration does not define
the mode: the old heap followed by the objects of the clone, adjusted by the
built-in table. -/
theorem modeAdjustments_builtin (modes : Option (JsMap String ModeConf))
    (mode : Option String) (H : WHeap) (weights : WeightsRef) (W : Weights)
    (hW : readWeights H weights = some W)
    (hnone : modes.bind (fun m => m.get (toLowerCase (strOr mode "dialog"))) = none) :
    modeAdjustments modes mode H weights
      = if toLowerCase (strOr mode "dialog") = "dialog" then
          .ok (H ++ cloneCells (W.indices .trust).w (W.indices .deesc).w (W.indices .conflict).w
                  (W.indices .sync).w W.calib.mu W.calib.sigma,
               freshRef H.length (fun k => (W.indices k).bias))
        else if toLowerCase (strOr mode "dialog") = "single"
            ∨ toLowerCase (strOr mode "dialog") = "coach" then
          .ok (H ++ cloneCells (scaleW ⟨1, 6 / 5, 1, 6 / 5⟩ (W.indices .trust).w)
                  (scaleW ⟨1, 6 / 5, 1, 6 / 5⟩ (W.indices .deesc).w)
                  (scaleW ⟨1, 6 / 5, 1, 6 / 5⟩ (W.indices .conflict).w)
                  (scaleW ⟨1, 6 / 5, 1, 6 / 5⟩ (W.indices .sync).w) W.calib.mu W.calib.sigma,
               freshRef H.length (fun k => (W.indices k).bias))
        else if toLowerCase (strOr mode "dialog") = "learn" then
          .ok (H ++ cloneCells (scaleW ⟨1, 1, 1, 1⟩ (W.indices .trust).w)
                  (scaleW ⟨1, 1, 1, 1⟩ (W.indices .deesc).w)
                  (scaleW ⟨1, 1, 1, 1⟩ (W.indices .conflict).w)
                  (scaleW ⟨1, 1, 1, 1⟩ (W.indices .sync).w)
                  (fun _ => 1 / 2) (fun _ => some (1 / 4)),
               freshRef H.length (fun k => (W.indices k).bias))
        else if toLowerCase (strOr mode "dialog") = "free" then
          .ok (H ++ cloneCells (scaleW ⟨4 / 5, 4 / 5, 4 / 5, 4 / 5⟩ (W.indices .trust).w)
                  (scaleW ⟨4 / 5, 4 / 5, 4 / 5, 4 / 5⟩ (W.indices .deesc).w)
                  (scaleW ⟨4 / 5, 4 / 5, 4 / 5, 4 / 5⟩ (W.indices .conflict).w)
                  (scaleW ⟨4 / 5, 4 / 5, 4 / 5, 4 / 5⟩ (W.indices .sync).w)
                  W.calib.mu W.calib.sigma,
               freshRef H.length (fun k => (W.indices k).bias))
        else
          .ok (H ++ cloneCells (W.indices .trust).w (W.indices .deesc).w (W.indices .conflict).w
                  (W.indices .sync).w W.calib.mu W.calib.sigma,
               freshRef H.length (fun k => (W.indices k).bias)) := by
  unfold modeAdjustments
  rw [jsonClone_ok H weights W hW, bind_ok]
  simp only [hnone]
  by_cases h1 : toLowerCase (strOr mode "dialog") = "dialog"
  · rw [if_pos h1, if_pos h1]
  · rw [if_neg h1, if_neg h1]
    by_cases h2 : toLowerCase (strOr mode "dialog") = "single"
        ∨ toLowerCase (strOr mode "dialog") = "coach"
    · rw [if_pos h2, if_pos h2, scaleAll_fresh, bind_ok]
    · rw [if_neg h2, if_neg h2]
      by_cases h3 : toLowerCase (strOr mode "dialog") = "learn"
      · rw [if_pos h3, if_pos h3, scaleAll_fresh, bind_ok, calibLoop_fresh, bind_ok]
        rfl
      · rw [if_neg h3, if_neg h3]
        by_cases h4 : toLowerCase (strOr mode "dialog") = "free"
        · rw [if_pos h4, if_pos h4, scaleAll_fresh, bind_ok]
        · rw [if_neg h4, if_neg h4]

/-- The frame of a call that only allocates: the new heap starts with the old
one, the old weights object reads as before, and the new reference points into
the new part only and reads as the allocated value. -/
theorem frame_of_allocation (H : WHeap) (weights : WeightsRef) (W : Weights)
    (hW : readWeights H weights = some W) (bias : IndexKey → ℚ) (a b c d : Quad ℚ)
    (m : IndexKey → ℚ) (s : IndexKey → Option ℚ) :
    (∀ loc, loc < H.length → (H ++ cloneCells a b c d m s).get? loc = H.get? loc)
    ∧ readWeights (H ++ cloneCells a b c d m s) weights = some W
    ∧ (∀ k, H.length ≤ (freshRef H.length bias).w k)
    ∧ H.length ≤ (freshRef H.length bias).mu
    ∧ H.length ≤ (freshRef H.length bias).sigma
    ∧ (∀ k, (freshRef H.length bias).w k ≠ weights.w k)
    ∧ (freshRef H.length bias).mu ≠ weights.mu
    ∧ (freshRef H.length bias).sigma ≠ weights.sigma := by
  obtain ⟨hw, hmu, hsigma⟩ := readWeights_bounds H weights W hW
  refine ⟨fun loc hloc => get?_append_old H _ loc hloc, readWeights_append H _ weights W hW,
    ?_, ?_, ?_, ?_, ?_, ?_⟩
  · intro k
    exact Nat.le_add_right _ _
  · exact Nat.le_add_right _ _
  · exact Nat.le_add_right _ _
  · intro k
    have h1 := hw k
    have h2 : H.length ≤ (freshRef H.length bias).w k := Nat.le_add_right _ _
    omega
  · have h2 : H.length ≤ (freshRef H.length bias).mu := Nat.le_add_right _ _
    omega
  · have h2 : H.length ≤ (freshRef H.length bias).sigma := Nat.le_add_right _ _
    omega

theorem scaleW_one (q : Quad ℚ) : scaleW ⟨1, 1, 1, 1⟩ q = q := by
  cases q
  simp [scaleW]

/-- The clone of `W`, before any adjustment, reads as `W`. -/
theorem readWeights_clone (H : WHeap) (W : Weights) :
    readWeights
        (H ++ cloneCells (W.indices .trust).w (W.indices .deesc).w (W.indices .conflict).w
          (W.indices .sync).w W.calib.mu W.calib.sigma)
        (freshRef H.length (fun k => (W.indices k).bias))
      = some W := by
  rw [readWeights_fresh]
  obtain ⟨indices, calib⟩ := W
  congr 2
  funext k
  cases k <;> rfl

theorem oneHeap_reads : readWeights oneHeap oneRef = some oneWeights :=
  readWeights_clone [] oneWeights

/-- For every mode and configuration `modeAdjustments` returns, and what it returns
is the old heap followed by six new objects, with a reference to these. -/
theorem modeAdjustments_allocates (modes : Option (JsMap String ModeConf))
    (mode : Option String) (H : WHeap) (weights : WeightsRef) (W : Weights)
    (hW : readWeights H weights = some W) :
    ∃ a b c d m s, modeAdjustments modes mode H weights
      = .ok (H ++ cloneCells a b c d m s, freshRef H.length (fun k => (W.indices k).bias)) := by
  cases hconf : modes.bind (fun m => m.get (toLowerCase (strOr mode "dialog"))) with
  | some conf =>
    exact ⟨_, _, _, _, _, _, modeAdjustments_configured modes mode H weights W conf hW hconf⟩
  | none =>
    rw [modeAdjustments_builtin modes mode H weights W hW hconf]
    split_ifs
    · exact ⟨_, _, _, _, _, _, rfl⟩
    · exact ⟨_, _, _, _, _, _, rfl⟩
    · exact ⟨_, _, _, _, _, _, rfl⟩
    · exact ⟨_, _, _, _, _, _, rfl⟩
    · exact ⟨_, _, _, _, _, _, rfl⟩

/-- C17: for every mode name, every external configuration and every weights
object (a reference `weights` that reads as `W` in the heap `H`),
`modeAdjustments` returns a heap and a reference `clone` such that every object
that existed before the call is as it was, `weights` still reads as `W` (every
index weight, bias, mu and sigma), the objects of `clone` are new ones and none
of them is an object of `weights`, and `clone` reads as a weights value (the
adjusted one) with the biases of `W`. -/
theorem modeAdjustments_leaves_argument (modes : Option (JsMap String ModeConf))
    (mode : Option String) (H : WHeap) (weights : WeightsRef) (W : Weights)
    (hW : readWeights H weights = some W) :
    ∃ H' clone W', modeAdjustments modes mode H weights = .ok (H', clone)
      ∧ (∀ loc, loc < H.length → H'.get? loc = H.get? loc)
      ∧ readWeights H' weights = some W
      ∧ (∀ k, H.length ≤ clone.w k) ∧ H.length ≤ clone.mu ∧ H.length ≤ clone.sigma
      ∧ (∀ k, clone.w k ≠ weights.w k) ∧ clone.mu ≠ weights.mu ∧ clone.sigma ≠ weights.sigma
      ∧ readWeights H' clone = some W'
      ∧ (∀ k, (W'.indices k).bias = (W.indices k).bias) := by
  obtain ⟨a, b, c, d, m, s, hres⟩ := modeAdjustments_allocates modes mode H weights W hW
  obtain ⟨h1, h2, h3, h4, h5, h6, h7, h8⟩ :=
    frame_of_allocation H weights W hW (fun k => (W.indices k).bias) a b c d m s
  exact ⟨_, _, _, hres, h1, h2, h3, h4, h5, h6, h7, h8, readWeights_fresh H _ a b c d m s,
    fun _ => rfl⟩

/-- C17, witness: mode `free` on the weights with every index weight 1: the
argument still reads as these weights after the call. -/
theorem modeAdjustments_leaves_argument_witness :
    readWeights oneHeap oneRef = some oneWeights
    ∧ ∃ H' clone W', modeAdjustments none (some "free") oneHeap oneRef = .ok (H', clone)
      ∧ (∀ loc, loc < oneHeap.length → H'.get? loc = oneHeap.get? loc)
      ∧ readWeights H' oneRef = some oneWeights
      ∧ (∀ k, oneHeap.length ≤ clone.w k) ∧ oneHeap.length ≤ clone.mu
      ∧ oneHeap.length ≤ clone.sigma
      ∧ (∀ k, clone.w k ≠ oneRef.w k) ∧ clone.mu ≠ oneRef.mu ∧ clone.sigma ≠ oneRef.sigma
      ∧ readWeights H' clone = some W'
      ∧ (∀ k, (W'.indices k).bias = (oneWeights.indices k).bias) :=
  ⟨oneHeap_reads,
    modeAdjustments_leaves_argument none (some "free") oneHeap oneRef oneWeights oneHeap_reads⟩

/-- C18: when the external configuration does not define the mode, mode `single` or
`coach` (in any letter case) multiplies, in each of the four indices, `w.ATO` by
1, `w.SEM` by 1.2, `w.CLU` by 1 and `w.MEMA` by 1.2, and mode `free` multiplies
all four weights of each index by 0.8; in both cases every bias and every
`calib.mu` and `calib.sigma` of the result is the base value.  `W` is the value
of the argument, `W'` the value of the returned clone. -/
theorem modeAdjustments_single_coach_free (modes : Option (JsMap String ModeConf))
    (mode : Option String) (H : WHeap) (weights : WeightsRef) (W : Weights)
    (hW : readWeights H weights = some W)
    (hnone : modes.bind (fun m => m.get (toLowerCase (strOr mode "dialog"))) = none) :
    ((toLowerCase (strOr mode "dialog") = "single" ∨ toLowerCase (strOr mode "dialog") = "coach") →
      ∃ H' clone W', modeAdjustments modes mode H weights = .ok (H', clone)
        ∧ readWeights H' clone = some W'
        ∧ ∀ k, (W'.indices k).w
              = ⟨(W.indices k).w.ATO * 1, (W.indices k).w.SEM * (6 / 5),
                 (W.indices k).w.CLU * 1, (W.indices k).w.MEMA * (6 / 5)⟩
            ∧ (W'.indices k).bias = (W.indices k).bias
            ∧ W'.calib.mu k = W.calib.mu k
            ∧ W'.calib.sigma k = W.calib.sigma k)
    ∧ (toLowerCase (strOr mode "dialog") = "free" →
      ∃ H' clone W', modeAdjustments modes mode H weights = .ok (H', clone)
        ∧ readWeights H' clone = some W'
        ∧ ∀ k, (W'.indices k).w
              = ⟨(W.indices k).w.ATO * (4 / 5), (W.indices k).w.SEM * (4 / 5),
                 (W.indices k).w.CLU * (4 / 5), (W.indices k).w.MEMA * (4 / 5)⟩
            ∧ (W'.indices k).bias = (W.indices k).bias
            ∧ W'.calib.mu k = W.calib.mu k
            ∧ W'.calib.sigma k = W.calib.sigma k) := by
  have hres := modeAdjustments_builtin modes mode H weights W hW hnone
  constructor
  · intro hkey
    have hd : ¬ toLowerCase (strOr mode "dialog") = "dialog" := by
      rcases hkey with h | h <;> rw [h] <;> decide
    rw [if_neg hd, if_pos hkey] at hres
    refine ⟨_, _, _, hres, readWeights_fresh H _ _ _ _ _ _ _, ?_⟩
    intro k
    cases k <;> exact ⟨rfl, rfl, rfl, rfl⟩
  · intro hkey
    have hd : ¬ toLowerCase (strOr mode "dialog") = "dialog" := by rw [hkey]; decide
    have hs : ¬ (toLowerCase (strOr mode "dialog") = "single"
        ∨ toLowerCase (strOr mode "dialog") = "coach") := by rw [hkey]; decide
    have hl : ¬ toLowerCase (strOr mode "dialog") = "learn" := by rw [hkey]; decide
    rw [if_neg hd, if_neg hs, if_neg hl, if_pos hkey] at hres
    refine ⟨_, _, _, hres, readWeights_fresh H _ _ _ _ _ _ _, ?_⟩
    intro k
    cases k <;> exact ⟨rfl, rfl, rfl, rfl⟩

/-- C18, witness: with no external configuration, mode `Coach` on the weights with
every index weight 1 gives the weights `1 * 1, 1 * 1.2, 1 * 1, 1 * 1.2`, and mode
`free` gives `1 * 0.8` four times, for every index; biases, mu and sigma are the
base ones. -/
theorem modeAdjustments_single_coach_free_witness :
    (∃ H' clone W', modeAdjustments none (some "Coach") oneHeap oneRef = .ok (H', clone)
        ∧ readWeights H' clone = some W'
        ∧ ∀ k, (W'.indices k).w
              = ⟨(oneWeights.indices k).w.ATO * 1, (oneWeights.indices k).w.SEM * (6 / 5),
                 (oneWeights.indices k).w.CLU * 1, (oneWeights.indices k).w.MEMA * (6 / 5)⟩
            ∧ (W'.indices k).bias = (oneWeights.indices k).bias
            ∧ W'.calib.mu k = oneWeights.calib.mu k
            ∧ W'.calib.sigma k = oneWeights.calib.sigma k)
    ∧ (∃ H' clone W', modeAdjustments none (some "free") oneHeap oneRef = .ok (H', clone)
        ∧ readWeights H' clone = some W'
        ∧ ∀ k, (W'.indices k).w
              = ⟨(oneWeights.indices k).w.ATO * (4 / 5), (oneWeights.indices k).w.SEM * (4 / 5),
                 (oneWeights.indices k).w.CLU * (4 / 5), (oneWeights.indices k).w.MEMA * (4 / 5)⟩
            ∧ (W'.indices k).bias = (oneWeights.indices k).bias
            ∧ W'.calib.mu k = oneWeights.calib.mu k
            ∧ W'.calib.sigma k = oneWeights.calib.sigma k) :=
  ⟨(modeAdjustments_single_coach_free none (some "Coach") oneHeap oneRef oneWeights
      oneHeap_reads rfl).1 (Or.inr (by decide)),
   (modeAdjustments_single_coach_free none (some "free") oneHeap oneRef oneWeights
      oneHeap_reads rfl).2 (by decide)⟩

/-- C19: when the external configuration does not define the mode `learn`,
`modeAdjustments` with mode `learn` (in any letter case) returns weights whose
index weight vectors and biases are those of the base weights and whose
`calib.mu` is 0.5 and `calib.sigma` is 0.25 for each of the four indices.  `W` is
the value of the argument, `W'` the value of the returned clone. -/
theorem modeAdjustments_learn (modes : Option (JsMap String ModeConf))
    (mode : Option String) (H : WHeap) (weights : WeightsRef) (W : Weights)
    (hW : readWeights H weights = some W)
    (hkey : toLowerCase (strOr mode "dialog") = "learn")
    (hnone : modes.bind (fun m => m.get "learn") = none) :
    ∃ H' clone W', modeAdjustments modes mode H weights = .ok (H', clone)
      ∧ readWeights H' clone = some W'
      ∧ ∀ k, (W'.indices k).w = (W.indices k).w
          ∧ (W'.indices k).bias = (W.indices k).bias
          ∧ W'.calib.mu k = 1 / 2
          ∧ W'.calib.sigma k = some (1 / 4) := by
  have hnone' : modes.bind (fun m => m.get (toLowerCase (strOr mode "dialog"))) = none := by
    rw [hkey]
    exact hnone
  have hres := modeAdjustments_builtin modes mode H weights W hW hnone'
  have hd : ¬ toLowerCase (strOr mode "dialog") = "dialog" := by rw [hkey]; decide
  have hs : ¬ (toLowerCase (strOr mode "dialog") = "single"
      ∨ toLowerCase (strOr mode "dialog") = "coach") := by rw [hkey]; decide
  rw [if_neg hd, if_neg hs, if_pos hkey] at hres
  refine ⟨_, _, _, hres, readWeights_fresh H _ _ _ _ _ _ _, ?_⟩
  intro k
  cases k <;> exact ⟨scaleW_one _, rfl, rfl, rfl⟩

/-- C19, witness: with no external configuration, mode `learn` on the weights with
every index weight 1, mu 0 and sigma 1 keeps the weights and biases and sets mu
to 0.5 and sigma to 0.25. -/
theorem modeAdjustments_learn_witness :
    ∃ H' clone W', modeAdjustments none (some "learn") oneHeap oneRef = .ok (H', clone)
      ∧ readWeights H' clone = some W'
      ∧ ∀ k, (W'.indices k).w = (oneWeights.indices k).w
          ∧ (W'.indices k).bias = (oneWeights.indices k).bias
          ∧ W'.calib.mu k = 1 / 2
          ∧ W'.calib.sigma k = some (1 / 4) :=
  modeAdjustments_learn none (some "learn") oneHeap oneRef oneWeights oneHeap_reads
    (by decide) rfl

/-- C20, as amended: when the external configuration does not define the mode, then
for mode `dialog`, for an absent (or empty) mode, and for every mode name that
the built-in table does not define either (none of `single`, `coach`, `learn`,
`free`, in any letter case), `modeAdjustments` raises no error and returns
weights that read as the base weights `W`. -/
theorem modeAdjustments_identity (modes : Option (JsMap String ModeConf))
    (mode : Option String) (H : WHeap) (weights : WeightsRef) (W : Weights)
    (hW : readWeights H weights = some W)
    (hnone : modes.bind (fun m => m.get (toLowerCase (strOr mode "dialog"))) = none)
    (hkey : toLowerCase (strOr mode "dialog") = "dialog"
      ∨ (toLowerCase (strOr mode "dialog") ≠ "single"
          ∧ toLowerCase (strOr mode "dialog") ≠ "coach"
          ∧ toLowerCase (strOr mode "dialog") ≠ "learn"
          ∧ toLowerCase (strOr mode "dialog") ≠ "free")) :
    (∃ H' clone, modeAdjustments modes mode H weights = .ok (H', clone)
      ∧ readWeights H' clone = some W)
    ∧ toLowerCase (strOr none "dialog") = "dialog"
    ∧ toLowerCase (strOr (some "") "dialog") = "dialog"
    ∧ toLowerCase (strOr (some "dialog") "dialog") = "dialog" := by
  refine ⟨?_, by decide, by decide, by decide⟩
  have hres := modeAdjustments_builtin modes mode H weights W hW hnone
  by_cases hd : toLowerCase (strOr mode "dialog") = "dialog"
  · rw [if_pos hd] at hres
    exact ⟨_, _, hres, readWeights_clone H W⟩
  · rcases hkey with h | ⟨h1, h2, h3, h4⟩
    · exact absurd h hd
    · have hs : ¬ (toLowerCase (strOr mode "dialog") = "single"
          ∨ toLowerCase (strOr mode "dialog") = "coach") := fun h => h.elim h1 h2
      rw [if_neg hd, if_neg hs, if_neg h3, if_neg h4] at hres
      exact ⟨_, _, hres, readWeights_clone H W⟩

/-- C20, witness: an absent mode without external configuration, and the mode `zen`
under a configuration that defines `dialog` only, both return weights that read
as the base weights. -/
theorem modeAdjustments_identity_witness :
    (∃ H' clone, modeAdjustments none none oneHeap oneRef = .ok (H', clone)
      ∧ readWeights H' clone = some oneWeights)
    ∧ (∃ H' clone, modeAdjustments (some dialogModes) (some "zen") oneHeap oneRef
          = .ok (H', clone)
      ∧ readWeights H' clone = some oneWeights) :=
  ⟨(modeAdjustments_identity none none oneHeap oneRef oneWeights oneHeap_reads rfl
      (Or.inl (by decide))).1,
   (modeAdjustments_identity (some dialogModes) (some "zen") oneHeap oneRef oneWeights
      oneHeap_reads (by decide) (Or.inr (by decide))).1⟩

/-- C20, counterexample: under an external configuration that defines `dialog` with
the scaling `{ATO: 2, SEM: 1, CLU: 1, MEMA: 1}`, mode `dialog` and an absent mode
return weights whose `trust.w.ATO` is 2 while the base weight is 1. -/
theorem modeAdjustments_configured_dialog :
    readWeights oneHeap oneRef = some oneWeights
    ∧ (oneWeights.indices .trust).w.ATO = 1
    ∧ (∃ H' clone W', modeAdjustments (some dialogModes) (some "dialog") oneHeap oneRef
          = .ok (H', clone)
        ∧ readWeights H' clone = some W'
        ∧ (W'.indices .trust).w.ATO = 2
        ∧ W' ≠ oneWeights)
    ∧ (∃ H' clone W', modeAdjustments (some dialogModes) none oneHeap oneRef = .ok (H', clone)
        ∧ readWeights H' clone = some W'
        ∧ (W'.indices .trust).w.ATO = 2
        ∧ W' ≠ oneWeights) := by
  have hATO : (oneWeights.indices .trust).w.ATO = 1 := rfl
  have htwo : (oneWeights.indices .trust).w.ATO * 2 = 2 := by
    rw [hATO]
    norm_num
  have hne : ∀ W' : Weights, (W'.indices .trust).w.ATO = 2 → W' ≠ oneWeights := by
    intro W' h2 heq
    rw [heq, hATO] at h2
    norm_num at h2
  refine ⟨oneHeap_reads, hATO, ?_, ?_⟩
  · have hres := modeAdjustments_configured (some dialogModes) (some "dialog") oneHeap oneRef
      oneWeights ⟨some ⟨2, 1, 1, 1⟩, none⟩ oneHeap_reads (by decide)
    exact ⟨_, _, _, hres, readWeights_fresh oneHeap _ _ _ _ _ _ _, htwo, hne _ htwo⟩
  · have hres := modeAdjustments_configured (some dialogModes) none oneHeap oneRef
      oneWeights ⟨some ⟨2, 1, 1, 1⟩, none⟩ oneHeap_reads (by decide)
    exact ⟨_, _, _, hres, readWeights_fresh oneHeap _ _ _ _ _ _ _, htwo, hne _ htwo⟩

/-! ### Output markers -/

/-- C23: `arrangeMarkersForOutput` returns a list of length
`|detected| + |promotions| + |annotations|`: the detected events in order with
`promotion_of = []` and their `id`, `type`, `span`, `segment_idx`, `who` and
`evidence` unchanged, then one marker per promotion with type SEM, span `{0,0}`,
`id = sem_id` and `promotion_of = from_atos`, then one marker per annotation with
span `{0,0}` and `promotion_of = []`. -/
theorem arrangeMarkersForOutput_layout (detected : List Event) (promotions : List Promotion)
    (annotations : List AnnotationRecord) :
    (arrangeMarkersForOutput detected promotions annotations).length
        = detected.length + promotions.length + annotations.length
    ∧ (arrangeMarkersForOutput detected promotions annotations).take detected.length
        = detected.map (fun d =>
            (⟨d.id, d.type, d.span, d.segment_idx, d.who, [], d.evidence⟩ : Marker))
    ∧ ((arrangeMarkersForOutput detected promotions annotations).drop detected.length).take
          promotions.length
        = promotions.map (fun p =>
            (⟨p.sem_id, "SEM", ⟨0, 0⟩, p.segment_idx, p.who, p.from_atos, ""⟩ : Marker))
    ∧ (arrangeMarkersForOutput detected promotions annotations).drop
          (detected.length + promotions.length)
        = annotations.map (fun a =>
            (⟨a.id, a.type, ⟨0, 0⟩, a.segment_idx, a.who, [], ""⟩ : Marker)) := by
  rw [arrangeMarkersForOutput_eq]
  refine ⟨by simp [Nat.add_assoc], ?_, ?_, ?_⟩
  · rw [List.append_assoc, List.take_left' (by simp)]
  · rw [List.append_assoc, List.drop_left' (by simp), List.take_left' (by simp)]
  · rw [List.drop_left' (by simp)]

/-! ### Telemetry of the intuition tracker -/

theorem foldl_intuitionStep_unmapped (opts : Option IntuitionOpts) (evs : List CluEvent)
    (h : ∀ e ∈ evs, familyOf opts e.id = none) (L : IntuitionLoop) :
    (evs.foldl (intuitionStep opts) L).confirmed = L.confirmed
    ∧ (evs.foldl (intuitionStep opts) L).retracted = L.retracted := by
  induction evs generalizing L with
  | nil => exact ⟨rfl, rfl⟩
  | cons ev evs ih =>
    rw [List.foldl_cons]
    rw [intuitionStep_unmapped opts L ev (h ev (List.mem_cons_self _ _))]
    exact ih (fun e he => h e (List.mem_cons_of_mem _ he)) _

/-- C26: `processIntuitionClu` reports `ewma_precision = confirmed / (confirmed +
retracted + 1)`, where `confirmed` and `retracted` are the counters of the loop
(each step of a family adds the confirmation and the retraction of that
occurrence, a step without family adds nothing); for an event list with no
family-mapped events the counters and `ewma_precision` are 0. -/
theorem ewma_precision_formula (events : List CluEvent) (opts : Option IntuitionOpts) :
    (processIntuitionClu events opts).telemetry.ewma_precision
        = JsNum.fin (((processIntuitionClu events opts).telemetry.confirmed : ℚ)
            / (((processIntuitionClu events opts).telemetry.confirmed : ℚ)
                + ((processIntuitionClu events opts).telemetry.retracted : ℚ) + 1))
    ∧ (processIntuitionClu events opts).telemetry.confirmed
        = ((arraySort cluCompare events).foldl (intuitionStep opts) intuitionInit).confirmed
    ∧ (processIntuitionClu events opts).telemetry.retracted
        = ((arraySort cluCompare events).foldl (intuitionStep opts) intuitionInit).retracted
    ∧ (∀ (L : IntuitionLoop) (ev : CluEvent) (fam : String), familyOf opts ev.id = some fam →
        (intuitionStep opts L ev).confirmed
            = L.confirmed + (occurrence opts (L.famState.get fam) ev.segment_idx).2.1
        ∧ (intuitionStep opts L ev).retracted
            = L.retracted + (occurrence opts (L.famState.get fam) ev.segment_idx).2.2)
    ∧ (∀ (L : IntuitionLoop) (ev : CluEvent), familyOf opts ev.id = none →
        (intuitionStep opts L ev).confirmed = L.confirmed
        ∧ (intuitionStep opts L ev).retracted = L.retracted)
    ∧ ((∀ e ∈ events, familyOf opts e.id = none) →
        (processIntuitionClu events opts).telemetry.confirmed = 0
        ∧ (processIntuitionClu events opts).telemetry.retracted = 0
        ∧ (processIntuitionClu events opts).telemetry.ewma_precision = JsNum.fin 0) := by
  have hform : (processIntuitionClu events opts).telemetry.ewma_precision
        = JsNum.fin (((processIntuitionClu events opts).telemetry.confirmed : ℚ)
            / (((processIntuitionClu events opts).telemetry.confirmed : ℚ)
                + ((processIntuitionClu events opts).telemetry.retracted : ℚ) + 1)) := by
    show JsNum.fin ((intuitionLoop opts events).confirmed : ℚ)
        / JsNum.fin ((((intuitionLoop opts events).confirmed
            + (intuitionLoop opts events).retracted + 1 : Nat)) : ℚ) = _
    rw [JsNum.fin_div_fin _ _ (by positivity)]
    push_cast
    rfl
  refine ⟨hform, rfl, rfl, ?_, ?_, ?_⟩
  · intro L ev fam hfam
    rw [intuitionStep_mapped opts L ev fam hfam]
    exact ⟨rfl, rfl⟩
  · intro L ev hfam
    rw [intuitionStep_unmapped opts L ev hfam]
    exact ⟨rfl, rfl⟩
  · intro hnone
    have hsorted : ∀ e ∈ arraySort cluCompare events, familyOf opts e.id = none :=
      fun e he => hnone e ((arraySort_perm cluCompare events).mem_iff.1 he)
    obtain ⟨hc, hr⟩ := foldl_intuitionStep_unmapped opts _ hsorted intuitionInit
    have hc' : (processIntuitionClu events opts).telemetry.confirmed = 0 := hc
    have hr' : (processIntuitionClu events opts).telemetry.retracted = 0 := hr
    refine ⟨hc', hr', ?_⟩
    rw [hform, hc', hr']
    norm_num

/-- C26, witness: two events and no family map give the counters 0 and
`ewma_precision = 0`. -/
theorem ewma_precision_formula_witness :
    (processIntuitionClu [mkCluEvent "CLU_F" 0 0, mkCluEvent "CLU_G" 1 0]
        (some plainOpts)).telemetry.confirmed = 0
    ∧ (processIntuitionClu [mkCluEvent "CLU_F" 0 0, mkCluEvent "CLU_G" 1 0]
        (some plainOpts)).telemetry.retracted = 0
    ∧ (processIntuitionClu [mkCluEvent "CLU_F" 0 0, mkCluEvent "CLU_G" 1 0]
        (some plainOpts)).telemetry.ewma_precision = JsNum.fin 0 :=
  (ewma_precision_formula [mkCluEvent "CLU_F" 0 0, mkCluEvent "CLU_G" 1 0]
    (some plainOpts)).2.2.2.2.2 (fun _ _ => rfl)

/-! ### The family of a marker id -/

/-- C30, evaluation at the failing input: for `ATO_SUPPORT_LEX` the function
`extractFamily` returns `SUPPORT_LEX` (everything after the first underscore),
not `SUPPORT`; `SEM_VALIDATION` gives `VALIDATION`, and an id without an
underscore is returned unchanged. -/
theorem extractFamily_keeps_suffix :
    extractFamily "ATO_SUPPORT_LEX" = "SUPPORT_LEX"
    ∧ extractFamily "ATO_SUPPORT_LEX" ≠ "SUPPORT"
    ∧ extractFamily "SEM_VALIDATION" = "VALIDATION"
    ∧ extractFamily "SUPPORT" = "SUPPORT" := by
  decide

/-! ### Fields of a promotion record -/

theorem applyRules_ok (segIdx : Nat) (events : List Event) (rules : List PromotionRule)
    (promotions out : List Promotion)
    (h : applyRules segIdx events rules promotions = .ok out) :
    out = promotions ++ rules.flatMap (promotionFor segIdx events) := by
  induction rules generalizing promotions with
  | nil =>
    simp only [applyRules] at h
    injection h with h
    simp [h]
  | cons rule rest ih =>
    rw [applyRules] at h
    rw [List.flatMap_cons, ← List.append_assoc]
    apply ih
    have hpf : promotionFor segIdx events rule
        = (match events.filter (fun e => (ruleIds rule).contains e.id) with
           | [] => []
           | baseEv :: more =>
             if ruleMin rule ≤ ((more.length + 1 : Nat) : Int) then
               [{ sem_id := rule.produce.id, from_atos := (baseEv :: more).map (fun h => h.id),
                  segment_idx := segIdx, who := baseEv.who }]
             else []) := rfl
    rw [hpf]
    revert h
    generalize events.filter (fun e => (ruleIds rule).contains e.id) = found
    intro h
    cases found with
    | nil =>
      by_cases hge : ((([] : List Event).length : Nat) : Int) ≥ ruleMin rule
      · simp only [hge, if_true, List.head?_nil] at h
        exact absurd h (by simp)
      · simp only [hge, if_false] at h
        simpa using h
    | cons baseEv more =>
      by_cases hge : ruleMin rule ≤ (((more.length + 1 : Nat)) : Int)
      · have hge2 : (((baseEv :: more).length : Nat) : Int) ≥ ruleMin rule := by
          simpa using hge
        simp only [hge2, if_true, List.head?_cons] at h
        simp only [hge, if_true]
        exact h
      · have hge2 : ¬ (((baseEv :: more).length : Nat) : Int) ≥ ruleMin rule := by
          simpa using hge
        simp only [hge2, if_false] at h
        simp only [hge, if_false, List.append_nil]
        exact h

theorem applyEntries_ok (rules : List PromotionRule) (entries : JsMap Nat (List Event))
    (promotions out : List Promotion) (h : applyEntries rules entries promotions = .ok out) :
    out = promotions ++ entries.flatMap (fun kv => rules.flatMap (promotionFor kv.1 kv.2)) := by
  induction entries generalizing promotions with
  | nil =>
    simp only [applyEntries] at h
    injection h with h
    simp [h]
  | cons kv rest ih =>
    obtain ⟨segIdx, events⟩ := kv
    rw [applyEntries] at h
    cases h1 : applyRules segIdx events rules promotions with
    | error e =>
      rw [h1] at h
      exact absurd h (by simp)
    | ok mid =>
      rw [h1] at h
      rw [ih _ h, applyRules_ok _ _ _ _ _ h1, List.flatMap_cons, List.append_assoc]

/-- Whenever `applyPromotion` returns, its promotions are, for each distinct
segment with detected events and each rule in order, the promotion step of that
segment and rule. -/
theorem applyPromotion_ok (segments : List Segment) (detected : List Event) (canon : Canon)
    (promoMap : Option PromoMap) (out : List Promotion)
    (h : applyPromotion segments detected canon promoMap = .ok out) :
    out = (segmentKeys detected).flatMap (fun k =>
      (effectiveRules canon promoMap).flatMap (promotionFor k (eventsOf detected k))) := by
  unfold applyPromotion at h
  rw [applyEntries_ok _ _ _ _ h, groupBySegment_eq, List.nil_append, List.flatMap_map]

theorem declaredMin_le_ruleMin (rule : PromotionRule) : declaredMin rule ≤ ruleMin rule := by
  unfold declaredMin ruleMin intOr
  cases (rule.when.bind (fun w => w.segment_co_occurs)).bind (fun c => c.min) with
  | none => exact le_refl _
  | some n =>
    by_cases hn : n = 0
    · simp [hn]
    · simp [hn]

/-- C25: each promotion record that `applyPromotion` emits belongs to a segment `k`
and a rule: its `sem_id` is the rule's produce id, its `segment_idx` is `k`, its
`who` is the speaker of the first event (in detection order) of segment `k` whose
id is in the rule's id list, and its `from_atos` are the ids of all such events
in detection order; so its length is at least the rule's minimum and every
element is in the rule's id list. -/
theorem promotion_record_fields (segments : List Segment) (detected : List Event)
    (canon : Canon) (promoMap : Option PromoMap) (out : List Promotion)
    (h : applyPromotion segments detected canon promoMap = .ok out) :
    ∀ p ∈ out, ∃ k ∈ segmentKeys detected, ∃ rule ∈ effectiveRules canon promoMap,
      ∃ baseEv more,
        (eventsOf detected k).filter (fun e => (ruleIds rule).contains e.id) = baseEv :: more
        ∧ p.sem_id = rule.produce.id
        ∧ p.segment_idx = k
        ∧ p.who = baseEv.who
        ∧ p.from_atos = (baseEv :: more).map (fun e => e.id)
        ∧ ruleMin rule ≤ (p.from_atos.length : Int)
        ∧ declaredMin rule ≤ (p.from_atos.length : Int)
        ∧ ∀ x ∈ p.from_atos, x ∈ ruleIds rule := by
  intro p hp
  rw [applyPromotion_ok segments detected canon promoMap out h] at hp
  obtain ⟨k, hk, hp⟩ := List.mem_flatMap.1 hp
  obtain ⟨rule, hrule, hp⟩ := List.mem_flatMap.1 hp
  refine ⟨k, hk, rule, hrule, ?_⟩
  unfold promotionFor at hp
  cases hf : (eventsOf detected k).filter (fun e => (ruleIds rule).contains e.id) with
  | nil =>
    rw [hf] at hp
    simp at hp
  | cons baseEv more =>
    rw [hf] at hp
    by_cases hge : ruleMin rule ≤ (((more.length + 1 : Nat)) : Int)
    · simp only [hge, if_true, List.mem_singleton] at hp
      have hlen : ruleMin rule ≤ ((p.from_atos.length : Nat) : Int) := by
        rw [hp]
        simpa using hge
      refine ⟨baseEv, more, rfl, by rw [hp], by rw [hp], by rw [hp], by rw [hp], hlen,
        le_trans (declaredMin_le_ruleMin rule) hlen, ?_⟩
      intro x hx
      rw [hp] at hx
      obtain ⟨e, he, rfl⟩ := List.mem_map.1 hx
      have hmem : e ∈ (eventsOf detected k).filter (fun e => (ruleIds rule).contains e.id) := by
        rw [hf]
        exact he
      have := (List.mem_filter.1 hmem).2
      simpa using this
    · simp only [hge, if_false, List.not_mem_nil] at hp

/-- C25, witness: the rule `{ids: [ATO_A, ATO_B], min: 2}` and a segment whose
events are `ATO_B` (speaker B) and `ATO_A` (speaker A), in this order: the
record carries the speaker B of the first matching event and the ids
`[ATO_B, ATO_A]`. -/
theorem promotion_record_fields_witness :
    applyPromotion [] [mkEvent "ATO_B" 0 "B", mkEvent "ATO_A" 0 "A"]
        (canonWithRules [coOccurRule ["ATO_A", "ATO_B"] 2 "SEM_AB"]) none
      = .ok [⟨"SEM_AB", ["ATO_B", "ATO_A"], 0, "B"⟩]
    ∧ ∀ p ∈ [(⟨"SEM_AB", ["ATO_B", "ATO_A"], 0, "B"⟩ : Promotion)],
      ∃ k ∈ segmentKeys [mkEvent "ATO_B" 0 "B", mkEvent "ATO_A" 0 "A"],
      ∃ rule ∈ effectiveRules (canonWithRules [coOccurRule ["ATO_A", "ATO_B"] 2 "SEM_AB"]) none,
      ∃ baseEv more,
        (eventsOf [mkEvent "ATO_B" 0 "B", mkEvent "ATO_A" 0 "A"] k).filter
            (fun e => (ruleIds rule).contains e.id) = baseEv :: more
        ∧ p.sem_id = rule.produce.id
        ∧ p.segment_idx = k
        ∧ p.who = baseEv.who
        ∧ p.from_atos = (baseEv :: more).map (fun e => e.id)
        ∧ ruleMin rule ≤ (p.from_atos.length : Int)
        ∧ declaredMin rule ≤ (p.from_atos.length : Int)
        ∧ ∀ x ∈ p.from_atos, x ∈ ruleIds rule :=
  ⟨by decide,
    promotion_record_fields [] [mkEvent "ATO_B" 0 "B", mkEvent "ATO_A" 0 "A"]
      (canonWithRules [coOccurRule ["ATO_A", "ATO_B"] 2 "SEM_AB"]) none _ (by decide)⟩

/-! ### Counts -/

theorem counted_getD (n : Nat) : (counted n).getD 0 = n := by
  unfold counted
  by_cases h : n = 0 <;> simp [h]

theorem counted_succ (n : Nat) : counted (n + 1) = some (n + 1) := by
  simp [counted]

theorem bagIncr_get (b : Bag) (t t' : String) :
    JsMap.get (bagIncr b t) t'
      = if t = t' then some ((JsMap.get b t').getD 0 + 1) else JsMap.get b t' := by
  induction b with
  | nil =>
    by_cases h : t = t' <;> simp [bagIncr, JsMap.get, h]
  | cons kv rest ih =>
    obtain ⟨k, n⟩ := kv
    by_cases hk : k = t
    · subst hk
      by_cases h : k = t' <;> simp [bagIncr, JsMap.get, h]
    · by_cases h : t = t'
      · subst h
        simp [bagIncr, JsMap.get, hk, ih]
      · by_cases hk' : k = t'
        · subst hk'
          simp [bagIncr, JsMap.get, hk, h]
        · simp [bagIncr, JsMap.get, hk, hk', h, ih]

theorem bagIncr_counted (b : Bag) (t t' : String) (n : Nat) (h : JsMap.get b t' = counted n) :
    JsMap.get (bagIncr b t) t' = counted (n + if t = t' then 1 else 0) := by
  rw [bagIncr_get]
  by_cases ht : t = t'
  · rw [if_pos ht, if_pos ht, h, counted_getD, counted_succ]
  · rw [if_neg ht, if_neg ht, h, Nat.add_zero]

theorem totalIncr_get (total : Quad Nat) (t : String) (T : MType) :
    (totalIncr total t).get T = total.get T + if t = T.name then 1 else 0 := by
  unfold totalIncr
  by_cases h1 : t = "ATO"
  · subst h1
    cases T <;> simp [Quad.get, MType.name]
  · by_cases h2 : t = "SEM"
    · subst h2
      cases T <;> simp [Quad.get, MType.name]
    · by_cases h3 : t = "CLU"
      · subst h3
        cases T <;> simp [Quad.get, MType.name]
      · by_cases h4 : t = "MEMA"
        · subst h4
          cases T <;> simp [Quad.get, MType.name]
        · cases T <;> simp [Quad.get, MType.name, h1, h2, h3, h4]

theorem length_filter_snoc (p : Marker → Bool) (done : List Marker) (m : Marker) :
    ((done ++ [m]).filter p).length = (done.filter p).length + if p m = true then 1 else 0 := by
  rw [List.filter_append, List.length_append]
  by_cases h : p m = true <;> simp [List.filter_cons, h]

/-- One step of the loop of `computeCounts` keeps the counters equal to the
numbers of markers counted so far. -/
theorem countStep_counts (n : Nat) (done : List Marker) (c : Counts) (m : Marker)
    (hinv : CountsOf n done c) (hm : m.segment_idx < n) :
    ∃ c', countStep c m = .ok c' ∧ CountsOf n (done ++ [m]) c' := by
  obtain ⟨htotal, hA, hB, hlen, hseg⟩ := hinv
  have hidx : m.segment_idx < c.by_segment.length := by rw [hlen]; exact hm
  obtain ⟨bag, hbag⟩ : ∃ bag, c.by_segment.get? m.segment_idx = some bag :=
    ⟨_, List.get?_eq_get hidx⟩
  refine ⟨_, by unfold countStep; rw [hbag], ?_, ?_, ?_, ?_, ?_⟩
  · intro T
    show (totalIncr c.total m.type).get T = _
    rw [totalIncr_get, htotal T, length_filter_snoc]
    by_cases h : m.type = T.name <;> simp [h]
  · intro t
    rw [length_filter_snoc]
    by_cases hwho : m.who = "A"
    · show JsMap.get (if m.who = "A" then
          ({ c.by_speaker with A := bagIncr c.by_speaker.A m.type } : BySpeaker)
        else if m.who = "B" then { c.by_speaker with B := bagIncr c.by_speaker.B m.type }
        else c.by_speaker).A t = _
      rw [if_pos hwho]
      show JsMap.get (bagIncr c.by_speaker.A m.type) t = _
      rw [bagIncr_counted _ _ _ _ (hA t)]
      by_cases ht : m.type = t <;> simp [hwho, ht]
    · show JsMap.get (if m.who = "A" then
          ({ c.by_speaker with A := bagIncr c.by_speaker.A m.type } : BySpeaker)
        else if m.who = "B" then { c.by_speaker with B := bagIncr c.by_speaker.B m.type }
        else c.by_speaker).A t = _
      rw [if_neg hwho]
      have : JsMap.get (if m.who = "B" then
          ({ c.by_speaker with B := bagIncr c.by_speaker.B m.type } : BySpeaker)
        else c.by_speaker).A t = JsMap.get c.by_speaker.A t := by
        split <;> rfl
      rw [this, hA t]
      simp [hwho]
  · intro t
    rw [length_filter_snoc]
    by_cases hwho : m.who = "A"
    · show JsMap.get (if m.who = "A" then
          ({ c.by_speaker with A := bagIncr c.by_speaker.A m.type } : BySpeaker)
        else if m.who = "B" then { c.by_speaker with B := bagIncr c.by_speaker.B m.type }
        else c.by_speaker).B t = _
      rw [if_pos hwho]
      show JsMap.get c.by_speaker.B t = _
      have hne : ¬ m.who = "B" := by rw [hwho]; decide
      rw [hB t]
      simp [hne]
    · show JsMap.get (if m.who = "A" then
          ({ c.by_speaker with A := bagIncr c.by_speaker.A m.type } : BySpeaker)
        else if m.who = "B" then { c.by_speaker with B := bagIncr c.by_speaker.B m.type }
        else c.by_speaker).B t = _
      rw [if_neg hwho]
      by_cases hB' : m.who = "B"
      · rw [if_pos hB']
        show JsMap.get (bagIncr c.by_speaker.B m.type) t = _
        rw [bagIncr_counted _ _ _ _ (hB t)]
        by_cases ht : m.type = t <;> simp [hB', ht]
      · rw [if_neg hB', hB t]
        simp [hB']
  · show (c.by_segment.set m.segment_idx (bagIncr bag m.type)).length = n
    rw [List.length_set, hlen]
  · intro i bag' hbag' t
    have hbag'' : (c.by_segment.set m.segment_idx (bagIncr bag m.type)).get? i = some bag' :=
      hbag'
    rw [length_filter_snoc]
    by_cases hi : m.segment_idx = i
    · subst hi
      rw [List.get?_eq_getElem?, List.getElem?_set_self hidx] at hbag''
      injection hbag'' with hbag''
      rw [← hbag'', bagIncr_counted _ _ _ _ (hseg _ bag hbag t)]
      by_cases ht : m.type = t <;> simp [ht]
    · rw [List.get?_eq_getElem?, List.getElem?_set_ne hi, ← List.get?_eq_getElem?] at hbag''
      rw [hseg i bag' hbag'' t]
      simp [hi]

theorem countLoop_counts (n : Nat) (ms done : List Marker) (c : Counts)
    (hinv : CountsOf n done c) (hms : ∀ m ∈ ms, m.segment_idx < n) :
    ∃ c', countLoop ms c = .ok c' ∧ CountsOf n (done ++ ms) c' := by
  induction ms generalizing done c with
  | nil => exact ⟨c, rfl, by rw [List.append_nil]; exact hinv⟩
  | cons m ms ih =>
    obtain ⟨c1, h1, hinv1⟩ := countStep_counts n done c m hinv (hms m (List.mem_cons_self _ _))
    obtain ⟨c2, h2, hinv2⟩ := ih (done ++ [m]) c1 hinv1
      (fun x hx => hms x (List.mem_cons_of_mem _ hx))
    refine ⟨c2, ?_, ?_⟩
    · rw [countLoop, h1]
      exact h2
    · rw [List.append_assoc] at hinv2
      exact hinv2

/-- C24: for a marker list whose segment indices are valid, `computeCounts` returns
counts with `total[t]` the number of markers of type `t` for the four scored
types, `by_speaker[s][t]` the number of markers with `who = s` and type `t` for
`s` in `{A, B}` (there is no entry for any other speaker), and `by_segment[i][t]`
the number of markers with `segment_idx = i` and type `t`; a counter of a bag
whose number is 0 is absent. -/
theorem computeCounts_counts (segments : List Segment) (markersAll : List Marker)
    (hvalid : ∀ m ∈ markersAll, m.segment_idx < segments.length) :
    ∃ c, computeCounts segments markersAll = .ok c
      ∧ (∀ T : MType, c.total.get T = (markersAll.filter (fun m => m.type = T.name)).length)
      ∧ (∀ t, JsMap.get c.by_speaker.A t
          = counted (markersAll.filter (fun m => m.who = "A" ∧ m.type = t)).length)
      ∧ (∀ t, JsMap.get c.by_speaker.B t
          = counted (markersAll.filter (fun m => m.who = "B" ∧ m.type = t)).length)
      ∧ c.by_segment.length = segments.length
      ∧ (∀ i, i < segments.length → ∃ bag, c.by_segment.get? i = some bag ∧ ∀ t,
          JsMap.get bag t
            = counted (markersAll.filter (fun m => m.segment_idx = i ∧ m.type = t)).length) := by
  have hinit : CountsOf segments.length []
      { total := ⟨0, 0, 0, 0⟩, by_speaker := ⟨[], []⟩,
        by_segment := List.replicate segments.length [] } := by
    refine ⟨?_, ?_, ?_, ?_, ?_⟩
    · intro T
      cases T <;> rfl
    · intro t
      rfl
    · intro t
      rfl
    · exact List.length_replicate _ _
    · intro i bag hbag t
      have hmem : bag ∈ List.replicate segments.length ([] : Bag) := List.get?_mem hbag
      rw [List.eq_of_mem_replicate hmem]
      rfl
  obtain ⟨c, hc, h1, h2, h3, h4, h5⟩ := countLoop_counts segments.length markersAll [] _ hinit
    hvalid
  rw [List.nil_append] at h1 h2 h3 h5
  refine ⟨c, hc, h1, h2, h3, h4, ?_⟩
  intro i hi
  have hidx : i < c.by_segment.length := by rw [h4]; exact hi
  exact ⟨_, List.get?_eq_get hidx, h5 i _ (List.get?_eq_get hidx)⟩

/-- C24, witness: one segment with an ATO marker of speaker A, an ATO marker of
another speaker and a DETECT marker of speaker A. -/
theorem computeCounts_counts_witness :
    ∃ c, computeCounts [⟨"A", "x"⟩]
        [mkMarker "ATO", { mkMarker "ATO" with who := "C" }, mkMarker "DETECT"] = .ok c
      ∧ c.total = ⟨2, 0, 0, 0⟩
      ∧ c.by_speaker = ⟨[("ATO", 1), ("DETECT", 1)], []⟩
      ∧ c.by_segment = [[("ATO", 2), ("DETECT", 1)]]
      ∧ (∀ T : MType, c.total.get T
          = ([mkMarker "ATO", { mkMarker "ATO" with who := "C" }, mkMarker "DETECT"].filter
              (fun m => m.type = T.name)).length) := by
  obtain ⟨c, hc, h1, _⟩ := computeCounts_counts [⟨"A", "x"⟩]
    [mkMarker "ATO", { mkMarker "ATO" with who := "C" }, mkMarker "DETECT"] (by decide)
  have hc' : computeCounts [⟨"A", "x"⟩]
      [mkMarker "ATO", { mkMarker "ATO" with who := "C" }, mkMarker "DETECT"]
      = .ok ⟨⟨2, 0, 0, 0⟩, ⟨[("ATO", 1), ("DETECT", 1)], []⟩, [[("ATO", 2), ("DETECT", 1)]]⟩ := by
    decide
  have heq : c = ⟨⟨2, 0, 0, 0⟩, ⟨[("ATO", 1), ("DETECT", 1)], []⟩,
      [[("ATO", 2), ("DETECT", 1)]]⟩ := by
    rw [hc'] at hc
    injection hc with hc
    exact hc.symm
  exact ⟨c, hc, by rw [heq], by rw [heq], by rw [heq], h1⟩

/-! ### Annotation -/

theorem foldl_append_flatMap {α β : Type} (f : α → List β) (l : List α) (init : List β) :
    l.foldl (fun acc x => acc ++ f x) init = init ++ l.flatMap f := by
  induction l generalizing init with
  | nil => simp
  | cons a l ih => simp [ih, List.flatMap_cons, List.append_assoc]

theorem has_keyedBy {β : Type} (ks : List Nat) (f : Nat → β) (k : Nat) :
    JsMap.has (ks.map (fun k' => (k', f k'))) k = ks.contains k := by
  induction ks with
  | nil => rfl
  | cons a ks ih =>
    simp only [JsMap.has] at ih
    simp only [JsMap.has, List.map_cons, List.any_cons, ih, List.contains_cons]
    by_cases h : a = k
    · subst h
      simp
    · have h2 : ¬ k = a := fun e => h e.symm
      simp [h, h2]

theorem set_keyedBy {β : Type} (ks : List Nat) (f : Nat → β) (k : Nat) (v : β) (h : k ∉ ks) :
    JsMap.set (ks.map (fun k' => (k', f k'))) k v = ks.map (fun k' => (k', f k')) ++ [(k, v)] := by
  induction ks with
  | nil => rfl
  | cons a ks ih =>
    have ha : ¬ a = k := fun e => h (e ▸ List.mem_cons_self _ _)
    have hk : k ∉ ks := fun hm => h (List.mem_cons_of_mem _ hm)
    simp only [List.map_cons, JsMap.set, ha, if_false, ih hk, List.cons_append]

theorem promoKeys_snoc (pre : List Promotion) (p : Promotion) :
    promoKeys (pre ++ [p]) = pushNew (promoKeys pre) p.segment_idx := by
  simp [promoKeys, List.foldl_append]

theorem mem_foldl_pushNew_promo (l : List Promotion) (ks : List Nat) (k : Nat) :
    k ∈ l.foldl (fun ks p => pushNew ks p.segment_idx) ks ↔
      k ∈ ks ∨ ∃ p ∈ l, p.segment_idx = k := by
  induction l generalizing ks with
  | nil => simp
  | cons e l ih =>
    rw [List.foldl_cons, ih]
    by_cases hmem : e.segment_idx ∈ ks
    · rw [pushNew_of_mem hmem]
      simp only [List.mem_cons, exists_eq_or_imp]
      constructor
      · rintro (h1 | h1)
        · exact Or.inl h1
        · exact Or.inr (Or.inr h1)
      · rintro (h1 | h1 | h1)
        · exact Or.inl h1
        · exact Or.inl (h1 ▸ hmem)
        · exact Or.inr h1
    · rw [pushNew_of_not_mem hmem, List.mem_append, List.mem_singleton]
      simp only [List.mem_cons, exists_eq_or_imp]
      constructor
      · rintro ((h1 | h1) | h1)
        · exact Or.inl h1
        · exact Or.inr (Or.inl h1.symm)
        · exact Or.inr (Or.inr h1)
      · rintro (h1 | h1 | h1)
        · exact Or.inl (Or.inl h1)
        · exact Or.inl (Or.inr h1.symm)
        · exact Or.inr h1

theorem mem_promoKeys (promotions : List Promotion) (k : Nat) :
    k ∈ promoKeys promotions ↔ ∃ p ∈ promotions, p.segment_idx = k := by
  unfold promoKeys
  rw [mem_foldl_pushNew_promo]
  simp

theorem nodup_foldl_pushNew_promo (l : List Promotion) (ks : List Nat) (h : ks.Nodup) :
    (l.foldl (fun ks p => pushNew ks p.segment_idx) ks).Nodup := by
  induction l generalizing ks with
  | nil => simpa using h
  | cons e l ih =>
    rw [List.foldl_cons]
    apply ih
    by_cases hmem : e.segment_idx ∈ ks
    · rw [pushNew_of_mem hmem]
      exact h
    · rw [pushNew_of_not_mem hmem, List.nodup_append]
      refine ⟨h, List.nodup_singleton _, ?_⟩
      intro a ha hb
      rw [List.mem_singleton] at hb
      exact hmem (hb ▸ ha)

theorem semIdsOf_snoc (pre : List Promotion) (p : Promotion) (k : Nat) :
    semIdsOf (pre ++ [p]) k
      = if p.segment_idx = k then setAdd (semIdsOf pre k) p.sem_id else semIdsOf pre k := by
  unfold semIdsOf
  rw [List.filter_append]
  by_cases h : p.segment_idx = k <;> simp [h, List.foldl_append]

theorem semIdsOf_eq_nil (promotions : List Promotion) (k : Nat) (h : k ∉ promoKeys promotions) :
    semIdsOf promotions k = [] := by
  unfold semIdsOf
  have : promotions.filter (fun p => p.segment_idx = k) = [] := by
    rw [List.filter_eq_nil_iff]
    intro p hp hk
    exact h ((mem_promoKeys promotions k).2 ⟨p, hp, by simpa using hk⟩)
  rw [this]
  rfl

theorem semStep_keyed (pre : List Promotion) (p : Promotion) :
    semStep ((promoKeys pre).map (fun k => (k, semIdsOf pre k))) p
      = (promoKeys (pre ++ [p])).map (fun k => (k, semIdsOf (pre ++ [p]) k)) := by
  unfold semStep
  simp only []
  rw [has_keyedBy, promoKeys_snoc]
  by_cases hmem : p.segment_idx ∈ promoKeys pre
  · have h : (promoKeys pre).contains p.segment_idx = true := by simpa using hmem
    rw [pushNew_of_mem hmem]
    simp only [h, Bool.not_true, Bool.false_eq_true, if_false, JsMap.update, List.map_map]
    apply List.map_congr_left
    intro k _
    simp only [Function.comp, semIdsOf_snoc]
    by_cases hk : k = p.segment_idx
    · simp [hk]
    · have hk2 : ¬ p.segment_idx = k := fun e => hk e.symm
      simp [hk, hk2]
  · have h : (promoKeys pre).contains p.segment_idx = false := by simpa using hmem
    rw [pushNew_of_not_mem hmem]
    simp only [h, Bool.not_false, if_true]
    rw [set_keyedBy _ _ _ _ hmem]
    simp only [JsMap.update, List.map_append, List.map_map, List.map_cons, List.map_nil,
      if_true, semIdsOf_snoc, semIdsOf_eq_nil pre _ hmem]
    congr 1
    apply List.map_congr_left
    intro k hk
    have hne : ¬ k = p.segment_idx := fun e => hmem (e ▸ hk)
    have hne2 : ¬ p.segment_idx = k := fun e => hne e.symm
    simp [Function.comp, hne, hne2]

theorem foldl_semStep_keyed (l pre : List Promotion) :
    l.foldl semStep ((promoKeys pre).map (fun k => (k, semIdsOf pre k)))
      = (promoKeys (pre ++ l)).map (fun k => (k, semIdsOf (pre ++ l) k)) := by
  induction l generalizing pre with
  | nil => simp
  | cons p l ih =>
    rw [List.foldl_cons, semStep_keyed, ih]
    simp

theorem annotateSem_eq (canon : Canon) (k : Nat) (r : AnnotationRule)
    (ann : List AnnotationRecord) (semId : String) :
    annotateSem canon k r ann semId
      = ann ++ (if tagMatch canon r semId = true then
          (r.annotate.getD []).map (fun add => (⟨add.type, add.id, k, "other"⟩ : AnnotationRecord))
        else []) := by
  unfold annotateSem tagMatch semTags
  simp only []
  split
  · rw [foldl_push]
  · rw [List.append_nil]

theorem mem_foldl_setAdd (l s : List String) (x : String) :
    x ∈ l.foldl setAdd s ↔ x ∈ s ∨ x ∈ l := by
  induction l generalizing s with
  | nil => simp
  | cons a l ih =>
    rw [List.foldl_cons, ih]
    unfold setAdd
    by_cases h : s.contains a = true
    · rw [if_pos h]
      have ha : a ∈ s := by simpa using h
      simp only [List.mem_cons]
      constructor
      · rintro (h1 | h1)
        · exact Or.inl h1
        · exact Or.inr (Or.inr h1)
      · rintro (h1 | h1 | h1)
        · exact Or.inl h1
        · exact Or.inl (h1 ▸ ha)
        · exact Or.inr h1
    · rw [if_neg h]
      simp only [List.mem_append, List.mem_singleton, List.mem_cons]
      tauto

theorem nodup_foldl_setAdd (l s : List String) (h : s.Nodup) : (l.foldl setAdd s).Nodup := by
  induction l generalizing s with
  | nil => simpa using h
  | cons a l ih =>
    rw [List.foldl_cons]
    apply ih
    unfold setAdd
    by_cases hc : s.contains a = true
    · rw [if_pos hc]
      exact h
    · rw [if_neg hc, List.nodup_append]
      have ha : a ∉ s := by simpa using hc
      refine ⟨h, List.nodup_singleton _, ?_⟩
      intro b hb hb'
      rw [List.mem_singleton] at hb'
      exact ha (hb' ▸ hb)

/-- The function `annotateClustersAndMemory` computes the annotations as the
specification words them. -/
theorem annotateClustersAndMemory_eq (detected : List Event) (promotions : List Promotion)
    (canon : Canon) :
    annotateClustersAndMemory detected promotions canon = annotationSpec promotions canon := by
  unfold annotateClustersAndMemory annotationSpec
  simp only []
  have hmap : promotions.foldl semStep []
      = (promoKeys promotions).map (fun k => (k, semIdsOf promotions k)) := by
    have h := foldl_semStep_keyed promotions []
    simpa [promoKeys] using h
  rw [hmap]
  have hinner : ∀ (entry : Nat × List String) (ann : List AnnotationRecord),
      (canon.annotation_rules.getD []).foldl (fun ann r =>
          if r.target_type = "SEM" then entry.2.foldl (annotateSem canon entry.1 r) ann
          else ann) ann
        = ann ++ (canon.annotation_rules.getD []).flatMap (fun r =>
            entry.2.flatMap (fun semId => annotationsFor canon entry.1 r semId)) := by
    intro entry ann
    have hbody : (fun (ann : List AnnotationRecord) (r : AnnotationRule) =>
          if r.target_type = "SEM" then entry.2.foldl (annotateSem canon entry.1 r) ann
          else ann)
        = (fun ann r => ann ++ entry.2.flatMap (fun semId =>
            annotationsFor canon entry.1 r semId)) := by
      funext ann r
      by_cases hsem : r.target_type = "SEM"
      · rw [if_pos hsem]
        have hstep : annotateSem canon entry.1 r
            = (fun ann semId => ann ++ annotationsFor canon entry.1 r semId) := by
          funext ann semId
          rw [annotateSem_eq]
          unfold annotationsFor
          by_cases hm : tagMatch canon r semId = true <;> simp [hsem, hm]
        rw [hstep, foldl_append_flatMap]
      · rw [if_neg hsem]
        have hnil : entry.2.flatMap (fun semId => annotationsFor canon entry.1 r semId) = [] := by
          rw [List.flatMap_eq_nil_iff]
          intro semId _
          unfold annotationsFor
          rw [if_neg (fun h => hsem h.1)]
        rw [hnil, List.append_nil]
    rw [hbody, foldl_append_flatMap]
  have houter : (fun (ann : List AnnotationRecord) (entry : Nat × List String) =>
        (canon.annotation_rules.getD []).foldl (fun ann r =>
          if r.target_type = "SEM" then entry.2.foldl (annotateSem canon entry.1 r) ann
          else ann) ann)
      = (fun ann entry => ann ++ (canon.annotation_rules.getD []).flatMap (fun r =>
            entry.2.flatMap (fun semId => annotationsFor canon entry.1 r semId))) := by
    funext ann entry
    exact hinner entry ann
  rw [houter, foldl_append_flatMap, List.nil_append, List.flatMap_map]

/-- C22: `annotateClustersAndMemory` emits, for each segment with promotions (in
order of first occurrence), each annotation rule and each distinct promoted SEM
id of that segment, the annotations of that triple and nothing else: for a rule
with target type SEM and a SEM id whose catalog tag set contains at least one of
the rule's `when_tags_any_of` tags, exactly one annotation per `{type, id}` pair
of the rule, with that segment's index and `who = other`; for a rule with
another target type or a SEM id without a matching tag, none. -/
theorem annotateClustersAndMemory_per_triple (detected : List Event)
    (promotions : List Promotion) (canon : Canon) :
    annotateClustersAndMemory detected promotions canon
        = (promoKeys promotions).flatMap (fun k =>
            (canon.annotation_rules.getD []).flatMap (fun r =>
              (semIdsOf promotions k).flatMap (fun semId => annotationsFor canon k r semId)))
    ∧ (promoKeys promotions).Nodup
    ∧ (∀ k, k ∈ promoKeys promotions ↔ ∃ p ∈ promotions, p.segment_idx = k)
    ∧ (∀ k, (semIdsOf promotions k).Nodup)
    ∧ (∀ k x, x ∈ semIdsOf promotions k ↔ ∃ p ∈ promotions, p.segment_idx = k ∧ p.sem_id = x)
    ∧ (∀ k r semId, r.target_type = "SEM" →
        (∃ t ∈ r.when_tags_any_of.getD [], t ∈ semTags canon semId) →
        annotationsFor canon k r semId
          = (r.annotate.getD []).map (fun add => ⟨add.type, add.id, k, "other"⟩))
    ∧ (∀ k r semId, r.target_type ≠ "SEM" → annotationsFor canon k r semId = [])
    ∧ (∀ k r semId, (¬ ∃ t ∈ r.when_tags_any_of.getD [], t ∈ semTags canon semId) →
        annotationsFor canon k r semId = []) := by
  have hmatch : ∀ r semId, tagMatch canon r semId = true
      ↔ ∃ t ∈ r.when_tags_any_of.getD [], t ∈ semTags canon semId := by
    intro r semId
    unfold tagMatch
    simp [List.any_eq_true]
  refine ⟨annotateClustersAndMemory_eq detected promotions canon,
    nodup_foldl_pushNew_promo promotions [] List.nodup_nil, mem_promoKeys promotions,
    fun k => nodup_foldl_setAdd _ [] List.nodup_nil, ?_, ?_, ?_, ?_⟩
  · intro k x
    unfold semIdsOf
    rw [mem_foldl_setAdd]
    simp only [List.not_mem_nil, false_or, List.mem_map, List.mem_filter, decide_eq_true_eq]
    constructor
    · rintro ⟨p, ⟨hp, hk⟩, hx⟩
      exact ⟨p, hp, hk, hx⟩
    · rintro ⟨p, hp, hk, hx⟩
      exact ⟨p, ⟨hp, hk⟩, hx⟩
  · intro k r semId hsem htag
    unfold annotationsFor
    rw [if_pos ⟨hsem, (hmatch r semId).2 htag⟩]
  · intro k r semId hsem
    unfold annotationsFor
    rw [if_neg (fun h => hsem h.1)]
  · intro k r semId htag
    unfold annotationsFor
    rw [if_neg (fun h => htag ((hmatch r semId).1 h.2))]

/-- C22, witness: `SEM_X` promoted twice and `SEM_W` (not in the catalog) once in
segment 3 give exactly one annotation `CLU_Y` for segment 3; the rule with target
type ATO gives none. -/
theorem annotateClustersAndMemory_per_triple_witness :
    annotateClustersAndMemory []
        [⟨"SEM_X", ["ATO_A"], 3, "A"⟩, ⟨"SEM_W", ["ATO_B"], 3, "B"⟩, ⟨"SEM_X", ["ATO_C"], 3, "B"⟩]
        clusterCanon
      = [⟨"CLU", "CLU_Y", 3, "other"⟩] :=
  ((annotateClustersAndMemory_per_triple []
      [⟨"SEM_X", ["ATO_A"], 3, "A"⟩, ⟨"SEM_W", ["ATO_B"], 3, "B"⟩, ⟨"SEM_X", ["ATO_C"], 3, "B"⟩]
      clusterCanon).1).trans (by decide)

/-! ### Malformed patterns -/

theorem scanMarkers_fails (E : RegexEngine) (canon : Canon) (seg : Segment)
    (segIdx base fuel : Nat) (markers : List MarkerDef) (mk : MarkerDef) (hmk : mk ∈ markers)
    (hs : Scanned mk) (hbad : E.compile (strOr mk.regex "") (regexFlags canon mk) = none)
    (out : List Event) :
    ∃ e, scanMarkers E canon seg segIdx base fuel markers out = .error e := by
  induction markers generalizing out with
  | nil => simp at hmk
  | cons hd rest ih =>
    rw [scanMarkers]
    by_cases hhd : hd = mk
    · subst hhd
      rw [if_pos hs.1, if_pos hs.2]
      simp only [hbad]
      exact ⟨_, rfl⟩
    · have hrest : mk ∈ rest := by
        rcases List.mem_cons.1 hmk with h | h
        · exact absurd h.symm hhd
        · exact h
      by_cases ht : hd.type = "DETECT" ∨ hd.type = "ATO" ∨ hd.type = "SEM"
      · rw [if_pos ht]
        by_cases hr : strOr hd.regex "" ≠ ""
        · rw [if_pos hr]
          simp only []
          cases E.compile (strOr hd.regex "") (regexFlags canon hd) with
          | none => exact ⟨_, rfl⟩
          | some reAll =>
            simp only []
            cases execLoop E reAll ((regexFlags canon hd).data.contains 'g') hd seg segIdx base
                fuel 0 out with
            | error e => exact ⟨e, rfl⟩
            | ok mid => exact ih hrest mid
        · rw [if_neg hr]
          exact ih hrest out
      · rw [if_neg ht]
        exact ih hrest out

theorem scanMarkers_append (E : RegexEngine) (canon : Canon) (seg : Segment)
    (segIdx base fuel : Nat) (pre post : List MarkerDef) (out : List Event) :
    scanMarkers E canon seg segIdx base fuel (pre ++ post) out
      = match scanMarkers E canon seg segIdx base fuel pre out with
        | .error e => .error e
        | .ok mid => scanMarkers E canon seg segIdx base fuel post mid := by
  induction pre generalizing out with
  | nil => rfl
  | cons hd rest ih =>
    rw [List.cons_append, scanMarkers, scanMarkers]
    by_cases ht : hd.type = "DETECT" ∨ hd.type = "ATO" ∨ hd.type = "SEM"
    · rw [if_pos ht, if_pos ht]
      by_cases hr : strOr hd.regex "" ≠ ""
      · rw [if_pos hr, if_pos hr]
        simp only []
        cases E.compile (strOr hd.regex "") (regexFlags canon hd) with
        | none => rfl
        | some reAll =>
          simp only []
          cases execLoop E reAll ((regexFlags canon hd).data.contains 'g') hd seg segIdx base
              fuel 0 out with
          | error e => rfl
          | ok mid => exact ih mid
      · rw [if_neg hr, if_neg hr]
        exact ih out
    · rw [if_neg ht, if_neg ht]
      exact ih out

/-- C27, as amended: if a catalog entry of type DETECT, ATO or SEM carries a
malformed pattern, `detect_all` returns no result for any input with at least
one segment; when the entries before it compile and their matches move
`lastIndex` forward, the failure is the `SyntaxError` of `new RegExp` for that
pattern, raised while the first segment is scanned (it carries the pattern, not
the marker id).  For an input without segments `detect_all` compiles no pattern
and returns the empty list. -/
theorem malformed_pattern_fails (E : RegexEngine) (canon : Canon) (mk : MarkerDef)
    (hmk : mk ∈ canon.markers) (hs : Scanned mk)
    (hbad : E.compile (strOr mk.regex "") (regexFlags canon mk) = none)
    (seg : Segment) (rest : List Segment) (fuel : Nat) :
    (∃ e, detect_all E fuel (seg :: rest) canon = .error e)
    ∧ (∀ pre post, canon.markers = pre ++ mk :: post →
        (∀ mk' ∈ pre, Scanned mk' →
          (E.compile (strOr mk'.regex "") (regexFlags canon mk')).isSome = true) →
        (∀ mk' ∈ pre, ∀ re : E.Regex,
          E.compile (strOr mk'.regex "") (regexFlags canon mk') = some re →
          ∀ (str : String) (lastIndex index : Nat) (m0 : String),
            E.exec re str lastIndex = some (index, m0) →
              lastIndex < index + m0.length ∧ index + m0.length ≤ str.length) →
        seg.text.length < fuel →
        detect_all E fuel (seg :: rest) canon = .error (.syntaxError (strOr mk.regex "")))
    ∧ detect_all E fuel [] canon = .ok [] := by
  refine ⟨?_, ?_, rfl⟩
  · obtain ⟨e, he⟩ := scanMarkers_fails E canon seg 0
      ((buildGlobalText (seg :: rest)).indexOffsets.getD 0 0) fuel canon.markers mk hmk hs hbad []
    refine ⟨e, ?_⟩
    unfold detect_all detectScan
    rw [scanSegments]
    simp only [he]
  · intro pre post hsplit hc ha hfuel
    obtain ⟨mid, hmid⟩ := scanMarkers_returns E canon seg 0
      ((buildGlobalText (seg :: rest)).indexOffsets.getD 0 0) fuel hfuel pre hc ha []
    have hscan : scanMarkers E canon seg 0
        ((buildGlobalText (seg :: rest)).indexOffsets.getD 0 0) fuel canon.markers []
        = .error (.syntaxError (strOr mk.regex "")) := by
      rw [hsplit, scanMarkers_append, hmid]
      simp only []
      rw [scanMarkers, if_pos hs.1, if_pos hs.2]
      simp only [hbad]
    unfold detect_all detectScan
    rw [scanSegments]
    simp only [hscan]

/-- C27, witness: the literal engine rejects the pattern `(`; with one segment
`detect_all` fails with the `SyntaxError` for that pattern. -/
theorem malformed_pattern_fails_witness :
    detect_all literalEngine 5 [⟨"A", "ab"⟩] badCanon = .error (.syntaxError "(") :=
  (malformed_pattern_fails literalEngine badCanon ⟨"ATO_BAD", "ATO", some "(", none, none⟩
    (List.mem_singleton_self _) ⟨Or.inr (Or.inl rfl), by decide⟩ rfl ⟨"A", "ab"⟩ [] 5).2.1 [] []
    rfl (by simp) (by simp) (by decide)

/-- C27, counterexample: the catalog entry `ATO_BAD` carries the malformed pattern
`(`, and for an input without segments `detect_all` returns the empty list and
`run` returns an output: no failure. -/
theorem malformed_pattern_no_segments :
    literalEngine.compile "(" (regexFlags badCanon ⟨"ATO_BAD", "ATO", some "(", none, none⟩) = none
    ∧ detect_all literalEngine 5 [] badCanon = .ok []
    ∧ ∃ out, run literalEngine sampleMath 5 badCanon (unitWeights none) none [] = .ok out :=
  ⟨rfl, rfl, ⟨_, rfl⟩⟩

/-! ### Patterns that match the empty string -/

/-- After an empty match at `lastIndex` the loop calls `exec` with the same
`lastIndex` again: it never ends. -/
theorem execLoop_empty_match (E : RegexEngine) (reAll : E.Regex) (mk : MarkerDef)
    (seg : Segment) (segIdx base lastIndex : Nat)
    (hempty : E.exec reAll seg.text lastIndex = some (lastIndex, "")) (fuel : Nat)
    (out : List Event) :
    execLoop E reAll true mk seg segIdx base fuel lastIndex out = .error .outOfFuel := by
  induction fuel generalizing out with
  | zero => rfl
  | succ fuel ih =>
    rw [execLoop, hempty]
    simp only [Bool.not_true, Bool.false_eq_true, if_false]
    exact ih _

/-- C29, evaluation at the failing input: the catalog entry `ATO_STAR` carries the
well-formed pattern `a*`, which matches the empty string at index 0 of the text
`b`; the loop of `detect_all` then calls `exec` with `lastIndex = 0` again and
again, and for every step budget `detect_all` is still running when the budget
is used up. -/
theorem detect_all_empty_match_loops :
    starEngine.compile "a*" (regexFlags starCanon ⟨"ATO_STAR", "ATO", some "a*", none, none⟩)
        = some 'a'
    ∧ starEngine.exec 'a' "b" 0 = some (0, "")
    ∧ ∀ fuel, detect_all starEngine fuel [⟨"A", "b"⟩] starCanon = .error .outOfFuel := by
  refine ⟨rfl, rfl, ?_⟩
  intro fuel
  have hcompile : starEngine.compile (strOr (some "a*") "")
      (regexFlags starCanon ⟨"ATO_STAR", "ATO", some "a*", none, none⟩) = some 'a' := rfl
  have hloop := execLoop_empty_match starEngine 'a' ⟨"ATO_STAR", "ATO", some "a*", none, none⟩
    ⟨"A", "b"⟩ 0 ((buildGlobalText [⟨"A", "b"⟩]).indexOffsets.getD 0 0) 0 rfl fuel []
  have hg : (regexFlags starCanon ⟨"ATO_STAR", "ATO", some "a*", none, none⟩).data.contains 'g'
      = true := by decide
  have hscan : scanMarkers starEngine starCanon ⟨"A", "b"⟩ 0
      ((buildGlobalText [⟨"A", "b"⟩]).indexOffsets.getD 0 0) fuel starCanon.markers []
      = .error .outOfFuel := by
    show scanMarkers starEngine starCanon ⟨"A", "b"⟩ 0 _ fuel
      [⟨"ATO_STAR", "ATO", some "a*", none, none⟩] [] = _
    rw [scanMarkers, if_pos (by decide), if_pos (by decide)]
    simp only [hcompile]
    rw [hg, hloop]
  unfold detect_all detectScan
  rw [scanSegments]
  simp only [hscan]

/-! ### The backtracking matcher of the line pattern -/

theorem tryDown_eq_none {α : Type} (k : Nat → Option α) (lo n : Nat)
    (h : ∀ i, lo ≤ i → i ≤ n → k i = none) : tryDown k lo n = none := by
  induction n with
  | zero =>
    unfold tryDown
    split
    · exact h 0 (by omega) (le_refl _)
    · rfl
  | succ n ih =>
    unfold tryDown
    split
    · rfl
    · rename_i hlo
      rw [h (n + 1) (by omega) (le_refl _)]
      exact ih (fun i h1 h2 => h i h1 (by omega))

theorem tryDown_first {α : Type} (k : Nat → Option α) (lo n : Nat) (r : α) (hlo : lo ≤ n)
    (h : k n = some r) : tryDown k lo n = some r := by
  cases n with
  | zero =>
    unfold tryDown
    rw [if_pos (by omega), h]
  | succ n =>
    unfold tryDown
    rw [if_neg (by omega), h]

theorem tryDown_second {α : Type} (k : Nat → Option α) (lo n : Nat) (r : α) (hlo : lo ≤ n)
    (hnone : k (n + 1) = none) (h : k n = some r) : tryDown k lo (n + 1) = some r := by
  rw [tryDown, if_neg (by omega), hnone]
  exact tryDown_first k lo n r hlo h

theorem drop_runLength (p : Char → Bool) (s : List Char) :
    s.drop (runLength p s) = s.dropWhile p := by
  unfold runLength
  induction s with
  | nil => rfl
  | cons c s ih =>
    by_cases h : p c = true
    · simp [List.takeWhile_cons, List.dropWhile_cons, h, ih]
    · simp [List.takeWhile_cons, List.dropWhile_cons, h]

theorem runLength_le (p : Char → Bool) (s : List Char) : runLength p s ≤ s.length := by
  unfold runLength
  exact (List.takeWhile_prefix p).length_le

theorem runLength_eq_length (p : Char → Bool) (s : List Char) (h : s.all p = true) :
    runLength p s = s.length := by
  unfold runLength
  rw [List.takeWhile_eq_self_iff.2 (by simpa using h)]

/-- Before the end of the run every character satisfies the class. -/
theorem head_drop_of_lt_runLength (p : Char → Bool) (s : List Char) (i : Nat)
    (h : i < runLength p s) : ∃ c rest, s.drop i = c :: rest ∧ p c = true := by
  induction s generalizing i with
  | nil => simp [runLength] at h
  | cons a s ih =>
    by_cases hp : p a = true
    · cases i with
      | zero => exact ⟨a, s, rfl, hp⟩
      | succ i =>
        have h' : i < runLength p s := by
          simp only [runLength, List.takeWhile_cons, hp, if_true, List.length_cons] at h
          simp only [runLength]
          omega
        exact ih i h'
    · simp [runLength, List.takeWhile_cons, hp] at h

theorem matchTail_eq (s : List Char) :
    matchTail s
      = if s ≠ [] ∧ s.all (fun c => !isLineTerminator c) = true then some s else none := by
  unfold matchTail
  by_cases hall : s.all (fun c => !isLineTerminator c) = true
  · rw [runLength_eq_length _ s hall]
    by_cases hs : s = []
    · subst hs
      simp [tryDown]
    · rw [if_pos ⟨hs, hall⟩]
      apply tryDown_first
      · have : 0 < s.length := List.length_pos.2 hs
        omega
      · simp
  · rw [if_neg (fun h => hall h.2)]
    apply tryDown_eq_none
    intro i _ hi
    have hlt : runLength (fun c => !isLineTerminator c) s < s.length := by
      rcases Nat.lt_or_ge (runLength (fun c => !isLineTerminator c) s) s.length with h | h
      · exact h
      · exfalso
        apply hall
        have hle := runLength_le (fun c => !isLineTerminator c) s
        have heq : (s.takeWhile (fun c => !isLineTerminator c)).length = s.length := by
          unfold runLength at h hle
          omega
        have : s.takeWhile (fun c => !isLineTerminator c) = s :=
          (List.takeWhile_prefix _).eq_of_length heq
        rw [List.takeWhile_eq_self_iff] at this
        simpa using this
    have : s.drop i ≠ [] := by
      intro h
      rw [List.drop_eq_nil_iff] at h
      omega
    simp [this]

theorem all_drop_of_all_drop (p : Char → Bool) (s : List Char) (v V : Nat) (hv : v ≤ V)
    (h : (s.drop v).all p = true) : (s.drop V).all p = true := by
  rw [List.all_eq_true] at h ⊢
  intro x hx
  apply h
  have : s.drop V = (s.drop v).drop (V - v) := by
    rw [List.drop_drop]
    congr 1
    omega
  rw [this] at hx
  exact List.mem_of_mem_drop hx

theorem dropWhile_eq_nil_all (p : Char → Bool) (s : List Char) (h : s.dropWhile p = []) :
    s.all p = true := by
  rw [List.dropWhile_eq_nil_iff] at h
  simpa using h

theorem matchContent_eq (s : List Char) : matchContent s = contentOf s := by
  unfold matchContent contentOf
  have hk : ∀ v, matchTail (s.drop v)
      = if s.drop v ≠ [] ∧ (s.drop v).all (fun c => !isLineTerminator c) = true then
          some (s.drop v) else none := fun v => matchTail_eq _
  cases hY : s.dropWhile isJsSpace with
  | cons c rest =>
    simp only []
    have hdrop : s.drop (runLength isJsSpace s) = c :: rest := by rw [drop_runLength, hY]
    by_cases hall : (c :: rest).all (fun x => !isLineTerminator x) = true
    · rw [if_pos hall]
      apply tryDown_first _ _ _ _ (Nat.zero_le _)
      show matchTail (s.drop (runLength isJsSpace s)) = _
      rw [hk, hdrop, if_pos ⟨by simp, hall⟩]
    · rw [if_neg hall]
      apply tryDown_eq_none
      intro v _ hv
      show matchTail (s.drop v) = none
      rw [hk, if_neg]
      intro h
      apply hall
      rw [← hdrop]
      exact all_drop_of_all_drop _ s v _ hv h.2
  | nil =>
    simp only []
    have hall := dropWhile_eq_nil_all isJsSpace s hY
    have hV : runLength isJsSpace s = s.length := runLength_eq_length _ s hall
    rw [hV]
    rcases List.eq_nil_or_concat s with hs | ⟨init, c, hs⟩
    · subst hs
      rfl
    · rw [List.concat_eq_append] at hs
      subst hs
      rw [List.getLast?_concat]
      simp only []
      have hlen : (init ++ [c]).length = init.length + 1 := by simp
      rw [hlen]
      have hlast : (init ++ [c]).drop init.length = [c] := by simp
      have hend : (init ++ [c]).drop (init.length + 1) = [] := by
        rw [List.drop_eq_nil_iff, hlen]
      by_cases hterm : isLineTerminator c = true
      · rw [if_pos hterm]
        apply tryDown_eq_none
        intro v _ hv
        show matchTail ((init ++ [c]).drop v) = none
        rw [hk, if_neg]
        rintro ⟨hne, hall'⟩
        have hvlt : v ≤ init.length := by
          by_contra hgt
          apply hne
          rw [List.drop_eq_nil_iff, hlen]
          omega
        have := all_drop_of_all_drop _ _ v init.length hvlt hall'
        rw [hlast] at this
        simp [hterm] at this
      · rw [if_neg hterm]
        apply tryDown_second _ _ _ _ (Nat.zero_le _)
        · show matchTail ((init ++ [c]).drop (init.length + 1)) = none
          rw [hend]
          rfl
        · show matchTail ((init ++ [c]).drop init.length) = some [c]
          rw [hlast, matchTail_eq, if_pos]
          exact ⟨by simp, by simpa using hterm⟩

theorem matchColon_eq (s : List Char) :
    matchColon s
      = match s.dropWhile isJsSpace with
        | c :: rest => if c = ':' then contentOf rest else none
        | [] => none := by
  unfold matchColon
  have hW : (match s.drop (runLength isJsSpace s) with
      | c :: rest => if c = ':' then matchContent rest else none
      | [] => none)
      = match s.dropWhile isJsSpace with
        | c :: rest => if c = ':' then contentOf rest else none
        | [] => none := by
    rw [drop_runLength]
    cases s.dropWhile isJsSpace with
    | nil => rfl
    | cons c rest => simp only [matchContent_eq]
  rw [← hW]
  cases hr : (match s.drop (runLength isJsSpace s) with
      | c :: rest => if c = ':' then matchContent rest else none
      | [] => none) with
  | some r => exact tryDown_first _ _ _ _ (Nat.zero_le _) hr
  | none =>
    apply tryDown_eq_none
    intro w _ hw
    rcases Nat.lt_or_eq_of_le hw with hlt | heq
    · obtain ⟨c, rest, hdrop, hc⟩ := head_drop_of_lt_runLength isJsSpace s w hlt
      simp only [hdrop]
      rw [if_neg]
      intro hcolon
      rw [hcolon] at hc
      exact absurd hc (by decide)
    · rw [heq]
      exact hr

theorem dropWhile_space_colonFirst (q : List Char) (hq : ColonFirst q) :
    q.dropWhile isJsSpace = q := by
  cases q with
  | nil => rfl
  | cons c rest =>
    have hc : c = ':' := hq c rest rfl
    subst hc
    rw [List.dropWhile_cons, if_neg (by decide)]

theorem matchColon_append (p q : List Char) (hp : ∀ c ∈ p, c ≠ ':') (hq : ColonFirst q) :
    matchColon (p ++ q)
      = if p.all isJsSpace = true then
          (match q with
           | _ :: afterColon => contentOf afterColon
           | [] => none)
        else none := by
  rw [matchColon_eq]
  by_cases hall : p.all isJsSpace = true
  · rw [if_pos hall, List.dropWhile_append_of_pos (by simpa using hall),
      dropWhile_space_colonFirst q hq]
    cases q with
    | nil => rfl
    | cons c rest =>
      simp only []
      rw [if_pos (hq c rest rfl)]
  · rw [if_neg hall, List.dropWhile_append]
    cases hd : p.dropWhile isJsSpace with
    | nil => exact absurd (dropWhile_eq_nil_all _ _ hd) hall
    | cons c rest =>
      simp only [List.isEmpty_cons, Bool.false_eq_true, if_false, List.cons_append]
      rw [if_neg]
      apply hp
      have hmem : c ∈ p.dropWhile isJsSpace := by rw [hd]; exact List.mem_cons_self _ _
      exact (List.dropWhile_sublist _).subset hmem

theorem runLength_notColon_append (p q : List Char) (hp : ∀ c ∈ p, c ≠ ':')
    (hq : ColonFirst q) : runLength (fun c => c ≠ ':') (p ++ q) = p.length := by
  unfold runLength
  rw [List.takeWhile_append_of_pos (by simpa using hp)]
  cases q with
  | nil => simp
  | cons c rest =>
    have hc : c = ':' := hq c rest rfl
    subst hc
    simp [List.takeWhile_cons]

theorem runLength_space_append (p q : List Char) (hq : ColonFirst q) :
    runLength isJsSpace (p ++ q) = runLength isJsSpace p := by
  unfold runLength
  have hqt : q.takeWhile isJsSpace = [] := by
    cases q with
    | nil => rfl
    | cons c rest =>
      have hc : c = ':' := hq c rest rfl
      subst hc
      rw [List.takeWhile_cons, if_neg (by decide)]
  rw [List.takeWhile_append, hqt, List.append_nil]
  split
  · rename_i h
    rw [(List.takeWhile_prefix isJsSpace).eq_of_length h]
  · rfl

theorem tryDown_congr {α : Type} (k k' : Nat → Option α) (lo n : Nat)
    (h : ∀ i, i ≤ n → k i = k' i) : tryDown k lo n = tryDown k' lo n := by
  induction n with
  | zero =>
    unfold tryDown
    rw [h 0 (le_refl _)]
  | succ n ih =>
    unfold tryDown
    rw [h (n + 1) (le_refl _), ih (fun i hi => h i (by omega))]

theorem tryDown_map {α β : Type} (k : Nat → Option α) (f : α → β) (lo n : Nat) :
    tryDown (fun i => (k i).map f) lo n = (tryDown k lo n).map f := by
  induction n with
  | zero =>
    unfold tryDown
    split <;> rfl
  | succ n ih =>
    unfold tryDown
    split
    · rfl
    · cases k (n + 1) with
      | none => exact ih
      | some r => rfl

theorem labelSearch_eq (p : List Char) : labelSearch p = labelOf p := by
  unfold labelSearch labelOf
  cases hX : p.dropWhile isJsSpace with
  | cons c rest =>
    simp only []
    have hdrop : p.drop (runLength isJsSpace p) = c :: rest := by rw [drop_runLength, hX]
    have hlen : p.length - runLength isJsSpace p = rest.length + 1 := by
      have := congrArg List.length hdrop
      rw [List.length_drop, List.length_cons] at this
      exact this
    by_cases hall : ((c :: rest).drop 40).all isJsSpace = true
    · rw [if_pos hall]
      apply tryDown_first _ _ _ _ (Nat.zero_le _)
      unfold labelAt
      apply tryDown_first _ _ _ _ (by omega)
      have hdd : p.drop (runLength isJsSpace p + min 40 (p.length - runLength isJsSpace p))
          = (c :: rest).drop (min 40 (p.length - runLength isJsSpace p)) := by
        rw [← hdrop, List.drop_drop, Nat.add_comm]
      rw [hdd, hdrop, hlen]
      by_cases hle : rest.length + 1 ≤ 40
      · rw [Nat.min_eq_right hle]
        have h1 : (c :: rest).drop (rest.length + 1) = [] := by
          rw [List.drop_eq_nil_iff]
          simp
        have h2 : (c :: rest).take (rest.length + 1) = c :: rest := by
          rw [List.take_of_length_le]
          simp
        have h3 : (c :: rest).take 40 = c :: rest := by
          rw [List.take_of_length_le]
          simpa using hle
        rw [h1, h2, h3]
        rfl
      · rw [Nat.min_eq_left (by omega), if_pos hall]
    · rw [if_neg hall]
      apply tryDown_eq_none
      intro k0 _ hk0
      unfold labelAt
      apply tryDown_eq_none
      intro j _ hj
      rw [if_neg]
      intro h
      apply hall
      have hj40 : j ≤ 40 := le_trans hj (Nat.min_le_left _ _)
      have := all_drop_of_all_drop isJsSpace p (k0 + j) (runLength isJsSpace p + 40)
        (by omega) h
      rw [← hdrop, List.drop_drop]
      exact this
  | nil =>
    simp only []
    have hall := dropWhile_eq_nil_all isJsSpace p hX
    rw [runLength_eq_length _ p hall]
    rcases List.eq_nil_or_concat p with hs | ⟨init, c, hs⟩
    · subst hs
      rfl
    · rw [List.concat_eq_append] at hs
      subst hs
      rw [List.getLast?_concat]
      simp only []
      have hlen : (init ++ [c]).length = init.length + 1 := by simp
      rw [hlen]
      apply tryDown_second _ _ _ _ (Nat.zero_le _)
      · unfold labelAt
        have h0 : min 40 ((init ++ [c]).length - (init.length + 1)) = 0 := by
          rw [hlen]
          simp
        rw [h0]
        rfl
      · unfold labelAt
        have h1 : min 40 ((init ++ [c]).length - init.length) = 1 := by
          rw [hlen]
          simp
        rw [h1]
        apply tryDown_first _ _ _ _ (le_refl _)
        have hend : (init ++ [c]).drop (init.length + 1) = [] := by
          rw [List.drop_eq_nil_iff, hlen]
        have hlast : (init ++ [c]).drop init.length = [c] := by simp
        rw [hend, hlast]
        rfl

theorem dropWhile_head_not (p : Char → Bool) (l : List Char) (c : Char) (rest : List Char)
    (h : l.dropWhile p = c :: rest) : p c = false := by
  induction l with
  | nil => simp at h
  | cons a l ih =>
    rw [List.dropWhile_cons] at h
    by_cases ha : p a = true
    · rw [if_pos ha] at h
      exact ih h
    · rw [if_neg ha] at h
      injection h with h1 _
      rw [← h1]
      simpa using ha

/-- The label part of the line pattern on a line cut at its first colon. -/
theorem matchLabel_cut (p q : List Char) (hp : ∀ c ∈ p, c ≠ ':') (hq : ColonFirst q)
    (k : Nat) (hk : k ≤ p.length) :
    matchLabel ((p ++ q).drop k)
      = match (match q with
               | _ :: afterColon => contentOf afterColon
               | [] => none) with
        | some content => (labelAt p k).map (fun label => (label, content))
        | none => none := by
  have hdropk : (p ++ q).drop k = p.drop k ++ q := List.drop_append_of_le_length hk
  have hpk : ∀ c ∈ p.drop k, c ≠ ':' := fun c hc => hp c (List.mem_of_mem_drop hc)
  rw [hdropk]
  unfold matchLabel
  rw [runLength_notColon_append _ _ hpk hq, List.length_drop]
  have hkj : ∀ j, j ≤ min 40 (p.length - k) →
      (matchColon ((p.drop k ++ q).drop j)).map (fun m2 => ((p.drop k ++ q).take j, m2))
        = (if (p.drop (k + j)).all isJsSpace = true then
            (match q with
             | _ :: afterColon => contentOf afterColon
             | [] => none)
           else none).map (fun m2 => ((p.drop k).take j, m2)) := by
    intro j hj
    have hjle : j ≤ (p.drop k).length := by
      rw [List.length_drop]
      exact le_trans hj (Nat.min_le_right _ _)
    have h1 : (p.drop k ++ q).drop j = p.drop (k + j) ++ q := by
      rw [List.drop_append_of_le_length hjle, List.drop_drop, Nat.add_comm]
    have h2 : (p.drop k ++ q).take j = (p.drop k).take j := List.take_append_of_le_length hjle
    rw [h1, h2, matchColon_append _ _ (fun c hc => hp c (List.mem_of_mem_drop hc)) hq]
  rw [tryDown_congr _ _ _ _ hkj]
  cases (match q with
         | _ :: afterColon => contentOf afterColon
         | [] => none) with
  | none =>
    simp only []
    apply tryDown_eq_none
    intro j _ _
    split <;> rfl
  | some content =>
    simp only []
    unfold labelAt
    rw [← tryDown_map]
    apply tryDown_congr
    intro j _
    split <;> rfl

/-- The backtracking matcher of the line pattern finds the label and the content
of a line cut at its first colon. -/
theorem matchLine_eq (line : List Char) : matchLine line = parseLine line := by
  have hline : line.takeWhile (fun c => c ≠ ':') ++ line.dropWhile (fun c => c ≠ ':') = line :=
    List.takeWhile_append_dropWhile _ line
  have hp : ∀ c ∈ line.takeWhile (fun c => c ≠ ':'), c ≠ ':' := by
    intro c hc
    simpa using List.mem_takeWhile_imp hc
  have hq : ColonFirst (line.dropWhile (fun c => c ≠ ':')) := by
    intro c rest h
    simpa using dropWhile_head_not _ line c rest h
  unfold matchLine parseLine
  generalize line.takeWhile (fun c => c ≠ ':') = p at hline hp
  generalize line.dropWhile (fun c => c ≠ ':') = q at hline hq
  subst hline
  rw [runLength_space_append p q hq]
  have hk : ∀ k, k ≤ runLength isJsSpace p → matchLabel ((p ++ q).drop k)
      = match (match q with
               | _ :: afterColon => contentOf afterColon
               | [] => none) with
        | some content => (labelAt p k).map (fun label => (label, content))
        | none => none :=
    fun k hk => matchLabel_cut p q hp hq k (le_trans hk (runLength_le _ _))
  rw [tryDown_congr _ _ _ _ hk]
  cases q with
  | nil =>
    simp only []
    exact tryDown_eq_none _ _ _ (fun _ _ _ => rfl)
  | cons c afterColon =>
    simp only []
    cases contentOf afterColon with
    | none =>
      simp only []
      rw [tryDown_eq_none _ _ _ (fun _ _ _ => rfl)]
      cases labelOf p <;> rfl
    | some content =>
      simp only []
      rw [tryDown_map]
      show (labelSearch p).map _ = _
      rw [labelSearch_eq]
      cases labelOf p <;> rfl

/-! ### The speaker of a label -/

theorem toLower_eq_a (c : Char) : c.toLower = 'a' ↔ c = 'a' ∨ c = 'A' := by
  have hc : Char.ofNat c.toNat = c := Char.ofNat_toNat c
  unfold Char.toLower
  simp only []
  by_cases h : c.toNat ≥ 65 ∧ c.toNat ≤ 90
  · rw [if_pos h, ← hc]
    obtain ⟨h1, h2⟩ := h
    generalize c.toNat = n at h1 h2
    interval_cases n <;> decide
  · rw [if_neg h]
    constructor
    · exact Or.inl
    · rintro (h1 | h1)
      · exact h1
      · exfalso
        apply h
        rw [h1]
        decide

theorem toLower_eq_b (c : Char) : c.toLower = 'b' ↔ c = 'b' ∨ c = 'B' := by
  have hc : Char.ofNat c.toNat = c := Char.ofNat_toNat c
  unfold Char.toLower
  simp only []
  by_cases h : c.toNat ≥ 65 ∧ c.toNat ≤ 90
  · rw [if_pos h, ← hc]
    obtain ⟨h1, h2⟩ := h
    generalize c.toNat = n at h1 h2
    interval_cases n <;> decide
  · rw [if_neg h]
    constructor
    · exact Or.inl
    · rintro (h1 | h1)
      · exact h1
      · exfalso
        apply h
        rw [h1]
        decide

theorem whoOf_eq (m1 : List Char) : whoOf m1 = speakerOf m1 := by
  unfold whoOf speakerOf toLowerCase
  cases jsTrim m1 with
  | nil => rfl
  | cons c rest =>
    simp only [List.map_cons, List.head?_cons]
    have ha : (("a".data).isPrefixOf (c.toLower :: rest.map Char.toLower)) = true
        ↔ c = 'a' ∨ c = 'A' := by
      rw [← toLower_eq_a]
      show (('a' == c.toLower) && ([] : List Char).isPrefixOf (rest.map Char.toLower)) = true
        ↔ _
      rw [List.isPrefixOf, Bool.and_true, beq_iff_eq]
      exact ⟨fun h => h.symm, fun h => h.symm⟩
    have hb : (("b".data).isPrefixOf (c.toLower :: rest.map Char.toLower)) = true
        ↔ c = 'b' ∨ c = 'B' := by
      rw [← toLower_eq_b]
      show (('b' == c.toLower) && ([] : List Char).isPrefixOf (rest.map Char.toLower)) = true
        ↔ _
      rw [List.isPrefixOf, Bool.and_true, beq_iff_eq]
      exact ⟨fun h => h.symm, fun h => h.symm⟩
    by_cases h1 : c = 'a' ∨ c = 'A'
    · rw [if_pos (ha.2 h1), if_pos h1]
    · have h1' : ¬ (("a".data).isPrefixOf (c.toLower :: rest.map Char.toLower)) = true :=
        fun h => h1 (ha.1 h)
      rw [if_neg h1', if_neg h1]
      by_cases h2 : c = 'b' ∨ c = 'B'
      · rw [if_pos (hb.2 h2), if_pos h2]
      · have h2' : ¬ (("b".data).isPrefixOf (c.toLower :: rest.map Char.toLower)) = true :=
          fun h => h2 (hb.1 h)
        rw [if_neg h2', if_neg h2]

/-! ### Segments of a text -/

theorem flatMap_toList {α β : Type} (f : α → Option β) (l : List α) :
    l.flatMap (fun x => (f x).toList) = l.filterMap f := by
  induction l with
  | nil => rfl
  | cons a l ih =>
    rw [List.flatMap_cons, ih, List.filterMap_cons]
    cases f a <;> rfl

theorem segmentStep_eq (res : List Segment) (line : List Char) :
    segmentStep res line = res ++ (lineSegment line).toList := by
  unfold segmentStep lineSegment
  rw [matchLine_eq]
  cases parseLine line with
  | some m =>
    simp only [whoOf_eq]
    rfl
  | none =>
    simp only []
    by_cases h : jsTrim line = []
    · rw [h]
      simp
    · have hlen : (jsTrim line).length ≠ 0 := fun hl => h (List.length_eq_zero.1 hl)
      rw [if_pos hlen, if_pos h]
      rfl

theorem all_space_of_jsTrim_nil (line : List Char) (h : jsTrim line = []) :
    ∀ c ∈ line, isJsSpace c = true := by
  unfold jsTrim at h
  rw [List.reverse_eq_nil_iff] at h
  have hall := dropWhile_eq_nil_all isJsSpace _ h
  rw [List.all_eq_true] at hall
  have hD : line.dropWhile isJsSpace = [] := by
    cases hd : line.dropWhile isJsSpace with
    | nil => rfl
    | cons c rest =>
      have hc := dropWhile_head_not isJsSpace line c rest hd
      have := hall c (by rw [hd]; simp)
      rw [hc] at this
      exact absurd this (by decide)
  exact List.dropWhile_eq_nil_iff.1 hD

/-- C21, as amended: `stableSegmentFromText` produces, in line order, the segments
of the lines of the normalised text (cut at every LF, a CR before the LF
dropped).  A labelled line is a line with a colon whose part before the first
colon, without its leading white space, is not empty and has only white space
after its first 40 characters, and whose part after the first colon, without
its leading white space, is not empty and holds no line terminator (CR, U+2028,
U+2029); it gives the speaker of the trimmed label (A for `a`/`A`, B for
`b`/`B`, otherwise other) and that part after the colon as text.  Every other
non-blank line gives speaker other and the trimmed line, and a blank line gives
no segment.  (A part before the colon of white space only counts as the label
of its last character, a part after the colon of white space only as the
content of its last character unless that is a line terminator.) -/
theorem stableSegmentFromText_lines (toNFC : String → String) (text : String) :
    stableSegmentFromText toNFC text = (splitLines (toNFC text).data).filterMap lineSegment
    ∧ (∀ line, matchLine line = parseLine line)
    ∧ (∀ (l : Char) (ls ws : List Char) (x : Char) (xs : List Char),
        isJsSpace l = false → (∀ c ∈ l :: ls, c ≠ ':') → (l :: ls).length ≤ 40 →
        (∀ c ∈ ws, isJsSpace c = true) → isJsSpace x = false →
        (∀ c ∈ x :: xs, isLineTerminator c = false) →
        lineSegment ((l :: ls) ++ ':' :: (ws ++ x :: xs))
          = some { who := speakerOf (l :: ls), text := String.mk (x :: xs) })
    ∧ (∀ line, parseLine line = none → jsTrim line ≠ [] →
        lineSegment line = some { who := "other", text := String.mk (jsTrim line) })
    ∧ (∀ line, jsTrim line = [] → lineSegment line = none) := by
  refine ⟨?_, matchLine_eq, ?_, ?_, ?_⟩
  · unfold stableSegmentFromText
    have hstep : segmentStep = (fun res line => res ++ (lineSegment line).toList) := by
      funext res line
      exact segmentStep_eq res line
    rw [hstep, foldl_append_flatMap, List.nil_append, flatMap_toList]
  · intro l ls ws x xs hl hcolon hlen hws hx hterm
    have htake : ((l :: ls) ++ ':' :: (ws ++ x :: xs)).takeWhile (fun c => c ≠ ':') = l :: ls := by
      rw [List.takeWhile_append_of_pos (by simpa using hcolon)]
      simp [List.takeWhile_cons]
    have hdrop : ((l :: ls) ++ ':' :: (ws ++ x :: xs)).dropWhile (fun c => c ≠ ':')
        = ':' :: (ws ++ x :: xs) := by
      rw [List.dropWhile_append_of_pos (by simpa using hcolon)]
      simp [List.dropWhile_cons]
    have hlabel : labelOf (l :: ls) = some (l :: ls) := by
      unfold labelOf
      rw [List.dropWhile_cons, if_neg (by simp [hl])]
      simp only []
      have h40 : (l :: ls).drop 40 = [] := List.drop_eq_nil_iff.2 hlen
      rw [h40, List.take_of_length_le hlen]
      rfl
    have hcontent : contentOf (ws ++ x :: xs) = some (x :: xs) := by
      unfold contentOf
      rw [List.dropWhile_append_of_pos hws, List.dropWhile_cons, if_neg (by simp [hx])]
      simp only []
      rw [if_pos]
      rw [List.all_eq_true]
      intro c hc
      simp [hterm c hc]
    unfold lineSegment parseLine
    rw [hdrop, htake]
    simp only [hlabel, hcontent]
  · intro line hparse hne
    unfold lineSegment
    rw [hparse]
    simp only []
    rw [if_pos hne]
  · intro line hblank
    have hall := all_space_of_jsTrim_nil line hblank
    have hparse : parseLine line = none := by
      unfold parseLine
      have : line.dropWhile (fun c => c ≠ ':') = [] := by
        rw [List.dropWhile_eq_nil_iff]
        intro c hc
        have hsp := hall c hc
        have : c ≠ ':' := by
          intro h
          rw [h] at hsp
          exact absurd hsp (by decide)
        simpa using this
      rw [this]
    unfold lineSegment
    rw [hparse]
    simp only []
    rw [if_neg (fun h => h hblank)]

/-- C21, witness: a text of five lines, one of them blank and one without label. -/
theorem stableSegmentFromText_lines_witness :
    stableSegmentFromText id "Anna: hi\r\nbob : yo \n\nplain words\nCarl:x"
      = [⟨"A", "hi"⟩, ⟨"B", "yo "⟩, ⟨"other", "plain words"⟩, ⟨"other", "x"⟩] :=
  ((stableSegmentFromText_lines id "Anna: hi\r\nbob : yo \n\nplain words\nCarl:x").1).trans
    (by decide)

/-- C21, counterexample: the line `A: x<CR>y` has the label `A` (one character)
before its first colon and the content `x<CR>y`, so the claim gives it the
speaker A; `stableSegmentFromText` gives it the speaker other and the whole line
as text, because `.` does not match the carriage return. -/
theorem stableSegmentFromText_line_terminator :
    splitLines "A: x\ry".data = ["A: x\ry".data]
    ∧ claimedLineSegment "A: x\ry".data = some ⟨"A", "x\ry"⟩
    ∧ stableSegmentFromText id "A: x\ry" = [⟨"other", "A: x\ry"⟩]
    ∧ stableSegmentFromText id "A: x\ry"
        ≠ (splitLines "A: x\ry".data).filterMap claimedLineSegment := by
  decide

/-! ### Determinism of a run -/

/-- The value of the weights that `modeAdjustments` returns depends on the mode
configuration, the mode and the value of the base weights only, not on the heap
they live in. -/
theorem modeAdjustments_value (modes : Option (JsMap String ModeConf)) (mode : Option String)
    (W : Weights) :
    ∃ W' : Weights, ∀ (H : WHeap) (weights : WeightsRef), readWeights H weights = some W →
      ∃ H' clone, modeAdjustments modes mode H weights = .ok (H', clone)
        ∧ readWeights H' clone = some W' := by
  cases hconf : modes.bind (fun m => m.get (toLowerCase (strOr mode "dialog"))) with
  | some conf =>
    refine ⟨_, fun H weights hW => ⟨_, _,
      modeAdjustments_configured modes mode H weights W conf hW hconf,
      readWeights_fresh H _ _ _ _ _ _ _⟩⟩
  | none =>
    by_cases h1 : toLowerCase (strOr mode "dialog") = "dialog"
    · exact ⟨_, fun H weights hW => ⟨_, _,
        by rw [modeAdjustments_builtin modes mode H weights W hW hconf, if_pos h1],
        readWeights_fresh H _ _ _ _ _ _ _⟩⟩
    · by_cases h2 : toLowerCase (strOr mode "dialog") = "single"
          ∨ toLowerCase (strOr mode "dialog") = "coach"
      · exact ⟨_, fun H weights hW => ⟨_, _,
          by rw [modeAdjustments_builtin modes mode H weights W hW hconf, if_neg h1, if_pos h2],
          readWeights_fresh H _ _ _ _ _ _ _⟩⟩
      · by_cases h3 : toLowerCase (strOr mode "dialog") = "learn"
        · exact ⟨_, fun H weights hW => ⟨_, _,
            by rw [modeAdjustments_builtin modes mode H weights W hW hconf, if_neg h1,
              if_neg h2, if_pos h3],
            readWeights_fresh H _ _ _ _ _ _ _⟩⟩
        · by_cases h4 : toLowerCase (strOr mode "dialog") = "free"
          · exact ⟨_, fun H weights hW => ⟨_, _,
              by rw [modeAdjustments_builtin modes mode H weights W hW hconf, if_neg h1,
                if_neg h2, if_neg h3, if_pos h4],
              readWeights_fresh H _ _ _ _ _ _ _⟩⟩
          · exact ⟨_, fun H weights hW => ⟨_, _,
              by rw [modeAdjustments_builtin modes mode H weights W hW hconf, if_neg h1,
                if_neg h2, if_neg h3, if_neg h4],
              readWeights_fresh H _ _ _ _ _ _ _⟩⟩

/-- C28: for fixed input, catalog, promotion mapping, mode configuration, mode and
value of the base weights, two runs of the pipeline produce the same outcome but
for `meta.elapsed_ms`: both fail with the same error, or both return, with
identical segments, markers, promotion, counts, density, features, indices and
gated.  The two runs may read different clocks and find the base weights at
different places of different heaps. -/
theorem run_deterministic (E : RegexEngine) (M : JsMath) (toNFC : String → String)
    (fuel : Nat) (modes : Option (JsMap String ModeConf)) (canon : Canon)
    (promoMap : Option PromoMap) (optionsMode : Option String) (input : RunInput)
    (W : Weights) (H1 H2 : WHeap) (weights1 weights2 : WeightsRef) (t0 t1 t0' t1' : Int)
    (h1 : readWeights H1 weights1 = some W) (h2 : readWeights H2 weights2 = some W) :
    TimedOutput.untimed
        (runTimed E M toNFC fuel modes canon promoMap H1 weights1 optionsMode input t0 t1)
      = TimedOutput.untimed
        (runTimed E M toNFC fuel modes canon promoMap H2 weights2 optionsMode input t0' t1') := by
  obtain ⟨W', hW'⟩ := modeAdjustments_value modes (some (strOr optionsMode "dialog")) W
  obtain ⟨H1', clone1, hm1, hr1⟩ := hW' H1 weights1 h1
  obtain ⟨H2', clone2, hm2, hr2⟩ := hW' H2 weights2 h2
  unfold runTimed
  simp only [hm1, hm2, hr1, hr2]
  cases run E M fuel canon W' promoMap (toSegments toNFC
      { text := input.text.map toNFC,
        segments := input.segments.map (fun segs =>
          segs.map (fun s => { who := s.who, text := toNFC s.text })) }) with
  | error e => rfl
  | ok out => rfl

/-- C28, witness: two runs on the text `a: ab` with the sample catalog in mode
`free`, one with the base weights at the start of a heap and the clock readings
0 and 5, one with the base weights behind other objects and the clock readings
100 and 250. -/
theorem run_deterministic_witness :
    readWeights oneHeap oneRef = some oneWeights
    ∧ readWeights laterHeap laterRef = some oneWeights
    ∧ TimedOutput.untimed
        (runTimed literalEngine sampleMath id 10 none sampleCanon none oneHeap oneRef
          (some "free") ⟨some "a: ab", none⟩ 0 5)
      = TimedOutput.untimed
        (runTimed literalEngine sampleMath id 10 none sampleCanon none laterHeap laterRef
          (some "free") ⟨some "a: ab", none⟩ 100 250) :=
  ⟨oneHeap_reads, readWeights_clone oneHeap oneWeights,
    run_deterministic literalEngine sampleMath id 10 none sampleCanon none (some "free")
      ⟨some "a: ab", none⟩ oneWeights oneHeap laterHeap oneRef laterRef 0 5 100 250
      oneHeap_reads (readWeights_clone oneHeap oneWeights)⟩

/-! ### States of the output events -/

theorem confirmCheck_not_decayed (cw : JsNum) (st : FamState) (confirmed : Nat) :
    (confirmCheck cw st confirmed).1.state ≠ .decayed := by
  unfold confirmCheck
  split
  · intro h
    cases h
  · split
    · intro h
      cases h
    · assumption

theorem occurrence_not_decayed (opts : Option IntuitionOpts) (stored : Option FamState)
    (segIdx : Nat) : (occurrence opts stored segIdx).1.state ≠ .decayed :=
  confirmCheck_not_decayed _ _ _

theorem state_name_of_not_decayed (s : IntuitionState) (h : s ≠ .decayed) :
    s.name = "provisional" ∨ s.name = "confirmed" := by
  cases s
  · exact Or.inl rfl
  · exact Or.inr rfl
  · exact absurd rfl h

theorem familyOf_annotateEvent (opts : Option IntuitionOpts) (ev : CluEvent)
    (state : IntuitionState) (fam : String) :
    familyOf opts (annotateEvent ev state fam).id = familyOf opts ev.id := rfl

/-- Every event pushed by the loop is either an event without family, pushed as
it is, or the annotated copy of an event with a family, whose state is the state
of the family after the occurrence. -/
theorem foldl_intuitionStep_augmented (opts : Option IntuitionOpts) (evs : List CluEvent)
    (L : IntuitionLoop) :
    ∀ e ∈ (evs.foldl (intuitionStep opts) L).augmented,
      e ∈ L.augmented
      ∨ (e ∈ evs ∧ familyOf opts e.id = none)
      ∨ ∃ ev ∈ evs, ∃ fam st, familyOf opts ev.id = some fam ∧ st ≠ IntuitionState.decayed
          ∧ e = annotateEvent ev st fam := by
  induction evs generalizing L with
  | nil =>
    intro e he
    exact Or.inl he
  | cons ev evs ih =>
    intro e he
    rw [List.foldl_cons] at he
    rcases ih _ e he with h | h | h
    · cases hfam : familyOf opts ev.id with
      | none =>
        rw [intuitionStep_unmapped opts L ev hfam] at h
        rcases List.mem_append.1 h with h | h
        · exact Or.inl h
        · rw [List.mem_singleton] at h
          subst h
          exact Or.inr (Or.inl ⟨List.mem_cons_self _ _, hfam⟩)
      | some fam =>
        rw [intuitionStep_mapped opts L ev fam hfam] at h
        rcases List.mem_append.1 h with h | h
        · exact Or.inl h
        · rw [List.mem_singleton] at h
          exact Or.inr (Or.inr ⟨ev, List.mem_cons_self _ _, fam, _, hfam,
            occurrence_not_decayed opts _ _, h⟩)
    · exact Or.inr (Or.inl ⟨List.mem_cons_of_mem _ h.1, h.2⟩)
    · obtain ⟨ev', hev', fam, st, h1, h2, h3⟩ := h
      exact Or.inr (Or.inr ⟨ev', List.mem_cons_of_mem _ hev', fam, st, h1, h2, h3⟩)

theorem processIntuitionClu_events (opts : Option IntuitionOpts) (events : List CluEvent) :
    ∀ e ∈ (processIntuitionClu events opts).events,
      (e ∈ events ∧ familyOf opts e.id = none)
      ∨ ∃ ev ∈ events, ∃ fam st, familyOf opts ev.id = some fam ∧ st ≠ IntuitionState.decayed
          ∧ e = annotateEvent ev st fam := by
  intro e he
  have he' : e ∈ ((arraySort cluCompare events).foldl (intuitionStep opts)
      intuitionInit).augmented := he
  rcases foldl_intuitionStep_augmented opts _ _ e he' with h | h | h
  · exact absurd h (List.not_mem_nil _)
  · exact Or.inl ⟨(arraySort_perm cluCompare events).mem_iff.1 h.1, h.2⟩
  · obtain ⟨ev, hev, fam, st, h1, h2, h3⟩ := h
    exact Or.inr ⟨ev, (arraySort_perm cluCompare events).mem_iff.1 hev, fam, st, h1, h2, h3⟩

/-- C32, as amended: every event returned by `processIntuitionClu` that has a
family is annotated provisional or confirmed, never decayed, because the state
of a family after an occurrence is never decayed; an event without a family is
an input event returned as it came in.  So a returned event that carries
`meta.intuition_state = 'decayed'` is an input event without family that
carried it already. -/
theorem mapped_events_never_decayed (events : List CluEvent) (opts : Option IntuitionOpts)
    (e : CluEvent) (he : e ∈ (processIntuitionClu events opts).events) :
    (∀ fam, familyOf opts e.id = some fam →
        (intuitionStateOf e = some "provisional" ∨ intuitionStateOf e = some "confirmed")
        ∧ intuitionStateOf e ≠ some "decayed")
    ∧ (familyOf opts e.id = none → e ∈ events)
    ∧ (intuitionStateOf e = some "decayed" → familyOf opts e.id = none ∧ e ∈ events)
    ∧ (∀ (stored : Option FamState) (segIdx : Nat),
        (occurrence opts stored segIdx).1.state ≠ .decayed) := by
  have hmapped : ∀ fam, familyOf opts e.id = some fam →
      (intuitionStateOf e = some "provisional" ∨ intuitionStateOf e = some "confirmed") := by
    intro fam hfam
    rcases processIntuitionClu_events opts events e he with h | h
    · rw [h.2] at hfam
      cases hfam
    · obtain ⟨ev, _, fam', st, _, h2, h3⟩ := h
      rw [h3, intuitionStateOf_annotateEvent]
      rcases state_name_of_not_decayed st h2 with h | h
      · exact Or.inl (by rw [h])
      · exact Or.inr (by rw [h])
  have hnot : ∀ fam, familyOf opts e.id = some fam → intuitionStateOf e ≠ some "decayed" := by
    intro fam hfam hd
    rcases hmapped fam hfam with h | h
    · rw [h] at hd
      exact absurd hd (by decide)
    · rw [h] at hd
      exact absurd hd (by decide)
  have hun : familyOf opts e.id = none → e ∈ events := by
    intro hfam
    rcases processIntuitionClu_events opts events e he with h | h
    · exact h.1
    · obtain ⟨ev, _, fam', st, h1, _, h3⟩ := h
      rw [h3, familyOf_annotateEvent, h1] at hfam
      cases hfam
  refine ⟨fun fam hfam => ⟨hmapped fam hfam, hnot fam hfam⟩, hun, ?_,
    fun stored segIdx => occurrence_not_decayed opts stored segIdx⟩
  intro hd
  cases hfam : familyOf opts e.id with
  | none => exact ⟨rfl, hun hfam⟩
  | some fam => exact absurd hd (hnot fam hfam)

/-- C32, witness: family F occurs in segments 0 and 10 (`confirm_window = 2`,
`decay_window = 4`); the second occurrence triggers decay, and the event returned
for it is annotated provisional. -/
theorem mapped_events_never_decayed_witness :
    annotateEvent (mkCluEvent "CLU_F" 10 0) .provisional "F"
        ∈ (processIntuitionClu [mkCluEvent "CLU_F" 0 0, mkCluEvent "CLU_F" 10 0]
            (some (familyOpts 2 4))).events
    ∧ decayTriggers (some (familyOpts 2 4)) { lastSeg := 0, streak := 1, state := .provisional }
        10 = true
    ∧ familyOf (some (familyOpts 2 4))
        (annotateEvent (mkCluEvent "CLU_F" 10 0) .provisional "F").id = some "F"
    ∧ (intuitionStateOf (annotateEvent (mkCluEvent "CLU_F" 10 0) .provisional "F")
          = some "provisional"
        ∨ intuitionStateOf (annotateEvent (mkCluEvent "CLU_F" 10 0) .provisional "F")
          = some "confirmed") :=
  ⟨by decide, by decide, by decide,
    ((mapped_events_never_decayed [mkCluEvent "CLU_F" 0 0, mkCluEvent "CLU_F" 10 0]
      (some (familyOpts 2 4)) (annotateEvent (mkCluEvent "CLU_F" 10 0) .provisional "F")
      (by decide)).1 "F" (by decide)).1⟩

/-- C32, counterexample: an input event whose marker has no family and whose
`meta.intuition_state` is already `decayed` is pushed to the result unchanged, so
`processIntuitionClu` returns an event carrying `meta.intuition_state = 'decayed'`
(next to it, the event of family F is annotated provisional). -/
theorem unmapped_event_keeps_decayed :
    familyOf (some (familyOpts 2 4)) (taggedCluEvent "CLU_G" 0 "decayed").id = none
    ∧ (processIntuitionClu [taggedCluEvent "CLU_G" 0 "decayed", mkCluEvent "CLU_F" 1 0]
          (some (familyOpts 2 4))).events.map (fun e => (e.id, intuitionStateOf e))
        = [("CLU_G", some "decayed"), ("CLU_F", some "provisional")]
    ∧ taggedCluEvent "CLU_G" 0 "decayed"
        ∈ (processIntuitionClu [taggedCluEvent "CLU_G" 0 "decayed", mkCluEvent "CLU_F" 1 0]
            (some (familyOpts 2 4))).events := by
  decide

/-! ### Confirmations, retractions and confirmed families -/

theorem occurrence_balance (opts : Option IntuitionOpts) (stored : Option FamState)
    (segIdx : Nat) :
    confirmedFlag (some (occurrence opts stored segIdx).1) + (occurrence opts stored segIdx).2.2
      = confirmedFlag stored + (occurrence opts stored segIdx).2.1 := by
  cases stored with
  | none =>
    simp only [occurrence, decayCheck, updateStreak, confirmCheck, confirmedFlag, Option.getD_none]
    split_ifs <;> simp_all
  | some st =>
    simp only [occurrence, decayCheck, updateStreak, confirmCheck, confirmedFlag, Option.getD_some]
    split_ifs <;> simp_all

theorem occurrence_confirmations_le (opts : Option IntuitionOpts) (stored : Option FamState)
    (segIdx : Nat) : (occurrence opts stored segIdx).2.1 ≤ 1 := by
  simp only [occurrence, confirmCheck]
  split_ifs <;> simp

theorem occurrence_retractions_le (opts : Option IntuitionOpts) (stored : Option FamState)
    (segIdx : Nat) : (occurrence opts stored segIdx).2.2 ≤ confirmedFlag stored := by
  cases stored with
  | none =>
    simp only [occurrence, decayCheck, confirmedFlag, Option.getD_none]
    split_ifs <;> simp_all
  | some st =>
    simp only [occurrence, decayCheck, confirmedFlag, Option.getD_some]
    split_ifs <;> simp_all

theorem confirmedFlag_le (stored : Option FamState) : confirmedFlag stored ≤ 1 := by
  cases stored with
  | none => exact Nat.zero_le _
  | some st =>
    simp only [confirmedFlag]
    split_ifs <;> simp

theorem confirmedCount_set (m : JsMap String FamState) (k : String) (v : FamState) :
    confirmedCount (m.set k v) + confirmedFlag (m.get k)
      = confirmedCount m + confirmedFlag (some v) := by
  induction m with
  | nil =>
    simp only [JsMap.set, JsMap.get, confirmedCount, confirmedFlag, List.filter_cons,
      List.filter_nil]
    split_ifs <;> simp_all
  | cons kv rest ih =>
    obtain ⟨a, b⟩ := kv
    by_cases h : a = k
    · simp only [JsMap.set, JsMap.get, h, if_true, confirmedCount, confirmedFlag,
        List.filter_cons]
      split_ifs <;> simp_all
    · simp only [JsMap.set, JsMap.get, h, if_false, confirmedCount, List.filter_cons] at ih ⊢
      split_ifs <;> simp_all
      omega

theorem JsMap.keys_set {β : Type} (m : JsMap String β) (k : String) (v : β) :
    (m.set k v).map (fun kv => kv.1)
      = if k ∈ m.map (fun kv => kv.1) then m.map (fun kv => kv.1)
        else m.map (fun kv => kv.1) ++ [k] := by
  induction m with
  | nil => simp [JsMap.set]
  | cons kv rest ih =>
    obtain ⟨a, b⟩ := kv
    by_cases h : a = k
    · simp [JsMap.set, h]
    · have h2 : ¬ k = a := fun e => h e.symm
      simp only [JsMap.set, h, if_false, List.map_cons, ih, List.mem_cons, h2, false_or]
      split_ifs <;> simp

theorem JsMap.nodup_keys_set {β : Type} (m : JsMap String β) (k : String) (v : β)
    (h : (m.map (fun kv => kv.1)).Nodup) : ((m.set k v).map (fun kv => kv.1)).Nodup := by
  rw [JsMap.keys_set]
  split_ifs with hk
  · exact h
  · exact List.Nodup.append h (List.nodup_singleton k) (by simpa using hk)

theorem JsMap.mem_keys_set {β : Type} (m : JsMap String β) (k : String) (v : β) (F : String) :
    F ∈ (m.set k v).map (fun kv => kv.1) ↔ F = k ∨ F ∈ m.map (fun kv => kv.1) := by
  rw [JsMap.keys_set]
  split_ifs with hk
  · constructor
    · exact Or.inr
    · rintro (h | h)
      · rw [h]
        exact hk
      · exact h
  · rw [List.mem_append, List.mem_singleton]
    exact Or.comm

/-- The loop keeps the balance: the confirmed entries of `famState` plus the
retractions are the confirmations. -/
theorem intuitionStep_balance (opts : Option IntuitionOpts) (L : IntuitionLoop) (ev : CluEvent)
    (h : confirmedCount L.famState + L.retracted = L.confirmed) :
    confirmedCount (intuitionStep opts L ev).famState + (intuitionStep opts L ev).retracted
      = (intuitionStep opts L ev).confirmed := by
  cases hfam : familyOf opts ev.id with
  | none =>
    rw [intuitionStep_unmapped opts L ev hfam]
    exact h
  | some fam =>
    rw [intuitionStep_mapped opts L ev fam hfam]
    have h1 := confirmedCount_set L.famState fam
      (occurrence opts (L.famState.get fam) ev.segment_idx).1
    have h2 := occurrence_balance opts (L.famState.get fam) ev.segment_idx
    show confirmedCount (L.famState.set fam _) + (L.retracted + _) = L.confirmed + _
    omega

theorem foldl_intuitionStep_balance (opts : Option IntuitionOpts) (evs : List CluEvent)
    (L : IntuitionLoop) (h : confirmedCount L.famState + L.retracted = L.confirmed) :
    confirmedCount (evs.foldl (intuitionStep opts) L).famState
        + (evs.foldl (intuitionStep opts) L).retracted
      = (evs.foldl (intuitionStep opts) L).confirmed := by
  induction evs generalizing L with
  | nil => exact h
  | cons ev evs ih => exact ih _ (intuitionStep_balance opts L ev h)

theorem foldl_intuitionStep_keys (opts : Option IntuitionOpts) (evs : List CluEvent)
    (L : IntuitionLoop) (h : (L.famState.map (fun kv => kv.1)).Nodup) :
    ((evs.foldl (intuitionStep opts) L).famState.map (fun kv => kv.1)).Nodup
    ∧ ∀ F, F ∈ (evs.foldl (intuitionStep opts) L).famState.map (fun kv => kv.1)
        ↔ F ∈ L.famState.map (fun kv => kv.1) ∨ ∃ e ∈ evs, familyOf opts e.id = some F := by
  induction evs generalizing L with
  | nil => exact ⟨h, fun F => by simp⟩
  | cons ev evs ih =>
    rw [List.foldl_cons]
    cases hfam : familyOf opts ev.id with
    | none =>
      have hstep : (intuitionStep opts L ev).famState = L.famState := by
        rw [intuitionStep_unmapped opts L ev hfam]
      obtain ⟨h1, h2⟩ := ih (intuitionStep opts L ev) (by rw [hstep]; exact h)
      refine ⟨h1, fun F => ?_⟩
      rw [h2 F, hstep]
      constructor
      · rintro (hF | ⟨e, he, hF⟩)
        · exact Or.inl hF
        · exact Or.inr ⟨e, List.mem_cons_of_mem _ he, hF⟩
      · rintro (hF | ⟨e, he, hF⟩)
        · exact Or.inl hF
        · rcases List.mem_cons.1 he with he | he
          · rw [he, hfam] at hF
            cases hF
          · exact Or.inr ⟨e, he, hF⟩
    | some fam =>
      have hstep : (intuitionStep opts L ev).famState
          = L.famState.set fam (occurrence opts (L.famState.get fam) ev.segment_idx).1 := by
        rw [intuitionStep_mapped opts L ev fam hfam]
      obtain ⟨h1, h2⟩ := ih (intuitionStep opts L ev)
        (by rw [hstep]; exact JsMap.nodup_keys_set _ _ _ h)
      refine ⟨h1, fun F => ?_⟩
      rw [h2 F, hstep, JsMap.mem_keys_set]
      constructor
      · rintro ((hF | hF) | ⟨e, he, hF⟩)
        · exact Or.inr ⟨ev, List.mem_cons_self _ _, by rw [hfam, hF]⟩
        · exact Or.inl hF
        · exact Or.inr ⟨e, List.mem_cons_of_mem _ he, hF⟩
      · rintro (hF | ⟨e, he, hF⟩)
        · exact Or.inl (Or.inr hF)
        · rcases List.mem_cons.1 he with he | he
          · rw [he, hfam] at hF
            injection hF with hF
            exact Or.inl (Or.inl hF.symm)
          · exact Or.inr ⟨e, he, hF⟩

theorem JsMap.get_cons_of_ne {β : Type} (a : String) (b : β) (rest : JsMap String β)
    (F : String) (h : F ≠ a) : JsMap.get ((a, b) :: rest) F = JsMap.get rest F := by
  have h2 : ¬ a = F := fun e => h e.symm
  simp only [JsMap.get, h2, if_false]

/-- With distinct keys, counting the families whose stored state is confirmed is
counting the confirmed entries. -/
theorem confirmedCount_eq_families (m : JsMap String FamState)
    (h : (m.map (fun kv => kv.1)).Nodup) :
    ((m.map (fun kv => kv.1)).filter
        (fun F => decide ((m.get F).map (fun st => st.state) = some .confirmed))).length
      = confirmedCount m := by
  induction m with
  | nil => rfl
  | cons kv rest ih =>
    obtain ⟨a, b⟩ := kv
    rw [List.map_cons, List.nodup_cons] at h
    have htail : (rest.map (fun kv => kv.1)).filter
        (fun F => decide ((JsMap.get ((a, b) :: rest) F).map (fun st => st.state)
          = some .confirmed))
        = (rest.map (fun kv => kv.1)).filter
          (fun F => decide ((JsMap.get rest F).map (fun st => st.state) = some .confirmed)) := by
      apply List.filter_congr
      intro F hF
      have hne : F ≠ a := fun e => h.1 (e ▸ hF)
      rw [JsMap.get_cons_of_ne a b rest F hne]
    have hhead : JsMap.get ((a, b) :: rest) a = some b := by simp [JsMap.get]
    simp only [List.map_cons, List.filter_cons, hhead, Option.map_some', confirmedCount, htail]
    have ih' := ih h.2
    simp only [confirmedCount] at ih'
    by_cases hb : b.state = .confirmed
    · simpa [hb] using ih'
    · simpa [hb] using ih'

theorem intuitionStep_get_other (opts : Option IntuitionOpts) (L : IntuitionLoop) (ev : CluEvent)
    (F : String) (h : familyOf opts ev.id ≠ some F) :
    (intuitionStep opts L ev).famState.get F = L.famState.get F := by
  cases hfam : familyOf opts ev.id with
  | none => rw [intuitionStep_unmapped opts L ev hfam]
  | some fam =>
    rw [intuitionStep_mapped opts L ev fam hfam]
    have hne : ¬ F = fam := fun e => h (by rw [hfam, e])
    show (L.famState.set fam _).get F = _
    rw [JsMap.get_set, if_neg hne]

/-- An occurrence retracts only a family whose stored state is confirmed. -/
theorem retractsAt_stored (opts : Option IntuitionOpts) (F : String) (L : IntuitionLoop)
    (ev : CluEvent) (h : RetractsAt opts F L ev) : confirmedFlag (L.famState.get F) = 1 := by
  obtain ⟨hfam, hr⟩ := h
  rw [intuitionStep_mapped opts L ev F hfam] at hr
  have hr' : L.retracted + (occurrence opts (L.famState.get F) ev.segment_idx).2.2
      = L.retracted + 1 := hr
  have h1 := occurrence_retractions_le opts (L.famState.get F) ev.segment_idx
  have h2 := confirmedFlag_le (L.famState.get F)
  omega

/-- An occurrence that leaves its family confirmed, entered with the family not
confirmed or retracting it, executes `confirmed++`. -/
theorem confirmsAt_of_step (opts : Option IntuitionOpts) (F : String) (L : IntuitionLoop)
    (ev : CluEvent) (hfam : familyOf opts ev.id = some F)
    (hafter : confirmedFlag ((intuitionStep opts L ev).famState.get F) = 1)
    (hbefore : confirmedFlag (L.famState.get F) = 0
      ∨ (intuitionStep opts L ev).retracted = L.retracted + 1) :
    ConfirmsAt opts F L ev := by
  refine ⟨hfam, ?_⟩
  rw [intuitionStep_famState opts L ev F hfam] at hafter
  have hbal := occurrence_balance opts (L.famState.get F) ev.segment_idx
  have hc := occurrence_confirmations_le opts (L.famState.get F) ev.segment_idx
  have hf := confirmedFlag_le (L.famState.get F)
  have hr : (intuitionStep opts L ev).retracted
      = L.retracted + (occurrence opts (L.famState.get F) ev.segment_idx).2.2 := by
    rw [intuitionStep_mapped opts L ev F hfam]
  have hcf : (intuitionStep opts L ev).confirmed
      = L.confirmed + (occurrence opts (L.famState.get F) ev.segment_idx).2.1 := by
    rw [intuitionStep_mapped opts L ev F hfam]
  rw [hcf]
  rcases hbefore with h | h
  · omega
  · rw [hr] at h
    omega

/-- A family that is not confirmed before a run of iterations and confirmed after
it has an occurrence in the run that executes `confirmed++`. -/
theorem foldl_enters_confirmed (opts : Option IntuitionOpts) (F : String) (mid : List CluEvent)
    (L : IntuitionLoop) (h0 : confirmedFlag (L.famState.get F) = 0)
    (h1 : confirmedFlag ((mid.foldl (intuitionStep opts) L).famState.get F) = 1) :
    ∃ a e b, mid = a ++ e :: b ∧ ConfirmsAt opts F (a.foldl (intuitionStep opts) L) e := by
  induction mid generalizing L with
  | nil =>
    rw [List.foldl_nil, h0] at h1
    exact absurd h1 (by decide)
  | cons ev mid ih =>
    rw [List.foldl_cons] at h1
    by_cases hflag : confirmedFlag ((intuitionStep opts L ev).famState.get F) = 1
    · by_cases hfam : familyOf opts ev.id = some F
      · exact ⟨[], ev, mid, rfl, confirmsAt_of_step opts F L ev hfam hflag (Or.inl h0)⟩
      · rw [intuitionStep_get_other opts L ev F hfam, h0] at hflag
        exact absurd hflag (by decide)
    · have hle := confirmedFlag_le ((intuitionStep opts L ev).famState.get F)
      obtain ⟨a, e, b, hsplit, hconf⟩ := ih (intuitionStep opts L ev) (by omega) h1
      exact ⟨ev :: a, e, b, by rw [hsplit]; rfl, hconf⟩

/-- C31: at the end of `processIntuitionClu` the difference `confirmed - retracted`
is the number of families whose final state is confirmed, for every event list
and options; so `retracted <= confirmed`.  The families are the keys of
`famState`, which are distinct and are the families of the events.  No family is
retracted twice without being confirmed again in between: when two iterations of
the loop (for `ev1` and later `ev2`) retract the same family, an iteration of
that family from the one for `ev1` on and before the one for `ev2` executes
`confirmed++` (the iteration for `ev1` itself does so after its retraction when
one occurrence reaches the confirm window). -/
theorem confirmed_minus_retracted (events : List CluEvent) (opts : Option IntuitionOpts) :
    (((processIntuitionClu events opts).telemetry.confirmed : Int)
        - ((processIntuitionClu events opts).telemetry.retracted : Int)
      = (((familiesSeen opts events).filter
          (fun F => decide (finalState opts events F = some .confirmed))).length : Int))
    ∧ (processIntuitionClu events opts).telemetry.retracted
        ≤ (processIntuitionClu events opts).telemetry.confirmed
    ∧ (familiesSeen opts events).Nodup
    ∧ (∀ F, F ∈ familiesSeen opts events ↔ ∃ e ∈ events, familyOf opts e.id = some F)
    ∧ (∀ (F : String) (pre mid post : List CluEvent) (ev1 ev2 : CluEvent),
        arraySort cluCompare events = pre ++ ev1 :: (mid ++ ev2 :: post) →
        RetractsAt opts F (loopAfter opts pre) ev1 →
        RetractsAt opts F (loopAfter opts (pre ++ ev1 :: mid)) ev2 →
        ∃ a e b, ev1 :: mid = a ++ e :: b ∧ ConfirmsAt opts F (loopAfter opts (pre ++ a)) e)
    ∧ intuitionLoop opts events = loopAfter opts (arraySort cluCompare events) := by
  have hbal := foldl_intuitionStep_balance opts (arraySort cluCompare events) intuitionInit rfl
  obtain ⟨hnodup, hkeys⟩ := foldl_intuitionStep_keys opts (arraySort cluCompare events)
    intuitionInit List.nodup_nil
  have hcount := confirmedCount_eq_families _ hnodup
  have hc : (processIntuitionClu events opts).telemetry.confirmed
      = ((arraySort cluCompare events).foldl (intuitionStep opts) intuitionInit).confirmed := rfl
  have hr : (processIntuitionClu events opts).telemetry.retracted
      = ((arraySort cluCompare events).foldl (intuitionStep opts) intuitionInit).retracted := rfl
  have hfin : ((familiesSeen opts events).filter
        (fun F => decide (finalState opts events F = some .confirmed))).length
      = confirmedCount
          ((arraySort cluCompare events).foldl (intuitionStep opts) intuitionInit).famState :=
    hcount
  refine ⟨?_, ?_, hnodup, ?_, ?_, rfl⟩
  · rw [hc, hr, hfin]
    omega
  · rw [hc, hr]
    omega
  · intro F
    have h := hkeys F
    constructor
    · intro hF
      rcases h.1 hF with h' | ⟨e, he, hfam⟩
      · exact absurd h' (List.not_mem_nil _)
      · exact ⟨e, (arraySort_perm cluCompare events).mem_iff.1 he, hfam⟩
    · rintro ⟨e, he, hfam⟩
      exact h.2 (Or.inr ⟨e, (arraySort_perm cluCompare events).mem_iff.2 he, hfam⟩)
  · intro F pre mid post ev1 ev2 _ h1 h2
    have hstored := retractsAt_stored opts F _ ev2 h2
    have hloop : loopAfter opts (pre ++ ev1 :: mid)
        = mid.foldl (intuitionStep opts) (intuitionStep opts (loopAfter opts pre) ev1) := by
      unfold loopAfter
      rw [List.foldl_append, List.foldl_cons]
    rw [hloop] at hstored
    by_cases hflag : confirmedFlag
        ((intuitionStep opts (loopAfter opts pre) ev1).famState.get F) = 1
    · refine ⟨[], ev1, mid, rfl, ?_⟩
      rw [List.append_nil]
      exact confirmsAt_of_step opts F _ ev1 h1.1 hflag (Or.inr h1.2)
    · have hle := confirmedFlag_le
        ((intuitionStep opts (loopAfter opts pre) ev1).famState.get F)
      obtain ⟨a, e, b, hsplit, hconf⟩ := foldl_enters_confirmed opts F mid
        (intuitionStep opts (loopAfter opts pre) ev1) (by omega) hstored
      refine ⟨ev1 :: a, e, b, by rw [hsplit]; rfl, ?_⟩
      have hloop2 : loopAfter opts (pre ++ ev1 :: a)
          = a.foldl (intuitionStep opts) (intuitionStep opts (loopAfter opts pre) ev1) := by
        unfold loopAfter
        rw [List.foldl_append, List.foldl_cons]
      rw [hloop2]
      exact hconf

/-- C31, witness: family F occurs in segments 0, 1, 10, 11 and 20
(`confirm_window = 2`, `decay_window = 4`).  The occurrences in segments 10 and 20
retract it, the occurrence in segment 11 confirms it again in between; at the end
`confirmed = 2`, `retracted = 2` and the family is provisional. -/
theorem confirmed_minus_retracted_witness :
    RetractsAt (some (familyOpts 2 4)) "F"
        (loopAfter (some (familyOpts 2 4)) [mkCluEvent "CLU_F" 0 0, mkCluEvent "CLU_F" 1 0])
        (mkCluEvent "CLU_F" 10 0)
    ∧ RetractsAt (some (familyOpts 2 4)) "F"
        (loopAfter (some (familyOpts 2 4))
          ([mkCluEvent "CLU_F" 0 0, mkCluEvent "CLU_F" 1 0]
            ++ mkCluEvent "CLU_F" 10 0 :: [mkCluEvent "CLU_F" 11 0]))
        (mkCluEvent "CLU_F" 20 0)
    ∧ (∃ a e b, mkCluEvent "CLU_F" 10 0 :: [mkCluEvent "CLU_F" 11 0] = a ++ e :: b
        ∧ ConfirmsAt (some (familyOpts 2 4)) "F"
            (loopAfter (some (familyOpts 2 4))
              ([mkCluEvent "CLU_F" 0 0, mkCluEvent "CLU_F" 1 0] ++ a)) e)
    ∧ (processIntuitionClu
          [mkCluEvent "CLU_F" 0 0, mkCluEvent "CLU_F" 1 0, mkCluEvent "CLU_F" 10 0,
            mkCluEvent "CLU_F" 11 0, mkCluEvent "CLU_F" 20 0]
          (some (familyOpts 2 4))).telemetry.confirmed = 2
    ∧ (processIntuitionClu
          [mkCluEvent "CLU_F" 0 0, mkCluEvent "CLU_F" 1 0, mkCluEvent "CLU_F" 10 0,
            mkCluEvent "CLU_F" 11 0, mkCluEvent "CLU_F" 20 0]
          (some (familyOpts 2 4))).telemetry.retracted = 2
    ∧ finalState (some (familyOpts 2 4))
          [mkCluEvent "CLU_F" 0 0, mkCluEvent "CLU_F" 1 0, mkCluEvent "CLU_F" 10 0,
            mkCluEvent "CLU_F" 11 0, mkCluEvent "CLU_F" 20 0] "F"
        = some .provisional :=
  ⟨by decide, by decide,
    (confirmed_minus_retracted
      [mkCluEvent "CLU_F" 0 0, mkCluEvent "CLU_F" 1 0, mkCluEvent "CLU_F" 10 0,
        mkCluEvent "CLU_F" 11 0, mkCluEvent "CLU_F" 20 0]
      (some (familyOpts 2 4))).2.2.2.2.1 "F"
      [mkCluEvent "CLU_F" 0 0, mkCluEvent "CLU_F" 1 0] [mkCluEvent "CLU_F" 11 0]
      [] (mkCluEvent "CLU_F" 10 0) (mkCluEvent "CLU_F" 20 0)
      (by decide) (by decide) (by decide),
    by decide, by decide, by decide⟩

/-! ### Segment indices of the markers of a run -/

theorem scanSpec_segment_idx (E : RegexEngine) (fuel : Nat) (segments : List Segment)
    (canon : Canon) : ∀ e ∈ scanSpec E fuel segments canon, e.segment_idx < segments.length := by
  intro e he
  unfold scanSpec List.enum at he
  rw [List.mem_flatMap] at he
  obtain ⟨p, hp, he⟩ := he
  rw [List.mem_flatMap] at he
  obtain ⟨mk, _, he⟩ := he
  rw [List.mem_map] at he
  obtain ⟨m, _, rfl⟩ := he
  obtain ⟨_, hlt, _⟩ := List.mem_enumFrom hp
  show p.1 < segments.length
  omega

theorem detect_all_segment_idx (E : RegexEngine) (fuel : Nat) (segments : List Segment)
    (canon : Canon) (detected : List Event)
    (h : detect_all E fuel segments canon = .ok detected) :
    ∀ e ∈ detected, e.segment_idx < segments.length := by
  obtain ⟨emitted, hem, hsort⟩ := detect_all_ok E fuel segments canon detected h
  intro e he
  rw [hsort] at he
  have he2 : e ∈ emitted := (arraySort_perm spanCompare emitted).mem_iff.1 he
  rw [detectScan_eq_scanSpec E fuel segments canon emitted hem] at he2
  exact scanSpec_segment_idx E fuel segments canon e he2

theorem applyPromotion_segment_idx (segments : List Segment) (detected : List Event)
    (canon : Canon) (promoMap : Option PromoMap) (promotions : List Promotion)
    (h : applyPromotion segments detected canon promoMap = .ok promotions) :
    ∀ p ∈ promotions, ∃ e ∈ detected, e.segment_idx = p.segment_idx := by
  intro p hp
  rw [applyPromotion_ok segments detected canon promoMap promotions h, List.mem_flatMap] at hp
  obtain ⟨k, hk, hp⟩ := hp
  rw [List.mem_flatMap] at hp
  obtain ⟨rule, _, hp⟩ := hp
  rw [promotionFor_segment k _ rule p hp]
  exact (mem_segmentKeys detected k).1 hk

theorem annotations_segment_idx (detected : List Event) (promotions : List Promotion)
    (canon : Canon) :
    ∀ a ∈ annotateClustersAndMemory detected promotions canon,
      ∃ p ∈ promotions, p.segment_idx = a.segment_idx := by
  intro a ha
  rw [annotateClustersAndMemory_eq] at ha
  unfold annotationSpec at ha
  rw [List.mem_flatMap] at ha
  obtain ⟨k, hk, ha⟩ := ha
  rw [List.mem_flatMap] at ha
  obtain ⟨r, _, ha⟩ := ha
  rw [List.mem_flatMap] at ha
  obtain ⟨semId, _, ha⟩ := ha
  unfold annotationsFor at ha
  split at ha
  · rw [List.mem_map] at ha
    obtain ⟨add, _, rfl⟩ := ha
    exact (mem_promoKeys promotions k).1 hk
  · exact absurd ha (List.not_mem_nil _)

/-- Every marker that `run` passes to `computeCounts` carries the index of a
segment. -/
theorem markers_segment_idx (E : RegexEngine) (fuel : Nat) (segments : List Segment)
    (canon : Canon) (promoMap : Option PromoMap) (detected : List Event)
    (promotions : List Promotion)
    (hdet : detect_all E fuel segments canon = .ok detected)
    (hpro : applyPromotion segments detected canon promoMap = .ok promotions) :
    ∀ m ∈ arrangeMarkersForOutput detected promotions
        (annotateClustersAndMemory detected promotions canon),
      m.segment_idx < segments.length := by
  have h1 := detect_all_segment_idx E fuel segments canon detected hdet
  have h2 : ∀ p ∈ promotions, p.segment_idx < segments.length := by
    intro p hp
    obtain ⟨e, he, heq⟩ := applyPromotion_segment_idx segments detected canon promoMap
      promotions hpro p hp
    rw [← heq]
    exact h1 e he
  intro m hm
  rw [arrangeMarkersForOutput_eq] at hm
  rcases List.mem_append.1 hm with hm | hm
  · rcases List.mem_append.1 hm with hm | hm
    · obtain ⟨d, hd, rfl⟩ := List.mem_map.1 hm
      exact h1 d hd
    · obtain ⟨p, hp, rfl⟩ := List.mem_map.1 hm
      exact h2 p hp
  · obtain ⟨a, ha, rfl⟩ := List.mem_map.1 hm
    obtain ⟨p, hp, heq⟩ := annotations_segment_idx detected promotions canon a ha
    show a.segment_idx < segments.length
    rw [← heq]
    exact h2 p hp

/-! ### Sums of the counters over the segments -/

theorem computeCounts_countsOf (segments : List Segment) (markersAll : List Marker)
    (hvalid : ∀ m ∈ markersAll, m.segment_idx < segments.length) :
    ∃ c, computeCounts segments markersAll = .ok c
      ∧ CountsOf segments.length markersAll c := by
  have hinit : CountsOf segments.length []
      { total := ⟨0, 0, 0, 0⟩, by_speaker := ⟨[], []⟩,
        by_segment := List.replicate segments.length [] } := by
    refine ⟨?_, ?_, ?_, ?_, ?_⟩
    · intro T
      cases T <;> rfl
    · intro t
      rfl
    · intro t
      rfl
    · exact List.length_replicate _ _
    · intro i bag hbag t
      have hmem : bag ∈ List.replicate segments.length ([] : Bag) := List.get?_mem hbag
      rw [List.eq_of_mem_replicate hmem]
      rfl
  obtain ⟨c, hc, hinv⟩ := countLoop_counts segments.length markersAll [] _ hinit hvalid
  rw [List.nil_append] at hinv
  exact ⟨c, hc, hinv⟩

theorem getD_counted (n : Nat) : (counted n).getD 0 = n := by
  unfold counted
  split_ifs with h
  · rw [h]
    rfl
  · rfl

theorem sum_map_eq_sum_range {α : Type} (l : List α) (f : α → Nat) (g : Nat → Nat)
    (h : ∀ i x, l.get? i = some x → f x = g i) :
    (l.map f).sum = ((List.range l.length).map g).sum := by
  induction l generalizing g with
  | nil => rfl
  | cons a l ih =>
    rw [List.length_cons, List.range_succ_eq_map, List.map_cons, List.map_cons, List.sum_cons,
      List.sum_cons, List.map_map, h 0 a rfl, ih (g ∘ Nat.succ) (fun i x hx => h (i + 1) x hx)]

theorem length_filter_cons (p : Marker → Bool) (m : Marker) (ms : List Marker) :
    ((m :: ms).filter p).length = (ms.filter p).length + (if p m = true then 1 else 0) := by
  rw [List.filter_cons]
  split_ifs <;> simp

theorem length_filter_segment_succ (ms : List Marker) (t : String) (n : Nat) :
    (ms.filter (fun m => m.segment_idx < n ∧ m.type = t)).length
        + (ms.filter (fun m => m.segment_idx = n ∧ m.type = t)).length
      = (ms.filter (fun m => m.segment_idx < n + 1 ∧ m.type = t)).length := by
  induction ms with
  | nil => rfl
  | cons m ms ih =>
    simp only [length_filter_cons, ← ih, decide_eq_true_eq]
    have hi : (if m.segment_idx < n ∧ m.type = t then 1 else 0)
        + (if m.segment_idx = n ∧ m.type = t then 1 else 0)
        = (if m.segment_idx < n + 1 ∧ m.type = t then 1 else 0) := by
      by_cases ht : m.type = t
      · simp only [ht, and_true]
        split_ifs <;> omega
      · simp only [ht, and_false, if_false]
    omega

theorem sum_range_filter_segment (ms : List Marker) (t : String) (n : Nat) :
    ((List.range n).map
        (fun i => (ms.filter (fun m => m.segment_idx = i ∧ m.type = t)).length)).sum
      = (ms.filter (fun m => m.segment_idx < n ∧ m.type = t)).length := by
  induction n with
  | zero =>
    have h : ms.filter (fun m => m.segment_idx < 0 ∧ m.type = t) = [] := by
      rw [List.filter_eq_nil_iff]
      intro m _
      simp
    rw [h]
    rfl
  | succ n ih =>
    rw [List.range_succ, List.map_append, List.sum_append, ih, List.map_singleton,
      List.sum_singleton, length_filter_segment_succ]

/-- For counters that hold the numbers of markers counted, the sum over the
segments of `by_segment[i][t]` is the number of markers of type `t`. -/
theorem segmentSum_eq (n : Nat) (ms : List Marker) (c : Counts) (h : CountsOf n ms c)
    (hvalid : ∀ m ∈ ms, m.segment_idx < n) (t : String) :
    segmentSum c t = (ms.filter (fun m => m.type = t)).length := by
  obtain ⟨_, _, _, hlen, hseg⟩ := h
  unfold segmentSum
  rw [sum_map_eq_sum_range c.by_segment (fun bag => bagCount bag t)
    (fun i => (ms.filter (fun m => m.segment_idx = i ∧ m.type = t)).length)
    (fun i bag hbag => by
      show (JsMap.get bag t).getD 0 = _
      rw [hseg i bag hbag t, getD_counted]),
    hlen, sum_range_filter_segment]
  congr 1
  apply List.filter_congr
  intro m hm
  have := hvalid m hm
  simp [this]

/-- C35: in the pipeline of `run`, once detection and promotion have returned,
every marker passed to `computeCounts` (the detected events, the promotions and
the annotations, arranged by `arrangeMarkersForOutput`) has a `segment_idx` below
the number of segments, so `by_segment[m.segment_idx]` is defined for each of
them, `computeCounts` returns its counters and `run` returns its output with
them; for each of the four types, the sum over the segments of
`by_segment[i][t]` (0 for an absent counter) is `total[t]`. -/
theorem run_counts_defined (E : RegexEngine) (M : JsMath) (fuel : Nat) (canon : Canon)
    (weights : Weights) (promoMap : Option PromoMap) (segments : List Segment)
    (detected : List Event) (promotions : List Promotion)
    (hdet : detect_all E fuel segments canon = .ok detected)
    (hpro : applyPromotion segments detected canon promoMap = .ok promotions) :
    (∀ m ∈ arrangeMarkersForOutput detected promotions
          (annotateClustersAndMemory detected promotions canon),
        m.segment_idx < segments.length)
    ∧ ∃ counts out,
        computeCounts segments (arrangeMarkersForOutput detected promotions
            (annotateClustersAndMemory detected promotions canon)) = .ok counts
        ∧ run E M fuel canon weights promoMap segments = .ok out
        ∧ out.counts = counts
        ∧ out.markers = arrangeMarkersForOutput detected promotions
            (annotateClustersAndMemory detected promotions canon)
        ∧ counts.by_segment.length = segments.length
        ∧ (∀ m ∈ out.markers, ∃ bag, counts.by_segment.get? m.segment_idx = some bag)
        ∧ (∀ T : MType, segmentSum counts T.name = counts.total.get T) := by
  have hvalid := markers_segment_idx E fuel segments canon promoMap detected promotions hdet hpro
  obtain ⟨counts, hc, hinv⟩ := computeCounts_countsOf segments _ hvalid
  have hrun : ∃ out, run E M fuel canon weights promoMap segments = .ok out
      ∧ out.counts = counts
      ∧ out.markers = arrangeMarkersForOutput detected promotions
          (annotateClustersAndMemory detected promotions canon) := by
    unfold run
    simp only [hdet, hpro, hc]
    exact ⟨_, rfl, rfl, rfl⟩
  obtain ⟨out, hout, hcounts, hmarkers⟩ := hrun
  refine ⟨hvalid, counts, out, hc, hout, hcounts, hmarkers, hinv.2.2.2.1, ?_, ?_⟩
  · intro m hm
    rw [hmarkers] at hm
    have hidx : m.segment_idx < counts.by_segment.length := by
      rw [hinv.2.2.2.1]
      exact hvalid m hm
    exact ⟨_, List.get?_eq_get hidx⟩
  · intro T
    rw [segmentSum_eq segments.length _ counts hinv hvalid T.name, hinv.1 T]

/-- C35, witness: the literal engine on the segments `ab` and `b` with a catalog
that promotes `SEM_AB` in segment 0 and annotates `CLU_Y` for it: five markers
(three detected, one promotion, one annotation), all in segments 0 and 1. -/
theorem run_counts_defined_witness :
    ∃ detected promotions,
      detect_all literalEngine 5 sampleSegments pipelineCanon = .ok detected
      ∧ applyPromotion sampleSegments detected pipelineCanon none = .ok promotions
      ∧ (arrangeMarkersForOutput detected promotions
          (annotateClustersAndMemory detected promotions pipelineCanon)).map
            (fun m => (m.id, m.segment_idx))
          = [("ATO_A", 0), ("ATO_B", 0), ("ATO_B", 1), ("SEM_AB", 0), ("CLU_Y", 0)]
      ∧ ∀ m ∈ arrangeMarkersForOutput detected promotions
            (annotateClustersAndMemory detected promotions pipelineCanon),
          m.segment_idx < sampleSegments.length :=
  ⟨_, _, rfl, rfl, by decide,
    (run_counts_defined literalEngine sampleMath 5 pipelineCanon (unitWeights none) none
      sampleSegments _ _ rfl rfl).1⟩

/-! ### Segment order of the detected events -/

theorem segmentOffset_succ (segments : List Segment) (i : Nat) (seg : Segment)
    (h : segments[i]? = some seg) :
    segmentOffset segments (i + 1) = segmentOffset segments i + (seg.text.length + 1) := by
  unfold segmentOffset
  rw [List.take_succ, h]
  simp

theorem segmentOffset_mono (segments : List Segment) (i j : Nat) (h : i ≤ j) :
    segmentOffset segments i ≤ segmentOffset segments j := by
  induction j with
  | zero =>
    have : i = 0 := by omega
    rw [this]
  | succ j ih =>
    by_cases hij : i = j + 1
    · rw [hij]
    · have h1 := ih (by omega)
      have h2 : segmentOffset segments j ≤ segmentOffset segments (j + 1) := by
        unfold segmentOffset
        rw [List.take_succ, List.map_append, List.sum_append]
        omega
      omega

/-- The text of a segment and the separator after it end before the offset of
every later segment. -/
theorem segmentOffset_lt (segments : List Segment) (i j : Nat) (seg : Segment)
    (h : segments[i]? = some seg) (hij : i < j) :
    segmentOffset segments i + seg.text.length + 1 ≤ segmentOffset segments j := by
  have h1 := segmentOffset_succ segments i seg h
  have h2 := segmentOffset_mono segments (i + 1) j hij
  omega

/-- Spans of events of different segments do not touch: the event of the earlier
segment ends before the event of the later segment starts. -/
theorem eventInSegment_apart (segments : List Segment) (a b : Event)
    (ha : EventInSegment segments a) (hb : EventInSegment segments b)
    (h : a.segment_idx < b.segment_idx) : a.span.stop < b.span.start := by
  obtain ⟨i, seg, hi, hai, _, _, _, hastop⟩ := ha
  obtain ⟨j, seg', _, hbj, _, hbstart, _, _⟩ := hb
  have := segmentOffset_lt segments i j seg hi (by omega)
  omega

theorem sorted_segment_idx (segments : List Segment) (l : List Event)
    (hin : ∀ e ∈ l, EventInSegment segments e) (hs : l.Sorted spanLe) :
    l.Pairwise (fun a b => a.segment_idx ≤ b.segment_idx) := by
  refine List.Pairwise.imp_of_mem ?_ hs
  intro a b ha hb hab
  by_contra hlt
  have hapart := eventInSegment_apart segments b a (hin b hb) (hin a ha) (by omega)
  obtain ⟨_, _, _, _, _, _, hbs, _⟩ := hin b hb
  unfold spanLe at hab
  omega

theorem foldl_pushNew_ascending (l : List Event) (ks : List Nat)
    (hks : ks.Pairwise (fun a b => a < b))
    (hle : ∀ k ∈ ks, ∀ e ∈ l, k ≤ e.segment_idx)
    (hl : l.Pairwise (fun a b => a.segment_idx ≤ b.segment_idx)) :
    (l.foldl (fun ks e => pushNew ks e.segment_idx) ks).Pairwise (fun a b => a < b) := by
  induction l generalizing ks with
  | nil => exact hks
  | cons e l ih =>
    rw [List.foldl_cons]
    rw [List.pairwise_cons] at hl
    unfold pushNew
    by_cases hc : ks.contains e.segment_idx = true
    · rw [if_pos hc]
      exact ih ks hks (fun k hk e' he' => hle k hk e' (List.mem_cons_of_mem _ he')) hl.2
    · rw [if_neg hc]
      have hnot : e.segment_idx ∉ ks := by
        intro hm
        exact hc (by simpa using hm)
      apply ih
      · rw [List.pairwise_append]
        refine ⟨hks, List.pairwise_singleton _ _, ?_⟩
        intro k hk x hx
        rw [List.mem_singleton] at hx
        subst hx
        have h1 := hle k hk e (List.mem_cons_self _ _)
        have h2 : k ≠ e.segment_idx := fun heq => hnot (heq ▸ hk)
        omega
      · intro k hk e' he'
        rcases List.mem_append.1 hk with hk | hk
        · exact hle k hk e' (List.mem_cons_of_mem _ he')
        · rw [List.mem_singleton] at hk
          rw [hk]
          exact hl.1 e' he'
      · exact hl.2

theorem segmentKeys_ascending (detected : List Event)
    (h : detected.Pairwise (fun a b => a.segment_idx ≤ b.segment_idx)) :
    (segmentKeys detected).Pairwise (fun a b => a < b) :=
  foldl_pushNew_ascending detected [] List.Pairwise.nil
    (fun _ hk => absurd hk (List.not_mem_nil _)) h

theorem promotions_ascending (segments : List Segment) (detected : List Event) (canon : Canon)
    (promoMap : Option PromoMap) (promotions : List Promotion)
    (hd : detected.Pairwise (fun a b => a.segment_idx ≤ b.segment_idx))
    (h : applyPromotion segments detected canon promoMap = .ok promotions) :
    promotions.Pairwise (fun p q => p.segment_idx ≤ q.segment_idx) := by
  rw [applyPromotion_ok segments detected canon promoMap promotions h]
  have hseg : ∀ k, ∀ p ∈ (effectiveRules canon promoMap).flatMap
      (promotionFor k (eventsOf detected k)), p.segment_idx = k := by
    intro k p hp
    rw [List.mem_flatMap] at hp
    obtain ⟨rule, _, hp⟩ := hp
    exact promotionFor_segment k _ rule p hp
  rw [List.pairwise_flatMap]
  refine ⟨?_, ?_⟩
  · intro k _
    apply List.pairwise_of_forall_mem_list
    intro p hp q hq
    rw [hseg k p hp, hseg k q hq]
  · refine List.Pairwise.imp ?_ (segmentKeys_ascending detected hd)
    intro k1 k2 hk p hp q hq
    rw [hseg k1 p hp, hseg k2 q hq]
    omega

/-- C34: with a matcher whose matches lie inside the scanned segment text, in
the sorted result of `detect_all` the `segment_idx` is non-decreasing (an event
of segment `i` stands before every event of segment `j` whenever `i < j`),
because an event of an earlier segment ends before any event of a later segment
starts; so the keys of `bySeg` in `applyPromotion` are ascending and the
promotions it returns for that list are in ascending segment order. -/
theorem detect_all_segments_ascending (E : RegexEngine) (hE : MatchesInside E) (fuel : Nat)
    (segments : List Segment) (canon : Canon) (detected : List Event)
    (h : detect_all E fuel segments canon = .ok detected) :
    detected.Pairwise (fun a b => a.segment_idx ≤ b.segment_idx)
    ∧ (∀ (m n : Nat) (a b : Event), detected[m]? = some a → detected[n]? = some b →
        a.segment_idx < b.segment_idx → m < n)
    ∧ (∀ a ∈ detected, ∀ b ∈ detected, a.segment_idx < b.segment_idx →
        a.span.stop < b.span.start)
    ∧ (segmentKeys detected).Pairwise (fun a b => a < b)
    ∧ (∀ (promoMap : Option PromoMap) (promotions : List Promotion),
        applyPromotion segments detected canon promoMap = .ok promotions →
          promotions.Pairwise (fun p q => p.segment_idx ≤ q.segment_idx)) := by
  obtain ⟨emitted, hem, hsort⟩ := detect_all_ok E fuel segments canon detected h
  have hin : ∀ e ∈ detected, EventInSegment segments e := by
    intro e he
    rw [hsort] at he
    exact detectScan_inSegment E hE fuel segments canon emitted hem e
      ((arraySort_perm spanCompare emitted).mem_iff.1 he)
  have hsorted : detected.Sorted spanLe := by
    rw [hsort]
    exact arraySort_spanCompare_sorted emitted
  have hpair := sorted_segment_idx segments detected hin hsorted
  refine ⟨hpair, ?_, ?_, segmentKeys_ascending detected hpair, ?_⟩
  · intro m n a b hm hn hab
    by_contra hmn
    obtain ⟨hm1, hm2⟩ := List.getElem?_eq_some_iff.1 hm
    obtain ⟨hn1, hn2⟩ := List.getElem?_eq_some_iff.1 hn
    rcases Nat.lt_or_ge n m with hlt | hge
    · have := List.pairwise_iff_getElem.1 hpair n m hn1 hm1 hlt
      rw [hm2, hn2] at this
      omega
    · have hnm : n = m := by omega
      subst hnm
      rw [hm2] at hn2
      rw [hn2] at hab
      omega
  · intro a ha b hb hab
    exact eventInSegment_apart segments a b (hin a ha) (hin b hb) hab
  · intro promoMap promotions hpro
    exact promotions_ascending segments detected canon promoMap promotions hpair hpro

/-- C34, witness: the literal engine on the segments `ab` and `ba` with a
catalog that promotes `SEM_AB` where `a` and `b` co-occur: the four detected
events are in segment order and the two promotions are those of segment 0 and
segment 1, in that order. -/
theorem detect_all_segments_ascending_witness :
    MatchesInside literalEngine
    ∧ ∃ detected promotions,
        detect_all literalEngine 5 pairSegments pipelineCanon = .ok detected
        ∧ applyPromotion pairSegments detected pipelineCanon none = .ok promotions
        ∧ detected.map (fun e => (e.id, e.segment_idx))
            = [("ATO_A", 0), ("ATO_B", 0), ("ATO_B", 1), ("ATO_A", 1)]
        ∧ promotions.map (fun p => (p.sem_id, p.segment_idx)) = [("SEM_AB", 0), ("SEM_AB", 1)]
        ∧ promotions.Pairwise (fun p q => p.segment_idx ≤ q.segment_idx) :=
  ⟨literalEngine_inside, _, _, rfl, rfl, by decide, by decide,
    (detect_all_segments_ascending literalEngine literalEngine_inside 5 pairSegments
      pipelineCanon _ rfl).2.2.2.2 none _ rfl⟩

/-! ### Evidence of the detected events -/

theorem matchesFrom_mem (E : RegexEngine) (re : E.Regex) (str : String) (fuel lastIndex : Nat)
    (ms : List (Nat × String)) (h : matchesFrom E re str fuel lastIndex = some ms) :
    ∀ m ∈ ms, ∃ li, E.exec re str li = some m := by
  induction fuel generalizing lastIndex ms with
  | zero => simp [matchesFrom] at h
  | succ fuel ih =>
    rw [matchesFrom] at h
    cases hx : E.exec re str lastIndex with
    | none =>
      rw [hx] at h
      injection h with h
      rw [← h]
      intro m hm
      exact absurd hm (List.not_mem_nil _)
    | some r =>
      obtain ⟨index, m0⟩ := r
      rw [hx] at h
      rw [Option.map_eq_some'] at h
      obtain ⟨rest, hrest, hms⟩ := h
      rw [← hms]
      intro m hm
      rcases List.mem_cons.1 hm with hm | hm
      · rw [hm]
        exact ⟨lastIndex, hx⟩
      · exact ih _ _ hrest m hm

theorem entryMatches_mem (E : RegexEngine) (canon : Canon) (fuel : Nat) (seg : Segment)
    (mk : MarkerDef) :
    ∀ m ∈ entryMatches E canon fuel seg mk, ∃ re li, E.exec re seg.text li = some m := by
  intro m hm
  unfold entryMatches at hm
  split at hm
  · split at hm
    · rename_i re _
      cases hms : matchesFrom E re seg.text fuel 0 with
      | none =>
        rw [hms] at hm
        exact absurd hm (List.not_mem_nil _)
      | some ms =>
        rw [hms] at hm
        obtain ⟨li, hli⟩ := matchesFrom_mem E re seg.text fuel 0 ms hms m hm
        exact ⟨re, li, hli⟩
    · exact absurd hm (List.not_mem_nil _)
  · exact absurd hm (List.not_mem_nil _)

/-- Every event of a scan is the event of a match that the engine reported for
the text of the event's segment. -/
theorem scanSpec_mem (E : RegexEngine) (fuel : Nat) (segments : List Segment) (canon : Canon) :
    ∀ e ∈ scanSpec E fuel segments canon, ∃ i seg mk re li index m0,
      segments[i]? = some seg ∧ E.exec re seg.text li = some (index, m0)
      ∧ e = matchEvent mk seg i (segmentOffset segments i) (index, m0) := by
  intro e he
  unfold scanSpec at he
  rw [List.mem_flatMap] at he
  obtain ⟨p, hp, he⟩ := he
  rw [List.mem_flatMap] at he
  obtain ⟨mk, _, he⟩ := he
  rw [List.mem_map] at he
  obtain ⟨m, hm, rfl⟩ := he
  obtain ⟨re, li, hli⟩ := entryMatches_mem E canon fuel p.2 mk m hm
  exact ⟨p.1, p.2, mk, re, li, m.1, m.2, List.mem_enum_iff_getElem?.1 hp, hli, rfl⟩

/-- The text of segment `i` stands in the global text at the segment's offset. -/
theorem globalText_data (segments : List Segment) (i : Nat) (seg : Segment)
    (h : segments[i]? = some seg) :
    ∃ pre post, (globalText segments).data = pre ++ seg.text.data ++ post
      ∧ pre.length = segmentOffset segments i := by
  induction segments generalizing i with
  | nil => simp at h
  | cons s rest ih =>
    cases rest with
    | nil =>
      cases i with
      | zero =>
        simp only [List.getElem?_cons_zero, Option.some.injEq] at h
        subst h
        exact ⟨[], [], by simp [globalText, joinWith], rfl⟩
      | succ i => simp at h
    | cons t rest =>
      have hdata : (globalText (s :: t :: rest)).data
          = s.text.data ++ '\n' :: (globalText (t :: rest)).data := by
        simp only [globalText, List.map_cons, joinWith, String.data_append]
        simp
      cases i with
      | zero =>
        simp only [List.getElem?_cons_zero, Option.some.injEq] at h
        subst h
        exact ⟨[], '\n' :: (globalText (t :: rest)).data, by rw [hdata]; simp, rfl⟩
      | succ i =>
        have h2 : (t :: rest)[i]? = some seg := by simpa using h
        obtain ⟨pre, post, hpre, hlen⟩ := ih i h2
        refine ⟨s.text.data ++ '\n' :: pre, post, ?_, ?_⟩
        · rw [hdata, hpre]
          simp
        · have hs : s.text.data.length = s.text.length := rfl
          simp only [List.length_append, List.length_cons, hlen, hs, segmentOffset,
            List.take_succ_cons, List.map_cons, List.sum_cons]
          omega

/-- A slice of the global text inside a segment is the slice of the segment's
text. -/
theorem jsSlice_globalText (segments : List Segment) (i : Nat) (seg : Segment)
    (h : segments[i]? = some seg) (a b : Nat) (hb : b ≤ seg.text.length) :
    jsSlice (globalText segments) (segmentOffset segments i + a) (segmentOffset segments i + b)
      = jsSlice seg.text a b := by
  obtain ⟨pre, post, hdata, hlen⟩ := globalText_data segments i seg h
  unfold jsSlice
  congr 1
  have hsub : segmentOffset segments i + b - (segmentOffset segments i + a) = b - a := by omega
  have hs : seg.text.data.length = seg.text.length := rfl
  rw [hdata, hsub, ← hlen, List.append_assoc, List.drop_append]
  by_cases hab : a ≤ seg.text.data.length
  · rw [List.drop_append_of_le_length hab, List.take_append_of_le_length]
    rw [List.length_drop]
    omega
  · have hba : b - a = 0 := by omega
    rw [hba, List.take_zero, List.take_zero]

/-- C33: with a matcher that reports, for each match, an index inside the
scanned text and the text's substring at that index as `m[0]`, every event `e`
returned by `detect_all` has `e.evidence` equal to the substring of the global
text (the segment texts joined by a single newline) from `e.span.start` to
`e.span.end`, and the span lies inside the range `[offset_i, offset_i +
length(text_i)]` of the segment `i = e.segment_idx`, where `offset_i` is the sum
over `j < i` of `length(text_j) + 1`. -/
theorem evidence_is_global_substring (E : RegexEngine) (hE : MatchesSubstring E) (fuel : Nat)
    (segments : List Segment) (canon : Canon) (detected : List Event)
    (h : detect_all E fuel segments canon = .ok detected) :
    (∀ e ∈ detected,
        e.evidence = jsSlice (globalText segments) e.span.start e.span.stop
        ∧ ∃ seg, segments[e.segment_idx]? = some seg
            ∧ segmentOffset segments e.segment_idx ≤ e.span.start
            ∧ e.span.start ≤ e.span.stop
            ∧ e.span.stop ≤ segmentOffset segments e.segment_idx + seg.text.length)
    ∧ globalText segments = joinWith "\n" (segments.map (fun s => s.text))
    ∧ (buildGlobalText segments).text = globalText segments
    ∧ (∀ i, segmentOffset segments i
        = ((segments.take i).map (fun s => s.text.length + 1)).sum) := by
  refine ⟨?_, rfl, rfl, fun _ => rfl⟩
  obtain ⟨emitted, hem, hsort⟩ := detect_all_ok E fuel segments canon detected h
  intro e he
  rw [hsort] at he
  have he2 : e ∈ emitted := (arraySort_perm spanCompare emitted).mem_iff.1 he
  rw [detectScan_eq_scanSpec E fuel segments canon emitted hem] at he2
  obtain ⟨i, seg, mk, re, li, index, m0, hseg, hexec, rfl⟩ :=
    scanSpec_mem E fuel segments canon e he2
  obtain ⟨hin, hsub⟩ := hE re seg.text li index m0 hexec
  refine ⟨?_, seg, hseg, ?_, ?_, ?_⟩
  · show m0 = jsSlice (globalText segments) (segmentOffset segments i + index)
      (segmentOffset segments i + index + m0.length)
    rw [Nat.add_assoc, jsSlice_globalText segments i seg hseg index (index + m0.length) hin]
    exact hsub
  · show segmentOffset segments i ≤ segmentOffset segments i + index
    omega
  · show segmentOffset segments i + index ≤ segmentOffset segments i + index + m0.length
    omega
  · show segmentOffset segments i + index + m0.length
      ≤ segmentOffset segments i + seg.text.length
    omega

theorem searchFrom_starts (pat : List Char) (text : List Char) (pos i : Nat)
    (h : searchFrom pat text pos = some i) : pat <+: text.drop (i - pos) := by
  induction text generalizing pos with
  | nil =>
    simp only [searchFrom] at h
    split at h
    · rename_i hp
      rw [hp]
      exact List.nil_prefix
    · exact absurd h (by simp)
  | cons c cs ih =>
    rw [searchFrom] at h
    split at h
    · rename_i hp
      injection h with h
      subst h
      rw [Nat.sub_self, List.drop_zero]
      exact List.isPrefixOf_iff_prefix.1 hp
    · have hb := searchFrom_bounds pat cs (pos + 1) i h
      have hi : i - pos = (i - (pos + 1)) + 1 := by omega
      rw [hi, List.drop_succ_cons]
      exact ih _ h

/-- The literal engine reports the matched substring. -/
theorem literalEngine_substring : MatchesSubstring literalEngine := by
  intro re str lastIndex index m0 h
  obtain ⟨h1, h2, h3⟩ := literalEngine_exec re str lastIndex index m0 h
  have hlen : m0.length = re.length := by rw [h3]; rfl
  refine ⟨by omega, ?_⟩
  simp only [literalEngine] at h
  split at h
  · exact absurd h (by simp)
  · rw [Option.map_eq_some'] at h
    obtain ⟨i, hi, hpair⟩ := h
    injection hpair with hidx _
    subst hidx
    have hp := searchFrom_starts re (str.data.drop lastIndex) lastIndex i hi
    rw [List.drop_drop] at hp
    have hsum : lastIndex + (i - lastIndex) = i := by omega
    rw [hsum] at hp
    have htake := List.prefix_iff_eq_take.1 hp
    unfold jsSlice
    rw [h3]
    congr 1
    have hsub : i + (String.mk re).length - i = re.length := by
      have : (String.mk re).length = re.length := rfl
      omega
    rw [hsub]
    exact htake

/-- C33, witness: the literal engine on the segments `ab` and `b`: the three
events carry the substrings of the global text `"ab\nb"` at their spans. -/
theorem evidence_is_global_substring_witness :
    MatchesSubstring literalEngine
    ∧ ∃ detected, detect_all literalEngine 5 sampleSegments sampleCanon = .ok detected
        ∧ globalText sampleSegments = "ab\nb"
        ∧ detected.map (fun e => (e.evidence, e.span.start, e.span.stop, e.segment_idx))
            = [("a", 0, 1, 0), ("b", 1, 2, 0), ("b", 3, 4, 1)]
        ∧ ∀ e ∈ detected,
            e.evidence = jsSlice (globalText sampleSegments) e.span.start e.span.stop
            ∧ ∃ seg, sampleSegments[e.segment_idx]? = some seg
                ∧ segmentOffset sampleSegments e.segment_idx ≤ e.span.start
                ∧ e.span.start ≤ e.span.stop
                ∧ e.span.stop ≤ segmentOffset sampleSegments e.segment_idx + seg.text.length :=
  ⟨literalEngine_substring, _, rfl, by decide, by decide,
    (evidence_is_global_substring literalEngine literalEngine_substring 5 sampleSegments
      sampleCanon _ rfl).1⟩

end Carl
